import Mathlib

/-!
# ParClusterers: affinity round engine

A shallow embedding of `clusterers/affinity/parallel-affinity-internal.cc`.

Conventions of the embedding:

* `gbbs::uintE` is a natural number below `2 ^ 32`; arithmetic on it is written with an
  explicit `% 2 ^ 32` wherever the C++ code can wrap around. `UINT_E_MAX` is the sentinel.
* a stored `float` edge weight is given by its exact rational value. Two layers compute
  with the weights. The definitions outside the namespace `F32` (`scale_func`,
  `CompressGraph`, `ComputeFinishedClusterStats`, ...) compute with the rationals, without
  rounding; they serve the statements that turn on comparisons of stored weights, on labels,
  on node weights and on the shape of a result. The definitions of the namespace `F32`
  (`F32.scale_func`,
  `F32.CompressGraph`, `F32.ComputeFinishedClusterStats`, ...) follow the source in
  binary32 and binary64 arithmetic: a `FloatVal` is a finite rational, an infinity or a
  NaN, `round32` and `round64` round to nearest with ties to even, every operation rounds
  its exact result, and a reduction may take every order that its contract admits. The two
  zeros are one value.
* a graph is its list of adjacency lists; `G.out_neighbors i` is the sequence
  `G.get_vertex(i).out_neighbors()` in storage order.
* a `parallel_for` whose iterations write disjoint slots is a `List.map` over the index range.
-/

namespace ParClusterers

/-! ## Data model -/

/-- The sentinel `UINT_E_MAX` of `gbbs::uintE`: the largest 32-bit unsigned value. -/
def UINT_E_MAX : Nat := 4294967295

/-- The modulus of `gbbs::uintE` arithmetic. -/
def UINT_E_MOD : Nat := 4294967296

/-- A weighted graph `gbbs::symmetric_ptr_graph<gbbs::symmetric_vertex, float>`: for each
vertex the stored sequence of `(neighbor, weight)` pairs. -/
structure Graph where
  adj : List (List (Nat × ℚ))
deriving DecidableEq, Repr

/-- The field `G.n`: the number of vertices. -/
def Graph.n (G : Graph) : Nat := G.adj.length

/-- The call `G.get_vertex(i).out_neighbors()`: the incident edges of `i` in storage order. -/
def Graph.out_neighbors (G : Graph) (i : Nat) : List (Nat × ℚ) := G.adj.getD i []

/-- The stored edges of the graph as triples `(u, v, weight)`. -/
def Graph.edges (G : Graph) : List (Nat × Nat × ℚ) :=
  (List.range G.n).flatMap (fun u => (G.out_neighbors u).map (fun e => (u, e.1, e.2)))

/-- Every neighbour id is a vertex of the graph. -/
def Graph.WellFormed (G : Graph) : Prop :=
  ∀ e ∈ G.edges, e.2.1 < G.n

/-- The graph has no self-loop. -/
def Graph.NoSelfLoops (G : Graph) : Prop :=
  ∀ e ∈ G.edges, e.2.1 ≠ e.1

/-- The edge `(u, v, w)` read from the other endpoint: `(v, u, w)`. -/
def swap_edge (e : Nat × Nat × ℚ) : Nat × Nat × ℚ := (e.2.1, e.1, e.2.2)

/-- The graph is symmetric: `(u, v, w)` is stored as often as `(v, u, w)`, that is, reading
every stored edge from its other endpoint rearranges the stored edges. -/
def Graph.Symmetric (G : Graph) : Prop :=
  (G.edges.map swap_edge).Perm G.edges

/-- No vertex stores two edges to the same neighbour. -/
def Graph.NoDuplicateNeighbors (G : Graph) : Prop :=
  ∀ u ∈ List.range G.n, ((G.out_neighbors u).map Prod.fst).Nodup

instance Graph.instDecidableWellFormed (G : Graph) : Decidable G.WellFormed := by
  unfold Graph.WellFormed; infer_instance

instance Graph.instDecidableNoSelfLoops (G : Graph) : Decidable G.NoSelfLoops := by
  unfold Graph.NoSelfLoops; infer_instance

instance Graph.instDecidableSymmetric (G : Graph) : Decidable G.Symmetric := by
  unfold Graph.Symmetric; infer_instance

instance Graph.instDecidableNoDuplicateNeighbors (G : Graph) :
    Decidable G.NoDuplicateNeighbors := by
  unfold Graph.NoDuplicateNeighbors; infer_instance

/-! ## NearestNeighborLinkage -/

/-- The lambda `find_max_neighbor_func` of `NearestNeighborLinkage`, as a step on the pair
`(max_weight, max_neighbor)`. The test `std::tie(weight, v) > std::tie(max_weight, max_neighbor)`
is the lexicographic comparison of tuples. -/
def find_max_neighbor_func (weight_threshold : ℚ) (undefined_neighbor : Nat)
    (st : ℚ × Nat) (e : Nat × ℚ) : ℚ × Nat :=
  if (st.1 < e.2 ∨ (¬ e.2 < st.1 ∧ st.2 < e.1)) ∨
      (e.2 = weight_threshold ∧ st.2 = undefined_neighbor) then (e.2, e.1)
  else st

/-- The sequential `map` of `find_max_neighbor_func` over a sequence of incident edges,
started at `(weight_threshold, undefined_neighbor)`. -/
def scan_neighbors (weight_threshold : ℚ) (undefined_neighbor : Nat)
    (es : List (Nat × ℚ)) : ℚ × Nat :=
  es.foldl (find_max_neighbor_func weight_threshold undefined_neighbor)
    (weight_threshold, undefined_neighbor)

/-- The value of `max_neighbor` after the scan of vertex `i`; `G.n` is `undefined_neighbor`. -/
def max_neighbor (G : Graph) (weight_threshold : ℚ) (i : Nat) : Nat :=
  (scan_neighbors weight_threshold G.n (G.out_neighbors i)).2

/-- The array `marked_neighbors` of length `2 * n`: slot `i` holds `(i, max_neighbor)` and
slot `i + n` holds `(max_neighbor, i)`. -/
def marked_neighbors (G : Graph) (weight_threshold : ℚ) : List (Nat × Nat) :=
  (List.range G.n).map (fun i => (i, max_neighbor G weight_threshold i)) ++
  (List.range G.n).map (fun i => (max_neighbor G weight_threshold i, i))

/-- The array `filtered_edges`: the marked pairs without an undefined endpoint. -/
def filtered_edges (G : Graph) (weight_threshold : ℚ) : List (Nat × Nat) :=
  (marked_neighbors G weight_threshold).filter
    (fun x => decide (x.1 ≠ G.n) && decide (x.2 ≠ G.n))

/-- The error values of `absl::Status` that the affinity engine produces. -/
inductive Status where
  | Unimplemented (message : String)
deriving DecidableEq, Repr

/-- Equality of results is decidable. -/
instance instDecidableEqExcept {ε α : Type} [DecidableEq ε] [DecidableEq α] :
    DecidableEq (Except ε α) := fun a b =>
  match a, b with
  | .ok x, .ok y =>
    if h : x = y then isTrue (by rw [h]) else isFalse (fun h' => h (Except.ok.inj h'))
  | .error x, .error y =>
    if h : x = y then isTrue (by rw [h]) else isFalse (fun h' => h (Except.error.inj h'))
  | .ok _, .error _ => isFalse (fun h' => Except.noConfusion h')
  | .error _, .ok _ => isFalse (fun h' => Except.noConfusion h')

/-- Modelled from the spec: `parallel::ParallelSampleSort` (declared in
`parcluster/api/parallel/parallel-sequence-ops.h`). The spec fixes only that the output is a
rearrangement of the input ordered by the comparator `less`; stability is unspecified. -/
def IsSampleSort {α : Type} (less : α → α → Bool) (sort : List α → List α) : Prop :=
  ∀ l, (sort l).Perm l ∧ (sort l).Pairwise (fun a b => less b a = false)

/-- The contract of `gbbs::workefficient_cc::CC` used by the engine: one label per vertex,
and the two endpoints of every edge carry the same label. -/
def IsComponentLabeling (n : Nat) (edges : List (Nat × Nat)) (labels : List Nat) : Prop :=
  labels.length = n ∧ ∀ e ∈ edges, labels[e.1]? = labels[e.2]?

/-- The comparator of the sort in `NearestNeighborLinkage`: by source endpoint. -/
def source_less (a b : Nat × Nat) : Bool := decide (a.1 < b.1)

/-- The function `NearestNeighborLinkage`. The graph `G_cc` built from `cc_offsets` and
`cc_edges` is given to the connected-components routine `cc` as its vertex count and its
edge sequence ordered by source. -/
def NearestNeighborLinkage (cc : Nat → List (Nat × Nat) → List Nat)
    (sort : List (Nat × Nat) → List (Nat × Nat)) (G : Graph) (weight_threshold : ℚ) :
    Except Status (List Nat) :=
  if (filtered_edges G weight_threshold).length = 0 then .ok (List.range G.n)
  else .ok (cc G.n (sort (filtered_edges G weight_threshold)))

/-- A sequential sort by source endpoint, an instance of `IsSampleSort source_less`. -/
def sortBySource (l : List (Nat × Nat)) : List (Nat × Nat) :=
  l.insertionSort (fun a b => a.1 ≤ b.1)

/-- Rename the label of `e.2` into the label of `e.1` everywhere in the labeling `L`. -/
def relabelEdge (L : List Nat) (e : Nat × Nat) : List Nat :=
  L.map (fun l => if l = L.getD e.2 0 then L.getD e.1 0 else l)

/-- A sequential connected-components routine, an instance of the contract
`IsComponentLabeling`: start from the identity labeling and, for each edge `(a, b)` in turn,
rename the label of `b` into the label of `a` everywhere. -/
def sequentialCC (n : Nat) (edges : List (Nat × Nat)) : List Nat :=
  edges.foldl relabelEdge (List.range n)

/-! ## CompressGraph -/

/-- The enumeration `AffinityClustererConfig::EdgeAggregationFunction`. -/
inductive EdgeAggregation where
  | MAX | SUM | DEFAULT_AVERAGE | CUT_SPARSITY | PERCENTILE
deriving DecidableEq, Repr

/-- The combiner lambda given to `parallel::Reduce` for the number of compressed vertices:
the larger of two labels, where `UINT_E_MAX` stands for no label. -/
def max_label_combiner (reduce a : Nat) : Nat :=
  if reduce = UINT_E_MAX then a else (if a = UINT_E_MAX then reduce else max reduce a)

/-- Modelled from the spec: the shapes in which `parallel::Reduce` (declared in
`parcluster/api/parallel/parallel-sequence-ops.h`) may combine a sequence: any binary tree
over the elements, in which the identity may be combined in at any place. -/
inductive ReduceTree (α : Type) where
  | identity : ReduceTree α
  | leaf : α → ReduceTree α
  | node : ReduceTree α → ReduceTree α → ReduceTree α

/-- The elements combined by a reduction tree, from left to right. -/
def ReduceTree.leaves {α : Type} : ReduceTree α → List α
  | .identity => []
  | .leaf a => [a]
  | .node l r => l.leaves ++ r.leaves

/-- The value computed by a reduction tree. -/
def ReduceTree.eval {α : Type} (f : α → α → α) (identity : α) : ReduceTree α → α
  | .identity => identity
  | .leaf a => a
  | .node l r => f (l.eval f identity) (r.eval f identity)

/-- Modelled from the spec: `parallel::Reduce` (declared in
`parcluster/api/parallel/parallel-sequence-ops.h`), as the left-to-right reduction started at
the identity. The empty sequence reduces to the identity. For the combiners of this file
every `ReduceTree` over the same elements computes the same values as this reduction. -/
def Reduce {α : Type} (f : α → α → α) (identity : α) (a : List α) : α :=
  a.foldl f identity

/-- The value `num_compressed_vertices`, computed alike in `CompressGraph` and in
`FindFinishedClusters`: one plus the reduced label, in 32-bit unsigned arithmetic. -/
def num_compressed_vertices (cluster_ids : List Nat) : Nat :=
  (1 + Reduce max_label_combiner UINT_E_MAX cluster_ids) % UINT_E_MOD

/-- The summand `original_node_weights.empty() ? 1 : original_node_weights[i]`. -/
def node_weight_of (original_node_weights : List Nat) (i : Nat) : Nat :=
  if original_node_weights.isEmpty then 1 else original_node_weights.getD i 0

/-- One iteration of the loop that accumulates `node_weights`. -/
def add_node_weight (original_node_weights cluster_ids : List Nat)
    (node_weights : List Nat) (i : Nat) : List Nat :=
  if cluster_ids.getD i UINT_E_MAX ≠ UINT_E_MAX then
    node_weights.set (cluster_ids.getD i UINT_E_MAX)
      ((node_weights.getD (cluster_ids.getD i UINT_E_MAX) 0 +
        node_weight_of original_node_weights i) % UINT_E_MOD)
  else node_weights

/-- The vector `node_weights` after the loop over the `n` vertices. -/
def compressed_node_weights (n : Nat) (original_node_weights cluster_ids : List Nat) :
    List Nat :=
  (List.range n).foldl (add_node_weight original_node_weights cluster_ids)
    (List.replicate (num_compressed_vertices cluster_ids) 0)

/-- The function `edge_aggregation_func` chosen by the switch. -/
def edge_aggregation_func : EdgeAggregation → ℚ → ℚ → ℚ
  | .MAX => fun w1 w2 => max w1 w2
  | _ => fun w1 w2 => w1 + w2

/-- The function `scale_func` chosen by the switch, applied to `(u, v, weight)`. The
scaling factor of `DEFAULT_AVERAGE` is a product of two `gbbs::uintE`. -/
def scale_func (edge_aggregation : EdgeAggregation) (original_node_weights : List Nat)
    (v : Nat × Nat × ℚ) : ℚ :=
  match edge_aggregation with
  | .DEFAULT_AVERAGE =>
    if original_node_weights.isEmpty then v.2.2
    else v.2.2 * (((original_node_weights.getD v.1 0 *
      original_node_weights.getD v.2.1 0) % UINT_E_MOD : Nat) : ℚ)
  | .CUT_SPARSITY =>
    if original_node_weights.isEmpty then v.2.2
    else v.2.2 * ((min (original_node_weights.getD v.1 0)
      (original_node_weights.getD v.2.1 0) : Nat) : ℚ)
  | _ => v.2.2

/-- Modelled from the spec: the contributions retrieved by `ComputeInterClusterEdgesSort`
(declared in `parcluster/api/parallel/parallel-graph-utils.h`). Each original edge
`(u, v, w)` whose endpoints both have a label and whose labels pass `is_valid_func`
contributes `scale_func (u, v, w)` to the pair of its labels. -/
def RetrieveInterClusterEdges (G : Graph) (cluster_ids : List Nat)
    (is_valid_func : Nat → Nat → Bool) (scale_func : Nat × Nat × ℚ → ℚ) :
    List (Nat × Nat × ℚ) :=
  G.edges.filterMap (fun e =>
    if cluster_ids.getD e.1 UINT_E_MAX ≠ UINT_E_MAX ∧
        cluster_ids.getD e.2.1 UINT_E_MAX ≠ UINT_E_MAX ∧
        is_valid_func (cluster_ids.getD e.1 UINT_E_MAX) (cluster_ids.getD e.2.1 UINT_E_MAX)
    then some (cluster_ids.getD e.1 UINT_E_MAX, cluster_ids.getD e.2.1 UINT_E_MAX, scale_func e)
    else none)

/-- The contributions to one pair `(c1, c2)` combined by the aggregation function. -/
def aggregate_weights (f : ℚ → ℚ → ℚ) : List ℚ → ℚ
  | [] => 0
  | w :: ws => ws.foldl f w

/-- The weights contributed to the pair `(c1, c2)`. -/
def contributions_to (contributions : List (Nat × Nat × ℚ)) (c1 c2 : Nat) : List ℚ :=
  (contributions.filter (fun e => decide (e.1 = c1) && decide (e.2.1 = c2))).map
    (fun e => e.2.2)

/-- Modelled from the spec: `ComputeInterClusterEdgesSort` (declared in
`parcluster/api/parallel/parallel-graph-utils.h`). The contributions that map to the same
pair `(c1, c2)` are aggregated into one edge; the edges come ordered by `(c1, c2)`, which
stands for the returned offsets and edge array. -/
def ComputeInterClusterEdgesSort (G : Graph) (cluster_ids : List Nat)
    (num_compressed_vertices : Nat) (aggregate_func : ℚ → ℚ → ℚ)
    (is_valid_func : Nat → Nat → Bool) (scale_func : Nat × Nat × ℚ → ℚ) :
    List (Nat × Nat × ℚ) :=
  (List.range num_compressed_vertices).flatMap (fun c1 =>
    (List.range num_compressed_vertices).filterMap (fun c2 =>
      if (contributions_to
          (RetrieveInterClusterEdges G cluster_ids is_valid_func scale_func) c1 c2).isEmpty
      then none
      else some (c1, c2, aggregate_weights aggregate_func
        (contributions_to
          (RetrieveInterClusterEdges G cluster_ids is_valid_func scale_func) c1 c2))))

/-- Modelled from the spec: `MakeGbbsGraph` (declared in
`parcluster/api/parallel/parallel-graph-utils.h`): the graph with `n` vertices whose vertex
`c` stores the edges of source `c`, in the order of the edge array. -/
def MakeGbbsGraph (n : Nat) (edges : List (Nat × Nat × ℚ)) : Graph :=
  ⟨(List.range n).map (fun c =>
    (edges.filter (fun e => decide (e.1 = c))).map (fun e => (e.2.1, e.2.2)))⟩

/-- The value `scaling_factor` computed in the loop that scales the edge weights, for the
edge from `i` to `c`. The scaling factor of `DEFAULT_AVERAGE` is a product of two
`gbbs::uintE`; it stays `0` for the other aggregations. -/
def scaling_factor (edge_aggregation : EdgeAggregation) (node_weights : List Nat)
    (i c : Nat) : ℚ :=
  match edge_aggregation with
  | .DEFAULT_AVERAGE =>
    (((node_weights.getD i 0 * node_weights.getD c 0) % UINT_E_MOD : Nat) : ℚ)
  | .CUT_SPARSITY => ((min (node_weights.getD i 0) (node_weights.getD c 0) : Nat) : ℚ)
  | _ => 0

/-- The body of the loop that scales the edge weights: the edge `(i, c, w)` becomes
`(i, c, w / scaling_factor)`. -/
def scale_edge (edge_aggregation : EdgeAggregation) (node_weights : List Nat)
    (e : Nat × Nat × ℚ) : Nat × Nat × ℚ :=
  (e.1, e.2.1, e.2.2 / scaling_factor edge_aggregation node_weights e.1 e.2.1)

/-- The function `CompressGraph`; the result `GraphWithWeights` is the pair of the compressed
graph and its node weights. -/
def CompressGraph (original_graph : Graph) (original_node_weights cluster_ids : List Nat)
    (edge_aggregation : EdgeAggregation) : Except Status (Graph × List Nat) :=
  if edge_aggregation = .PERCENTILE then
    .error (.Unimplemented
      "PERCENTILE aggregation for parallel affinity clusterer is unimplemented.")
  else
    if edge_aggregation = .SUM ∨ edge_aggregation = .MAX then
      .ok (MakeGbbsGraph (num_compressed_vertices cluster_ids)
            (ComputeInterClusterEdgesSort original_graph cluster_ids
              (num_compressed_vertices cluster_ids) (edge_aggregation_func edge_aggregation)
              (fun a b => decide (a ≠ b)) (scale_func edge_aggregation original_node_weights)),
          compressed_node_weights original_graph.n original_node_weights cluster_ids)
    else
      .ok (MakeGbbsGraph (num_compressed_vertices cluster_ids)
            ((ComputeInterClusterEdgesSort original_graph cluster_ids
              (num_compressed_vertices cluster_ids) (edge_aggregation_func edge_aggregation)
              (fun a b => decide (a ≠ b))
              (scale_func edge_aggregation original_node_weights)).map
              (scale_edge edge_aggregation
                (compressed_node_weights original_graph.n original_node_weights cluster_ids))),
          compressed_node_weights original_graph.n original_node_weights cluster_ids)

/-- The original edges `(u, v, w)` with `L[u] = c1` and `L[v] = c2`. -/
def Graph.edges_between (G : Graph) (cluster_ids : List Nat) (c1 c2 : Nat) :
    List (Nat × Nat × ℚ) :=
  G.edges.filter (fun e =>
    decide (cluster_ids[e.1]? = some c1) && decide (cluster_ids[e.2.1]? = some c2))

/-- The sum that the spec gives for the node weight of the compressed vertex `c`: the weights
of the vertices `i < n` labelled `c`, each vertex weighing `1` when no weights are given. -/
def cluster_weight (n : Nat) (original_node_weights cluster_ids : List Nat) (c : Nat) : Nat :=
  (((List.range n).filter (fun i => decide (cluster_ids[i]? = some c))).map
    (node_weight_of original_node_weights)).sum

/-- The total weight of the vertices `i < n` that have a label. -/
def labelled_weight (n : Nat) (original_node_weights cluster_ids : List Nat) : Nat :=
  (((List.range n).filter
    (fun i => decide (cluster_ids[i]? ≠ none ∧ cluster_ids[i]? ≠ some UINT_E_MAX))).map
    (node_weight_of original_node_weights)).sum

/-! ## ComputeFinishedClusterStats -/

/-- The struct `PerVertexClusterStats`. -/
structure PerVertexClusterStats where
  cluster_id : Nat
  volume : ℚ
  intra_cluster_weight : ℚ
  inter_cluster_weight : ℚ
deriving DecidableEq, Repr

/-- The struct `internal::ClusterStats`, built by `ClusterStats(density, conductance)`. -/
structure ClusterStats where
  density : ℚ
  conductance : ℚ
deriving DecidableEq, Repr

/-- The statistics that the first `parallel_for` of `ComputeFinishedClusterStats` stores
for vertex `i`; `out_neighbors().reduce` with `addm` adds the mapped weights. -/
def per_vertex_cluster_stats (G : Graph) (cluster_ids : List Nat) (i : Nat) :
    PerVertexClusterStats :=
  if cluster_ids.getD i UINT_E_MAX = UINT_E_MAX then
    ⟨cluster_ids.getD i UINT_E_MAX, ((G.out_neighbors i).map (fun e => e.2)).sum, 0, 0⟩
  else
    ⟨cluster_ids.getD i UINT_E_MAX, ((G.out_neighbors i).map (fun e => e.2)).sum,
      ((G.out_neighbors i).map (fun e =>
        if cluster_ids.getD i UINT_E_MAX = cluster_ids.getD e.1 UINT_E_MAX ∧ e.1 ≤ i then e.2
        else 0)).sum,
      ((G.out_neighbors i).map (fun e =>
        if cluster_ids.getD i UINT_E_MAX ≠ cluster_ids.getD e.1 UINT_E_MAX then e.2
        else 0)).sum⟩

/-- The vector `cluster_stats` after the first `parallel_for`. -/
def cluster_stats (G : Graph) (cluster_ids : List Nat) : List PerVertexClusterStats :=
  (List.range G.n).map (per_vertex_cluster_stats G cluster_ids)

/-- The combiner of the reduction that computes the total graph volume. -/
def volume_combiner (a b : PerVertexClusterStats) : PerVertexClusterStats :=
  ⟨0, a.volume + b.volume, 0, 0⟩

/-- The combiner of the reduction over the statistics of one cluster. -/
def stats_combiner (a b : PerVertexClusterStats) : PerVertexClusterStats :=
  ⟨0, a.volume + b.volume, a.intra_cluster_weight + b.intra_cluster_weight,
    a.inter_cluster_weight + b.inter_cluster_weight⟩

/-- The comparator of the sort in `ComputeFinishedClusterStats`: by cluster id. -/
def cluster_id_less (a b : PerVertexClusterStats) : Bool :=
  decide (a.cluster_id < b.cluster_id)

/-- Modelled from the spec: `parallel::GetBoundaryIndices` (declared in
`parcluster/api/parallel/parallel-sequence-ops.h`): the indices `i < n` with `i = 0` or
`eq(i, i - 1)` false, in increasing order, followed by `n`. -/
def GetBoundaryIndices (n : Nat) (eq : Nat → Nat → Bool) : List Nat :=
  (List.range n).filter (fun i => decide (i = 0) || !(eq i (i - 1))) ++ [n]

/-- The statistics of one cluster computed from its size `cluster_size`, the reduced
statistics `stats_sum` of its vertices and the total graph volume: the density, and the
conductance stored under the name `inter_cluster_weight`. -/
def finished_cluster_stats (cluster_size : Nat) (stats_sum : PerVertexClusterStats)
    (graph_volume : ℚ) : ClusterStats :=
  ⟨if 2 ≤ cluster_size then
      stats_sum.intra_cluster_weight /
        ((cluster_size : ℚ) * ((cluster_size - 1 : Nat) : ℚ) / 2)
    else 0,
   if min stats_sum.volume (graph_volume - stats_sum.volume) < 1 / 1000000 then 1
    else stats_sum.inter_cluster_weight /
      min stats_sum.volume (graph_volume - stats_sum.volume)⟩

/-- The body of the second `parallel_for` of `ComputeFinishedClusterStats` for the run `i`
of the sorted statistics, from `start_id_index` to `end_id_index`; the runs write different
slots of `aggregate_cluster_stats`. -/
def aggregate_run (cluster_stats_sort : List PerVertexClusterStats)
    (filtered_mark_ids : List Nat) (graph_volume : ℚ)
    (aggregate_cluster_stats : List ClusterStats) (i : Nat) : List ClusterStats :=
  if (cluster_stats_sort.getD (filtered_mark_ids.getD i 0) ⟨0, 0, 0, 0⟩).cluster_id ≠
      UINT_E_MAX then
    aggregate_cluster_stats.set
      (cluster_stats_sort.getD (filtered_mark_ids.getD i 0) ⟨0, 0, 0, 0⟩).cluster_id
      (finished_cluster_stats
        (filtered_mark_ids.getD (i + 1) 0 - filtered_mark_ids.getD i 0)
        (Reduce stats_combiner ⟨0, 0, 0, 0⟩
          ((cluster_stats_sort.drop (filtered_mark_ids.getD i 0)).take
            (filtered_mark_ids.getD (i + 1) 0 - filtered_mark_ids.getD i 0)))
        graph_volume)
  else aggregate_cluster_stats

/-- The function `internal::ComputeFinishedClusterStats`, for the sample sort `sort`. -/
def ComputeFinishedClusterStats (sort : List PerVertexClusterStats → List PerVertexClusterStats)
    (G : Graph) (cluster_ids : List Nat) (num_compressed_vertices : Nat) :
    List ClusterStats :=
  (List.range
    ((GetBoundaryIndices G.n (fun i j =>
      decide (((sort (cluster_stats G cluster_ids)).getD i ⟨0, 0, 0, 0⟩).cluster_id =
        ((sort (cluster_stats G cluster_ids)).getD j ⟨0, 0, 0, 0⟩).cluster_id))).length - 1)).foldl
    (aggregate_run (sort (cluster_stats G cluster_ids))
      (GetBoundaryIndices G.n (fun i j =>
        decide (((sort (cluster_stats G cluster_ids)).getD i ⟨0, 0, 0, 0⟩).cluster_id =
          ((sort (cluster_stats G cluster_ids)).getD j ⟨0, 0, 0, 0⟩).cluster_id)))
      (Reduce volume_combiner ⟨0, 0, 0, 0⟩ (cluster_stats G cluster_ids)).volume)
    (List.replicate num_compressed_vertices ⟨0, 0⟩)

/-- A sequential sort by cluster id, an instance of `IsSampleSort cluster_id_less`. -/
def sortByClusterId (l : List PerVertexClusterStats) : List PerVertexClusterStats :=
  l.insertionSort (fun a b => a.cluster_id ≤ b.cluster_id)

/-- The number of vertices labelled `c`. -/
def cluster_size (G : Graph) (cluster_ids : List Nat) (c : Nat) : Nat :=
  ((List.range G.n).filter (fun i => decide (cluster_ids[i]? = some c))).length

/-- The weighted degree sum of the vertices labelled `c`: `volume(c)`. -/
def cluster_volume (G : Graph) (cluster_ids : List Nat) (c : Nat) : ℚ :=
  ((G.edges.filter (fun e => decide (cluster_ids[e.1]? = some c))).map (fun e => e.2.2)).sum

/-- The weight of the stored edges `(u, v, w)` with both endpoints labelled `c` and `v ≤ u`:
`intra(c)`. -/
def intra_weight (G : Graph) (cluster_ids : List Nat) (c : Nat) : ℚ :=
  ((G.edges.filter (fun e => decide (cluster_ids[e.1]? = some c) &&
    (decide (cluster_ids[e.2.1]? = some c) && decide (e.2.1 ≤ e.1)))).map (fun e => e.2.2)).sum

/-- The weight of the stored edges `(u, v, w)` from a vertex labelled `c` to a vertex that
is not labelled `c`: `inter(c)`. -/
def inter_weight (G : Graph) (cluster_ids : List Nat) (c : Nat) : ℚ :=
  ((G.edges.filter (fun e => decide (cluster_ids[e.1]? = some c) &&
    !decide (cluster_ids[e.2.1]? = some c))).map (fun e => e.2.2)).sum

/-- The weighted degree sum over all vertices: `V_G`. -/
def total_volume (G : Graph) : ℚ := (G.edges.map (fun e => e.2.2)).sum

/-- The density that the spec gives for the cluster `c`. -/
def cluster_density (G : Graph) (cluster_ids : List Nat) (c : Nat) : ℚ :=
  if 2 ≤ cluster_size G cluster_ids c then
    intra_weight G cluster_ids c /
      ((cluster_size G cluster_ids c : ℚ) * ((cluster_size G cluster_ids c - 1 : Nat) : ℚ) / 2)
  else 0

/-- The triangle with weights `(0,1) = 1.0`, `(1,2) = 1.0` and `(0,2) = 0.5`. -/
def triangleGraph : Graph :=
  ⟨[[(1, 1), (2, 1/2)], [(0, 1), (2, 1)], [(0, 1/2), (1, 1)]]⟩

/-! ## FindFinishedClusters -/

/-- One entry of `active_cluster_conditions`: the optional lower bounds `min_density` and
`min_conductance`; `has_min_density()` is `min_density.isSome`. -/
structure ActiveClusterCondition where
  min_density : Option ℚ
  min_conductance : Option ℚ
deriving DecidableEq

/-- The flag `satisfied` at the end of the body of the loop over the conditions of
`FindFinishedClusters`: it starts as `true` and each specified bound that lies above the
statistic of the cluster sets it to `false`. -/
def condition_satisfied (stats : ClusterStats) (condition : ActiveClusterCondition) : Bool :=
  let satisfied :=
    match condition.min_density with
    | some d => if stats.density < d then false else true
    | none => true
  match condition.min_conductance with
  | some c => if stats.conductance < c then false else satisfied
  | none => satisfied

/-- The entry `finished[i]` after the loop over the conditions: it starts as `true`, and the
first satisfied condition sets it to `false` and leaves the loop. -/
def cluster_finished (stats : ClusterStats) : List ActiveClusterCondition → Bool
  | [] => true
  | condition :: rest =>
    if condition_satisfied stats condition then false else cluster_finished stats rest

/-- The sequence `finished` of `FindFinishedClusters`, of length `num_compressed_vertices`. -/
def finished_flags (sort : List PerVertexClusterStats → List PerVertexClusterStats)
    (G : Graph) (active_cluster_conditions : List ActiveClusterCondition)
    (cluster_ids : List Nat) : List Bool :=
  (List.range (num_compressed_vertices cluster_ids)).map (fun i =>
    cluster_finished
      ((ComputeFinishedClusterStats sort G cluster_ids
        (num_compressed_vertices cluster_ids)).getD i ⟨0, 0⟩)
      active_cluster_conditions)

/-- The array `finished_vertex` of `FindFinishedClusters`, of length `n`. -/
def finished_vertex_flags (n : Nat) (cluster_ids : List Nat) (finished : List Bool) :
    List Bool :=
  (List.range n).map (fun i =>
    if cluster_ids.getD i UINT_E_MAX = UINT_E_MAX then false
    else finished.getD (cluster_ids.getD i UINT_E_MAX) false)

/-- Modelled from the spec: `parallel::PackIndex` (declared in
`parcluster/api/parallel/parallel-sequence-ops.h`): the indices `i < n` whose flag `f i`
is true, in increasing order. -/
def PackIndex (f : Nat → Bool) (n : Nat) : List Nat :=
  (List.range n).filter f

/-- Modelled from the spec: `parallel::OutputIndicesById` (declared in
`parcluster/api/parallel/parallel-sequence-ops.h`): groups the indices
`get_indices 0, …, get_indices (num_indices - 1)` by their id `index_ids[index]`: one
cluster for every id that occurs, holding the indices with that id. The clusters are listed
by the first occurrence of their id. -/
def OutputIndicesById (index_ids : List Nat) (get_indices : Nat → Nat) (num_indices : Nat) :
    List (List Nat) :=
  (((List.range num_indices).map
      (fun j => index_ids.getD (get_indices j) UINT_E_MAX)).dedup).map
    (fun c => ((List.range num_indices).map get_indices).filter
      (fun i => decide (index_ids.getD i UINT_E_MAX = c)))

/-- The function `ComputeClusters`. -/
def ComputeClusters (cluster_ids : List Nat) (finished_vertex : List Bool) :
    List (List Nat) :=
  OutputIndicesById cluster_ids
    (fun i => (PackIndex (fun i => finished_vertex.getD i false) cluster_ids.length).getD i 0)
    (PackIndex (fun i => finished_vertex.getD i false) cluster_ids.length).length

/-- The labels after the last `parallel_for` of `FindFinishedClusters`, which writes
`UINT_E_MAX` at the vertices `i < n` of the finished clusters; every iteration reads and
writes the slot `i` only. -/
def update_cluster_ids (n : Nat) (cluster_ids : List Nat) (finished : List Bool) :
    List Nat :=
  (List.range cluster_ids.length).map (fun i =>
    if i < n ∧ cluster_ids.getD i UINT_E_MAX ≠ UINT_E_MAX ∧
        finished.getD (cluster_ids.getD i UINT_E_MAX) false = true then UINT_E_MAX
    else cluster_ids.getD i UINT_E_MAX)

/-- The function `FindFinishedClusters`, for the sample sort `sort`: the returned
clustering and the vector `cluster_ids` after the call. -/
def FindFinishedClusters (sort : List PerVertexClusterStats → List PerVertexClusterStats)
    (G : Graph) (active_cluster_conditions : List ActiveClusterCondition)
    (cluster_ids : List Nat) : List (List Nat) × List Nat :=
  if active_cluster_conditions.isEmpty then ([], cluster_ids)
  else
    (ComputeClusters cluster_ids
      (finished_vertex_flags G.n cluster_ids
        (finished_flags sort G active_cluster_conditions cluster_ids)),
     update_cluster_ids G.n cluster_ids
      (finished_flags sort G active_cluster_conditions cluster_ids))

/-- The two hooks that `KCore` calls on its template argument `connect_while_peeling`, as
functions on the state `σ` of that object: `init(cur_bkt)` and `link(a, b, cores)`. -/
structure ConnectWhilePeelingOps (σ : Type) where
  init : Nat → σ → σ
  link : Nat → Nat → (Nat → Nat) → σ → σ

/-- The state of the loop of `KCore`: the degree array `D`, the identifiers that the bucket
structure `b` still holds, `prev_bkt`, the counter `finished` and the object
`connect_while_peeling`. -/
structure KCoreState (σ : Type) where
  D : List Nat
  b : List Nat
  prev_bkt : Nat
  finished : Nat
  connect_while_peeling : σ

/-- The id `bkt.id` of the bucket returned by `b.next_bucket()` of the gbbs bucket structure
built with the order `increasing`: the smallest `D[v]` over the identifiers still held. -/
def next_bucket_id (D : List Nat) (b : List Nat) : Nat :=
  b.foldl (fun m v => min m (D.getD v 0)) (D.getD (b.headD 0) 0)

/-- The identifiers `bkt.identifiers` of the bucket returned by `b.next_bucket()`: the
identifiers still held whose `D` is the bucket id. They form the vertex subset `active`. -/
def next_bucket_identifiers (D : List Nat) (b : List Nat) : List Nat :=
  b.filter (fun v => decide (D.getD v 0 = next_bucket_id D b))

/-- The lambda `cores_func` of `KCore`; `n + 1` is converted to `uintE`. -/
def cores_func (D : List Nat) (k n : Nat) (a : Nat) : Nat :=
  if D.getD a 0 > k then (n + 1) % UINT_E_MOD else D.getD a 0

/-- The lambda `link_func` of `KCore`: the map of `map_f` over the stored neighbours of `u`,
in storage order. -/
def link_func {σ : Type} (ops : ConnectWhilePeelingOps σ) (G : Graph) (D : List Nat) (k : Nat)
    (u : Nat) (connect_while_peeling : σ) : σ :=
  (G.out_neighbors u).foldl
    (fun c e => if u ≠ e.1 ∧ D.getD e.1 0 ≤ k then ops.link u e.1 (cores_func D k G.n) c else c)
    connect_while_peeling

/-- The count that the gbbs primitive `nghCount` passes to `apply_f` for the vertex `v`: the
number of stored edges from a vertex of `active` to `v`. -/
def edgesRemoved (G : Graph) (active : List Nat) (v : Nat) : Nat :=
  (active.flatMap (fun u => (G.out_neighbors u).map (fun e => e.1))).count v

/-- The lambda `apply_f` of `KCore` as the new value of `D[v]`, from `deg = D[v]` and the
count `edgesRemoved`; the difference is taken in 32-bit unsigned arithmetic. -/
def apply_f (k deg edgesRemoved : Nat) : Nat :=
  if deg > k then max ((deg + UINT_E_MOD - edgesRemoved) % UINT_E_MOD) k else deg

/-- One iteration of the loop `while (finished != n)` of `KCore`. The hooks are called for
the vertices of `active` in increasing order; `nghCount` calls `apply_f` for the vertices
with a stored edge from `active`, and `update_buckets` leaves in the bucket structure the
identifiers that were not returned. -/
def KCore_round {σ : Type} (ops : ConnectWhilePeelingOps σ) (G : Graph)
    (inline_hierarchy : Bool) (s : KCoreState σ) : KCoreState σ :=
  { D := (List.range G.n).map (fun v =>
      if 0 < edgesRemoved G (next_bucket_identifiers s.D s.b) v then
        apply_f (next_bucket_id s.D s.b) (s.D.getD v 0)
          (edgesRemoved G (next_bucket_identifiers s.D s.b) v % UINT_E_MOD)
      else s.D.getD v 0)
    b := s.b.filter (fun v => !decide (s.D.getD v 0 = next_bucket_id s.D s.b))
    prev_bkt := next_bucket_id s.D s.b
    finished := s.finished + (next_bucket_identifiers s.D s.b).length
    connect_while_peeling :=
      (next_bucket_identifiers s.D s.b).foldl
        (fun c u => link_func ops G s.D (next_bucket_id s.D s.b) u c)
        (if inline_hierarchy = true ∧ s.prev_bkt ≠ next_bucket_id s.D s.b ∧
            next_bucket_id s.D s.b ≠ 0
          then ops.init (next_bucket_id s.D s.b) s.connect_while_peeling
          else s.connect_while_peeling) }

/-- The loop `while (finished != n)` of `KCore`, run for at most `fuel` iterations; `none`
when the loop has not ended by then. -/
def KCore_loop {σ : Type} (ops : ConnectWhilePeelingOps σ) (G : Graph)
    (inline_hierarchy : Bool) : Nat → KCoreState σ → Option (KCoreState σ)
  | 0, s => if s.finished = G.n then some s else none
  | fuel + 1, s =>
    if s.finished = G.n then some s
    else KCore_loop ops G inline_hierarchy fuel (KCore_round ops G inline_hierarchy s)

/-- The function `KCore` of `gbbs::kcore_hierarchical`: the returned array `D` and the final
state of `connect_while_peeling`. The array `D` starts as the stored degrees, the bucket
structure holds every vertex, and the loop is run for at most `n` iterations. -/
def KCore {σ : Type} (ops : ConnectWhilePeelingOps σ) (G : Graph) (connect_while_peeling : σ)
    (inline_hierarchy : Bool) : Option (List Nat × σ) :=
  (KCore_loop ops G inline_hierarchy G.n
    ⟨(List.range G.n).map (fun i => (G.out_neighbors i).length), List.range G.n, 0, 0,
      connect_while_peeling⟩).map (fun s => (s.D, s.connect_while_peeling))

/-- A connect-while-peeling object whose hooks do nothing, as the default-constructed
`ConnectWhilePeeling` (no union-find stored) that `KCore_connect` passes for the post-hoc
variant. -/
def noConnectOps : ConnectWhilePeelingOps Unit := ⟨fun _ s => s, fun _ _ _ s => s⟩

/-- The number of stored edges of `v` that lead into the vertex set `S`: the degree of `v`
in the subgraph on `S`. -/
def degree_in (G : Graph) (S : Nat → Bool) (v : Nat) : Nat :=
  ((G.out_neighbors v).filter (fun e => S e.1)).length

/-- The vertex `v` belongs to a subgraph in which every vertex has degree at least `k`. -/
def InCore (G : Graph) (k v : Nat) : Prop :=
  ∃ S : Nat → Bool, S v = true ∧ ∀ u, S u = true → u < G.n ∧ k ≤ degree_in G S u

/-- The number `k` is the coreness of `v`: the largest `k` such that `v` belongs to a
subgraph in which every vertex has degree at least `k`. -/
def IsCoreness (G : Graph) (v k : Nat) : Prop :=
  InCore G k v ∧ ∀ k2, InCore G k2 v → k2 ≤ k

/-- An unweighted graph from adjacency lists of neighbour ids, every weight being `1`. -/
def unweightedGraph (adj : List (List Nat)) : Graph :=
  ⟨adj.map (fun l => l.map (fun v => (v, (1 : ℚ))))⟩

/-- The complete graph `K4`. -/
def K4 : Graph := unweightedGraph [[1, 2, 3], [0, 2, 3], [0, 1, 3], [0, 1, 2]]

/-- The path `0 – 1 – 2 – 3`. -/
def path4 : Graph := unweightedGraph [[1], [0, 2], [1, 3], [2]]

/-- The complete graph `K4` with the pendant edge `4 – 0`. -/
def K4pendant : Graph :=
  unweightedGraph [[1, 2, 3, 4], [0, 2, 3], [0, 1, 3], [0, 1, 2], [0]]

/-- The invariant of the loop of `KCore`, with `U` the set of the identifiers still held by
the bucket structure: the array `D` has one entry per vertex; `U` is a set of vertices and
`finished` counts the others; a vertex of `U` has `D` equal to its degree in `U`, but not
less than `prev_bkt`; a vertex outside `U` has `D` at most `prev_bkt`, equal to its coreness,
and at least `D` stored edges to vertices that are in `U` or have at least this `D`; a
subgraph of minimum degree `prev_bkt` contains `U`, and every subgraph of minimum degree
above `prev_bkt` lies in `U`. -/
structure KCoreInv {σ : Type} (G : Graph) (s : KCoreState σ) : Prop where
  length_D : s.D.length = G.n
  b_eq : s.b = (List.range G.n).filter (fun v => decide (v ∈ s.b))
  finished_eq : s.finished + s.b.length = G.n
  live : ∀ v ∈ s.b,
    s.D.getD v 0 = max s.prev_bkt (degree_in G (fun u => decide (u ∈ s.b)) v)
  done : ∀ v, v < G.n → v ∉ s.b → s.D.getD v 0 ≤ s.prev_bkt
  done_in : ∀ v, v < G.n → v ∉ s.b → InCore G (s.D.getD v 0) v
  done_out : ∀ v, v < G.n → v ∉ s.b → ¬ InCore G (s.D.getD v 0 + 1) v
  core : ∃ S : Nat → Bool, (∀ u ∈ s.b, S u = true) ∧
    ∀ u, S u = true → u < G.n ∧ s.prev_bkt ≤ degree_in G S u
  sub : ∀ S : Nat → Bool, (∀ u, S u = true → u < G.n ∧ s.prev_bkt + 1 ≤ degree_in G S u) →
    ∀ u, S u = true → u ∈ s.b
  done_neighbors : ∀ v, v < G.n → v ∉ s.b →
    s.D.getD v 0 ≤ degree_in G
      (fun u => decide (u ∈ s.b) || decide (s.D.getD v 0 ≤ s.D.getD u 0)) v
  live_neighbors : ∀ v ∈ s.b,
    s.D.getD v 0 ≤ degree_in G
      (fun u => decide (u ∈ s.b) || decide (s.prev_bkt ≤ s.D.getD u 0)) v

/-! ## Union-find and KCoreClusterer::Cluster -/

/-- The function `gbbs::simple_union_find::find_compress` of the gbbs library, on the state
of a union-find structure after path compression: the array `parents` holds for every vertex
the root of its set, and the root of a set is its smallest vertex. -/
def find_compress (i : Nat) (parents : List Nat) : Nat := parents.getD i 0

/-- The function `gbbs::simple_union_find::unite_impl` of the gbbs library on the same
state: the larger of the two roots is linked below the smaller one, so every vertex of the
set of the larger root gets the smaller root. -/
def unite_impl (u_orig v_orig : Nat) (parents : List Nat) : List Nat :=
  parents.map (fun p =>
    if p = max (find_compress u_orig parents) (find_compress v_orig parents) then
      min (find_compress u_orig parents) (find_compress v_orig parents)
    else p)

/-- The value of the `int` variable `threshold` in the comparison with a `uintE`, where it
is converted to 32-bit unsigned. -/
def threshold_as_uintE (threshold : Int) : Nat := (threshold % (UINT_E_MOD : Int)).toNat

/-- The lambda `map_f` of `KCoreClusterer::Cluster` for the stored edge `e = (u, v, wgh)`,
as a step on the array `clusters`. -/
def Cluster_map_f (cores : List Nat) (threshold : Int) (clusters : List Nat)
    (e : Nat × Nat × ℚ) : List Nat :=
  if threshold_as_uintE threshold ≤ cores.getD e.1 0 ∧
      threshold_as_uintE threshold ≤ cores.getD e.2.1 0 then
    unite_impl e.1 e.2.1 clusters
  else clusters

/-- The array `clusters` of `KCoreClusterer::Cluster` after the two `parallel_for` loops:
it starts as the identity, `map_f` runs over the stored edges of every vertex, and the
final `find_compress` of every vertex leaves the roots in place. The array `cores` is the
result of the library call `gbbs::KCore`. -/
def KCoreClusterer.clusters (G : Graph) (cores : List Nat) (threshold : Int) : List Nat :=
  G.edges.foldl (Cluster_map_f cores threshold) (List.range G.n)

/-- The function `KCoreClusterer::Cluster`, for the helper `nest` that stands for
`research_graph::DenseClusteringToNestedClustering`. -/
def KCoreClusterer.Cluster (nest : List Nat → List (List Nat)) (G : Graph) (cores : List Nat)
    (threshold : Int) : List (List Nat) :=
  nest (KCoreClusterer.clusters G cores threshold)

/-- Modelled from the spec: the contract of `DenseClusteringToNestedClustering` (declared in
`parcluster/api/in-memory-clusterer-base.h`), which turns one cluster id per vertex into a
nested clustering, a sequence of vertex-id sequences: the returned clusters are the sets of
the vertices with one id, for the ids that occur, and no two of them share a vertex. -/
def IsDenseToNested (nest : List Nat → List (List Nat)) : Prop :=
  ∀ clustering : List Nat,
    (∀ cl, cl ∈ nest clustering ↔
      ∃ i, i < clustering.length ∧
        cl = (List.range clustering.length).filter
          (fun j => decide (clustering[j]? = clustering[i]?))) ∧
    (nest clustering).Pairwise List.Disjoint

/-- Modelled from the spec: `DenseClusteringToNestedClustering`, grouping the vertices by
their cluster id. -/
def DenseClusteringToNestedClustering (clustering : List Nat) : List (List Nat) :=
  OutputIndicesById clustering id clustering.length

/-- The edges of the subgraph induced by the vertices of coreness at least `threshold`: a
stored edge `(a, b)` of the graph whose two endpoints have such a coreness. -/
def core_edge (G : Graph) (cores : List Nat) (threshold : Int) (a b : Nat) : Prop :=
  (∃ w, (a, b, w) ∈ G.edges) ∧ threshold ≤ (cores.getD a 0 : Int) ∧
    threshold ≤ (cores.getD b 0 : Int)

/-- The graph on four vertices without edges. -/
def empty4 : Graph := unweightedGraph [[], [], [], []]

/-! ## The hierarchy variants of KCore_connect -/

/-- The class `EfficientConnectWhilePeeling`: the array `uf.parents` of its union-find
structure and the array `links`. -/
structure EfficientConnectWhilePeeling where
  uf : List Nat
  links : List Nat
deriving DecidableEq, Repr

/-- The constructor `EfficientConnectWhilePeeling(n)`: every vertex is its own root and
every link is `UINT_E_MAX`. -/
def EfficientConnectWhilePeeling.mk_n (n : Nat) : EfficientConnectWhilePeeling :=
  ⟨List.range n, List.replicate n UINT_E_MAX⟩

/-- The method `EfficientConnectWhilePeeling::link`, run sequentially (every
compare-and-swap succeeds at once) with at most `fuel` nested calls; `none` when the nesting
goes deeper. -/
def EfficientConnectWhilePeeling.link (cores : Nat → Nat) :
    Nat → Nat → Nat → EfficientConnectWhilePeeling → Option EfficientConnectWhilePeeling
  | 0, _, _, _ => none
  | fuel + 1, a, b, s =>
    if cores (find_compress a s.uf) = cores (find_compress b s.uf) then
      (if s.links.getD (find_compress a s.uf) UINT_E_MAX ≠ UINT_E_MAX ∧
          find_compress (find_compress a s.uf)
            (unite_impl (find_compress a s.uf) (find_compress b s.uf) s.uf) ≠
            find_compress a s.uf then
        EfficientConnectWhilePeeling.link cores fuel
          (s.links.getD (find_compress a s.uf) UINT_E_MAX)
          (find_compress (find_compress a s.uf)
            (unite_impl (find_compress a s.uf) (find_compress b s.uf) s.uf))
          ⟨unite_impl (find_compress a s.uf) (find_compress b s.uf) s.uf, s.links⟩
      else some ⟨unite_impl (find_compress a s.uf) (find_compress b s.uf) s.uf, s.links⟩).bind
      (fun s2 =>
        if s.links.getD (find_compress b s.uf) UINT_E_MAX ≠ UINT_E_MAX ∧
            find_compress (find_compress a s.uf)
              (unite_impl (find_compress a s.uf) (find_compress b s.uf) s.uf) ≠
              find_compress b s.uf then
          EfficientConnectWhilePeeling.link cores fuel
            (s.links.getD (find_compress b s.uf) UINT_E_MAX)
            (find_compress (find_compress a s.uf)
              (unite_impl (find_compress a s.uf) (find_compress b s.uf) s.uf)) s2
        else some s2)
    else if cores (find_compress a s.uf) < cores (find_compress b s.uf) then
      if s.links.getD (find_compress b s.uf) UINT_E_MAX = UINT_E_MAX then
        some ⟨s.uf, s.links.set (find_compress b s.uf) (find_compress a s.uf)⟩
      else if cores (s.links.getD (find_compress b s.uf) UINT_E_MAX) <
          cores (find_compress a s.uf) then
        (if find_compress b s.uf ≠ find_compress (find_compress b s.uf) s.uf then
          EfficientConnectWhilePeeling.link cores fuel (find_compress a s.uf)
            (find_compress (find_compress b s.uf) s.uf)
            ⟨s.uf, s.links.set (find_compress b s.uf) (find_compress a s.uf)⟩
        else some ⟨s.uf, s.links.set (find_compress b s.uf) (find_compress a s.uf)⟩).bind
        (fun s2 =>
          EfficientConnectWhilePeeling.link cores fuel (find_compress a s.uf)
            (s.links.getD (find_compress b s.uf) UINT_E_MAX) s2)
      else
        EfficientConnectWhilePeeling.link cores fuel (find_compress a s.uf)
          (s.links.getD (find_compress b s.uf) UINT_E_MAX) s
    else
      EfficientConnectWhilePeeling.link cores fuel (find_compress b s.uf)
        (find_compress a s.uf) s

/-- The hooks of an `EfficientConnectWhilePeeling` object for `KCore`; `init` does nothing,
and `link` is run with at most `fuel` nested calls. -/
def efficientOps (fuel : Nat) : ConnectWhilePeelingOps (Option EfficientConnectWhilePeeling) :=
  ⟨fun _ s => s,
   fun a b cores s => s.bind (EfficientConnectWhilePeeling.link cores fuel a b)⟩

/-- The class `ConnectWhilePeeling`: the table size `n`, the union-find structures `set_uf`
and their bucket ids `set_core`. -/
structure ConnectWhilePeeling where
  n : Nat
  set_uf : List (List Nat)
  set_core : List Nat
deriving DecidableEq, Repr

/-- The method `ConnectWhilePeeling::link`. -/
def ConnectWhilePeeling.link (x index : Nat) (cores : Nat → Nat) (s : ConnectWhilePeeling) :
    ConnectWhilePeeling :=
  { s with set_uf := (List.range s.set_uf.length).map (fun idx =>
      if cores index ≥ s.set_core.getD idx 0 then unite_impl x index (s.set_uf.getD idx [])
      else s.set_uf.getD idx []) }

/-- The method `ConnectWhilePeeling::init`: a new union-find structure on `n` vertices and
its bucket id are appended. -/
def ConnectWhilePeeling.init (cur_bkt : Nat) (s : ConnectWhilePeeling) : ConnectWhilePeeling :=
  { s with set_uf := s.set_uf ++ [List.range s.n], set_core := s.set_core ++ [cur_bkt] }

/-- The hooks of a `ConnectWhilePeeling` object for `KCore`. -/
def simpleOps : ConnectWhilePeelingOps ConnectWhilePeeling :=
  ⟨ConnectWhilePeeling.init, ConnectWhilePeeling.link⟩

/-- The array `mark_keys` of `gbbs::kcore_hierarchical::GetBoundaryIndices` before the
filter: `num_keys + 1` entries of type `uintE`; entry `i` is the sentinel `UINT_E_MAX` when
`i` is not `0` and has the key of `i - 1`, and `i` otherwise; the last entry is
`num_keys`. -/
def kcore_hierarchical.mark_keys (num_keys : Nat) (key_eq_func : Nat → Nat → Bool) :
    List Nat :=
  (List.range num_keys).map (fun i =>
    if i ≠ 0 ∧ key_eq_func i (i - 1) = true then UINT_E_MAX else i % UINT_E_MOD) ++
  [num_keys % UINT_E_MOD]

/-- The function `GetBoundaryIndices` of `gbbs::kcore_hierarchical`: the entries of
`mark_keys` that are not the sentinel. -/
def kcore_hierarchical.GetBoundaryIndices (num_keys : Nat)
    (key_eq_func : Nat → Nat → Bool) : List Nat :=
  (kcore_hierarchical.mark_keys num_keys key_eq_func).filter
    (fun x => decide (x ≠ UINT_E_MAX))

/-- The call `connectivity_tree.resize(size, value)` of `std::vector`. -/
def resize (connectivity_tree : List Nat) (size value : Nat) : List Nat :=
  connectivity_tree.take size ++ List.replicate (size - connectivity_tree.length) value

/-- A sequential sort by the comparator `less`, standing for `parlay::sample_sort_inplace`:
insertion sort by `not (less b a)`, which keeps the input order of ties. -/
def sortWith (less : Nat → Nat → Bool) (l : List Nat) : List Nat :=
  l.insertionSort (fun a b => less b a = false)

/-- The body of the first pass of the efficient `construct_nd_connectivity_from_connect` for
the bucket `i`: every vertex of the bucket gets the parent `prev_max_parent + i`. -/
def assign_bucket (sorted_vert vert_buckets : List Nat) (prev_max_parent : Nat)
    (connectivity_tree : List Nat) (i : Nat) : List Nat :=
  (List.range (vert_buckets.getD (i + 1) 0 - vert_buckets.getD i 0)).foldl
    (fun T a => T.set (sorted_vert.getD (vert_buckets.getD i 0 + a) 0)
      ((prev_max_parent + i) % UINT_E_MOD))
    connectivity_tree

/-- The body of the last loop of the efficient `construct_nd_connectivity_from_connect`. -/
def stitch_link (parents links : List Nat) (connectivity_tree : List Nat) (i : Nat) :
    List Nat :=
  if links.getD i UINT_E_MAX = UINT_E_MAX then connectivity_tree
  else if i = parents.getD i 0 then
    connectivity_tree.set (connectivity_tree.getD i 0)
      (connectivity_tree.getD (links.getD i UINT_E_MAX) 0)
  else connectivity_tree

/-- The function `construct_nd_connectivity_from_connect(n, EfficientConnectWhilePeeling&)`,
for the sort `sort`; `uf.finish()` returns the roots. -/
def EfficientConnectWhilePeeling.construct_nd_connectivity_from_connect
    (sort : (Nat → Nat → Bool) → List Nat → List Nat) (n : Nat)
    (cwp : EfficientConnectWhilePeeling) : List Nat :=
  (List.range cwp.links.length).foldl (stitch_link cwp.uf cwp.links)
    (resize
      ((List.range
        ((kcore_hierarchical.GetBoundaryIndices n (fun i j =>
          decide (cwp.uf.getD
            ((sort (fun p q => decide (cwp.uf.getD p 0 < cwp.uf.getD q 0))
              (List.range n)).getD i 0) 0 =
            cwp.uf.getD
              ((sort (fun p q => decide (cwp.uf.getD p 0 < cwp.uf.getD q 0))
                (List.range n)).getD j 0) 0))).length - 1)).foldl
        (assign_bucket
          (sort (fun p q => decide (cwp.uf.getD p 0 < cwp.uf.getD q 0)) (List.range n))
          (kcore_hierarchical.GetBoundaryIndices n (fun i j =>
            decide (cwp.uf.getD
              ((sort (fun p q => decide (cwp.uf.getD p 0 < cwp.uf.getD q 0))
                (List.range n)).getD i 0) 0 =
              cwp.uf.getD
                ((sort (fun p q => decide (cwp.uf.getD p 0 < cwp.uf.getD q 0))
                  (List.range n)).getD j 0) 0)))
          n)
        (List.replicate n UINT_E_MAX))
      ((n + ((kcore_hierarchical.GetBoundaryIndices n (fun i j =>
          decide (cwp.uf.getD
            ((sort (fun p q => decide (cwp.uf.getD p 0 < cwp.uf.getD q 0))
              (List.range n)).getD i 0) 0 =
            cwp.uf.getD
              ((sort (fun p q => decide (cwp.uf.getD p 0 < cwp.uf.getD q 0))
                (List.range n)).getD j 0) 0))).length - 1)) % UINT_E_MOD)
      UINT_E_MAX)

/-- The state of the loops that append tree levels: the array `connectivity_tree`, the array
`prev_parent` and `prev_max_parent`. -/
structure TreeState where
  connectivity_tree : List Nat
  prev_parent : List Nat
  prev_max_parent : Nat
deriving DecidableEq, Repr

/-- The body of the inner `parallel_for` of the level loops for the vertex `l`, whose new
parent is `parent`: `connectivity_tree[prev_parent[l]] = parent` and then
`prev_parent[l] = connectivity_tree[prev_parent[l]]`. -/
def thread_parent (parent : Nat) (t : TreeState) (l : Nat) : TreeState :=
  { t with
    connectivity_tree := t.connectivity_tree.set (t.prev_parent.getD l 0) parent
    prev_parent := t.prev_parent.set l
      ((t.connectivity_tree.set (t.prev_parent.getD l 0) parent).getD
        (t.prev_parent.getD l 0) 0) }

/-- The body of the loop over `idx` of
`construct_nd_connectivity_from_connect(n, ConnectWhilePeeling&)`. -/
def simple_level (n : Nat) (cwp : ConnectWhilePeeling) (t : TreeState) (idx : Nat) :
    TreeState :=
  { (List.range n).foldl
      (fun t l => thread_parent
        ((t.prev_max_parent + (cwp.set_uf.getD idx []).getD l 0) % UINT_E_MOD) t l)
      { t with connectivity_tree := resize t.connectivity_tree t.prev_max_parent UINT_E_MAX }
    with prev_max_parent := (t.prev_max_parent + n) % UINT_E_MOD }

/-- The function `construct_nd_connectivity_from_connect(n, ConnectWhilePeeling&)`: the
loop runs over `idx` from `set_uf.size() - 1` down to `0`. -/
def ConnectWhilePeeling.construct_nd_connectivity_from_connect (n : Nat)
    (cwp : ConnectWhilePeeling) : List Nat :=
  ((List.range cwp.set_uf.length).reverse.foldl (simple_level n cwp)
    ⟨List.replicate n UINT_E_MAX, List.range n, n⟩).connectivity_tree

/-- The state of the loop of `construct_nd_connectivity`: the union-find array and the tree
state. -/
structure PostHocState where
  uf : List Nat
  tree : TreeState
deriving DecidableEq, Repr

/-- The unions of `construct_nd_connectivity` for the vertex `x` of the current bucket:
`map_f` over its stored neighbours. -/
def posthoc_unite (G : Graph) (cores : List Nat) (first_current_core : Nat) (uf : List Nat)
    (x : Nat) : List Nat :=
  (G.out_neighbors x).foldl
    (fun uf e => if ¬ (cores.getD e.1 0 < first_current_core) then unite_impl x e.1 uf else uf)
    uf

/-- The test of the last two `parallel_for` loops of a level of `construct_nd_connectivity`
on the vertex `l`. -/
def posthoc_active (cores : List Nat) (first_current_core : Nat) (l : Nat) : Bool :=
  decide (cores.getD l 0 ≠ UINT_E_MAX) && decide (cores.getD l 0 ≥ first_current_core)

/-- The array `map_parents` before the scan: `1` at the roots of the active vertices. -/
def map_parents_mark (n : Nat) (cores : List Nat) (first_current_core : Nat) (uf : List Nat)
    (p : Nat) : Bool :=
  (List.range n).any (fun l => posthoc_active cores first_current_core l &&
    decide (uf.getD l 0 = p))

/-- The entry `map_parents[p]` after `parlay::scan_inplace`, the exclusive prefix sum: the
number of marked roots below `p`; at `p = n` the returned total `max_parent`. -/
def map_parents (n : Nat) (cores : List Nat) (first_current_core : Nat) (uf : List Nat)
    (p : Nat) : Nat :=
  ((List.range p).filter (map_parents_mark n cores first_current_core uf)).length

/-- The body of the loop over the buckets of `construct_nd_connectivity`, for the bucket
`i` of the vertices sorted by decreasing core number. -/
def posthoc_level (G : Graph) (cores sorted_vert vert_buckets : List Nat) (s : PostHocState)
    (i : Nat) : PostHocState :=
  { uf :=
      if cores.getD (sorted_vert.getD (vert_buckets.getD i 0) 0) 0 ≠ UINT_E_MAX ∧
          cores.getD (sorted_vert.getD (vert_buckets.getD i 0) 0) 0 ≠ 0 then
        (List.range (vert_buckets.getD (i + 1) 0 - vert_buckets.getD i 0)).foldl
          (fun uf j => posthoc_unite G cores
            (cores.getD (sorted_vert.getD (vert_buckets.getD i 0) 0) 0) uf
            (sorted_vert.getD (vert_buckets.getD i 0 + j) 0))
          s.uf
      else s.uf
    tree :=
      { (List.range G.n).foldl
          (fun t l =>
            if posthoc_active cores
                (cores.getD (sorted_vert.getD (vert_buckets.getD i 0) 0) 0) l then
              thread_parent
                ((s.tree.prev_max_parent +
                  map_parents G.n cores
                    (cores.getD (sorted_vert.getD (vert_buckets.getD i 0) 0) 0)
                    (if cores.getD (sorted_vert.getD (vert_buckets.getD i 0) 0) 0 ≠
                          UINT_E_MAX ∧
                        cores.getD (sorted_vert.getD (vert_buckets.getD i 0) 0) 0 ≠ 0 then
                      (List.range (vert_buckets.getD (i + 1) 0 - vert_buckets.getD i 0)).foldl
                        (fun uf j => posthoc_unite G cores
                          (cores.getD (sorted_vert.getD (vert_buckets.getD i 0) 0) 0) uf
                          (sorted_vert.getD (vert_buckets.getD i 0 + j) 0))
                        s.uf
                    else s.uf)
                    ((if cores.getD (sorted_vert.getD (vert_buckets.getD i 0) 0) 0 ≠
                          UINT_E_MAX ∧
                        cores.getD (sorted_vert.getD (vert_buckets.getD i 0) 0) 0 ≠ 0 then
                      (List.range (vert_buckets.getD (i + 1) 0 - vert_buckets.getD i 0)).foldl
                        (fun uf j => posthoc_unite G cores
                          (cores.getD (sorted_vert.getD (vert_buckets.getD i 0) 0) 0) uf
                          (sorted_vert.getD (vert_buckets.getD i 0 + j) 0))
                        s.uf
                    else s.uf).getD l 0)) % UINT_E_MOD) t l
            else t)
          { s.tree with
            connectivity_tree :=
              resize s.tree.connectivity_tree s.tree.prev_max_parent UINT_E_MAX }
        with prev_max_parent :=
          (s.tree.prev_max_parent +
            map_parents G.n cores
              (cores.getD (sorted_vert.getD (vert_buckets.getD i 0) 0) 0)
              (if cores.getD (sorted_vert.getD (vert_buckets.getD i 0) 0) 0 ≠ UINT_E_MAX ∧
                  cores.getD (sorted_vert.getD (vert_buckets.getD i 0) 0) 0 ≠ 0 then
                (List.range (vert_buckets.getD (i + 1) 0 - vert_buckets.getD i 0)).foldl
                  (fun uf j => posthoc_unite G cores
                    (cores.getD (sorted_vert.getD (vert_buckets.getD i 0) 0) 0) uf
                    (sorted_vert.getD (vert_buckets.getD i 0 + j) 0))
                  s.uf
              else s.uf)
              G.n) % UINT_E_MOD } }

/-- The function `construct_nd_connectivity`, for the sort `sort`. -/
def construct_nd_connectivity (sort : (Nat → Nat → Bool) → List Nat → List Nat) (G : Graph)
    (cores : List Nat) : List Nat :=
  ((List.range
      ((kcore_hierarchical.GetBoundaryIndices G.n (fun i j =>
        decide (cores.getD
          ((sort (fun p q => decide (cores.getD p 0 > cores.getD q 0))
            (List.range G.n)).getD i 0) 0 =
          cores.getD
            ((sort (fun p q => decide (cores.getD p 0 > cores.getD q 0))
              (List.range G.n)).getD j 0) 0))).length - 1)).foldl
    (posthoc_level G cores
      (sort (fun p q => decide (cores.getD p 0 > cores.getD q 0)) (List.range G.n))
      (kcore_hierarchical.GetBoundaryIndices G.n (fun i j =>
        decide (cores.getD
          ((sort (fun p q => decide (cores.getD p 0 > cores.getD q 0))
            (List.range G.n)).getD i 0) 0 =
          cores.getD
            ((sort (fun p q => decide (cores.getD p 0 > cores.getD q 0))
              (List.range G.n)).getD j 0) 0))))
    ⟨List.range G.n, ⟨List.replicate G.n UINT_E_MAX, List.range G.n, G.n⟩⟩).tree.connectivity_tree

/-- The number of nested calls allowed to `EfficientConnectWhilePeeling::link` in
`KCore_connect`: more than three times the largest core number. -/
def link_fuel (G : Graph) : Nat := 3 * G.edges.length + 4

/-- The function `KCore_connect`, for the sort `sort`; `none` when the loop of `KCore` or a
call of `link` does not end within its bound. -/
def KCore_connect (sort : (Nat → Nat → Bool) → List Nat → List Nat) (G : Graph)
    (inline_hierarchy efficient_inline_hierarchy : Bool) : Option (List Nat) :=
  if efficient_inline_hierarchy then
    (KCore (efficientOps (link_fuel G)) G (some (EfficientConnectWhilePeeling.mk_n G.n))
      true).bind
      (fun r => r.2.map
        (EfficientConnectWhilePeeling.construct_nd_connectivity_from_connect sort G.n))
  else if inline_hierarchy then
    (KCore simpleOps G ⟨G.n, [], []⟩ true).map
      (fun r => ConnectWhilePeeling.construct_nd_connectivity_from_connect G.n r.2)
  else
    (KCore simpleOps G ⟨0, [], []⟩ false).map
      (fun r => construct_nd_connectivity sort G r.1)

/-- The walk along the parents of the tree `T` from the index `j`: the current index is
replaced by `T[j]` while it is a valid index and `T[j]` is not `NONE`. The result is the
list of the visited indices, or `none` when the walk has not stopped after `fuel` indices. -/
def parent_walk (T : List Nat) : Nat → Nat → Option (List Nat)
  | 0, _ => none
  | fuel + 1, j =>
    if j < T.length ∧ T.getD j UINT_E_MAX ≠ UINT_E_MAX then
      (parent_walk T fuel (T.getD j UINT_E_MAX)).map (fun p => j :: p)
    else some [j]

/-- The invariant of the inner loop of a tree level, with `rest` the vertices that the loop
has still to visit: the tree has `prev_max_parent` slots, the previous parent of a vertex to
visit is below `prev_max_parent`, every previous parent is below the next value `next` of
`prev_max_parent`, and every slot holds a value above its index. -/
def ThreadInv (n next : Nat) (rest : List Nat) (t : TreeState) : Prop :=
  t.prev_parent.length = n ∧ t.connectivity_tree.length = t.prev_max_parent ∧
  (∀ l, l < n → t.prev_parent.getD l 0 < next) ∧
  (∀ l ∈ rest, t.prev_parent.getD l 0 < t.prev_max_parent) ∧
  (∀ j, j < t.prev_max_parent → j < t.connectivity_tree.getD j 0)

/-- The invariant of the loop over the tree levels: the tree has at most `prev_max_parent`
slots, every previous parent is below `prev_max_parent`, and every slot holds a value above
its index. -/
def LevelInv (n : Nat) (t : TreeState) : Prop :=
  t.prev_parent.length = n ∧ t.connectivity_tree.length ≤ t.prev_max_parent ∧
  (∀ l, l < n → t.prev_parent.getD l 0 < t.prev_max_parent) ∧
  (∀ j, j < t.connectivity_tree.length → j < t.connectivity_tree.getD j 0)

/-- The invariant of an `EfficientConnectWhilePeeling` object on `n` vertices, for the core
numbers `cores` and the set `P` of the peeled vertices: both arrays have `n` entries; the
root of a vertex is a vertex and its own root; the root of a peeled vertex is peeled and has
the same core number; a vertex that is not peeled is its own root and has no link; a link
leads from a root to a peeled vertex of a smaller core number. -/
structure EfficientInv (n : Nat) (cores : Nat → Nat) (P : Nat → Prop)
    (s : EfficientConnectWhilePeeling) : Prop where
  length_uf : s.uf.length = n
  length_links : s.links.length = n
  root_lt : ∀ a, a < n → s.uf.getD a 0 < n
  root_root : ∀ a, a < n → s.uf.getD (s.uf.getD a 0) 0 = s.uf.getD a 0
  root_peeled : ∀ a, a < n → P a → P (s.uf.getD a 0)
  unpeeled : ∀ a, a < n → ¬ P a →
    s.uf.getD a 0 = a ∧ s.links.getD a UINT_E_MAX = UINT_E_MAX
  root_cores : ∀ a, a < n → P a → cores (s.uf.getD a 0) = cores a
  link : ∀ b, b < n → s.links.getD b UINT_E_MAX ≠ UINT_E_MAX →
    s.links.getD b UINT_E_MAX < n ∧ P (s.links.getD b UINT_E_MAX) ∧
      cores (s.links.getD b UINT_E_MAX) < cores b

/-- The measure that falls along the nested calls of `EfficientConnectWhilePeeling::link`:
three times the larger core number of the two arguments, plus `2` when the core numbers are
equal and `1` when the first is the larger one. -/
def link_measure (cores : Nat → Nat) (a b : Nat) : Nat :=
  3 * max (cores a) (cores b) +
    (if cores a = cores b then 2 else if cores a < cores b then 0 else 1)

/-- The graph of two disjoint pairs: the edges `0 – 1` and `2 – 3`, each of weight `2`. -/
def twoPairs : Graph := ⟨[[(1, 2)], [(0, 2)], [(3, 2)], [(2, 2)]]⟩

/-- The state of the loop `while (finished != n)` of `KCore` after at most `rounds`
iterations: the loop stops earlier when `finished = n`. -/
def KCore_rounds {σ : Type} (ops : ConnectWhilePeelingOps σ) (G : Graph)
    (inline_hierarchy : Bool) : Nat → KCoreState σ → KCoreState σ
  | 0, s => s
  | rounds + 1, s =>
    if s.finished = G.n then s
    else KCore_rounds ops G inline_hierarchy rounds (KCore_round ops G inline_hierarchy s)

/-- The union-find array `uf` on `n` vertices represents the equivalence generated by `R`:
the root of a vertex is a vertex equivalent to it, and equivalent vertices have one root. -/
def UFRep (n : Nat) (R : Nat → Nat → Prop) (uf : List Nat) : Prop :=
  uf.length = n ∧
  (∀ a, a < n → uf.getD a 0 < n ∧ Relation.EqvGen R a (uf.getD a 0)) ∧
  (∀ a b, a < n → b < n → Relation.EqvGen R a b → uf.getD a 0 = uf.getD b 0)

/-- The edges of the subgraph induced by the vertices of core number at least `c`. -/
def induced_edge (G : Graph) (cores : List Nat) (c : Nat) (a b : Nat) : Prop :=
  (∃ w, (a, b, w) ∈ G.edges) ∧ c ≤ cores.getD a 0 ∧ c ≤ cores.getD b 0

/-- The array `sorted_vert` of `construct_nd_connectivity`: the vertices sorted by the
comparator `get_core`. -/
def posthoc_sorted_vert (sort : (Nat → Nat → Bool) → List Nat → List Nat) (G : Graph)
    (cores : List Nat) : List Nat :=
  sort (fun p q => decide (cores.getD p 0 > cores.getD q 0)) (List.range G.n)

/-- The array `vert_buckets` of `construct_nd_connectivity`. -/
def posthoc_vert_buckets (sort : (Nat → Nat → Bool) → List Nat → List Nat) (G : Graph)
    (cores : List Nat) : List Nat :=
  kcore_hierarchical.GetBoundaryIndices G.n (fun i j =>
    decide (cores.getD ((posthoc_sorted_vert sort G cores).getD i 0) 0 =
      cores.getD ((posthoc_sorted_vert sort G cores).getD j 0) 0))

/-- The state of the loop over the buckets of `construct_nd_connectivity` after `i`
iterations. -/
def posthoc_state (sort : (Nat → Nat → Bool) → List Nat → List Nat) (G : Graph)
    (cores : List Nat) (i : Nat) : PostHocState :=
  (List.range i).foldl
    (posthoc_level G cores (posthoc_sorted_vert sort G cores)
      (posthoc_vert_buckets sort G cores))
    ⟨List.range G.n, ⟨List.replicate G.n UINT_E_MAX, List.range G.n, G.n⟩⟩

/-- The value `first_current_core` of the iteration `i` of the loop over the buckets of
`construct_nd_connectivity`. -/
def first_current_core (sort : (Nat → Nat → Bool) → List Nat → List Nat) (G : Graph)
    (cores : List Nat) (i : Nat) : Nat :=
  cores.getD ((posthoc_sorted_vert sort G cores).getD
    ((posthoc_vert_buckets sort G cores).getD i 0) 0) 0

/-- The assumptions on the input of `construct_nd_connectivity`: the neighbour ids are
vertices, the graph is symmetric, the node ids fit 32 bits, no core number is the sentinel,
and the sort has rearranged the vertices by decreasing core number. -/
structure PostHocCtx (sort : (Nat → Nat → Bool) → List Nat → List Nat) (G : Graph)
    (cores : List Nat) : Prop where
  wf : G.WellFormed
  sym : G.Symmetric
  size : G.n + G.n * G.n ≤ UINT_E_MAX
  cores_lt : ∀ v, v < G.n → cores.getD v 0 < UINT_E_MAX
  perm : (posthoc_sorted_vert sort G cores).Perm (List.range G.n)
  sorted : (posthoc_sorted_vert sort G cores).Pairwise
    (fun a b => cores.getD b 0 ≤ cores.getD a 0)

/-- The pairs united in the iteration `i` of the loop over the buckets of
`construct_nd_connectivity`, in the order of the unions: for each vertex `x` of the bucket
and each stored neighbour `v` of `x` that is not inactive, the pair `(x, v)`. -/
def posthoc_pairs (sort : (Nat → Nat → Bool) → List Nat → List Nat) (G : Graph)
    (cores : List Nat) (i : Nat) : List (Nat × Nat) :=
  (List.range ((posthoc_vert_buckets sort G cores).getD (i + 1) 0 -
      (posthoc_vert_buckets sort G cores).getD i 0)).flatMap
    (fun j =>
      ((G.out_neighbors ((posthoc_sorted_vert sort G cores).getD
          ((posthoc_vert_buckets sort G cores).getD i 0 + j) 0)).filter
        (fun e => decide (¬ (cores.getD e.1 0 < first_current_core sort G cores i)))).map
        (fun e => ((posthoc_sorted_vert sort G cores).getD
          ((posthoc_vert_buckets sort G cores).getD i 0 + j) 0, e.1)))

/-- The invariant of the loop over the buckets of `construct_nd_connectivity` at the start of
the iteration `i`: the union-find array represents the connectivity among the vertices of
larger core number than the bucket; the tree state satisfies the invariant of the level
loop; a vertex of larger core number has a node as previous parent, and two such vertices
have one previous parent exactly when they have one root; every other vertex is its own
previous parent. -/
structure PostHocInv (sort : (Nat → Nat → Bool) → List Nat → List Nat) (G : Graph)
    (cores : List Nat) (i : Nat) : Prop where
  uf_bound : ∀ p ∈ (posthoc_state sort G cores i).uf, p < G.n
  uf_rep : UFRep G.n (induced_edge G cores (first_current_core sort G cores i + 1))
    (posthoc_state sort G cores i).uf
  levelInv : LevelInv G.n (posthoc_state sort G cores i).tree
  pmp_ge : G.n ≤ (posthoc_state sort G cores i).tree.prev_max_parent
  pmp_le : (posthoc_state sort G cores i).tree.prev_max_parent ≤ G.n + i * G.n
  old_ge : ∀ l, l < G.n → first_current_core sort G cores i < cores.getD l 0 →
    G.n ≤ (posthoc_state sort G cores i).tree.prev_parent.getD l 0
  new_eq : ∀ l, l < G.n → cores.getD l 0 ≤ first_current_core sort G cores i →
    (posthoc_state sort G cores i).tree.prev_parent.getD l 0 = l
  node_eq : ∀ l l2, l < G.n → l2 < G.n →
    first_current_core sort G cores i < cores.getD l 0 →
    first_current_core sort G cores i < cores.getD l2 0 →
    ((posthoc_state sort G cores i).tree.prev_parent.getD l 0 =
        (posthoc_state sort G cores i).tree.prev_parent.getD l2 0 ↔
      (posthoc_state sort G cores i).uf.getD l 0 = (posthoc_state sort G cores i).uf.getD l2 0)

/-- What the iteration `i` of the loop over the buckets of `construct_nd_connectivity` does,
with `c` its `first_current_core`: the union-find array then represents the connectivity
among the vertices of core number at least `c`; the tree gets the slots of the nodes of the
previous level; every vertex of core number at least `c` gets a node of the new level as
previous parent, two of them the same node exactly when they have one root; the tree slot of
the old previous parent of such a vertex holds its node; and the other slots are kept. -/
structure PostHocLevelSpec (sort : (Nat → Nat → Bool) → List Nat → List Nat) (G : Graph)
    (cores : List Nat) (i : Nat) : Prop where
  uf_bound : ∀ p ∈ (posthoc_state sort G cores (i + 1)).uf, p < G.n
  uf_rep : first_current_core sort G cores i ≠ 0 →
    UFRep G.n (induced_edge G cores (first_current_core sort G cores i))
      (posthoc_state sort G cores (i + 1)).uf
  uf_length : (posthoc_state sort G cores (i + 1)).uf.length = G.n
  uf_mono : ∀ a b, a < G.n → b < G.n →
    (posthoc_state sort G cores i).uf.getD a 0 = (posthoc_state sort G cores i).uf.getD b 0 →
    (posthoc_state sort G cores (i + 1)).uf.getD a 0 =
      (posthoc_state sort G cores (i + 1)).uf.getD b 0
  levelInv : LevelInv G.n (posthoc_state sort G cores (i + 1)).tree
  pmp_ge : G.n ≤ (posthoc_state sort G cores i).tree.prev_max_parent
  pmp_mono : (posthoc_state sort G cores i).tree.prev_max_parent ≤
    (posthoc_state sort G cores (i + 1)).tree.prev_max_parent
  pmp_le : (posthoc_state sort G cores (i + 1)).tree.prev_max_parent ≤ G.n + (i + 1) * G.n
  tree_length : (posthoc_state sort G cores (i + 1)).tree.connectivity_tree.length =
    (posthoc_state sort G cores i).tree.prev_max_parent
  tree_length_le : (posthoc_state sort G cores i).tree.connectivity_tree.length ≤
    (posthoc_state sort G cores i).tree.prev_max_parent
  node_active : ∀ l, l < G.n → first_current_core sort G cores i ≤ cores.getD l 0 →
    (posthoc_state sort G cores i).tree.prev_max_parent ≤
      (posthoc_state sort G cores (i + 1)).tree.prev_parent.getD l 0 ∧
    (posthoc_state sort G cores (i + 1)).tree.prev_parent.getD l 0 <
      (posthoc_state sort G cores (i + 1)).tree.prev_max_parent
  node_inactive : ∀ l, l < G.n → cores.getD l 0 < first_current_core sort G cores i →
    (posthoc_state sort G cores (i + 1)).tree.prev_parent.getD l 0 = l
  node_eq : ∀ l l2, l < G.n → l2 < G.n →
    first_current_core sort G cores i ≤ cores.getD l 0 →
    first_current_core sort G cores i ≤ cores.getD l2 0 →
    ((posthoc_state sort G cores (i + 1)).tree.prev_parent.getD l 0 =
        (posthoc_state sort G cores (i + 1)).tree.prev_parent.getD l2 0 ↔
      (posthoc_state sort G cores (i + 1)).uf.getD l 0 =
        (posthoc_state sort G cores (i + 1)).uf.getD l2 0)
  prev_lt : ∀ l, l < G.n → first_current_core sort G cores i ≤ cores.getD l 0 →
    (posthoc_state sort G cores i).tree.prev_parent.getD l 0 <
      (posthoc_state sort G cores i).tree.prev_max_parent
  prev_old : ∀ l, l < G.n → first_current_core sort G cores i < cores.getD l 0 →
    G.n ≤ (posthoc_state sort G cores i).tree.prev_parent.getD l 0
  prev_new : ∀ l, l < G.n → cores.getD l 0 ≤ first_current_core sort G cores i →
    (posthoc_state sort G cores i).tree.prev_parent.getD l 0 = l
  tie : ∀ l, l < G.n → first_current_core sort G cores i ≤ cores.getD l 0 →
    ∀ d, (posthoc_state sort G cores (i + 1)).tree.connectivity_tree.getD
      ((posthoc_state sort G cores i).tree.prev_parent.getD l 0) d =
      (posthoc_state sort G cores (i + 1)).tree.prev_parent.getD l 0
  frame : ∀ j, j < (posthoc_state sort G cores i).tree.connectivity_tree.length →
    (∀ l, l < G.n → first_current_core sort G cores i ≤ cores.getD l 0 →
      (posthoc_state sort G cores i).tree.prev_parent.getD l 0 ≠ j) →
    ∀ d, (posthoc_state sort G cores (i + 1)).tree.connectivity_tree.getD j d =
      (posthoc_state sort G cores i).tree.connectivity_tree.getD j d

/-- The pairs `(u, v)` for which one iteration of the loop of `KCore` calls
`connect_while_peeling.link(u, v, cores_func)`, in the order of the calls: for each vertex
`u` of `active` and each stored neighbour `v` of `u` with `u ≠ v` and `D[v] ≤ k`. -/
def round_pairs (G : Graph) (D : List Nat) (active : List Nat) (k : Nat) : List (Nat × Nat) :=
  active.flatMap (fun u =>
    ((G.out_neighbors u).filter (fun e => decide (u ≠ e.1 ∧ D.getD e.1 0 ≤ k))).map
      (fun e => (u, e.1)))

/-- The edges between finished vertices of `D` at least `c`, for the identifiers `b` still
held by the bucket structure. -/
def peeled_edge (G : Graph) (D b : List Nat) (c : Nat) (x y : Nat) : Prop :=
  (∃ w, (x, y, w) ∈ G.edges) ∧ x ∉ b ∧ y ∉ b ∧ c ≤ D.getD x 0 ∧ c ≤ D.getD y 0

/-- The step from an index of the tree `T` to its parent: the index is a slot of the tree and
the slot does not hold `NONE`. -/
def parent_step (T : List Nat) (x y : Nat) : Prop :=
  x < T.length ∧ T.getD x UINT_E_MAX = y ∧ y ≠ UINT_E_MAX

/-- The proper ancestors of the index `u` in the tree `T`: the indices that the walk along the
parents visits after `u`. -/
def ancestors (T : List Nat) (u : Nat) : List Nat :=
  ((parent_walk T (T.length + 1) u).getD []).tail

/-- The vertices `u` and `v` have a common ancestor at the level `c` of the tree `T` on `n`
vertices with the core numbers `D`: a node above both of them that is above vertices of core
number at least `c` only. -/
def common_ancestor_at (T D : List Nat) (n c u v : Nat) : Prop :=
  ∃ a, a ∈ ancestors T u ∧ a ∈ ancestors T v ∧
    ∀ w, w < n → a ∈ ancestors T w → c ≤ D.getD w 0

/-- The edges of the structure kept by an `EfficientConnectWhilePeeling` object among the
vertices of core number at least `t`: a vertex and its root, and a root and its link. -/
def struct_edge (cores : Nat → Nat) (s : EfficientConnectWhilePeeling) (t : Nat)
    (x y : Nat) : Prop :=
  x < s.uf.length ∧ x ≠ y ∧ t ≤ cores x ∧ t ≤ cores y ∧
    (s.uf.getD x 0 = y ∨
      (s.uf.getD x 0 = x ∧ s.links.getD x UINT_E_MAX = y ∧ y ≠ UINT_E_MAX))

/-- The edges of the structure kept by an `EfficientConnectWhilePeeling` object among the
vertices of core number at least `t`, with the pair `(a, b)` added when both have such a core
number. -/
def struct_edge_with (cores : Nat → Nat) (s : EfficientConnectWhilePeeling) (t a b : Nat)
    (x y : Nat) : Prop :=
  struct_edge cores s t x y ∨ (t ≤ cores a ∧ t ≤ cores b ∧ x = a ∧ y = b)

/-- The invariant of the `EfficientConnectWhilePeeling` object at the start of an iteration of
the loop of `KCore`: the invariant of the object for the entries of `D` as core numbers and
the vertices outside the bucket structure as peeled vertices, and at every threshold `t` the
structure joins two vertices exactly when a path of edges between finished vertices of `D` at
least `t` joins them. -/
def EfficientRep (G : Graph) (s : KCoreState (Option EfficientConnectWhilePeeling)) : Prop :=
  ∃ e, s.connect_while_peeling = some e ∧
    EfficientInv G.n (fun a => s.D.getD a 0) (fun a => a ∉ s.b) e ∧
    ∀ t x y, Relation.EqvGen (struct_edge (fun a => s.D.getD a 0) e t) x y ↔
      Relation.EqvGen (peeled_edge G s.D s.b t) x y

/-- The shape of the tree of the efficient inline variant for the union-find array and the
links of an `EfficientConnectWhilePeeling` object: the parent of a vertex is a node; the tree
has fewer slots than the sentinel; two vertices have one parent exactly when they have one
root; the slot of the node of a root holds the node of the vertex that the root is linked to,
or `NONE` when it has no link; and every node is the node of a root. -/
structure EfficientTree (n : Nat) (e : EfficientConnectWhilePeeling) (T : List Nat) :
    Prop where
  leaf : ∀ v, v < n → n ≤ T.getD v 0 ∧ T.getD v 0 < T.length
  size : T.length < UINT_E_MAX
  same : ∀ u v, u < n → v < n → (T.getD u 0 = T.getD v 0 ↔ e.uf.getD u 0 = e.uf.getD v 0)
  node : ∀ r, r < n → e.uf.getD r 0 = r →
    T.getD (T.getD r 0) 0 =
      if e.links.getD r UINT_E_MAX ≠ UINT_E_MAX then T.getD (e.links.getD r UINT_E_MAX) 0
      else UINT_E_MAX
  root : ∀ j, n ≤ j → j < T.length → ∃ r, r < n ∧ e.uf.getD r 0 = r ∧ T.getD r 0 = j

/-- Modelled from the spec: the labeling that `gbbs::workefficient_cc::CC` (not under `src/`)
returns for the graph on `n` vertices with the edge sequence `edges`, as the data model of
the spec describes it: one label per vertex; the label of a vertex is the id of a vertex of
its connected component, the representative; and two vertices have one label exactly when a
path of edges joins them. -/
def IsRepresentativeLabeling (n : Nat) (edges : List (Nat × Nat)) (labels : List Nat) :
    Prop :=
  labels.length = n ∧
  (∀ v, v < n → labels.getD v 0 < n ∧
    Relation.EqvGen (fun a b => (a, b) ∈ edges) v (labels.getD v 0)) ∧
  ∀ u v, u < n → v < n →
    (labels.getD u 0 = labels.getD v 0 ↔ Relation.EqvGen (fun a b => (a, b) ∈ edges) u v)

/-- The method `EfficientConnectWhilePeeling::link` from the statement after its two calls of
`find_compress`, with the local variables `a` and `b` holding the roots that those calls have
read: the rest of a call of `link` that was interrupted at this point while other calls of
the parallel `vertexMap` ran. The nested calls run by `EfficientConnectWhilePeeling.link`
with at most `fuel` nested calls. -/
def EfficientConnectWhilePeeling.link_after_find (cores : Nat → Nat) (fuel a b : Nat)
    (s : EfficientConnectWhilePeeling) : Option EfficientConnectWhilePeeling :=
  if cores a = cores b then
    (if s.links.getD a UINT_E_MAX ≠ UINT_E_MAX ∧
        find_compress a (unite_impl a b s.uf) ≠ a then
      EfficientConnectWhilePeeling.link cores fuel (s.links.getD a UINT_E_MAX)
        (find_compress a (unite_impl a b s.uf)) ⟨unite_impl a b s.uf, s.links⟩
    else some ⟨unite_impl a b s.uf, s.links⟩).bind
      (fun s2 =>
        if s.links.getD b UINT_E_MAX ≠ UINT_E_MAX ∧
            find_compress a (unite_impl a b s.uf) ≠ b then
          EfficientConnectWhilePeeling.link cores fuel (s.links.getD b UINT_E_MAX)
            (find_compress a (unite_impl a b s.uf)) s2
        else some s2)
  else if cores a < cores b then
    if s.links.getD b UINT_E_MAX = UINT_E_MAX then some ⟨s.uf, s.links.set b a⟩
    else if cores (s.links.getD b UINT_E_MAX) < cores a then
      (if b ≠ find_compress b s.uf then
        EfficientConnectWhilePeeling.link cores fuel a (find_compress b s.uf)
          ⟨s.uf, s.links.set b a⟩
      else some ⟨s.uf, s.links.set b a⟩).bind
        (fun s2 =>
          EfficientConnectWhilePeeling.link cores fuel a (s.links.getD b UINT_E_MAX) s2)
    else EfficientConnectWhilePeeling.link cores fuel a (s.links.getD b UINT_E_MAX) s
  else EfficientConnectWhilePeeling.link cores fuel b a s

/-- The complete graph on the vertices `1..4` with the pendant edge `0 – 2`; the neighbours
are stored in increasing order. -/
def K4pendant2 : Graph :=
  unweightedGraph [[2], [2, 3, 4], [0, 1, 3, 4], [1, 2, 4], [1, 2, 3]]

/-- An interleaving of the calls of `link` that the parallel `vertexMap` of `KCore` issues in
the iteration of the bucket `3` on `K4pendant2`, from the state `s` of the object. The call
`link(2, 0)` of the vertex `2` passes to `link(0, 2)`, which reads the roots `0` and `2` and
is interrupted; the call `link(1, 2)` of the vertex `1` runs to its end; the interrupted call
goes on with the roots it has read; the other calls `link(u, v)` then run one at a time. -/
def raced_links (cores : Nat → Nat) (fuel : Nat) (s : EfficientConnectWhilePeeling) :
    Option EfficientConnectWhilePeeling :=
  [((1 : Nat), (3 : Nat)), (1, 4), (2, 1), (2, 3), (2, 4), (3, 1), (3, 2), (3, 4), (4, 1),
    (4, 2), (4, 3)].foldl
    (fun c e => c.bind (EfficientConnectWhilePeeling.link cores fuel e.1 e.2))
    ((EfficientConnectWhilePeeling.link cores fuel 1 2 s).bind
      (EfficientConnectWhilePeeling.link_after_find cores fuel
        (find_compress 0 s.uf) (find_compress 2 s.uf)))

/-- Whether two vertices have a common ancestor at a level can be computed. -/
instance instDecidableCommonAncestorAt (T D : List Nat) (n c u v : Nat) :
    Decidable (common_ancestor_at T D n c u v) := by
  unfold common_ancestor_at
  infer_instance

/-! ## Binary floating-point arithmetic -/

/-- A value of an IEEE-754 binary floating-point type: a finite number, given by its exact
rational value (the two zeros are one value), an infinity with its sign, or a NaN. -/
inductive FloatVal where
  | finite (q : ℚ)
  | infinite (negative : Bool)
  | nan
deriving DecidableEq, Repr

/-- The power `2 ^ k` for an integer exponent. -/
def pow2 (k : Int) : ℚ :=
  if 0 ≤ k then ((2 ^ k.toNat : Nat) : ℚ) else 1 / ((2 ^ (-k).toNat : Nat) : ℚ)

/-- The number of binary digits of `n`, computed with at most `fuel` halvings. -/
def bit_length : Nat → Nat → Nat
  | 0, _ => 0
  | fuel + 1, n => if n = 0 then 0 else bit_length fuel (n / 2) + 1

/-- The exponent of the largest power of two that is at most `|q|`, for `q ≠ 0`. -/
def floor_log2 (q : ℚ) : Int :=
  if pow2 ((bit_length q.num.natAbs q.num.natAbs : Int) - (bit_length q.den q.den : Int)) ≤
      |q| then
    (bit_length q.num.natAbs q.num.natAbs : Int) - (bit_length q.den q.den : Int)
  else (bit_length q.num.natAbs q.num.natAbs : Int) - (bit_length q.den q.den : Int) - 1

/-- The integer nearest to `x`, the even one of the two when `x` lies halfway. -/
def round_half_even (x : ℚ) : Int :=
  if x - (Rat.floor x : ℚ) < 1 / 2 then Rat.floor x
  else if 1 / 2 < x - (Rat.floor x : ℚ) then Rat.floor x + 1
  else if Rat.floor x % 2 = 0 then Rat.floor x else Rat.floor x + 1

/-- The exponent of the unit in the last place of the numbers of the size of `q` in the
binary format with `p` digits and least exponent `emin`: the numbers of the format near `q`
are the multiples of `2 ^ ulp_exp`. -/
def ulp_exp (p : Nat) (emin : Int) (q : ℚ) : Int :=
  max (floor_log2 q - ((p : Int) - 1)) (emin - ((p : Int) - 1))

/-- The rounding of the real number `q` to the binary format with `p` digits and the exponent
range `emin .. emax`, to nearest with ties to even: the nearest multiple of the unit in the
last place, or an infinity when that is beyond the largest finite number. -/
def binary_round (p : Nat) (emin emax : Int) (q : ℚ) : FloatVal :=
  if pow2 (emax + 1) ≤
      |(round_half_even (q / pow2 (ulp_exp p emin q)) : ℚ) * pow2 (ulp_exp p emin q)| then
    .infinite (decide (q < 0))
  else .finite ((round_half_even (q / pow2 (ulp_exp p emin q)) : ℚ) * pow2 (ulp_exp p emin q))

/-- The rounding to the type `float` (binary32). -/
def round32 (q : ℚ) : FloatVal := binary_round 24 (-126) 127 q

/-- The rounding to the type `double` (binary64). -/
def round64 (q : ℚ) : FloatVal := binary_round 53 (-1022) 1023 q

/-- The sum of two floating-point values, rounded by `round`. -/
def FloatVal.add (round : ℚ → FloatVal) : FloatVal → FloatVal → FloatVal
  | .nan, _ => .nan
  | _, .nan => .nan
  | .infinite a, .infinite b => if a = b then .infinite a else .nan
  | .infinite a, .finite _ => .infinite a
  | .finite _, .infinite b => .infinite b
  | .finite x, .finite y => round (x + y)

/-- The negation of a floating-point value. -/
def FloatVal.neg : FloatVal → FloatVal
  | .nan => .nan
  | .infinite a => .infinite (!a)
  | .finite x => .finite (-x)

/-- The difference of two floating-point values, rounded by `round`. -/
def FloatVal.sub (round : ℚ → FloatVal) (a b : FloatVal) : FloatVal :=
  FloatVal.add round a b.neg

/-- The product of two floating-point values, rounded by `round`. -/
def FloatVal.mul (round : ℚ → FloatVal) : FloatVal → FloatVal → FloatVal
  | .nan, _ => .nan
  | _, .nan => .nan
  | .infinite a, .infinite b => .infinite (a != b)
  | .infinite a, .finite y => if y = 0 then .nan else .infinite (a != decide (y < 0))
  | .finite x, .infinite b => if x = 0 then .nan else .infinite (decide (x < 0) != b)
  | .finite x, .finite y => round (x * y)

/-- The quotient of two floating-point values, rounded by `round`; the divisor zero is the
positive zero. -/
def FloatVal.div (round : ℚ → FloatVal) : FloatVal → FloatVal → FloatVal
  | .nan, _ => .nan
  | _, .nan => .nan
  | .infinite _, .infinite _ => .nan
  | .infinite a, .finite y => .infinite (a != decide (y < 0))
  | .finite _, .infinite _ => .finite 0
  | .finite x, .finite y =>
    if y = 0 then (if x = 0 then .nan else .infinite (decide (x < 0))) else round (x / y)

/-- The comparison `a < b` of two floating-point values; it is false when one is a NaN. -/
def FloatVal.lt : FloatVal → FloatVal → Bool
  | .nan, _ => false
  | _, .nan => false
  | .infinite a, .infinite b => a && !b
  | .infinite a, .finite _ => a
  | .finite _, .infinite b => !b
  | .finite x, .finite y => decide (x < y)

/-- The function `std::min(a, b)`: `b` when `b < a`, and `a` otherwise. -/
def FloatVal.min (a b : FloatVal) : FloatVal := if FloatVal.lt b a then b else a

/-- The function `std::max(a, b)`: `b` when `a < b`, and `a` otherwise. -/
def FloatVal.max (a b : FloatVal) : FloatVal := if FloatVal.lt a b then b else a

/-- The conversion of a value to the type `float`: a finite value is rounded. -/
def FloatVal.to32 : FloatVal → FloatVal
  | .finite x => round32 x
  | v => v

/-- The rational number `q` is a finite number of the binary format with `p` digits and the
exponent range `emin .. emax`: an integer of fewer than `p` binary digits times a power of
two that is at least the least unit in the last place, below `2 ^ (emax + 1)` in size. -/
def IsBinary (p : Nat) (emin emax : Int) (q : ℚ) : Prop :=
  ∃ m e : Int, |m| < 2 ^ p ∧ emin - ((p : Int) - 1) ≤ e ∧ q = (m : ℚ) * pow2 e ∧
    |q| < pow2 (emax + 1)

/-! ## CompressGraph in `float` arithmetic -/

/-- The weight `w` is a finite `float`: the rounding to `float` leaves it unchanged. -/
def IsFloat32 (w : ℚ) : Prop := round32 w = .finite w

/-- Whether a rational number is a finite `float` can be computed. -/
instance instDecidableIsFloat32 (w : ℚ) : Decidable (IsFloat32 w) := by
  unfold IsFloat32
  infer_instance

/-- Every stored weight of the graph is a finite `float`. -/
def Graph.IsFloat32 (G : Graph) : Prop := ∀ e ∈ G.edges, ParClusterers.IsFloat32 e.2.2

/-- Whether every stored weight is a finite `float` can be computed. -/
instance Graph.instDecidableIsFloat32 (G : Graph) : Decidable G.IsFloat32 := by
  unfold Graph.IsFloat32
  infer_instance

/-- A weighted graph `gbbs::symmetric_ptr_graph<gbbs::symmetric_vertex, float>` as the
`float` arithmetic of the source leaves it: its weights may be infinities or NaNs. -/
structure F32.Graph where
  adj : List (List (Nat × FloatVal))
deriving DecidableEq, Repr

/-- The field `G.n`: the number of vertices. -/
def F32.Graph.n (G : F32.Graph) : Nat := G.adj.length

/-- The call `G.get_vertex(i).out_neighbors()`: the incident edges of `i` in storage order. -/
def F32.Graph.out_neighbors (G : F32.Graph) (i : Nat) : List (Nat × FloatVal) :=
  G.adj.getD i []

/-- The function `edge_aggregation_func` chosen by the switch, in `float` arithmetic:
`std::max(w1, w2)` or `w1 + w2`. -/
def F32.edge_aggregation_func : EdgeAggregation → FloatVal → FloatVal → FloatVal
  | .MAX => fun w1 w2 => FloatVal.max w1 w2
  | _ => fun w1 w2 => FloatVal.add round32 w1 w2

/-- The function `scale_func` chosen by the switch, applied to `(u, v, weight)`, in `float`
arithmetic. The scaling factor of `DEFAULT_AVERAGE` is a product of two `gbbs::uintE`, taken
in 32-bit unsigned arithmetic and then converted to `float`; the one of `CUT_SPARSITY` is
the smaller of two `gbbs::uintE` converted to `float`. -/
def F32.scale_func (edge_aggregation : EdgeAggregation) (original_node_weights : List Nat)
    (v : Nat × Nat × FloatVal) : FloatVal :=
  match edge_aggregation with
  | .DEFAULT_AVERAGE =>
    if original_node_weights.isEmpty then v.2.2
    else FloatVal.mul round32 v.2.2
      (round32 (((original_node_weights.getD v.1 0 *
        original_node_weights.getD v.2.1 0) % UINT_E_MOD : Nat) : ℚ))
  | .CUT_SPARSITY =>
    if original_node_weights.isEmpty then v.2.2
    else FloatVal.mul round32 v.2.2
      (round32 ((min (original_node_weights.getD v.1 0)
        (original_node_weights.getD v.2.1 0) : Nat) : ℚ))
  | _ => v.2.2

/-- Modelled from the spec: the contributions retrieved by `ComputeInterClusterEdgesSort`
(declared in `parcluster/api/parallel/parallel-graph-utils.h`), with `float` values. Each
original edge `(u, v, w)` whose endpoints both have a label and whose labels pass
`is_valid_func` contributes `scale_func (u, v, w)` to the pair of its labels. -/
def F32.RetrieveInterClusterEdges (G : ParClusterers.Graph) (cluster_ids : List Nat)
    (is_valid_func : Nat → Nat → Bool) (scale_func : Nat × Nat × FloatVal → FloatVal) :
    List (Nat × Nat × FloatVal) :=
  G.edges.filterMap (fun e =>
    if cluster_ids.getD e.1 UINT_E_MAX ≠ UINT_E_MAX ∧
        cluster_ids.getD e.2.1 UINT_E_MAX ≠ UINT_E_MAX ∧
        is_valid_func (cluster_ids.getD e.1 UINT_E_MAX) (cluster_ids.getD e.2.1 UINT_E_MAX)
    then some (cluster_ids.getD e.1 UINT_E_MAX, cluster_ids.getD e.2.1 UINT_E_MAX,
      scale_func (e.1, e.2.1, .finite e.2.2))
    else none)

/-- The contributions to one pair `(c1, c2)` combined by the aggregation function, from left
to right in the order of the original edges. The spec leaves the order open; it does not
matter for a pair with one contribution. -/
def F32.aggregate_weights (f : FloatVal → FloatVal → FloatVal) : List FloatVal → FloatVal
  | [] => .finite 0
  | w :: ws => ws.foldl f w

/-- The `float` values contributed to the pair `(c1, c2)`. -/
def F32.contributions_to (contributions : List (Nat × Nat × FloatVal)) (c1 c2 : Nat) :
    List FloatVal :=
  (contributions.filter (fun e => decide (e.1 = c1) && decide (e.2.1 = c2))).map
    (fun e => e.2.2)

/-- Modelled from the spec: `ComputeInterClusterEdgesSort` (declared in
`parcluster/api/parallel/parallel-graph-utils.h`), with `float` values. The contributions
that map to the same pair `(c1, c2)` are aggregated into one edge; the edges come ordered by
`(c1, c2)`, which stands for the returned offsets and edge array. -/
def F32.ComputeInterClusterEdgesSort (G : ParClusterers.Graph) (cluster_ids : List Nat)
    (num_compressed_vertices : Nat) (aggregate_func : FloatVal → FloatVal → FloatVal)
    (is_valid_func : Nat → Nat → Bool) (scale_func : Nat × Nat × FloatVal → FloatVal) :
    List (Nat × Nat × FloatVal) :=
  (List.range num_compressed_vertices).flatMap (fun c1 =>
    (List.range num_compressed_vertices).filterMap (fun c2 =>
      if (F32.contributions_to
          (F32.RetrieveInterClusterEdges G cluster_ids is_valid_func scale_func) c1 c2).isEmpty
      then none
      else some (c1, c2, F32.aggregate_weights aggregate_func
        (F32.contributions_to
          (F32.RetrieveInterClusterEdges G cluster_ids is_valid_func scale_func) c1 c2))))

/-- Modelled from the spec: `MakeGbbsGraph` (declared in
`parcluster/api/parallel/parallel-graph-utils.h`): the graph with `n` vertices whose vertex
`c` stores the edges of source `c`, in the order of the edge array. -/
def F32.MakeGbbsGraph (n : Nat) (edges : List (Nat × Nat × FloatVal)) : F32.Graph :=
  ⟨(List.range n).map (fun c =>
    (edges.filter (fun e => decide (e.1 = c))).map (fun e => (e.2.1, e.2.2)))⟩

/-- The `float` variable `scaling_factor` of the loop that scales the edge weights, for the
edge from `i` to `c`: for `DEFAULT_AVERAGE` the product of two `gbbs::uintE`, taken in
32-bit unsigned arithmetic and then converted to `float`; for `CUT_SPARSITY` the smaller of
two `gbbs::uintE` converted to `float`; it stays `0` for the other aggregations. -/
def F32.scaling_factor (edge_aggregation : EdgeAggregation) (node_weights : List Nat)
    (i c : Nat) : FloatVal :=
  match edge_aggregation with
  | .DEFAULT_AVERAGE =>
    round32 (((node_weights.getD i 0 * node_weights.getD c 0) % UINT_E_MOD : Nat) : ℚ)
  | .CUT_SPARSITY => round32 ((min (node_weights.getD i 0) (node_weights.getD c 0) : Nat) : ℚ)
  | _ => .finite 0

/-- The body of the loop that scales the edge weights: the edge `(i, c, w)` becomes
`(i, c, w / scaling_factor)`, a `float` division. -/
def F32.scale_edge (edge_aggregation : EdgeAggregation) (node_weights : List Nat)
    (e : Nat × Nat × FloatVal) : Nat × Nat × FloatVal :=
  (e.1, e.2.1,
    FloatVal.div round32 e.2.2 (F32.scaling_factor edge_aggregation node_weights e.1 e.2.1))

/-- The function `CompressGraph` in `float` arithmetic, for a graph whose stored weights are
finite `float` values; the result `GraphWithWeights` is the pair of the compressed graph and
its node weights. -/
def F32.CompressGraph (original_graph : ParClusterers.Graph)
    (original_node_weights cluster_ids : List Nat)
    (edge_aggregation : EdgeAggregation) : Except Status (F32.Graph × List Nat) :=
  if edge_aggregation = .PERCENTILE then
    .error (.Unimplemented
      "PERCENTILE aggregation for parallel affinity clusterer is unimplemented.")
  else
    if edge_aggregation = .SUM ∨ edge_aggregation = .MAX then
      .ok (F32.MakeGbbsGraph (num_compressed_vertices cluster_ids)
            (F32.ComputeInterClusterEdgesSort original_graph cluster_ids
              (num_compressed_vertices cluster_ids)
              (F32.edge_aggregation_func edge_aggregation)
              (fun a b => decide (a ≠ b))
              (F32.scale_func edge_aggregation original_node_weights)),
          compressed_node_weights original_graph.n original_node_weights cluster_ids)
    else
      .ok (F32.MakeGbbsGraph (num_compressed_vertices cluster_ids)
            ((F32.ComputeInterClusterEdgesSort original_graph cluster_ids
              (num_compressed_vertices cluster_ids)
              (F32.edge_aggregation_func edge_aggregation)
              (fun a b => decide (a ≠ b))
              (F32.scale_func edge_aggregation original_node_weights)).map
              (F32.scale_edge edge_aggregation
                (compressed_node_weights original_graph.n original_node_weights cluster_ids))),
          compressed_node_weights original_graph.n original_node_weights cluster_ids)

/-- Two vertices of node weights `1` and `3` joined by an edge whose weight is the `float`
nearest to `0.9`. -/
def edge09 : Graph := ⟨[[(1, 7549747 / 8388608)], [(0, 7549747 / 8388608)]]⟩

/-- The `float` that `CompressGraph` returns for the stored edge `(u, v, w)` under the
identity labeling: the contribution `scale_func (u, v, w)`, divided by the scaling factor of
the node weights `nw` unless the aggregation is `SUM` or `MAX`. -/
def F32.identity_weight (edge_aggregation : EdgeAggregation)
    (original_node_weights nw : List Nat) (u v : Nat) (w : ℚ) : FloatVal :=
  if edge_aggregation = .SUM ∨ edge_aggregation = .MAX then
    F32.scale_func edge_aggregation original_node_weights (u, v, .finite w)
  else
    FloatVal.div round32
      (F32.scale_func edge_aggregation original_node_weights (u, v, .finite w))
      (F32.scaling_factor edge_aggregation nw u v)

/-- The factor `F` of the edge `e = (u, v, w)` is exact: it is not `0`, it is a `float`, and
the product `w * F` is a `float`. -/
def ExactFactor (F : Nat) (w : ℚ) : Prop :=
  F ≠ 0 ∧ IsFloat32 (F : ℚ) ∧ IsFloat32 (w * (F : ℚ))

/-- Whether a factor is exact can be computed. -/
instance instDecidableExactFactor (F : Nat) (w : ℚ) : Decidable (ExactFactor F w) := by
  unfold ExactFactor
  infer_instance

/-! ## ComputeFinishedClusterStats in `float` arithmetic -/

/-- The struct `PerVertexClusterStats` with its `float` fields. -/
structure F32.PerVertexClusterStats where
  cluster_id : Nat
  volume : FloatVal
  intra_cluster_weight : FloatVal
  inter_cluster_weight : FloatVal
deriving DecidableEq, Repr

/-- The struct `internal::ClusterStats` with its `float` fields, built by
`ClusterStats(density, conductance)`. -/
structure F32.ClusterStats where
  density : FloatVal
  conductance : FloatVal
deriving DecidableEq, Repr

/-- Modelled from the spec: the contract of `parallel::Reduce` (declared in
`parcluster/api/parallel/parallel-sequence-ops.h`) for a combiner that need not be
associative, as `float` addition is not: the result is computed in some tree shape over the
sequence, in which the identity may be combined in at any place. -/
def IsReduce {α : Type} (reduce : (α → α → α) → α → List α → α) : Prop :=
  ∀ f identity a, ∃ t : ReduceTree α, t.leaves = a ∧ reduce f identity a = t.eval f identity

/-- The contract of `out_neighbors().reduce(map_f, parlay::addm<float>())` of gbbs: the
`float` sum of the mapped weights, added in some tree shape over the stored neighbours, in
which the identity `0` of the monoid may be added at any place. -/
def IsNeighborReduce (reduce : List FloatVal → FloatVal) : Prop :=
  ∀ a, ∃ t : ReduceTree FloatVal, t.leaves = a ∧
    reduce a = t.eval (FloatVal.add round32) (.finite 0)

/-- The statistics that the first `parallel_for` of `ComputeFinishedClusterStats` stores
for vertex `i`, in `float` arithmetic; `reduce` is `out_neighbors().reduce` with `addm`. -/
def F32.per_vertex_cluster_stats (reduce : List FloatVal → FloatVal) (G : ParClusterers.Graph)
    (cluster_ids : List Nat) (i : Nat) : F32.PerVertexClusterStats :=
  if cluster_ids.getD i UINT_E_MAX = UINT_E_MAX then
    ⟨cluster_ids.getD i UINT_E_MAX,
      reduce ((G.out_neighbors i).map (fun e => FloatVal.finite e.2)), .finite 0, .finite 0⟩
  else
    ⟨cluster_ids.getD i UINT_E_MAX,
      reduce ((G.out_neighbors i).map (fun e => FloatVal.finite e.2)),
      reduce ((G.out_neighbors i).map (fun e =>
        if cluster_ids.getD i UINT_E_MAX = cluster_ids.getD e.1 UINT_E_MAX ∧ e.1 ≤ i then
          FloatVal.finite e.2
        else FloatVal.finite 0)),
      reduce ((G.out_neighbors i).map (fun e =>
        if cluster_ids.getD i UINT_E_MAX ≠ cluster_ids.getD e.1 UINT_E_MAX then
          FloatVal.finite e.2
        else FloatVal.finite 0))⟩

/-- The vector `cluster_stats` after the first `parallel_for`. -/
def F32.cluster_stats (reduce : List FloatVal → FloatVal) (G : ParClusterers.Graph)
    (cluster_ids : List Nat) : List F32.PerVertexClusterStats :=
  (List.range G.n).map (F32.per_vertex_cluster_stats reduce G cluster_ids)

/-- The combiner of the reduction that computes the total graph volume. -/
def F32.volume_combiner (a b : F32.PerVertexClusterStats) : F32.PerVertexClusterStats :=
  ⟨0, FloatVal.add round32 a.volume b.volume, .finite 0, .finite 0⟩

/-- The combiner of the reduction over the statistics of one cluster. -/
def F32.stats_combiner (a b : F32.PerVertexClusterStats) : F32.PerVertexClusterStats :=
  ⟨0, FloatVal.add round32 a.volume b.volume,
    FloatVal.add round32 a.intra_cluster_weight b.intra_cluster_weight,
    FloatVal.add round32 a.inter_cluster_weight b.inter_cluster_weight⟩

/-- The comparator of the sort in `ComputeFinishedClusterStats`: by cluster id. -/
def F32.cluster_id_less (a b : F32.PerVertexClusterStats) : Bool :=
  decide (a.cluster_id < b.cluster_id)

/-- The `float` variable `denominator` of `ComputeFinishedClusterStats`:
`std::min(volume, graph_volume - volume)`. -/
def F32.denominator (volume graph_volume : FloatVal) : FloatVal :=
  FloatVal.min volume (FloatVal.sub round32 graph_volume volume)

/-- The statistics of one cluster computed from its size `cluster_size`, the reduced
statistics `stats_sum` of its vertices and the total graph volume. The density is the
`float` sum `intra_cluster_weight` divided in `double` arithmetic by the `double` quotient
by `2.0` of the `float` product of `cluster_size` and `cluster_size - 1`, converted to
`float`. The conductance, stored under the name `inter_cluster_weight`, is `1.0` when the
`float` denominator is below the `double` constant `1e-6`, and the `float` quotient
otherwise. -/
def F32.finished_cluster_stats (cluster_size : Nat) (stats_sum : F32.PerVertexClusterStats)
    (graph_volume : FloatVal) : F32.ClusterStats :=
  ⟨if 2 ≤ cluster_size then
      FloatVal.to32 (FloatVal.div round64 stats_sum.intra_cluster_weight
        (FloatVal.div round64
          (FloatVal.mul round32 (round32 (cluster_size : ℚ))
            (round32 ((cluster_size - 1 : Nat) : ℚ)))
          (.finite 2)))
    else .finite 0,
   if FloatVal.lt (F32.denominator stats_sum.volume graph_volume) (round64 (1 / 1000000)) then
      .finite 1
    else FloatVal.div round32 stats_sum.inter_cluster_weight
      (F32.denominator stats_sum.volume graph_volume)⟩

/-- The body of the second `parallel_for` of `ComputeFinishedClusterStats` for the run `i`
of the sorted statistics, from `start_id_index` to `end_id_index`; the runs write different
slots of `aggregate_cluster_stats`. -/
def F32.aggregate_run
    (Reduce : (F32.PerVertexClusterStats → F32.PerVertexClusterStats →
      F32.PerVertexClusterStats) → F32.PerVertexClusterStats →
      List F32.PerVertexClusterStats → F32.PerVertexClusterStats)
    (cluster_stats_sort : List F32.PerVertexClusterStats)
    (filtered_mark_ids : List Nat) (graph_volume : FloatVal)
    (aggregate_cluster_stats : List F32.ClusterStats) (i : Nat) : List F32.ClusterStats :=
  if (cluster_stats_sort.getD (filtered_mark_ids.getD i 0)
      ⟨0, .finite 0, .finite 0, .finite 0⟩).cluster_id ≠ UINT_E_MAX then
    aggregate_cluster_stats.set
      (cluster_stats_sort.getD (filtered_mark_ids.getD i 0)
        ⟨0, .finite 0, .finite 0, .finite 0⟩).cluster_id
      (F32.finished_cluster_stats
        (filtered_mark_ids.getD (i + 1) 0 - filtered_mark_ids.getD i 0)
        (Reduce F32.stats_combiner ⟨0, .finite 0, .finite 0, .finite 0⟩
          ((cluster_stats_sort.drop (filtered_mark_ids.getD i 0)).take
            (filtered_mark_ids.getD (i + 1) 0 - filtered_mark_ids.getD i 0)))
        graph_volume)
  else aggregate_cluster_stats

/-- The function `internal::ComputeFinishedClusterStats` in `float` arithmetic, for a graph
whose stored weights are finite `float` values, for the sample sort `sort`, the reduction
`reduce` over the stored neighbours of a vertex and the reduction `Reduce` of
`parallel::Reduce`. -/
def F32.ComputeFinishedClusterStats
    (sort : List F32.PerVertexClusterStats → List F32.PerVertexClusterStats)
    (reduce : List FloatVal → FloatVal)
    (Reduce : (F32.PerVertexClusterStats → F32.PerVertexClusterStats →
      F32.PerVertexClusterStats) → F32.PerVertexClusterStats →
      List F32.PerVertexClusterStats → F32.PerVertexClusterStats)
    (G : ParClusterers.Graph) (cluster_ids : List Nat) (num_compressed_vertices : Nat) :
    List F32.ClusterStats :=
  (List.range
    ((GetBoundaryIndices G.n (fun i j =>
      decide (((sort (F32.cluster_stats reduce G cluster_ids)).getD i
          ⟨0, .finite 0, .finite 0, .finite 0⟩).cluster_id =
        ((sort (F32.cluster_stats reduce G cluster_ids)).getD j
          ⟨0, .finite 0, .finite 0, .finite 0⟩).cluster_id))).length - 1)).foldl
    (F32.aggregate_run Reduce (sort (F32.cluster_stats reduce G cluster_ids))
      (GetBoundaryIndices G.n (fun i j =>
        decide (((sort (F32.cluster_stats reduce G cluster_ids)).getD i
            ⟨0, .finite 0, .finite 0, .finite 0⟩).cluster_id =
          ((sort (F32.cluster_stats reduce G cluster_ids)).getD j
            ⟨0, .finite 0, .finite 0, .finite 0⟩).cluster_id)))
      (Reduce F32.volume_combiner ⟨0, .finite 0, .finite 0, .finite 0⟩
        (F32.cluster_stats reduce G cluster_ids)).volume)
    (List.replicate num_compressed_vertices ⟨.finite 0, .finite 0⟩)

/-- A sequential sort by cluster id that keeps the input order of ties, an instance of
`IsSampleSort F32.cluster_id_less`. -/
def F32.sortByClusterId (l : List F32.PerVertexClusterStats) :
    List F32.PerVertexClusterStats :=
  l.insertionSort (fun a b => a.cluster_id ≤ b.cluster_id)

/-- The `float` sum from left to right, an instance of `IsNeighborReduce`. -/
def F32.sum_left (a : List FloatVal) : FloatVal := a.foldl (FloatVal.add round32) (.finite 0)

/-- The graph of the conductance example: the edge `0 – 1` of weight `8388605.5` and the edge
`0 – 2` of weight `5`. -/
def conductanceGraph : Graph :=
  ⟨[[(1, 16777211 / 2), (2, 5)], [(0, 16777211 / 2)], [(0, 5)]]⟩

/-- The graph of the reduction-order example: the edge `0 – 1` of weight `2 ^ 24` and the
edges `0 – 2` and `0 – 3` of weight `1`. -/
def orderGraph : Graph :=
  ⟨[[(1, 16777216), (2, 1), (3, 1)], [(0, 16777216)], [(0, 1)], [(0, 1)]]⟩

/-- The number `q` is a whole multiple `k * 2 ^ e` of `2 ^ e` with `k ≥ 0`. -/
def IsGridMultiple (e : Int) (q : ℚ) : Prop := 0 ≤ q ∧ (q / pow2 e).den = 1

/-- Whether a number is a non-negative whole multiple of `2 ^ e` is decidable. -/
instance instDecidableIsGridMultiple (e : Int) (q : ℚ) : Decidable (IsGridMultiple e q) :=
  inferInstanceAs (Decidable (0 ≤ q ∧ (q / pow2 e).den = 1))

/-- The finite value of a floating-point value, and `0` for an infinity or a NaN. -/
def FloatVal.toRat : FloatVal → ℚ
  | .finite q => q
  | _ => 0

/-- The per-vertex statistics whose `float` fields hold the given exact values. -/
def exactStats (a : PerVertexClusterStats) : F32.PerVertexClusterStats :=
  ⟨a.cluster_id, .finite a.volume, .finite a.intra_cluster_weight,
    .finite a.inter_cluster_weight⟩

/-! ## Theorems -/

/-- A vertex with a stored incident edge is a vertex of the graph. -/
theorem Graph.lt_n_of_mem_out_neighbors (G : Graph) (i : Nat) (e : Nat × ℚ)
    (he : e ∈ G.out_neighbors i) : i < G.n := by
  by_contra h
  have : G.out_neighbors i = [] := by
    simp only [Graph.out_neighbors, Graph.n] at *
    rw [List.getD_eq_default _ _ (not_lt.1 h)]
  rw [this] at he
  exact absurd he (List.not_mem_nil _)

/-- The stored edges as triples: `(u, v, w)` is an edge when `(v, w)` is stored at `u`. -/
theorem Graph.mem_edges (G : Graph) (u v : Nat) (w : ℚ) :
    (u, v, w) ∈ G.edges ↔ (v, w) ∈ G.out_neighbors u := by
  simp only [Graph.edges, List.mem_flatMap, List.mem_range, List.mem_map, Prod.mk.injEq]
  constructor
  · rintro ⟨a, _, e, he, rfl, rfl, rfl⟩
    exact he
  · intro h
    exact ⟨u, G.lt_n_of_mem_out_neighbors u _ h, (v, w), h, rfl, rfl, rfl⟩

/-- In a well-formed graph every stored neighbour is a vertex. -/
theorem Graph.WellFormed.out_neighbors_lt {G : Graph} (h : G.WellFormed) (i : Nat) :
    ∀ e ∈ G.out_neighbors i, e.1 < G.n :=
  fun e he => h (i, e.1, e.2) ((G.mem_edges i e.1 e.2).2 he)

/-- In a graph without self-loops no vertex stores itself as a neighbour. -/
theorem Graph.NoSelfLoops.out_neighbors_ne {G : Graph} (h : G.NoSelfLoops) (i : Nat) :
    ∀ e ∈ G.out_neighbors i, e.1 ≠ i :=
  fun e he => h (i, e.1, e.2) ((G.mem_edges i e.1 e.2).2 he)

/-- The state reached by the scan is either the initial one, with every scanned edge below
the threshold, or a scanned edge of weight at least the threshold that is the lexicographic
maximum of `(weight, neighbor)` over the scanned edges of weight at least the threshold. -/
theorem scan_neighbors_spec (τ : ℚ) (n : Nat) (es : List (Nat × ℚ))
    (hwf : ∀ e ∈ es, e.1 < n) :
    (scan_neighbors τ n es = (τ, n) ∧ ∀ e ∈ es, e.2 < τ) ∨
    (((scan_neighbors τ n es).2, (scan_neighbors τ n es).1) ∈ es ∧
      τ ≤ (scan_neighbors τ n es).1 ∧
      ∀ e ∈ es, τ ≤ e.2 → e.2 < (scan_neighbors τ n es).1 ∨
        (e.2 = (scan_neighbors τ n es).1 ∧ e.1 ≤ (scan_neighbors τ n es).2)) := by
  induction es using List.reverseRecOn with
  | nil => left; simp [scan_neighbors]
  | append_singleton es e ih =>
    have hwf' : ∀ e ∈ es, e.1 < n := fun x hx => hwf x (by simp [hx])
    have he : e.1 < n := hwf e (by simp)
    have hstep : scan_neighbors τ n (es ++ [e]) =
        find_max_neighbor_func τ n (scan_neighbors τ n es) e := by
      simp [scan_neighbors, List.foldl_append]
    rw [hstep]
    rcases ih hwf' with ⟨h0, hlt⟩ | ⟨hmem, hge, hmax⟩
    · rw [h0]
      by_cases hc : τ ≤ e.2
      · right
        have hcond : (τ < e.2 ∨ (¬ e.2 < τ ∧ n < e.1)) ∨ (e.2 = τ ∧ n = n) := by
          rcases lt_or_eq_of_le hc with h | h
          · exact Or.inl (Or.inl h)
          · exact Or.inr ⟨h.symm, rfl⟩
        have hf : find_max_neighbor_func τ n (τ, n) e = (e.2, e.1) := if_pos hcond
        rw [hf]
        refine ⟨by simp, hc, ?_⟩
        intro x hx hxge
        rcases List.mem_append.1 hx with hx | hx
        · exact absurd (hlt x hx) (not_lt.2 hxge)
        · have : x = e := by simpa using hx
          subst this; exact Or.inr ⟨rfl, le_refl _⟩
      · left
        have hc' : e.2 < τ := lt_of_not_ge hc
        have hcond : ¬ ((τ < e.2 ∨ (¬ e.2 < τ ∧ n < e.1)) ∨ (e.2 = τ ∧ n = n)) := by
          rintro ((h | ⟨h, _⟩) | ⟨h, _⟩)
          · exact absurd h (not_lt.2 hc'.le)
          · exact h hc'
          · exact absurd h (ne_of_lt hc')
        have hf : find_max_neighbor_func τ n (τ, n) e = (τ, n) := if_neg hcond
        rw [hf]
        refine ⟨rfl, ?_⟩
        intro x hx
        rcases List.mem_append.1 hx with hx | hx
        · exact hlt x hx
        · have : x = e := by simpa using hx
          subst this; exact hc'
    · right
      set r := scan_neighbors τ n es with hr
      have hrn : r.2 ≠ n := ne_of_lt (hwf' _ hmem)
      by_cases hcond : (r.1 < e.2 ∨ (¬ e.2 < r.1 ∧ r.2 < e.1)) ∨ (e.2 = τ ∧ r.2 = n)
      · have hf : find_max_neighbor_func τ n r e = (e.2, e.1) := if_pos hcond
        rw [hf]
        have hlex : r.1 < e.2 ∨ (¬ e.2 < r.1 ∧ r.2 < e.1) := by
          rcases hcond with h | ⟨_, h⟩
          · exact h
          · exact absurd h hrn
        have hle : r.1 ≤ e.2 := by
          rcases hlex with h | ⟨h, _⟩
          · exact h.le
          · exact not_lt.1 h
        refine ⟨by simp, le_trans hge hle, ?_⟩
        intro x hx hxge
        rcases List.mem_append.1 hx with hx | hx
        · rcases hmax x hx hxge with h | ⟨h1, h2⟩
          · exact Or.inl (lt_of_lt_of_le h hle)
          · rcases hlex with h | ⟨h, h3⟩
            · exact Or.inl (h1 ▸ h)
            · rcases lt_or_eq_of_le hle with h4 | h4
              · exact Or.inl (h1 ▸ h4)
              · exact Or.inr ⟨h1.trans h4, le_trans h2 h3.le⟩
        · have : x = e := by simpa using hx
          subst this; exact Or.inr ⟨rfl, le_refl _⟩
      · have hf : find_max_neighbor_func τ n r e = r := if_neg hcond
        rw [hf]
        refine ⟨List.mem_append.2 (Or.inl hmem), hge, ?_⟩
        intro x hx hxge
        rcases List.mem_append.1 hx with hx | hx
        · exact hmax x hx hxge
        · have : x = e := by simpa using hx
          subst this
          push_neg at hcond
          obtain ⟨⟨h1, h2⟩, _⟩ := hcond
          rcases lt_or_eq_of_le h1 with h | h
          · exact Or.inl h
          · exact Or.inr ⟨h, h2 (by rw [h])⟩

/-- C1: the neighbour selected for vertex `i` by `NearestNeighborLinkage` is, when some
incident edge is heavier than the threshold, the lexicographic maximum of `(weight, neighbor)`
over all incident edges; otherwise, when some incident edge has exactly the threshold weight,
the largest neighbour id among those; otherwise there is no selection. Equivalently it is the
lexicographic maximum over the incident edges of weight at least the threshold, and the result
of the scan is the same for every order of the incident edges. -/
theorem NearestNeighborLinkage_selection (G : Graph) (τ : ℚ) (i : Nat)
    (hwf : ∀ e ∈ G.out_neighbors i, e.1 < G.n) :
    ((∃ e ∈ G.out_neighbors i, τ < e.2) →
      ∃ w, (max_neighbor G τ i, w) ∈ G.out_neighbors i ∧
        ∀ e ∈ G.out_neighbors i, e.2 < w ∨ (e.2 = w ∧ e.1 ≤ max_neighbor G τ i)) ∧
    ((¬ ∃ e ∈ G.out_neighbors i, τ < e.2) → (∃ e ∈ G.out_neighbors i, e.2 = τ) →
      (max_neighbor G τ i, τ) ∈ G.out_neighbors i ∧
        ∀ e ∈ G.out_neighbors i, e.2 = τ → e.1 ≤ max_neighbor G τ i) ∧
    ((¬ ∃ e ∈ G.out_neighbors i, τ ≤ e.2) → max_neighbor G τ i = G.n) ∧
    ((∃ e ∈ G.out_neighbors i, τ ≤ e.2) →
      ∃ w, τ ≤ w ∧ (max_neighbor G τ i, w) ∈ G.out_neighbors i ∧
        ∀ e ∈ G.out_neighbors i, τ ≤ e.2 →
          e.2 < w ∨ (e.2 = w ∧ e.1 ≤ max_neighbor G τ i)) ∧
    (∀ es : List (Nat × ℚ), es.Perm (G.out_neighbors i) →
      scan_neighbors τ G.n es = scan_neighbors τ G.n (G.out_neighbors i)) := by
  have hspec := scan_neighbors_spec τ G.n (G.out_neighbors i) hwf
  have hge : (∃ e ∈ G.out_neighbors i, τ ≤ e.2) →
      ∃ w, τ ≤ w ∧ (max_neighbor G τ i, w) ∈ G.out_neighbors i ∧
        ∀ e ∈ G.out_neighbors i, τ ≤ e.2 →
          e.2 < w ∨ (e.2 = w ∧ e.1 ≤ max_neighbor G τ i) := by
    rintro ⟨e, he, hτ⟩
    rcases hspec with ⟨_, hlt⟩ | ⟨hmem, hw, hmax⟩
    · exact absurd (hlt e he) (not_lt.2 hτ)
    · exact ⟨_, hw, hmem, hmax⟩
  refine ⟨?_, ?_, ?_, hge, ?_⟩
  · rintro ⟨e, he, hτ⟩
    obtain ⟨w, hw, hmem, hmax⟩ := hge ⟨e, he, hτ.le⟩
    refine ⟨w, hmem, fun x hx => ?_⟩
    by_cases hxτ : τ ≤ x.2
    · exact hmax x hx hxτ
    · left
      have h1 : x.2 < τ := lt_of_not_ge hxτ
      rcases hmax e he hτ.le with h | ⟨h, _⟩
      · exact h1.trans (hτ.trans h)
      · exact h1.trans (h ▸ hτ)
  · rintro hno ⟨e, he, hτ⟩
    obtain ⟨w, hw, hmem, hmax⟩ := hge ⟨e, he, hτ.ge⟩
    have hwτ : w = τ := by
      rcases lt_or_eq_of_le hw with h | h
      · exact absurd ⟨_, hmem, h⟩ hno
      · exact h.symm
    subst hwτ
    refine ⟨hmem, fun x hx hxτ => ?_⟩
    rcases hmax x hx hxτ.ge with h | ⟨_, h⟩
    · exact absurd hxτ (ne_of_lt h)
    · exact h
  · intro hno
    rcases hspec with ⟨h0, _⟩ | ⟨hmem, hw, _⟩
    · simp [max_neighbor, h0]
    · exact absurd ⟨_, hmem, hw⟩ hno
  · intro es hperm
    have hwf' : ∀ e ∈ es, e.1 < G.n := fun e he => hwf e (hperm.mem_iff.1 he)
    rcases scan_neighbors_spec τ G.n es hwf' with ⟨h0, hlt⟩ | ⟨hmem, hw, hmax⟩
    · rcases hspec with ⟨h0', _⟩ | ⟨hmem', hw', _⟩
      · rw [h0, h0']
      · exact absurd (hlt _ (hperm.mem_iff.2 hmem')) (not_lt.2 hw')
    · rcases hspec with ⟨_, hlt'⟩ | ⟨hmem', hw', hmax'⟩
      · exact absurd (hlt' _ (hperm.mem_iff.1 hmem)) (not_lt.2 hw)
      · have h1 := hmax _ (hperm.mem_iff.2 hmem') hw'
        have h2 := hmax' _ (hperm.mem_iff.1 hmem) hw
        simp only at h1 h2
        apply Prod.ext
        · rcases h1 with h1 | ⟨h1, _⟩
          · rcases h2 with h2 | ⟨h2, _⟩
            · exact absurd h1 (lt_asymm h2)
            · exact h2
          · exact h1.symm
        · rcases h1 with h1 | ⟨h1, h1'⟩
          · rcases h2 with h2 | ⟨h2, _⟩
            · exact absurd h1 (lt_asymm h2)
            · exact absurd h2.symm (ne_of_lt h1)
          · rcases h2 with h2 | ⟨_, h2'⟩
            · exact absurd h1.symm (ne_of_lt h2)
            · exact le_antisymm h2' h1'

/-- Witness for C1 on the triangle with threshold `0`: vertex `0` picks `1`, vertex `1` picks
`2`, vertex `2` picks `1`, and scanning the edges of vertex `0` in the reverse order gives the
same state. -/
theorem NearestNeighborLinkage_selection_witness :
    (∀ e ∈ triangleGraph.out_neighbors 0, e.1 < triangleGraph.n) ∧
    max_neighbor triangleGraph 0 0 = 1 ∧ max_neighbor triangleGraph 0 1 = 2 ∧
    max_neighbor triangleGraph 0 2 = 1 ∧
    scan_neighbors 0 triangleGraph.n [(2, 1/2), (1, 1)] =
      scan_neighbors 0 triangleGraph.n (triangleGraph.out_neighbors 0) :=
  ⟨by simp [triangleGraph, Graph.out_neighbors, Graph.n],
   by norm_num [max_neighbor, scan_neighbors, find_max_neighbor_func, triangleGraph,
      Graph.out_neighbors, Graph.n],
   by norm_num [max_neighbor, scan_neighbors, find_max_neighbor_func, triangleGraph,
      Graph.out_neighbors, Graph.n],
   by norm_num [max_neighbor, scan_neighbors, find_max_neighbor_func, triangleGraph,
      Graph.out_neighbors, Graph.n],
   (NearestNeighborLinkage_selection triangleGraph 0 0
      (by simp [triangleGraph, Graph.out_neighbors, Graph.n])).2.2.2.2 _
      (by simp only [triangleGraph, Graph.out_neighbors, List.getD_cons_zero]
          exact List.Perm.swap _ _ _)⟩

/-- The sort by source endpoint is a sample sort for `source_less`. -/
theorem sortBySource_isSampleSort : IsSampleSort source_less sortBySource := by
  intro l
  refine ⟨List.perm_insertionSort _ l, ?_⟩
  haveI : IsTotal (Nat × Nat) (fun a b => a.1 ≤ b.1) := ⟨fun a b => le_total a.1 b.1⟩
  haveI : IsTrans (Nat × Nat) (fun a b => a.1 ≤ b.1) := ⟨fun a b c h1 h2 => le_trans h1 h2⟩
  have h := List.sorted_insertionSort (fun a b : Nat × Nat => a.1 ≤ b.1) l
  refine List.Pairwise.imp ?_ h
  intro a b hab
  simp [source_less, hab]

/-- One renaming step keeps the number of labels. -/
theorem relabelEdge_length (L : List Nat) (e : Nat × Nat) :
    (relabelEdge L e).length = L.length := by
  simp [relabelEdge]

/-- The sequential connected-components routine returns one label per vertex. -/
theorem foldl_relabelEdge_length (es : List (Nat × Nat)) (L : List Nat) :
    (es.foldl relabelEdge L).length = L.length := by
  induction es generalizing L with
  | nil => rfl
  | cons e es ih => rw [List.foldl_cons, ih, relabelEdge_length]

/-- Equal labels stay equal through the renaming steps, and the endpoints of a processed edge
end with equal labels. -/
theorem foldl_relabelEdge_eq (es : List (Nat × Nat)) (L : List Nat)
    (hL : ∀ e ∈ es, e.1 < L.length ∧ e.2 < L.length) (a b : Nat)
    (h : L[a]? = L[b]? ∨ (a, b) ∈ es) :
    (es.foldl relabelEdge L)[a]? = (es.foldl relabelEdge L)[b]? := by
  induction es generalizing L with
  | nil =>
    rcases h with h | h
    · exact h
    · exact absurd h (List.not_mem_nil _)
  | cons e es ih =>
    rw [List.foldl_cons]
    apply ih
    · intro x hx
      rw [relabelEdge_length]
      exact hL x (List.mem_cons_of_mem _ hx)
    · rcases h with h | h
      · left; simp [relabelEdge, List.getElem?_map, h]
      · rcases List.mem_cons.1 h with h | h
        · left
          have h1 := (hL e (List.mem_cons_self _ _)).1
          have h2 := (hL e (List.mem_cons_self _ _)).2
          rw [← h] at h1 h2
          simp only at h1 h2
          rw [← h]
          simp [relabelEdge, List.getElem?_map, List.getElem?_eq_getElem h1,
            List.getElem?_eq_getElem h2]
        · right; exact h

/-- The sequential connected-components routine meets the contract `IsComponentLabeling`. -/
theorem sequentialCC_isComponentLabeling (n : Nat) (edges : List (Nat × Nat))
    (hin : ∀ e ∈ edges, e.1 < n ∧ e.2 < n) :
    IsComponentLabeling n edges (sequentialCC n edges) := by
  refine ⟨by simp [sequentialCC, foldl_relabelEdge_length], ?_⟩
  intro e he
  exact foldl_relabelEdge_eq edges (List.range n) (by simpa using hin) e.1 e.2 (Or.inr he)

/-- The selected neighbour is either undefined or a stored neighbour of the vertex. -/
theorem max_neighbor_eq_or_mem (G : Graph) (τ : ℚ) (i : Nat)
    (hwf : ∀ e ∈ G.out_neighbors i, e.1 < G.n) :
    max_neighbor G τ i = G.n ∨ ∃ w, τ ≤ w ∧ (max_neighbor G τ i, w) ∈ G.out_neighbors i := by
  rcases scan_neighbors_spec τ G.n (G.out_neighbors i) hwf with ⟨h0, _⟩ | ⟨hmem, hw, _⟩
  · left; simp [max_neighbor, h0]
  · right; exact ⟨_, hw, hmem⟩

/-- A vertex with an incident edge of weight at least the threshold has a selection. -/
theorem max_neighbor_mem_of_edge (G : Graph) (τ : ℚ) (i : Nat)
    (hwf : ∀ e ∈ G.out_neighbors i, e.1 < G.n)
    (hedge : ∃ e ∈ G.out_neighbors i, τ ≤ e.2) :
    ∃ w, (max_neighbor G τ i, w) ∈ G.out_neighbors i := by
  obtain ⟨e, he, hτ⟩ := hedge
  rcases scan_neighbors_spec τ G.n (G.out_neighbors i) hwf with ⟨_, hlt⟩ | ⟨hmem, _, _⟩
  · exact absurd (hlt e he) (not_lt.2 hτ)
  · exact ⟨_, hmem⟩

/-- The pairs kept in `filtered_edges` are the pairs `(i, pick i)` and `(pick i, i)` of the
vertices `i` that have a selection. -/
theorem mem_filtered_edges (G : Graph) (τ : ℚ) (x : Nat × Nat) :
    x ∈ filtered_edges G τ ↔
      (x.1 ≠ G.n ∧ x.2 ≠ G.n) ∧
      ((x.1 < G.n ∧ x.2 = max_neighbor G τ x.1) ∨ (x.2 < G.n ∧ x.1 = max_neighbor G τ x.2)) := by
  obtain ⟨a, b⟩ := x
  simp only [filtered_edges, marked_neighbors, List.mem_filter, List.mem_append, List.mem_map,
    List.mem_range, Prod.mk.injEq, Bool.and_eq_true, decide_eq_true_eq]
  constructor
  · rintro ⟨h | h, hne⟩
    · obtain ⟨i, hi, rfl, rfl⟩ := h
      exact ⟨hne, Or.inl ⟨hi, rfl⟩⟩
    · obtain ⟨i, hi, rfl, rfl⟩ := h
      exact ⟨hne, Or.inr ⟨hi, rfl⟩⟩
  · rintro ⟨hne, h | h⟩
    · exact ⟨Or.inl ⟨a, h.1, rfl, h.2.symm⟩, hne⟩
    · exact ⟨Or.inr ⟨b, h.1, h.2.symm, rfl⟩, hne⟩

/-- Both endpoints of a kept pair are vertices of the graph. -/
theorem filtered_edges_lt (G : Graph) (τ : ℚ) (hwf : G.WellFormed) (x : Nat × Nat)
    (hx : x ∈ filtered_edges G τ) : x.1 < G.n ∧ x.2 < G.n := by
  rcases (mem_filtered_edges G τ x).1 hx with ⟨⟨h1, h2⟩, ⟨hl, he⟩ | ⟨hl, he⟩⟩
  · refine ⟨hl, ?_⟩
    rcases max_neighbor_eq_or_mem G τ x.1 (hwf.out_neighbors_lt x.1) with h | ⟨w, _, hmem⟩
    · exact absurd (he.trans h) h2
    · rw [he]; exact hwf.out_neighbors_lt x.1 _ hmem
  · refine ⟨?_, hl⟩
    rcases max_neighbor_eq_or_mem G τ x.2 (hwf.out_neighbors_lt x.2) with h | ⟨w, _, hmem⟩
    · exact absurd (he.trans h) h1
    · rw [he]; exact hwf.out_neighbors_lt x.2 _ hmem

/-- C2: on a graph without self-loops that has an edge heavier than the threshold,
`NearestNeighborLinkage` returns a labeling in which every vertex with a selection has the
label of the neighbour it selected, and two distinct vertices have the same label. The
connected-components routine is any routine that labels every vertex and gives the two
endpoints of each edge the same label. -/
theorem NearestNeighborLinkage_two_share_label
    (cc : Nat → List (Nat × Nat) → List Nat) (sort : List (Nat × Nat) → List (Nat × Nat))
    (G : Graph) (τ : ℚ) (hwf : G.WellFormed) (hloop : G.NoSelfLoops)
    (hsort : IsSampleSort source_less sort)
    (hcc : ∀ n edges, (∀ e ∈ edges, e.1 < n ∧ e.2 < n) →
      IsComponentLabeling n edges (cc n edges))
    (hedge : ∃ i, ∃ e ∈ G.out_neighbors i, τ < e.2) :
    ∃ labels, NearestNeighborLinkage cc sort G τ = .ok labels ∧
      (∀ i, i < G.n → max_neighbor G τ i ≠ G.n →
        labels[i]? = labels[max_neighbor G τ i]?) ∧
      ∃ i j l, i < G.n ∧ j < G.n ∧ i ≠ j ∧ labels[i]? = some l ∧ labels[j]? = some l := by
  obtain ⟨i, e, he, hτ⟩ := hedge
  have hi : i < G.n := G.lt_n_of_mem_out_neighbors i e he
  obtain ⟨w, hmem⟩ := max_neighbor_mem_of_edge G τ i (hwf.out_neighbors_lt i) ⟨e, he, hτ.le⟩
  have hp : max_neighbor G τ i < G.n := hwf.out_neighbors_lt i _ hmem
  have hpi : max_neighbor G τ i ≠ i := hloop.out_neighbors_ne i _ hmem
  have hin : (i, max_neighbor G τ i) ∈ filtered_edges G τ :=
    (mem_filtered_edges G τ _).2 ⟨⟨ne_of_lt hi, ne_of_lt hp⟩, Or.inl ⟨hi, rfl⟩⟩
  have hlen : (filtered_edges G τ).length ≠ 0 := by
    intro h0
    rw [List.length_eq_zero] at h0
    rw [h0] at hin
    exact absurd hin (List.not_mem_nil _)
  have hperm := (hsort (filtered_edges G τ)).1
  have hcontract := hcc G.n (sort (filtered_edges G τ))
    (fun x hx => filtered_edges_lt G τ hwf x (hperm.mem_iff.1 hx))
  refine ⟨cc G.n (sort (filtered_edges G τ)), by simp [NearestNeighborLinkage, hlen], ?_, ?_⟩
  · intro j hj hsel
    have hjin : (j, max_neighbor G τ j) ∈ filtered_edges G τ :=
      (mem_filtered_edges G τ _).2 ⟨⟨ne_of_lt hj, hsel⟩, Or.inl ⟨hj, rfl⟩⟩
    exact hcontract.2 _ (hperm.mem_iff.2 hjin)
  · have hil : i < (cc G.n (sort (filtered_edges G τ))).length := by rw [hcontract.1]; exact hi
    refine ⟨i, max_neighbor G τ i, (cc G.n (sort (filtered_edges G τ)))[i], hi, hp,
      fun h => hpi h.symm, List.getElem?_eq_getElem hil, ?_⟩
    rw [← hcontract.2 _ (hperm.mem_iff.2 hin)]
    exact List.getElem?_eq_getElem hil

/-- Every neighbour id of the triangle is one of its three vertices. -/
theorem triangleGraph_wellFormed : triangleGraph.WellFormed := by decide

/-- The triangle has no self-loop. -/
theorem triangleGraph_noSelfLoops : triangleGraph.NoSelfLoops := by decide

/-- Witness for C2: the triangle with threshold `0`, the sequential sort and the sequential
connected-components routine. -/
theorem NearestNeighborLinkage_two_share_label_witness :
    triangleGraph.WellFormed ∧ triangleGraph.NoSelfLoops ∧
    IsSampleSort source_less sortBySource ∧
    (∃ i, ∃ e ∈ triangleGraph.out_neighbors i, (0 : ℚ) < e.2) ∧
    ∃ labels, NearestNeighborLinkage sequentialCC sortBySource triangleGraph 0 = .ok labels ∧
      (∀ i, i < triangleGraph.n → max_neighbor triangleGraph 0 i ≠ triangleGraph.n →
        labels[i]? = labels[max_neighbor triangleGraph 0 i]?) ∧
      ∃ i j l, i < triangleGraph.n ∧ j < triangleGraph.n ∧ i ≠ j ∧
        labels[i]? = some l ∧ labels[j]? = some l :=
  ⟨triangleGraph_wellFormed, triangleGraph_noSelfLoops, sortBySource_isSampleSort,
   ⟨0, (1, 1), by simp [triangleGraph, Graph.out_neighbors], by norm_num⟩,
   NearestNeighborLinkage_two_share_label sequentialCC sortBySource triangleGraph 0
     triangleGraph_wellFormed triangleGraph_noSelfLoops sortBySource_isSampleSort
     (fun n edges h => sequentialCC_isComponentLabeling n edges h)
     ⟨0, (1, 1), by simp [triangleGraph, Graph.out_neighbors], by norm_num⟩⟩

/-! ### The number of compressed vertices -/

/-- The label combiner is associative. -/
theorem max_label_combiner_assoc (a b c : Nat) :
    max_label_combiner (max_label_combiner a b) c =
      max_label_combiner a (max_label_combiner b c) := by
  unfold max_label_combiner UINT_E_MAX
  split_ifs <;> omega

/-- The label combiner is commutative. -/
theorem max_label_combiner_comm (a b : Nat) :
    max_label_combiner a b = max_label_combiner b a := by
  unfold max_label_combiner UINT_E_MAX
  split_ifs <;> omega

/-- The sentinel is a left identity of the label combiner. -/
theorem max_label_combiner_none_left (a : Nat) : max_label_combiner UINT_E_MAX a = a := by
  simp [max_label_combiner]

/-- The sentinel is a right identity of the label combiner. -/
theorem max_label_combiner_none_right (a : Nat) : max_label_combiner a UINT_E_MAX = a := by
  by_cases h : a = UINT_E_MAX <;> simp [max_label_combiner, h]

/-- The left-to-right reduction from any start is the start combined with the reduction
from the identity. -/
theorem Reduce_max_label_start (a : Nat) (l : List Nat) :
    l.foldl max_label_combiner a =
      max_label_combiner a (Reduce max_label_combiner UINT_E_MAX l) := by
  induction l using List.reverseRecOn with
  | nil => simp [Reduce, max_label_combiner_none_right]
  | append_singleton l x ih =>
    simp only [Reduce, List.foldl_append, List.foldl_cons, List.foldl_nil] at *
    rw [ih, max_label_combiner_assoc]

/-- The reduction of a concatenation combines the reductions of the two parts. -/
theorem Reduce_max_label_append (l₁ l₂ : List Nat) :
    Reduce max_label_combiner UINT_E_MAX (l₁ ++ l₂) =
      max_label_combiner (Reduce max_label_combiner UINT_E_MAX l₁)
        (Reduce max_label_combiner UINT_E_MAX l₂) := by
  conv_lhs => rw [Reduce, List.foldl_append]
  rw [Reduce_max_label_start]
  rfl

/-- Every reduction tree computes the left-to-right reduction of its leaves. -/
theorem ReduceTree_eval_max_label (t : ReduceTree Nat) :
    t.eval max_label_combiner UINT_E_MAX = Reduce max_label_combiner UINT_E_MAX t.leaves := by
  induction t with
  | identity => rfl
  | leaf a => simp [ReduceTree.eval, ReduceTree.leaves, Reduce, max_label_combiner_none_left]
  | node l r ihl ihr =>
    simp only [ReduceTree.eval, ReduceTree.leaves, Reduce_max_label_append, ihl, ihr]

/-- The reduction does not depend on the order of the labels. -/
theorem Reduce_max_label_perm (l₁ l₂ : List Nat) (h : l₁.Perm l₂) :
    Reduce max_label_combiner UINT_E_MAX l₁ = Reduce max_label_combiner UINT_E_MAX l₂ := by
  haveI : RightCommutative max_label_combiner :=
    ⟨fun a b c => by
      rw [max_label_combiner_assoc, max_label_combiner_comm b c, ← max_label_combiner_assoc]⟩
  exact h.foldl_eq UINT_E_MAX

/-- The reduced label is the sentinel when every label is the sentinel, and otherwise it is
a label of the sequence that is not the sentinel and bounds every other such label. -/
theorem Reduce_max_label_spec (l : List Nat) :
    (Reduce max_label_combiner UINT_E_MAX l = UINT_E_MAX ∧ ∀ x ∈ l, x = UINT_E_MAX) ∨
    (Reduce max_label_combiner UINT_E_MAX l ≠ UINT_E_MAX ∧
      Reduce max_label_combiner UINT_E_MAX l ∈ l ∧
      ∀ x ∈ l, x ≠ UINT_E_MAX → x ≤ Reduce max_label_combiner UINT_E_MAX l) := by
  induction l using List.reverseRecOn with
  | nil => left; simp [Reduce]
  | append_singleton l x ih =>
    rw [Reduce_max_label_append]
    have hx : Reduce max_label_combiner UINT_E_MAX [x] = x := by
      simp [Reduce, max_label_combiner_none_left]
    rw [hx]
    rcases ih with ⟨h0, hall⟩ | ⟨hne, hmem, hmax⟩
    · rw [h0, max_label_combiner_none_left]
      by_cases hxn : x = UINT_E_MAX
      · left
        refine ⟨hxn, fun y hy => ?_⟩
        rcases List.mem_append.1 hy with hy | hy
        · exact hall y hy
        · have : y = x := by simpa using hy
          exact this.trans hxn
      · right
        refine ⟨hxn, by simp, fun y hy hyn => ?_⟩
        rcases List.mem_append.1 hy with hy | hy
        · exact absurd (hall y hy) hyn
        · have : y = x := by simpa using hy
          exact this.le
    · right
      set r := Reduce max_label_combiner UINT_E_MAX l with hr
      by_cases hxn : x = UINT_E_MAX
      · rw [hxn, max_label_combiner_none_right]
        refine ⟨hne, List.mem_append.2 (Or.inl hmem), fun y hy hyn => ?_⟩
        rcases List.mem_append.1 hy with hy | hy
        · exact hmax y hy hyn
        · have : y = UINT_E_MAX := by simpa using hy
          exact absurd this hyn
      · have hval : max_label_combiner r x = max r x := by
          simp [max_label_combiner, hne, hxn]
        rw [hval]
        refine ⟨?_, ?_, fun y hy hyn => ?_⟩
        · rcases max_choice r x with h | h <;> rw [h] <;> assumption
        · rcases max_choice r x with h | h <;> rw [h]
          · exact List.mem_append.2 (Or.inl hmem)
          · simp
        · rcases List.mem_append.1 hy with hy | hy
          · exact le_trans (hmax y hy hyn) (le_max_left _ _)
          · have : y = x := by simpa using hy
            rw [this]; exact le_max_right _ _

/-! ### CompressGraph: error handling and node weights -/

/-- C9: with edge aggregation `PERCENTILE`, `CompressGraph` returns the Unimplemented error,
the same for all graphs, node weights and labelings; with each of `MAX`, `SUM`,
`DEFAULT_AVERAGE` and `CUT_SPARSITY` it returns a graph with node weights and no error. -/
theorem CompressGraph_percentile_unimplemented (G : Graph) (NW cluster_ids : List Nat) :
    CompressGraph G NW cluster_ids .PERCENTILE =
      .error (.Unimplemented
        "PERCENTILE aggregation for parallel affinity clusterer is unimplemented.") ∧
    (∃ r, CompressGraph G NW cluster_ids .MAX = .ok r) ∧
    (∃ r, CompressGraph G NW cluster_ids .SUM = .ok r) ∧
    (∃ r, CompressGraph G NW cluster_ids .DEFAULT_AVERAGE = .ok r) ∧
    (∃ r, CompressGraph G NW cluster_ids .CUT_SPARSITY = .ok r) := by
  refine ⟨by simp [CompressGraph], ⟨_, by simp [CompressGraph]; rfl⟩,
    ⟨_, by simp [CompressGraph]; rfl⟩, ⟨_, by simp [CompressGraph]; rfl⟩,
    ⟨_, by simp [CompressGraph]; rfl⟩⟩

/-- One iteration of the node-weight loop keeps the number of entries. -/
theorem add_node_weight_length (NW cluster_ids nw : List Nat) (i : Nat) :
    (add_node_weight NW cluster_ids nw i).length = nw.length := by
  unfold add_node_weight
  split_ifs <;> simp

/-- The node-weight loop keeps the number of entries. -/
theorem foldl_add_node_weight_length (NW cluster_ids : List Nat) (is nw : List Nat) :
    (is.foldl (add_node_weight NW cluster_ids) nw).length = nw.length := by
  induction is generalizing nw with
  | nil => rfl
  | cons i is ih => rw [List.foldl_cons, ih, add_node_weight_length]

/-- The vector of compressed node weights has one entry per compressed vertex. -/
theorem compressed_node_weights_length (n : Nat) (NW cluster_ids : List Nat) :
    (compressed_node_weights n NW cluster_ids).length = num_compressed_vertices cluster_ids := by
  simp [compressed_node_weights, foldl_add_node_weight_length]

/-- The entry `c` after one iteration of the node-weight loop. -/
theorem add_node_weight_getElem? (NW cluster_ids nw : List Nat) (i c : Nat)
    (hc : c < nw.length) :
    (add_node_weight NW cluster_ids nw i)[c]? =
      if cluster_ids[i]? = some c ∧ c ≠ UINT_E_MAX then
        some ((nw[c]?.getD 0 + node_weight_of NW i) % UINT_E_MOD)
      else nw[c]? := by
  unfold add_node_weight
  simp only [List.getD_eq_getElem?_getD]
  by_cases h : cluster_ids[i]? = some c
  · by_cases hn : c = UINT_E_MAX
    · simp [h, hn]
    · simp [h, hn, List.getElem?_set, hc]
  · have hne : cluster_ids[i]?.getD UINT_E_MAX ≠ UINT_E_MAX → cluster_ids[i]?.getD UINT_E_MAX ≠ c := by
      intro h1 h2
      cases hci : cluster_ids[i]? with
      | none => simp [hci] at h1
      | some d => simp [hci] at h2; exact h (by rw [hci, h2])
    simp only [h, false_and, if_false]
    split_ifs with h1
    · rw [List.getElem?_set_ne (hne h1)]
    · rfl

/-- C5: for a labeling of 32-bit labels with at least one label that is not the sentinel,
the number of compressed vertices computed by `CompressGraph` and by `FindFinishedClusters`
is one plus the largest such label, and every reduction tree over the labels taken in any
order gives the same number; the combiner is associative and commutative with the sentinel
as identity. When the labeling is empty or holds only the sentinel, the number is `0`. It is
the number of vertices and of node weights that `CompressGraph` returns. -/
theorem num_compressed_vertices_spec (cluster_ids : List Nat)
    (hbound : ∀ x ∈ cluster_ids, x ≤ UINT_E_MAX) :
    ((∃ x ∈ cluster_ids, x ≠ UINT_E_MAX) →
      ∃ m ∈ cluster_ids, m ≠ UINT_E_MAX ∧ (∀ x ∈ cluster_ids, x ≠ UINT_E_MAX → x ≤ m) ∧
        num_compressed_vertices cluster_ids = 1 + m) ∧
    (∀ t : ReduceTree Nat, t.leaves.Perm cluster_ids →
      (1 + t.eval max_label_combiner UINT_E_MAX) % UINT_E_MOD =
        num_compressed_vertices cluster_ids) ∧
    ((∀ a b c, max_label_combiner (max_label_combiner a b) c =
        max_label_combiner a (max_label_combiner b c)) ∧
      (∀ a b, max_label_combiner a b = max_label_combiner b a) ∧
      (∀ a, max_label_combiner UINT_E_MAX a = a ∧ max_label_combiner a UINT_E_MAX = a)) ∧
    ((∀ x ∈ cluster_ids, x = UINT_E_MAX) → num_compressed_vertices cluster_ids = 0) ∧
    (∀ (G : Graph) (NW : List Nat) (agg : EdgeAggregation), agg ≠ .PERCENTILE →
      ∃ G' NW', CompressGraph G NW cluster_ids agg = .ok (G', NW') ∧
        G'.n = num_compressed_vertices cluster_ids ∧
        NW'.length = num_compressed_vertices cluster_ids) := by
  refine ⟨?_, ?_, ⟨max_label_combiner_assoc, max_label_combiner_comm,
    fun a => ⟨max_label_combiner_none_left a, max_label_combiner_none_right a⟩⟩, ?_, ?_⟩
  · rintro ⟨x, hx, hxn⟩
    rcases Reduce_max_label_spec cluster_ids with ⟨_, hall⟩ | ⟨hne, hmem, hmax⟩
    · exact absurd (hall x hx) hxn
    · refine ⟨_, hmem, hne, hmax, ?_⟩
      have hle := hbound _ hmem
      have hlt : Reduce max_label_combiner UINT_E_MAX cluster_ids < UINT_E_MAX :=
        lt_of_le_of_ne hle hne
      have hM : UINT_E_MAX = 4294967295 := rfl
      have hD : UINT_E_MOD = 4294967296 := rfl
      unfold num_compressed_vertices
      apply Nat.mod_eq_of_lt
      omega
  · intro t ht
    rw [ReduceTree_eval_max_label, Reduce_max_label_perm _ _ ht]
    rfl
  · intro hall
    rcases Reduce_max_label_spec cluster_ids with ⟨h0, _⟩ | ⟨hne, hmem, _⟩
    · unfold num_compressed_vertices
      rw [h0]
      rfl
    · exact absurd (hall _ hmem) hne
  · intro G NW agg hagg
    unfold CompressGraph
    rw [if_neg hagg]
    split_ifs
    · exact ⟨_, _, rfl, by simp [MakeGbbsGraph, Graph.n],
        by simp [compressed_node_weights, foldl_add_node_weight_length]⟩
    · exact ⟨_, _, rfl, by simp [MakeGbbsGraph, Graph.n],
        by simp [compressed_node_weights, foldl_add_node_weight_length]⟩

/-- Witness for C5: the labeling `[0, 0, 2, 2]` has three compressed vertices, also through
a balanced reduction tree over a rearrangement of the labels. -/
theorem num_compressed_vertices_spec_witness :
    (∀ x ∈ [0, 0, 2, 2], x ≤ UINT_E_MAX) ∧
    num_compressed_vertices [0, 0, 2, 2] = 3 ∧
    (1 + (ReduceTree.node (.node (.leaf 2) (.leaf 0)) (.node (.leaf 0) (.leaf 2))).eval
      max_label_combiner UINT_E_MAX) % UINT_E_MOD = num_compressed_vertices [0, 0, 2, 2] ∧
    num_compressed_vertices [] = 0 :=
  ⟨by decide, by decide,
   (num_compressed_vertices_spec [0, 0, 2, 2] (by decide)).2.1
     (.node (.node (.leaf 2) (.leaf 0)) (.node (.leaf 0) (.leaf 2))) (by decide),
   by decide⟩

/-- The number of compressed vertices is a 32-bit value. -/
theorem num_compressed_vertices_lt (cluster_ids : List Nat) :
    num_compressed_vertices cluster_ids < UINT_E_MOD :=
  Nat.mod_lt _ (by decide)

/-- A compressed vertex is not the sentinel. -/
theorem ne_sentinel_of_lt_num_compressed (cluster_ids : List Nat) (c : Nat)
    (hc : c < num_compressed_vertices cluster_ids) : c ≠ UINT_E_MAX := by
  have h := num_compressed_vertices_lt cluster_ids
  have hM : UINT_E_MAX = 4294967295 := rfl
  have hD : UINT_E_MOD = 4294967296 := rfl
  omega

/-- The spec sum over one more vertex. -/
theorem cluster_weight_succ (k : Nat) (NW cluster_ids : List Nat) (c : Nat) :
    cluster_weight (k + 1) NW cluster_ids c =
      cluster_weight k NW cluster_ids c +
        (if cluster_ids[k]? = some c then node_weight_of NW k else 0) := by
  unfold cluster_weight
  rw [List.range_succ, List.filter_append, List.map_append, List.sum_append]
  by_cases h : cluster_ids[k]? = some c <;> simp [List.filter_cons, h]

/-- The total labelled weight over one more vertex. -/
theorem labelled_weight_succ (k : Nat) (NW cluster_ids : List Nat) :
    labelled_weight (k + 1) NW cluster_ids =
      labelled_weight k NW cluster_ids +
        (if cluster_ids[k]? ≠ none ∧ cluster_ids[k]? ≠ some UINT_E_MAX then
          node_weight_of NW k else 0) := by
  unfold labelled_weight
  rw [List.range_succ, List.filter_append, List.map_append, List.sum_append]
  simp only [List.filter_cons, List.filter_nil, decide_eq_true_eq]
  split_ifs <;> simp

/-- After the first `k` iterations of the node-weight loop, the entry of a compressed vertex
`c` is the spec sum over the first `k` vertices, reduced modulo `2 ^ 32`. -/
theorem foldl_add_node_weight_getElem? (NW cluster_ids : List Nat) (k c : Nat)
    (hc : c < num_compressed_vertices cluster_ids) :
    ((List.range k).foldl (add_node_weight NW cluster_ids)
      (List.replicate (num_compressed_vertices cluster_ids) 0))[c]? =
      some (cluster_weight k NW cluster_ids c % UINT_E_MOD) := by
  induction k with
  | zero => simp [cluster_weight, hc, UINT_E_MOD]
  | succ k ih =>
    rw [List.range_succ, List.foldl_append, List.foldl_cons, List.foldl_nil,
      add_node_weight_getElem? _ _ _ _ _
        (by rw [foldl_add_node_weight_length, List.length_replicate]; exact hc),
      ih, cluster_weight_succ]
    have hne := ne_sentinel_of_lt_num_compressed cluster_ids c hc
    by_cases h : cluster_ids[k]? = some c
    · simp [h, hne, Nat.add_mod]
    · simp [h]

/-- A label that is not the sentinel is a compressed vertex. -/
theorem lt_num_compressed_of_mem (cluster_ids : List Nat)
    (hbound : ∀ x ∈ cluster_ids, x ≤ UINT_E_MAX) (d : Nat) (hd : d ∈ cluster_ids)
    (hne : d ≠ UINT_E_MAX) : d < num_compressed_vertices cluster_ids := by
  rcases Reduce_max_label_spec cluster_ids with ⟨_, hall⟩ | ⟨hrne, hmem, hmax⟩
  · exact absurd (hall d hd) hne
  · have hle := hbound _ hmem
    have hdr := hmax d hd hne
    have hM : UINT_E_MAX = 4294967295 := rfl
    have hD : UINT_E_MOD = 4294967296 := rfl
    have hlt : Reduce max_label_combiner UINT_E_MAX cluster_ids < UINT_E_MAX :=
      lt_of_le_of_ne hle hrne
    unfold num_compressed_vertices
    rw [Nat.mod_eq_of_lt (by omega)]
    omega

/-- Overwriting an entry changes the sum by the difference of the two values. -/
theorem sum_set_add (l : List Nat) (i x : Nat) (hi : i < l.length) :
    (l.set i x).sum + l[i]?.getD 0 = l.sum + x := by
  induction l generalizing i with
  | nil => simp at hi
  | cons a l ih =>
    cases i with
    | zero => simp; omega
    | succ i =>
      have := ih i (by simpa using hi)
      simp only [List.set_cons_succ, List.sum_cons, List.getElem?_cons_succ]
      omega

/-- An entry is at most the sum of the list. -/
theorem getElem?_getD_le_sum (l : List Nat) (i : Nat) : l[i]?.getD 0 ≤ l.sum := by
  induction l generalizing i with
  | nil => simp
  | cons a l ih =>
    cases i with
    | zero => simp
    | succ i =>
      have := ih i
      simp only [List.getElem?_cons_succ, List.sum_cons]
      omega

/-- While no cluster sum reaches `2 ^ 32`, the entries of the node-weight vector add up to
the total weight of the labelled vertices. -/
theorem foldl_add_node_weight_sum (NW cluster_ids : List Nat)
    (hbound : ∀ x ∈ cluster_ids, x ≤ UINT_E_MAX) (k : Nat)
    (hk : ∀ c, cluster_weight k NW cluster_ids c < UINT_E_MOD) :
    ((List.range k).foldl (add_node_weight NW cluster_ids)
      (List.replicate (num_compressed_vertices cluster_ids) 0)).sum =
      labelled_weight k NW cluster_ids := by
  induction k with
  | zero => simp [labelled_weight]
  | succ k ih =>
    have hk' : ∀ c, cluster_weight k NW cluster_ids c < UINT_E_MOD := by
      intro c
      have := hk c
      rw [cluster_weight_succ] at this
      omega
    have ih := ih hk'
    rw [labelled_weight_succ]
    rw [List.range_succ, List.foldl_append, List.foldl_cons, List.foldl_nil]
    have hA := foldl_add_node_weight_getElem? NW cluster_ids k
    set nw := (List.range k).foldl (add_node_weight NW cluster_ids)
      (List.replicate (num_compressed_vertices cluster_ids) 0) with hnw
    have hlen : nw.length = num_compressed_vertices cluster_ids := by
      rw [hnw, foldl_add_node_weight_length, List.length_replicate]
    cases hci : cluster_ids[k]? with
    | none => simp [add_node_weight, hci, ih]
    | some d =>
      by_cases hd : d = UINT_E_MAX
      · simp [add_node_weight, hci, hd, ih]
      · have hmem : d ∈ cluster_ids := List.getElem?_mem hci
        have hdn := lt_num_compressed_of_mem cluster_ids hbound d hmem hd
        have hdlt : d < nw.length := by rw [hlen]; exact hdn
        have hstep : add_node_weight NW cluster_ids nw k =
            nw.set d ((nw[d]?.getD 0 + node_weight_of NW k) % UINT_E_MOD) := by
          simp [add_node_weight, hci, hd]
        rw [hstep]
        have hsum := sum_set_add nw d ((nw[d]?.getD 0 + node_weight_of NW k) % UINT_E_MOD) hdlt
        have hle := getElem?_getD_le_sum nw d
        have hval : nw[d]?.getD 0 = cluster_weight k NW cluster_ids d := by
          rw [hA d hdn, Option.getD_some, Nat.mod_eq_of_lt (hk' d)]
        have hnext := hk d
        rw [cluster_weight_succ, if_pos hci] at hnext
        have hmod : (nw[d]?.getD 0 + node_weight_of NW k) % UINT_E_MOD =
            nw[d]?.getD 0 + node_weight_of NW k := Nat.mod_eq_of_lt (by omega)
        rw [hmod] at hsum ⊢
        simp only [hci, ne_eq, not_false_eq_true, Option.some.injEq, hd, and_self,
          if_true, reduceCtorEq]
        omega

/-- For every supported aggregation, `CompressGraph` returns the vector computed by the
node-weight loop. -/
theorem compressed_node_weights_returned (G : Graph) (NW cluster_ids : List Nat)
    (agg : EdgeAggregation) (hagg : agg ≠ .PERCENTILE) :
    ∃ G', CompressGraph G NW cluster_ids agg =
      .ok (G', compressed_node_weights G.n NW cluster_ids) := by
  unfold CompressGraph
  rw [if_neg hagg]
  split_ifs
  · exact ⟨_, rfl⟩
  · exact ⟨_, rfl⟩

/-- Counterexample to C4 as stated: two vertices of weights `4294967295` and `1` in one
cluster get the node weight `0`, while their weights add up to `4294967296`. -/
theorem CompressGraph_node_weight_wraps :
    CompressGraph ⟨[[], []]⟩ [4294967295, 1] [0, 0] .SUM = .ok (⟨[[]]⟩, [0]) ∧
    num_compressed_vertices [0, 0] = 1 ∧
    cluster_weight 2 [4294967295, 1] [0, 0] 0 = 4294967296 := by
  refine ⟨by rfl, by decide, by decide⟩

/-- C4 (amended): for every supported aggregation, the node weights returned by
`CompressGraph` have one entry per compressed vertex, and the entry of the compressed vertex
`c` is the sum of the weights of the vertices labelled `c` (each weighing `1` when no weights
are given), reduced modulo `2 ^ 32`: it is that sum whenever the sum is below `2 ^ 32`, and
it is `0` for a cluster id without member. Vertices without label add to no entry. -/
theorem CompressGraph_node_weight_sums (G : Graph) (NW cluster_ids : List Nat)
    (agg : EdgeAggregation) (hagg : agg ≠ .PERCENTILE) :
    ∃ G' NW', CompressGraph G NW cluster_ids agg = .ok (G', NW') ∧
      NW'.length = num_compressed_vertices cluster_ids ∧
      ∀ c, c < num_compressed_vertices cluster_ids →
        NW'[c]? = some (cluster_weight G.n NW cluster_ids c % UINT_E_MOD) ∧
        (cluster_weight G.n NW cluster_ids c < UINT_E_MOD →
          NW'[c]? = some (cluster_weight G.n NW cluster_ids c)) ∧
        ((∀ i, i < G.n → cluster_ids[i]? ≠ some c) → NW'[c]? = some 0) := by
  obtain ⟨G', hG'⟩ := compressed_node_weights_returned G NW cluster_ids agg hagg
  refine ⟨G', _, hG', compressed_node_weights_length _ _ _, fun c hc => ?_⟩
  have h := foldl_add_node_weight_getElem? NW cluster_ids G.n c hc
  refine ⟨h, fun hlt => ?_, fun hno => ?_⟩
  · rw [compressed_node_weights, h, Nat.mod_eq_of_lt hlt]
  · have h0 : cluster_weight G.n NW cluster_ids c = 0 := by
      unfold cluster_weight
      have : (List.range G.n).filter (fun i => decide (cluster_ids[i]? = some c)) = [] := by
        rw [List.filter_eq_nil_iff]
        intro i hi
        simpa using hno i (List.mem_range.1 hi)
      rw [this]; rfl
    rw [compressed_node_weights, h, h0]; rfl

/-- Witness for C4 (amended): two disjoint pairs labelled `[0, 0, 2, 2]` without node
weights, compressed with `SUM`. -/
theorem CompressGraph_node_weight_sums_witness :
    EdgeAggregation.SUM ≠ .PERCENTILE ∧
    ∃ G' NW', CompressGraph ⟨[[(1, 2)], [(0, 2)], [(3, 2)], [(2, 2)]]⟩ [] [0, 0, 2, 2] .SUM =
        .ok (G', NW') ∧
      NW'.length = num_compressed_vertices [0, 0, 2, 2] ∧
      ∀ c, c < num_compressed_vertices [0, 0, 2, 2] →
        NW'[c]? = some (cluster_weight (Graph.n ⟨[[(1, 2)], [(0, 2)], [(3, 2)], [(2, 2)]]⟩)
          [] [0, 0, 2, 2] c % UINT_E_MOD) ∧
        (cluster_weight (Graph.n ⟨[[(1, 2)], [(0, 2)], [(3, 2)], [(2, 2)]]⟩)
            [] [0, 0, 2, 2] c < UINT_E_MOD →
          NW'[c]? = some (cluster_weight (Graph.n ⟨[[(1, 2)], [(0, 2)], [(3, 2)], [(2, 2)]]⟩)
            [] [0, 0, 2, 2] c)) ∧
        ((∀ i, i < Graph.n ⟨[[(1, 2)], [(0, 2)], [(3, 2)], [(2, 2)]]⟩ →
          [0, 0, 2, 2][i]? ≠ some c) → NW'[c]? = some 0) :=
  ⟨by decide, CompressGraph_node_weight_sums _ [] [0, 0, 2, 2] .SUM (by decide)⟩

/-- C8: for every supported aggregation and every labeling of 32-bit labels, when no cluster
sum reaches `2 ^ 32`, the node weights returned by `CompressGraph` add up to the total weight
of the vertices that have a label (each weighing `1` when no weights are given). -/
theorem CompressGraph_conserves_node_weight (G : Graph) (NW cluster_ids : List Nat)
    (agg : EdgeAggregation) (hagg : agg ≠ .PERCENTILE)
    (hbound : ∀ x ∈ cluster_ids, x ≤ UINT_E_MAX)
    (hsum : ∀ c, cluster_weight G.n NW cluster_ids c < UINT_E_MOD) :
    ∃ G' NW', CompressGraph G NW cluster_ids agg = .ok (G', NW') ∧
      NW'.sum = labelled_weight G.n NW cluster_ids := by
  obtain ⟨G', hG'⟩ := compressed_node_weights_returned G NW cluster_ids agg hagg
  exact ⟨G', _, hG', foldl_add_node_weight_sum NW cluster_ids hbound G.n hsum⟩

/-! ### CompressGraph: the compressed edges -/

/-- The number of vertices of the graph built by `MakeGbbsGraph`. -/
theorem MakeGbbsGraph_n (n : Nat) (T : List (Nat × Nat × ℚ)) : (MakeGbbsGraph n T).n = n := by
  simp [MakeGbbsGraph, Graph.n]

/-- A label read with the sentinel as default equals a label `c` other than the sentinel
exactly when the labeling holds `c` at that place. -/
theorem getD_eq_iff_getElem? (cluster_ids : List Nat) (i c : Nat) (hc : c ≠ UINT_E_MAX) :
    cluster_ids.getD i UINT_E_MAX = c ↔ cluster_ids[i]? = some c := by
  rw [List.getD_eq_getElem?_getD]
  cases h : cluster_ids[i]? with
  | none => simp [Ne.symm hc]
  | some d => simp

/-- Some original edge joins the clusters `c1` and `c2` exactly when the sequence of the
edges between them is not empty. -/
theorem Graph.edges_between_ne_nil (G : Graph) (cluster_ids : List Nat) (c1 c2 : Nat) :
    G.edges_between cluster_ids c1 c2 ≠ [] ↔
      ∃ u v w, (v, w) ∈ G.out_neighbors u ∧ cluster_ids[u]? = some c1 ∧
        cluster_ids[v]? = some c2 := by
  rw [Ne, ← List.isEmpty_iff, List.isEmpty_iff_length_eq_zero, ← Ne, ← Nat.pos_iff_ne_zero,
    List.length_pos_iff_exists_mem]
  constructor
  · rintro ⟨⟨u, v, w⟩, h⟩
    simp only [Graph.edges_between, List.mem_filter, Bool.and_eq_true, decide_eq_true_eq] at h
    exact ⟨u, v, w, (G.mem_edges u v w).1 h.1, h.2.1, h.2.2⟩
  · rintro ⟨u, v, w, hmem, h1, h2⟩
    refine ⟨(u, v, w), ?_⟩
    simp only [Graph.edges_between, List.mem_filter, Bool.and_eq_true, decide_eq_true_eq]
    exact ⟨(G.mem_edges u v w).2 hmem, h1, h2⟩

/-- The contribution of an original edge in `DEFAULT_AVERAGE` mode, with the weight `1` for
every vertex when no node weights are given. -/
theorem scale_func_default_average (NW : List Nat) (e : Nat × Nat × ℚ) :
    scale_func .DEFAULT_AVERAGE NW e =
      e.2.2 * (((node_weight_of NW e.1 * node_weight_of NW e.2.1) % UINT_E_MOD : Nat) : ℚ) := by
  unfold scale_func node_weight_of
  by_cases h : NW.isEmpty
  · simp [h, UINT_E_MOD]
  · simp [h]

/-- The contribution of an original edge in `CUT_SPARSITY` mode, with the weight `1` for
every vertex when no node weights are given. -/
theorem scale_func_cut_sparsity (NW : List Nat) (e : Nat × Nat × ℚ) :
    scale_func .CUT_SPARSITY NW e =
      e.2.2 * ((min (node_weight_of NW e.1) (node_weight_of NW e.2.1) : Nat) : ℚ) := by
  unfold scale_func node_weight_of
  by_cases h : NW.isEmpty
  · simp [h]
  · simp [h]

/-! ### CompressGraph: symmetry -/

/-- Reading every edge of a symmetric graph from its other endpoint rearranges the edge
list. -/
theorem Graph.Symmetric.edges_swap_perm {G : Graph} (h : G.Symmetric) :
    (G.edges.map swap_edge).Perm G.edges := h

/-- The triangle is symmetric. -/
theorem triangleGraph_symmetric : triangleGraph.Symmetric := by decide!

/-- Without node weights a cluster sum is at most the number of vertices. -/
theorem cluster_weight_nil_le (n : Nat) (cluster_ids : List Nat) (c : Nat) :
    cluster_weight n [] cluster_ids c ≤ n := by
  unfold cluster_weight
  have h1 : ∀ l : List Nat, (l.map (node_weight_of [])).sum = l.length := by
    intro l
    induction l with
    | nil => rfl
    | cons a l ih => simp [node_weight_of, ih]; omega
  rw [h1]
  calc ((List.range n).filter _).length ≤ (List.range n).length := List.length_filter_le _ _
    _ = n := List.length_range n

/-- Witness for C8: two disjoint pairs labelled `[0, 0, 2, 2]` without node weights; the
returned node weights add up to `4`. -/
theorem CompressGraph_conserves_node_weight_witness :
    EdgeAggregation.SUM ≠ .PERCENTILE ∧ (∀ x ∈ [0, 0, 2, 2], x ≤ UINT_E_MAX) ∧
    labelled_weight 4 [] [0, 0, 2, 2] = 4 ∧
    ∃ G' NW', CompressGraph ⟨[[(1, 2)], [(0, 2)], [(3, 2)], [(2, 2)]]⟩ [] [0, 0, 2, 2] .SUM =
        .ok (G', NW') ∧
      NW'.sum = labelled_weight (Graph.n ⟨[[(1, 2)], [(0, 2)], [(3, 2)], [(2, 2)]]⟩) []
        [0, 0, 2, 2] :=
  ⟨by decide, by decide, by decide,
   CompressGraph_conserves_node_weight ⟨[[(1, 2)], [(0, 2)], [(3, 2)], [(2, 2)]]⟩ []
     [0, 0, 2, 2] .SUM (by decide) (by decide)
     (fun c => lt_of_le_of_lt (cluster_weight_nil_le _ _ c) (by decide))⟩

/-! ### CompressGraph with the identity labeling -/

/-- With the identity labeling of at most `UINT_E_MAX` vertices there are as many compressed
vertices as vertices. -/
theorem num_compressed_vertices_range (n : Nat) (hn : n ≤ UINT_E_MAX) :
    num_compressed_vertices (List.range n) = n := by
  have hM : UINT_E_MAX = 4294967295 := rfl
  have hD : UINT_E_MOD = 4294967296 := rfl
  cases n with
  | zero => rfl
  | succ k =>
    rcases Reduce_max_label_spec (List.range (k + 1)) with ⟨_, hall⟩ | ⟨hne, hmem, hmax⟩
    · have := hall k (List.mem_range.2 (Nat.lt_succ_self k))
      omega
    · have h1 := List.mem_range.1 hmem
      have h2 := hmax k (List.mem_range.2 (Nat.lt_succ_self k)) (by omega)
      unfold num_compressed_vertices
      rw [Nat.mod_eq_of_lt (by omega)]
      omega

/-- With the identity labeling the cluster sum of `c` over the first `k` vertices is the
weight of `c` when `c` is among them. -/
theorem cluster_weight_range (n k : Nat) (NW : List Nat) (c : Nat) (hk : k ≤ n) :
    cluster_weight k NW (List.range n) c = if c < k then node_weight_of NW c else 0 := by
  induction k with
  | zero => simp [cluster_weight]
  | succ k ih =>
    rw [cluster_weight_succ, ih (by omega)]
    have hkn : k < n := by omega
    rw [List.getElem?_range hkn]
    by_cases h1 : c < k
    · have : k ≠ c := by omega
      simp [h1, Nat.lt_succ_of_lt h1, this]
    · by_cases h2 : k = c
      · subst h2; simp
      · have : ¬ c < k + 1 := by omega
        simp [h1, h2, this]

/-- With the identity labeling the compressed node weights are the original ones, and all
ones when no node weights are given. -/
theorem compressed_node_weights_range (n : Nat) (NW : List Nat) (hn : n ≤ UINT_E_MAX)
    (hNWb : ∀ x ∈ NW, x < UINT_E_MOD) :
    compressed_node_weights n NW (List.range n) = (List.range n).map (node_weight_of NW) := by
  apply List.ext_getElem?
  intro c
  by_cases hc : c < n
  · have hc' : c < num_compressed_vertices (List.range n) := by
      rw [num_compressed_vertices_range n hn]; exact hc
    rw [compressed_node_weights, foldl_add_node_weight_getElem? NW (List.range n) n c hc',
      cluster_weight_range n n NW c (le_refl n), if_pos hc, List.getElem?_map,
      List.getElem?_range hc]
    have hlt : node_weight_of NW c < UINT_E_MOD := by
      unfold node_weight_of
      split_ifs
      · decide
      · rw [List.getD_eq_getElem?_getD]
        cases h : NW[c]? with
        | none => decide
        | some x => exact hNWb x (List.getElem?_mem h)
    rw [Nat.mod_eq_of_lt hlt]
    rfl
  · have h1 : (compressed_node_weights n NW (List.range n)).length ≤ c := by
      rw [compressed_node_weights_length, num_compressed_vertices_range n hn]; omega
    have h2 : ((List.range n).map (node_weight_of NW)).length ≤ c := by
      simp; omega
    rw [List.getElem?_eq_none_iff.2 h1, List.getElem?_eq_none_iff.2 h2]

/-- Without node weights every vertex weighs `1`; with one weight per vertex the weights are
the given ones. -/
theorem map_node_weight_of (n : Nat) (NW : List Nat) :
    (NW = [] → (List.range n).map (node_weight_of NW) = List.replicate n 1) ∧
    (NW ≠ [] → NW.length = n → (List.range n).map (node_weight_of NW) = NW) := by
  constructor
  · intro h
    subst h
    apply List.ext_getElem?
    intro i
    by_cases hi : i < n
    · simp [List.getElem?_range hi, node_weight_of, hi]
    · have h1 : ((List.range n).map (node_weight_of [])).length ≤ i := by simp; omega
      have h2 : (List.replicate n 1).length ≤ i := by simp; omega
      rw [List.getElem?_eq_none_iff.2 h1, List.getElem?_eq_none_iff.2 h2]
  · intro hne hlen
    have hemp : NW.isEmpty = false := by
      cases NW with
      | nil => exact absurd rfl hne
      | cons a l => rfl
    apply List.ext_getElem?
    intro i
    by_cases hi : i < n
    · have hi' : i < NW.length := by omega
      simp [List.getElem?_range hi, node_weight_of, hemp, List.getElem?_eq_getElem hi']
    · have h1 : ((List.range n).map (node_weight_of NW)).length ≤ i := by simp; omega
      have h2 : NW.length ≤ i := by omega
      rw [List.getElem?_eq_none_iff.2 h1, List.getElem?_eq_none_iff.2 h2]

/-- In a list without two entries for the same neighbour, the entries for the neighbour of a
stored entry are that entry alone. -/
theorem filter_fst_eq_of_nodup (L : List (Nat × ℚ)) (hnd : (L.map Prod.fst).Nodup)
    (v : Nat) (w : ℚ) (hmem : (v, w) ∈ L) :
    L.filter (fun e => decide (e.1 = v)) = [(v, w)] := by
  induction L with
  | nil => exact absurd hmem (List.not_mem_nil _)
  | cons a L ih =>
    rw [List.map_cons, List.nodup_cons] at hnd
    obtain ⟨hnot, hnd'⟩ := hnd
    rcases List.mem_cons.1 hmem with h | h
    · subst h
      have hnil : L.filter (fun e => decide (e.1 = v)) = [] := by
        rw [List.filter_eq_nil_iff]
        intro x hx hxe
        simp only [decide_eq_true_eq] at hxe
        exact hnot (List.mem_map.2 ⟨x, hx, hxe⟩)
      simp [List.filter_cons, hnil]
    · have hav : a.1 ≠ v := by
        intro hav
        exact hnot (List.mem_map.2 ⟨(v, w), h, hav.symm⟩)
      simp [List.filter_cons, hav, ih hnd' h]

/-- The stored edges of source `c1` among the edges stored at the first `k` vertices. -/
theorem Graph.filter_edges_range (G : Graph) (k c1 : Nat) (p : Nat × Nat × ℚ → Bool) :
    ((List.range k).flatMap
        (fun u => (G.out_neighbors u).map (fun e => (u, e.1, e.2)))).filter
        (fun e => decide (e.1 = c1) && p e) =
      if c1 < k then ((G.out_neighbors c1).map (fun e => (c1, e.1, e.2))).filter p else [] := by
  induction k with
  | zero => simp
  | succ k ih =>
    rw [List.range_succ, List.flatMap_append, List.filter_append, ih, List.flatMap_singleton]
    by_cases hk : c1 = k
    · subst hk
      have hfil : ((G.out_neighbors c1).map (fun e => (c1, e.1, e.2))).filter
          (fun e => decide (e.1 = c1) && p e) =
          ((G.out_neighbors c1).map (fun e => (c1, e.1, e.2))).filter p := by
        apply List.filter_congr
        intro x hx
        obtain ⟨y, _, rfl⟩ := List.mem_map.1 hx
        simp
      simp [hfil]
    · have hfil : ((G.out_neighbors k).map (fun e => (k, e.1, e.2))).filter
          (fun e => decide (e.1 = c1) && p e) = [] := by
        rw [List.filter_eq_nil_iff]
        intro x hx
        obtain ⟨y, _, rfl⟩ := List.mem_map.1 hx
        simp [Ne.symm hk]
      rw [hfil]
      by_cases h1 : c1 < k
      · simp [h1, Nat.lt_succ_of_lt h1]
      · have : ¬ c1 < k + 1 := by omega
        simp [h1, this]

/-- With the identity labeling, in a graph without duplicate neighbours, the edges between
the clusters of the two endpoints of a stored edge are that edge alone. -/
theorem Graph.edges_between_range (G : Graph) (hwf : G.WellFormed)
    (hnd : G.NoDuplicateNeighbors) (c1 c2 : Nat) (w : ℚ)
    (hmem : (c2, w) ∈ G.out_neighbors c1) :
    G.edges_between (List.range G.n) c1 c2 = [(c1, c2, w)] := by
  have hc1 : c1 < G.n := G.lt_n_of_mem_out_neighbors c1 _ hmem
  have hcongr : G.edges_between (List.range G.n) c1 c2 =
      G.edges.filter (fun e => decide (e.1 = c1) && decide (e.2.1 = c2)) := by
    unfold Graph.edges_between
    apply List.filter_congr
    rintro ⟨a, b, x⟩ he
    have ha : a < G.n := G.lt_n_of_mem_out_neighbors a _ ((G.mem_edges a b x).1 he)
    have hb : b < G.n := hwf _ he
    simp [List.getElem?_range ha, List.getElem?_range hb]
  rw [hcongr, Graph.edges, Graph.filter_edges_range, if_pos hc1, List.filter_map]
  have hfun : ((fun e : Nat × Nat × ℚ => decide (e.2.1 = c2)) ∘
      (fun e : Nat × ℚ => (c1, e.1, e.2))) = (fun e => decide (e.1 = c2)) := rfl
  rw [hfun, filter_fst_eq_of_nodup _ (hnd c1 (List.mem_range.2 hc1)) c2 w hmem]
  rfl

/-- The triangle stores no neighbour twice. -/
theorem triangleGraph_noDuplicateNeighbors : triangleGraph.NoDuplicateNeighbors := by
  decide

/-! ### Boundary indices -/

/-- The boundary indices are strictly increasing. -/
theorem GetBoundaryIndices_pairwise (n : Nat) (eq : Nat → Nat → Bool) :
    (GetBoundaryIndices n eq).Pairwise (· < ·) := by
  unfold GetBoundaryIndices
  rw [List.pairwise_append]
  refine ⟨(List.pairwise_lt_range n).filter _, List.pairwise_singleton _ _, ?_⟩
  intro a ha b hb
  have hb' : b = n := by simpa using hb
  rw [hb']
  exact List.mem_range.1 (List.mem_filter.1 ha).1

/-- The boundary indices are `n` and the indices `i < n` with `i = 0` or `eq(i, i - 1)`
false. -/
theorem mem_GetBoundaryIndices (n : Nat) (eq : Nat → Nat → Bool) (x : Nat) :
    x ∈ GetBoundaryIndices n eq ↔ (x < n ∧ (x = 0 ∨ eq x (x - 1) = false)) ∨ x = n := by
  simp [GetBoundaryIndices]

/-- In a strictly increasing list, larger entries stand at larger places. -/
theorem lt_of_getElem_lt_of_pairwise (M : List Nat) (hM : M.Pairwise (· < ·)) (i j : Nat)
    (hi : i < M.length) (hj : j < M.length) (h : M[i] < M[j]) : i < j := by
  by_contra hcon
  rcases Nat.lt_or_ge j i with hlt | hge
  · have := List.pairwise_iff_getElem.1 hM j i hj hi hlt
    omega
  · have hij : i = j := by omega
    subst hij
    omega

/-- Two consecutive boundary indices `s` and `e` bound a run: `s < e ≤ n`, the index `s`
starts a run, no index strictly between them starts one, and `e` starts a run unless it
is `n`. -/
theorem GetBoundaryIndices_consecutive (n : Nat) (eq : Nat → Nat → Bool) (i : Nat)
    (hi : i + 1 < (GetBoundaryIndices n eq).length) :
    (GetBoundaryIndices n eq).getD i 0 < (GetBoundaryIndices n eq).getD (i + 1) 0 ∧
    (GetBoundaryIndices n eq).getD (i + 1) 0 ≤ n ∧
    ((GetBoundaryIndices n eq).getD i 0 = 0 ∨
      eq ((GetBoundaryIndices n eq).getD i 0) ((GetBoundaryIndices n eq).getD i 0 - 1) = false) ∧
    (∀ x, (GetBoundaryIndices n eq).getD i 0 < x → x < (GetBoundaryIndices n eq).getD (i + 1) 0 →
      x ≠ 0 ∧ eq x (x - 1) = true) ∧
    ((GetBoundaryIndices n eq).getD (i + 1) 0 < n →
      eq ((GetBoundaryIndices n eq).getD (i + 1) 0)
        ((GetBoundaryIndices n eq).getD (i + 1) 0 - 1) = false) := by
  have hM := GetBoundaryIndices_pairwise n eq
  have hi0 : i < (GetBoundaryIndices n eq).length := by omega
  rw [List.getD_eq_getElem _ _ hi0, List.getD_eq_getElem _ _ hi]
  have hs_mem : (GetBoundaryIndices n eq)[i] ∈ GetBoundaryIndices n eq :=
    List.getElem_mem _
  have he_mem : (GetBoundaryIndices n eq)[i + 1] ∈ GetBoundaryIndices n eq :=
    List.getElem_mem _
  have hlt := List.pairwise_iff_getElem.1 hM i (i + 1) hi0 hi (Nat.lt_succ_self i)
  have hs := (mem_GetBoundaryIndices n eq _).1 hs_mem
  have he := (mem_GetBoundaryIndices n eq _).1 he_mem
  have hen : (GetBoundaryIndices n eq)[i + 1] ≤ n := by
    rcases he with h | h
    · exact h.1.le
    · exact h.le
  refine ⟨hlt, hen, ?_, ?_, ?_⟩
  · rcases hs with h | h
    · exact h.2
    · omega
  · intro x hx1 hx2
    have hxn : x < n := by omega
    by_contra hcon
    have hxmem : x ∈ GetBoundaryIndices n eq := by
      rw [mem_GetBoundaryIndices]
      left
      refine ⟨hxn, ?_⟩
      by_cases h0 : x = 0
      · exact Or.inl h0
      · right
        cases hb : eq x (x - 1) with
        | false => rfl
        | true => exact absurd ⟨h0, hb⟩ hcon
    obtain ⟨j, hj, hjx⟩ := List.getElem_of_mem hxmem
    have h1 := lt_of_getElem_lt_of_pairwise _ hM i j hi0 hj (by rw [hjx]; exact hx1)
    have h2 := lt_of_getElem_lt_of_pairwise _ hM j (i + 1) hj hi (by rw [hjx]; exact hx2)
    omega
  · intro hlt'
    rcases he with h | h
    · rcases h.2 with h0 | h0
      · omega
      · exact h0
    · omega

/-- Every index that starts a run is a boundary index other than the last one. -/
theorem GetBoundaryIndices_exists (n : Nat) (eq : Nat → Nat → Bool) (x : Nat) (hx : x < n)
    (hb : x = 0 ∨ eq x (x - 1) = false) :
    ∃ i, i + 1 < (GetBoundaryIndices n eq).length ∧ (GetBoundaryIndices n eq).getD i 0 = x := by
  have hxmem : x ∈ (List.range n).filter (fun i => decide (i = 0) || !(eq i (i - 1))) := by
    rw [List.mem_filter]
    refine ⟨List.mem_range.2 hx, ?_⟩
    rcases hb with h | h
    · simp [h]
    · simp [h]
  obtain ⟨i, hi, hix⟩ := List.getElem_of_mem hxmem
  refine ⟨i, ?_, ?_⟩
  · simp only [GetBoundaryIndices, List.length_append, List.length_singleton]
    omega
  · have hi' : i < (GetBoundaryIndices n eq).length := by
      simp only [GetBoundaryIndices, List.length_append, List.length_singleton]
      omega
    rw [List.getD_eq_getElem _ _ hi']
    simp only [GetBoundaryIndices]
    rw [List.getElem_append_left hi]
    exact hix

/-! ### Runs of the sorted statistics -/

/-- Below the sentinel, `GetBoundaryIndices` of `gbbs::kcore_hierarchical` returns the
indices `i < n` with `i = 0` or `eq(i, i - 1)` false, followed by `n`. -/
theorem kcore_GetBoundaryIndices_eq (n : Nat) (eq : Nat → Nat → Bool) (hn : n < UINT_E_MAX) :
    kcore_hierarchical.GetBoundaryIndices n eq = GetBoundaryIndices n eq := by
  have hM : UINT_E_MAX = 4294967295 := rfl
  have hMod : UINT_E_MOD = 4294967296 := rfl
  unfold kcore_hierarchical.GetBoundaryIndices kcore_hierarchical.mark_keys GetBoundaryIndices
  rw [List.filter_append, List.filter_map]
  congr 1
  · have key : ∀ l : List Nat, (∀ i ∈ l, i < n) →
        List.map (fun i => if i ≠ 0 ∧ eq i (i - 1) = true then UINT_E_MAX else i % UINT_E_MOD)
          (List.filter ((fun x => decide (x ≠ UINT_E_MAX)) ∘
            fun i => if i ≠ 0 ∧ eq i (i - 1) = true then UINT_E_MAX else i % UINT_E_MOD) l) =
        List.filter (fun i => decide (i = 0) || !eq i (i - 1)) l := by
      intro l
      induction l with
      | nil => intro _; rfl
      | cons a l ih =>
        intro hl
        have ha : a < n := hl a (List.mem_cons_self _ _)
        have ih2 := ih (fun i hi => hl i (List.mem_cons_of_mem _ hi))
        have hmod : a % UINT_E_MOD = a := Nat.mod_eq_of_lt (by omega)
        by_cases hc : a ≠ 0 ∧ eq a (a - 1) = true
        · have h1 : (decide (a = 0) || !eq a (a - 1)) = false := by
            simp [hc.1, hc.2]
          simp only [List.filter_cons, Function.comp, if_pos hc, h1]
          simpa [Function.comp] using ih2
        · have h1 : (decide (a = 0) || !eq a (a - 1)) = true := by
            by_cases h0 : a = 0
            · simp [h0]
            · have : eq a (a - 1) = false := by
                cases h : eq a (a - 1)
                · rfl
                · exact absurd ⟨h0, h⟩ hc
              simp [this]
          have h2 : decide (a ≠ UINT_E_MAX) = true := decide_eq_true (by omega)
          simp only [List.filter_cons, Function.comp, if_neg hc, h1, hmod, h2, if_true,
            List.map_cons]
          simpa [Function.comp] using ih2
    exact key (List.range n) (fun i hi => List.mem_range.1 hi)
  · have hmod : n % UINT_E_MOD = n := Nat.mod_eq_of_lt (by omega)
    rw [hmod]
    exact List.filter_cons_of_pos (decide_eq_true (by omega))

/-- Along a sequence of keys that never decrease, the indices between two consecutive
boundaries are exactly the indices that carry the key of the first of them. -/
theorem run_keys (k : Nat → Nat) (n s e : Nat)
    (hmono : ∀ i j, i ≤ j → j < n → k i ≤ k j)
    (hse : s < e) (hen : e ≤ n)
    (hs : s = 0 ∨ k s ≠ k (s - 1))
    (hmid : ∀ x, s < x → x < e → k x = k (x - 1))
    (hend : e < n → k e ≠ k (e - 1)) :
    ∀ x, x < n → (k x = k s ↔ s ≤ x ∧ x < e) := by
  have hin : ∀ x, s ≤ x → x < e → k x = k s := by
    intro x hsx
    induction x, hsx using Nat.le_induction with
    | base => intro _; rfl
    | succ x hx ih =>
      intro hxe
      have h1 := hmid (x + 1) (by omega) hxe
      simp only [Nat.add_sub_cancel] at h1
      rw [h1]
      exact ih (by omega)
  intro x hx
  constructor
  · intro hkx
    by_contra hcon
    rcases Nat.lt_or_ge x s with h1 | h1
    · have hs0 : s ≠ 0 := by omega
      have hne : k s ≠ k (s - 1) := by
        rcases hs with h | h
        · exact absurd h hs0
        · exact h
      have hle := hmono (s - 1) s (by omega) (by omega)
      have hle2 := hmono x (s - 1) (by omega) (by omega)
      omega
    · have h2 : e ≤ x := by omega
      have hen' : e < n := by omega
      have hne := hend hen'
      have heq := hin (e - 1) (by omega) (by omega)
      have hle := hmono (e - 1) e (by omega) hen'
      have hle2 := hmono e x h2 hx
      omega
  · rintro ⟨h1, h2⟩
    exact hin x h1 h2

/-- The reduction of per-vertex statistics adds the three weights field by field. -/
theorem foldl_stats_combiner (l : List PerVertexClusterStats) (acc : PerVertexClusterStats)
    (hacc : acc.cluster_id = 0) :
    l.foldl stats_combiner acc =
      ⟨0, acc.volume + (l.map (fun a => a.volume)).sum,
        acc.intra_cluster_weight + (l.map (fun a => a.intra_cluster_weight)).sum,
        acc.inter_cluster_weight + (l.map (fun a => a.inter_cluster_weight)).sum⟩ := by
  induction l generalizing acc with
  | nil =>
    obtain ⟨i, v, a, b⟩ := acc
    simp only at hacc
    simp [hacc]
  | cons x xs ih =>
    rw [List.foldl_cons, ih _ rfl]
    simp only [stats_combiner, List.map_cons, List.sum_cons, add_assoc]

/-- The reduction over a run of statistics. -/
theorem Reduce_stats_combiner (l : List PerVertexClusterStats) :
    Reduce stats_combiner ⟨0, 0, 0, 0⟩ l =
      ⟨0, (l.map (fun a => a.volume)).sum, (l.map (fun a => a.intra_cluster_weight)).sum,
        (l.map (fun a => a.inter_cluster_weight)).sum⟩ := by
  rw [Reduce, foldl_stats_combiner _ _ rfl]
  simp

/-- The reduction for the total graph volume adds the volumes. -/
theorem foldl_volume_combiner (l : List PerVertexClusterStats) (acc : PerVertexClusterStats) :
    (l.foldl volume_combiner acc).volume = acc.volume + (l.map (fun a => a.volume)).sum := by
  induction l generalizing acc with
  | nil => simp
  | cons x xs ih =>
    rw [List.foldl_cons, ih]
    simp only [volume_combiner, List.map_cons, List.sum_cons, add_assoc]

/-- Every reduction tree over a run of statistics computes the three sums of the
left-to-right reduction; only the unused cluster id can differ. -/
theorem ReduceTree_eval_stats_combiner (t : ReduceTree PerVertexClusterStats) :
    (t.eval stats_combiner ⟨0, 0, 0, 0⟩).volume =
      (Reduce stats_combiner ⟨0, 0, 0, 0⟩ t.leaves).volume ∧
    (t.eval stats_combiner ⟨0, 0, 0, 0⟩).intra_cluster_weight =
      (Reduce stats_combiner ⟨0, 0, 0, 0⟩ t.leaves).intra_cluster_weight ∧
    (t.eval stats_combiner ⟨0, 0, 0, 0⟩).inter_cluster_weight =
      (Reduce stats_combiner ⟨0, 0, 0, 0⟩ t.leaves).inter_cluster_weight := by
  induction t with
  | identity => simp [ReduceTree.eval, ReduceTree.leaves, Reduce]
  | leaf a => simp [ReduceTree.eval, ReduceTree.leaves, Reduce, stats_combiner]
  | node l r ihl ihr =>
    rw [Reduce_stats_combiner] at ihl ihr ⊢
    simp only [ReduceTree.eval, ReduceTree.leaves, stats_combiner, List.map_append,
      List.sum_append] at ihl ihr ⊢
    exact ⟨by rw [ihl.1, ihr.1], by rw [ihl.2.1, ihr.2.1], by rw [ihl.2.2, ihr.2.2]⟩

/-- Every reduction tree for the total graph volume computes the volume of the
left-to-right reduction. -/
theorem ReduceTree_eval_volume_combiner (t : ReduceTree PerVertexClusterStats) :
    (t.eval volume_combiner ⟨0, 0, 0, 0⟩).volume =
      (Reduce volume_combiner ⟨0, 0, 0, 0⟩ t.leaves).volume := by
  induction t with
  | identity => simp [ReduceTree.eval, ReduceTree.leaves, Reduce]
  | leaf a => simp [ReduceTree.eval, ReduceTree.leaves, Reduce, volume_combiner]
  | node l r ihl ihr =>
    rw [Reduce, foldl_volume_combiner] at ihl ihr ⊢
    simp only [ReduceTree.eval, ReduceTree.leaves, volume_combiner, List.map_append,
      List.sum_append, zero_add] at ihl ihr ⊢
    rw [ihl, ihr]

/-- Writes to the slots of the runs: when some run with guard writes the slot `c` and every
such run writes the value `V`, the slot `c` ends with `V`. -/
theorem foldl_set_getElem? {β : Type} (runs : List Nat) (guard : Nat → Prop)
    [DecidablePred guard] (slot : Nat → Nat) (val : Nat → β) (c : Nat) (V : β)
    (hall : ∀ r ∈ runs, guard r → slot r = c → val r = V) (init : List β)
    (hc : c < init.length)
    (hex : init[c]? = some V ∨ ∃ r ∈ runs, guard r ∧ slot r = c) :
    (runs.foldl (fun acc r => if guard r then acc.set (slot r) (val r) else acc) init)[c]? =
      some V := by
  induction runs generalizing init with
  | nil =>
    rcases hex with h | ⟨r, hr, _⟩
    · exact h
    · exact absurd hr (List.not_mem_nil _)
  | cons r rs ih =>
    rw [List.foldl_cons]
    apply ih (fun x hx => hall x (List.mem_cons_of_mem _ hx))
    · split_ifs
      · simpa using hc
      · exact hc
    · by_cases hg : guard r
      · rw [if_pos hg]
        by_cases hs : slot r = c
        · left
          rw [hs, List.getElem?_set_self hc, hall r (List.mem_cons_self _ _) hg hs]
        · rw [List.getElem?_set_ne hs]
          rcases hex with h | ⟨x, hx, hxg, hxs⟩
          · exact Or.inl h
          · rcases List.mem_cons.1 hx with rfl | hx
            · exact absurd hxs hs
            · exact Or.inr ⟨x, hx, hxg, hxs⟩
      · rw [if_neg hg]
        rcases hex with h | ⟨x, hx, hxg, hxs⟩
        · exact Or.inl h
        · rcases List.mem_cons.1 hx with rfl | hx
          · exact absurd hxg hg
          · exact Or.inr ⟨x, hx, hxg, hxs⟩

/-- The weights of the edges stored at one vertex that pass a test, as a sum over its
stored neighbours. -/
theorem sum_filter_out_neighbors (L : List (Nat × ℚ)) (u : Nat) (b : Bool)
    (q : Nat × Nat × ℚ → Bool) :
    (((L.map (fun e => (u, e.1, e.2))).filter (fun e => b && q e)).map
        (fun e => e.2.2)).sum =
      if b then (L.map (fun e => if q (u, e.1, e.2) then e.2 else 0)).sum else 0 := by
  induction L with
  | nil => simp
  | cons x xs ih =>
    simp only [List.map_cons, List.filter_cons, List.sum_cons]
    cases b with
    | false => simp
    | true =>
      simp only [Bool.true_and, if_true] at ih ⊢
      by_cases hq : q (u, x.1, x.2) = true
      · simp only [hq, if_true, List.map_cons, List.sum_cons, ih]
      · simp only [hq, if_false, ih, Bool.false_eq_true, zero_add]

/-- The weights of the stored edges whose source passes the test `m` and that pass the test
`q`, as a sum over the vertices that pass `m` of sums over their stored neighbours. -/
theorem sum_filter_edges (G : Graph) (us : List Nat) (m : Nat → Bool)
    (q : Nat × Nat × ℚ → Bool) :
    (((us.flatMap (fun u => (G.out_neighbors u).map (fun e => (u, e.1, e.2)))).filter
        (fun e => m e.1 && q e)).map (fun e => e.2.2)).sum =
      ((us.filter m).map (fun i =>
        ((G.out_neighbors i).map (fun e => if q (i, e.1, e.2) then e.2 else 0)).sum)).sum := by
  induction us with
  | nil => simp
  | cons u us ih =>
    rw [List.flatMap_cons, List.filter_append, List.map_append, List.sum_append, ih]
    have hhead : ((G.out_neighbors u).map (fun e => (u, e.1, e.2))).filter
        (fun e => m e.1 && q e) =
        ((G.out_neighbors u).map (fun e => (u, e.1, e.2))).filter (fun e => m u && q e) := by
      apply List.filter_congr
      intro x hx
      obtain ⟨y, _, rfl⟩ := List.mem_map.1 hx
      rfl
    rw [hhead, sum_filter_out_neighbors]
    cases hm : m u with
    | false => simp [List.filter_cons, hm]
    | true => simp [List.filter_cons, hm]

/-- The cluster id stored for a vertex is `c`, for a label `c` other than the sentinel,
exactly when the vertex is labelled `c`. -/
theorem per_vertex_cluster_id (G : Graph) (cluster_ids : List Nat) (i : Nat) :
    (per_vertex_cluster_stats G cluster_ids i).cluster_id = cluster_ids.getD i UINT_E_MAX := by
  unfold per_vertex_cluster_stats
  split_ifs <;> rfl

/-- The volume stored for a vertex is its weighted degree. -/
theorem per_vertex_volume (G : Graph) (cluster_ids : List Nat) (i : Nat) :
    (per_vertex_cluster_stats G cluster_ids i).volume =
      ((G.out_neighbors i).map (fun e => e.2)).sum := by
  unfold per_vertex_cluster_stats
  split_ifs <;> rfl

/-- The intra-cluster weight stored for a vertex labelled `c`. -/
theorem per_vertex_intra (G : Graph) (cluster_ids : List Nat) (i c : Nat)
    (hc : c ≠ UINT_E_MAX) (hi : cluster_ids[i]? = some c) :
    (per_vertex_cluster_stats G cluster_ids i).intra_cluster_weight =
      ((G.out_neighbors i).map (fun e =>
        if (decide (cluster_ids[e.1]? = some c) && decide (e.1 ≤ i)) = true then e.2
        else 0)).sum := by
  have hget : cluster_ids.getD i UINT_E_MAX = c := (getD_eq_iff_getElem? _ _ _ hc).2 hi
  unfold per_vertex_cluster_stats
  rw [hget, if_neg hc]
  simp only
  congr 1
  apply List.map_congr_left
  intro e _
  have hiff : (c = cluster_ids.getD e.1 UINT_E_MAX ∧ e.1 ≤ i) ↔
      (decide (cluster_ids[e.1]? = some c) && decide (e.1 ≤ i)) = true := by
    rw [Bool.and_eq_true, decide_eq_true_eq, decide_eq_true_eq,
      ← getD_eq_iff_getElem? cluster_ids e.1 c hc]
    constructor
    · rintro ⟨h1, h2⟩; exact ⟨h1.symm, h2⟩
    · rintro ⟨h1, h2⟩; exact ⟨h1.symm, h2⟩
  by_cases h : c = cluster_ids.getD e.1 UINT_E_MAX ∧ e.1 ≤ i
  · rw [if_pos h, if_pos (hiff.1 h)]
  · rw [if_neg h, if_neg (fun h' => h (hiff.2 h'))]

/-- The inter-cluster weight stored for a vertex labelled `c`. -/
theorem per_vertex_inter (G : Graph) (cluster_ids : List Nat) (i c : Nat)
    (hc : c ≠ UINT_E_MAX) (hi : cluster_ids[i]? = some c) :
    (per_vertex_cluster_stats G cluster_ids i).inter_cluster_weight =
      ((G.out_neighbors i).map (fun e =>
        if (!decide (cluster_ids[e.1]? = some c)) = true then e.2 else 0)).sum := by
  have hget : cluster_ids.getD i UINT_E_MAX = c := (getD_eq_iff_getElem? _ _ _ hc).2 hi
  unfold per_vertex_cluster_stats
  rw [hget, if_neg hc]
  simp only
  congr 1
  apply List.map_congr_left
  intro e _
  have hiff : (c ≠ cluster_ids.getD e.1 UINT_E_MAX) ↔
      (!decide (cluster_ids[e.1]? = some c)) = true := by
    rw [Bool.not_eq_true', decide_eq_false_iff_not,
      ← getD_eq_iff_getElem? cluster_ids e.1 c hc]
    constructor
    · intro h1 h2; exact h1 h2.symm
    · intro h1 h2; exact h1 h2.symm
  by_cases h : c ≠ cluster_ids.getD e.1 UINT_E_MAX
  · rw [if_pos h, if_pos (hiff.1 h)]
  · rw [if_neg h, if_neg (fun h' => h (hiff.2 h'))]

/-- The statistics with cluster id `c` are the statistics of the vertices labelled `c`. -/
theorem cluster_stats_filter (G : Graph) (cluster_ids : List Nat) (c : Nat)
    (hc : c ≠ UINT_E_MAX) :
    (cluster_stats G cluster_ids).filter (fun a => decide (a.cluster_id = c)) =
      ((List.range G.n).filter (fun i => decide (cluster_ids[i]? = some c))).map
        (per_vertex_cluster_stats G cluster_ids) := by
  unfold cluster_stats
  rw [List.filter_map]
  congr 1
  apply List.filter_congr
  intro i _
  simp only [Function.comp, per_vertex_cluster_id]
  by_cases h : cluster_ids[i]? = some c
  · simp [h, (getD_eq_iff_getElem? cluster_ids i c hc).2 h]
  · have : cluster_ids.getD i UINT_E_MAX ≠ c :=
      fun h' => h ((getD_eq_iff_getElem? cluster_ids i c hc).1 h')
    rw [decide_eq_false this, decide_eq_false h]

/-- The volumes stored for the vertices labelled `c` add up to `volume(c)`. -/
theorem sum_volume_members (G : Graph) (cluster_ids : List Nat) (c : Nat) :
    (((List.range G.n).filter (fun i => decide (cluster_ids[i]? = some c))).map
        (fun i => (per_vertex_cluster_stats G cluster_ids i).volume)).sum =
      cluster_volume G cluster_ids c := by
  have h := sum_filter_edges G (List.range G.n)
    (fun i => decide (cluster_ids[i]? = some c)) (fun _ => true)
  simp only [Bool.and_true, if_true] at h
  unfold cluster_volume Graph.edges
  rw [h]
  congr 1
  apply List.map_congr_left
  intro i _
  exact per_vertex_volume G cluster_ids i

/-- The intra-cluster weights stored for the vertices labelled `c` add up to `intra(c)`. -/
theorem sum_intra_members (G : Graph) (cluster_ids : List Nat) (c : Nat)
    (hc : c ≠ UINT_E_MAX) :
    (((List.range G.n).filter (fun i => decide (cluster_ids[i]? = some c))).map
        (fun i => (per_vertex_cluster_stats G cluster_ids i).intra_cluster_weight)).sum =
      intra_weight G cluster_ids c := by
  have h := sum_filter_edges G (List.range G.n)
    (fun i => decide (cluster_ids[i]? = some c))
    (fun e => decide (cluster_ids[e.2.1]? = some c) && decide (e.2.1 ≤ e.1))
  unfold intra_weight Graph.edges
  rw [h]
  congr 1
  apply List.map_congr_left
  intro i hi
  have hi' : cluster_ids[i]? = some c := by
    simpa using (List.mem_filter.1 hi).2
  exact per_vertex_intra G cluster_ids i c hc hi'

/-- The inter-cluster weights stored for the vertices labelled `c` add up to `inter(c)`. -/
theorem sum_inter_members (G : Graph) (cluster_ids : List Nat) (c : Nat)
    (hc : c ≠ UINT_E_MAX) :
    (((List.range G.n).filter (fun i => decide (cluster_ids[i]? = some c))).map
        (fun i => (per_vertex_cluster_stats G cluster_ids i).inter_cluster_weight)).sum =
      inter_weight G cluster_ids c := by
  have h := sum_filter_edges G (List.range G.n)
    (fun i => decide (cluster_ids[i]? = some c))
    (fun e => !decide (cluster_ids[e.2.1]? = some c))
  unfold inter_weight Graph.edges
  rw [h]
  congr 1
  apply List.map_congr_left
  intro i hi
  have hi' : cluster_ids[i]? = some c := by
    simpa using (List.mem_filter.1 hi).2
  exact per_vertex_inter G cluster_ids i c hc hi'

/-- The reduced total graph volume is the weighted degree sum over all vertices. -/
theorem graph_volume_eq (G : Graph) (cluster_ids : List Nat) :
    (Reduce volume_combiner ⟨0, 0, 0, 0⟩ (cluster_stats G cluster_ids)).volume =
      total_volume G := by
  rw [Reduce, foldl_volume_combiner]
  have h := sum_filter_edges G (List.range G.n) (fun _ => true) (fun _ => true)
  simp only [Bool.and_true, if_true, List.filter_true] at h
  unfold total_volume Graph.edges
  rw [h]
  simp only [cluster_stats, List.map_map, zero_add]
  congr 1
  apply List.map_congr_left
  intro i _
  exact per_vertex_volume G cluster_ids i

/-- A sum over the entries that pass a test splits along two tests that together cover it
and exclude each other. -/
theorem sum_filter_split {α : Type} (l : List α) (f : α → ℚ) (p q₁ q₂ : α → Bool)
    (h : ∀ x ∈ l, p x = (q₁ x || q₂ x) ∧ ¬ (q₁ x = true ∧ q₂ x = true)) :
    ((l.filter p).map f).sum = ((l.filter q₁).map f).sum + ((l.filter q₂).map f).sum := by
  induction l with
  | nil => simp
  | cons x xs ih =>
    have ih := ih (fun y hy => h y (List.mem_cons_of_mem _ hy))
    obtain ⟨h1, h2⟩ := h x (List.mem_cons_self _ _)
    simp only [List.filter_cons, h1]
    cases hq1 : q₁ x <;> cases hq2 : q₂ x
    · simp [ih]
    · simp [ih]; ring
    · simp [ih]; ring
    · exact absurd ⟨hq1, hq2⟩ h2

/-- In a symmetric graph without self-loops `intra(c)` counts every edge inside the cluster
`c` once: twice `intra(c)` is the weight of all stored edges with both endpoints in `c`. -/
theorem two_mul_intra_weight (G : Graph) (cluster_ids : List Nat) (c : Nat)
    (hsym : G.Symmetric) (hloop : G.NoSelfLoops) :
    2 * intra_weight G cluster_ids c =
      ((G.edges.filter (fun e => decide (cluster_ids[e.1]? = some c) &&
        decide (cluster_ids[e.2.1]? = some c))).map (fun e => e.2.2)).sum := by
  have hsplit := sum_filter_split G.edges (fun e => e.2.2)
    (fun e => decide (cluster_ids[e.1]? = some c) && decide (cluster_ids[e.2.1]? = some c))
    (fun e => decide (cluster_ids[e.1]? = some c) &&
      (decide (cluster_ids[e.2.1]? = some c) && decide (e.2.1 ≤ e.1)))
    (fun e => decide (cluster_ids[e.1]? = some c) &&
      (decide (cluster_ids[e.2.1]? = some c) && decide (e.1 < e.2.1)))
    (by
      intro x _
      by_cases h1 : cluster_ids[x.1]? = some c <;>
        by_cases h2 : cluster_ids[x.2.1]? = some c <;>
        by_cases h3 : x.2.1 ≤ x.1 <;>
        simp [h1, h2, h3]
      all_goals omega)
  have hother : ((G.edges.filter (fun e => decide (cluster_ids[e.1]? = some c) &&
      (decide (cluster_ids[e.2.1]? = some c) && decide (e.1 < e.2.1)))).map
        (fun e => e.2.2)).sum = intra_weight G cluster_ids c := by
    have hp := (hsym.edges_swap_perm.filter (fun e => decide (cluster_ids[e.1]? = some c) &&
      (decide (cluster_ids[e.2.1]? = some c) && decide (e.1 < e.2.1)))).map (fun e => e.2.2)
    rw [← hp.sum_eq, List.filter_map, List.map_map]
    unfold intra_weight
    have hfil : G.edges.filter ((fun e : Nat × Nat × ℚ => decide (cluster_ids[e.1]? = some c) &&
        (decide (cluster_ids[e.2.1]? = some c) && decide (e.1 < e.2.1))) ∘ swap_edge) =
        G.edges.filter (fun e => decide (cluster_ids[e.1]? = some c) &&
          (decide (cluster_ids[e.2.1]? = some c) && decide (e.2.1 ≤ e.1))) := by
      apply List.filter_congr
      intro x hx
      have hne := hloop x hx
      simp only [Function.comp, swap_edge]
      by_cases h1 : cluster_ids[x.1]? = some c <;>
        by_cases h2 : cluster_ids[x.2.1]? = some c <;>
        by_cases h3 : x.2.1 ≤ x.1 <;>
        simp [h1, h2, h3]
      all_goals omega
    rw [hfil]
    rfl
  rw [hsplit, hother]
  unfold intra_weight
  ring

/-- A sum of non-negative terms over the entries that pass a test is at most the sum over
the entries that pass a weaker test. -/
theorem sum_filter_le_of_imp {α : Type} (l : List α) (f : α → ℚ) (p q : α → Bool)
    (hf : ∀ x ∈ l, 0 ≤ f x) (hpq : ∀ x ∈ l, p x = true → q x = true) :
    ((l.filter p).map f).sum ≤ ((l.filter q).map f).sum := by
  induction l with
  | nil => simp
  | cons x xs ih =>
    have ih := ih (fun y hy => hf y (List.mem_cons_of_mem _ hy))
      (fun y hy => hpq y (List.mem_cons_of_mem _ hy))
    have hx := hf x (List.mem_cons_self _ _)
    have himp := hpq x (List.mem_cons_self _ _)
    simp only [List.filter_cons]
    cases hp : p x <;> cases hq : q x
    · simpa using ih
    · simp only [Bool.false_eq_true, if_false, if_true, List.map_cons, List.sum_cons]
      linarith
    · rw [hp, hq] at himp
      exact absurd (himp rfl) (by decide)
    · simp only [if_true, List.map_cons, List.sum_cons]
      linarith

/-- With non-negative weights `inter(c)` is not negative. -/
theorem inter_weight_nonneg (G : Graph) (cluster_ids : List Nat) (c : Nat)
    (hnonneg : ∀ e ∈ G.edges, 0 ≤ e.2.2) : 0 ≤ inter_weight G cluster_ids c := by
  unfold inter_weight
  apply List.sum_nonneg
  intro x hx
  obtain ⟨e, he, rfl⟩ := List.mem_map.1 hx
  exact hnonneg e (List.mem_filter.1 he).1

/-- With non-negative weights `inter(c)` is at most `volume(c)`. -/
theorem inter_weight_le_cluster_volume (G : Graph) (cluster_ids : List Nat) (c : Nat)
    (hnonneg : ∀ e ∈ G.edges, 0 ≤ e.2.2) :
    inter_weight G cluster_ids c ≤ cluster_volume G cluster_ids c := by
  unfold inter_weight cluster_volume
  apply sum_filter_le_of_imp _ _ _ _ hnonneg
  intro x _ hx
  simp only [Bool.and_eq_true] at hx
  exact hx.1

/-- In a symmetric graph with non-negative weights `inter(c)` is at most the volume of the
vertices that are not labelled `c`. -/
theorem inter_weight_le_complement (G : Graph) (cluster_ids : List Nat) (c : Nat)
    (hsym : G.Symmetric) (hnonneg : ∀ e ∈ G.edges, 0 ≤ e.2.2) :
    inter_weight G cluster_ids c ≤ total_volume G - cluster_volume G cluster_ids c := by
  have hsplit := sum_filter_split G.edges (fun e => e.2.2) (fun _ => true)
    (fun e => decide (cluster_ids[e.1]? = some c))
    (fun e => !decide (cluster_ids[e.1]? = some c))
    (by
      intro x _
      by_cases h1 : cluster_ids[x.1]? = some c <;> simp [h1])
  rw [List.filter_true] at hsplit
  have hrest : total_volume G - cluster_volume G cluster_ids c =
      ((G.edges.filter (fun e => !decide (cluster_ids[e.1]? = some c))).map
        (fun e => e.2.2)).sum := by
    unfold total_volume cluster_volume
    rw [hsplit]
    ring
  rw [hrest]
  have hswap : inter_weight G cluster_ids c =
      ((G.edges.filter (fun e => !decide (cluster_ids[e.1]? = some c) &&
        decide (cluster_ids[e.2.1]? = some c))).map (fun e => e.2.2)).sum := by
    have hp := (hsym.edges_swap_perm.filter (fun e => !decide (cluster_ids[e.1]? = some c) &&
      decide (cluster_ids[e.2.1]? = some c))).map (fun e => e.2.2)
    rw [← hp.sum_eq, List.filter_map, List.map_map]
    unfold inter_weight
    have hfil : G.edges.filter ((fun e : Nat × Nat × ℚ =>
        !decide (cluster_ids[e.1]? = some c) && decide (cluster_ids[e.2.1]? = some c)) ∘
          swap_edge) =
        G.edges.filter (fun e => decide (cluster_ids[e.1]? = some c) &&
          !decide (cluster_ids[e.2.1]? = some c)) := by
      apply List.filter_congr
      intro x _
      simp only [Function.comp, swap_edge]
      exact Bool.and_comm _ _
    rw [hfil]
    rfl
  rw [hswap]
  apply sum_filter_le_of_imp _ _ _ _ hnonneg
  intro x _ hx
  simp only [Bool.and_eq_true] at hx
  exact hx.1

/-- C14: for every sample sort, graph and labeling, `FindFinishedClusters` called with the
empty sequence of conditions returns the empty clustering and leaves every label as it
was. -/
theorem FindFinishedClusters_no_conditions
    (sort : List PerVertexClusterStats → List PerVertexClusterStats)
    (G : Graph) (cluster_ids : List Nat) :
    FindFinishedClusters sort G [] cluster_ids = ([], cluster_ids) := by
  rfl

/-- `PackIndex` lists each index once. -/
theorem PackIndex_nodup (f : Nat → Bool) (n : Nat) : (PackIndex f n).Nodup :=
  (List.nodup_range n).filter _

/-- The indices that `OutputIndicesById` groups, for the getter that reads a list. -/
theorem map_getD_range_length (l : List Nat) :
    (List.range l.length).map (fun i => l.getD i 0) = l := by
  apply List.ext_getElem
  · simp
  · intro i h1 h2
    simp [List.getD_eq_getElem?_getD, List.getElem?_eq_getElem h2]

/-- The bucket id is a lower bound of the fold that computes it. -/
theorem foldl_min_le (D : List Nat) (b : List Nat) (m : Nat) :
    b.foldl (fun m v => min m (D.getD v 0)) m ≤ m ∧
    ∀ v ∈ b, b.foldl (fun m v => min m (D.getD v 0)) m ≤ D.getD v 0 := by
  induction b generalizing m with
  | nil => simp
  | cons x xs ih =>
    rw [List.foldl_cons]
    obtain ⟨h1, h2⟩ := ih (min m (D.getD x 0))
    refine ⟨le_trans h1 (min_le_left _ _), ?_⟩
    intro v hv
    rcases List.mem_cons.1 hv with h | h
    · subst h
      exact le_trans h1 (min_le_right _ _)
    · exact h2 v h

/-- The fold that computes the bucket id returns its start value or the `D` of an
identifier. -/
theorem foldl_min_mem (D : List Nat) (b : List Nat) (m : Nat) :
    b.foldl (fun m v => min m (D.getD v 0)) m = m ∨
    ∃ v ∈ b, b.foldl (fun m v => min m (D.getD v 0)) m = D.getD v 0 := by
  induction b generalizing m with
  | nil => left; rfl
  | cons x xs ih =>
    rw [List.foldl_cons]
    rcases ih (min m (D.getD x 0)) with h | ⟨v, hv, h⟩
    · rw [h]
      rcases min_choice m (D.getD x 0) with h2 | h2
      · left; exact h2
      · right; exact ⟨x, List.mem_cons_self _ _, h2⟩
    · right; exact ⟨v, List.mem_cons_of_mem _ hv, h⟩

/-- The bucket id is at most the `D` of every identifier still held. -/
theorem next_bucket_id_le (D : List Nat) (b : List Nat) (v : Nat) (hv : v ∈ b) :
    next_bucket_id D b ≤ D.getD v 0 :=
  (foldl_min_le D b _).2 v hv

/-- The bucket id is the `D` of an identifier still held, when there is one. -/
theorem next_bucket_id_mem (D : List Nat) (b : List Nat) (hb : b ≠ []) :
    ∃ v ∈ b, next_bucket_id D b = D.getD v 0 := by
  cases b with
  | nil => exact absurd rfl hb
  | cons x xs =>
    rcases foldl_min_mem D (x :: xs) (D.getD x 0) with h | h
    · exact ⟨x, List.mem_cons_self _ _, h⟩
    · exact h

/-- The returned bucket holds the identifiers whose `D` is the bucket id. -/
theorem mem_next_bucket_identifiers (D : List Nat) (b : List Nat) (v : Nat) :
    v ∈ next_bucket_identifiers D b ↔ v ∈ b ∧ D.getD v 0 = next_bucket_id D b := by
  simp [next_bucket_identifiers]

/-- The degree into a larger set is larger. -/
theorem degree_in_mono (G : Graph) (S T : Nat → Bool) (v : Nat)
    (h : ∀ e ∈ G.out_neighbors v, S e.1 = true → T e.1 = true) :
    degree_in G S v ≤ degree_in G T v := by
  unfold degree_in
  generalize G.out_neighbors v = L at h
  induction L with
  | nil => simp
  | cons x xs ih =>
    have ih := ih (fun e he => h e (List.mem_cons_of_mem _ he))
    have hx := h x (List.mem_cons_self _ _)
    simp only [List.filter_cons]
    cases hS : S x.1 <;> cases hT : T x.1
    · simpa using ih
    · simp only [Bool.false_eq_true, if_false, if_true, List.length_cons]
      omega
    · rw [hS, hT] at hx
      exact absurd (hx rfl) (by decide)
    · simp only [if_true, List.length_cons]
      omega

/-- The degree into a set splits along two parts of the set. -/
theorem degree_in_split (G : Graph) (S T A : Nat → Bool) (v : Nat)
    (h : ∀ e ∈ G.out_neighbors v, S e.1 = (T e.1 || A e.1) ∧ ¬ (T e.1 = true ∧ A e.1 = true)) :
    degree_in G S v = degree_in G T v + degree_in G A v := by
  unfold degree_in
  generalize G.out_neighbors v = L at h
  induction L with
  | nil => simp
  | cons x xs ih =>
    have ih := ih (fun e he => h e (List.mem_cons_of_mem _ he))
    obtain ⟨h1, h2⟩ := h x (List.mem_cons_self _ _)
    simp only [List.filter_cons, h1]
    cases hT : T x.1 <;> cases hA : A x.1
    · simpa using ih
    · simp only [Bool.false_or, Bool.false_eq_true, if_false, if_true, List.length_cons]
      omega
    · simp only [Bool.or_false, Bool.false_eq_true, if_false, if_true, List.length_cons]
      omega
    · rw [hT, hA] at h2
      exact absurd ⟨rfl, rfl⟩ h2

/-- The degree into a set is at most the stored degree. -/
theorem degree_in_le (G : Graph) (S : Nat → Bool) (v : Nat) :
    degree_in G S v ≤ (G.out_neighbors v).length :=
  List.length_filter_le _ _

/-- The stored edges of one vertex `u` that end in `v`, counted as triples. -/
theorem length_filter_out_neighbors (L : List (Nat × ℚ)) (u v : Nat) (b : Bool) :
    ((L.map (fun e => (u, e.1, e.2))).filter
        (fun e : Nat × Nat × ℚ => b && decide (e.2.1 = v))).length =
      if b then (L.map (fun e => e.1)).count v else 0 := by
  induction L with
  | nil => simp
  | cons x xs ih =>
    simp only [List.map_cons, List.filter_cons]
    cases b with
    | false => simp
    | true =>
      simp only [Bool.true_and, if_true] at ih ⊢
      by_cases h : x.1 = v
      · simp [h, ih]
      · have h2 : ¬ v = x.1 := fun hh => h hh.symm
        simp [h, ih, List.count_cons, h2]

/-- The number of stored edges into `v` from the vertices of `us` that pass the test `m`,
counted over the stored edges as triples. -/
theorem count_flatMap_filter (G : Graph) (us : List Nat) (m : Nat → Bool) (v : Nat) :
    ((us.filter m).flatMap (fun u => (G.out_neighbors u).map (fun e => e.1))).count v =
      ((us.flatMap (fun u => (G.out_neighbors u).map (fun e => (u, e.1, e.2)))).filter
        (fun e => m e.1 && decide (e.2.1 = v))).length := by
  induction us with
  | nil => simp
  | cons u us ih =>
    rw [List.flatMap_cons, List.filter_append, List.length_append, ← ih]
    have hhead : ((G.out_neighbors u).map (fun e => (u, e.1, e.2))).filter
        (fun e : Nat × Nat × ℚ => m e.1 && decide (e.2.1 = v)) =
        ((G.out_neighbors u).map (fun e => (u, e.1, e.2))).filter
        (fun e : Nat × Nat × ℚ => m u && decide (e.2.1 = v)) := by
      apply List.filter_congr
      intro e he
      obtain ⟨x, _, rfl⟩ := List.mem_map.1 he
      rfl
    rw [hhead, length_filter_out_neighbors]
    cases hm : m u
    · simp [List.filter_cons, hm]
    · simp [List.filter_cons, hm, List.flatMap_cons]

/-- In a symmetric graph the count that `nghCount` passes for the vertex `v` is the number
of stored edges of `v` into the active set. -/
theorem edgesRemoved_eq_degree_in (G : Graph) (hsym : G.Symmetric) (m : Nat → Bool) (v : Nat)
    (hv : v < G.n) :
    edgesRemoved G ((List.range G.n).filter m) v = degree_in G m v := by
  unfold edgesRemoved
  rw [count_flatMap_filter]
  change (G.edges.filter (fun e => m e.1 && decide (e.2.1 = v))).length = _
  have hp := (hsym.edges_swap_perm.filter (fun e => m e.1 && decide (e.2.1 = v))).length_eq
  rw [← hp, List.filter_map, List.length_map]
  have hfil : G.edges.filter ((fun e : Nat × Nat × ℚ => m e.1 && decide (e.2.1 = v)) ∘
      swap_edge) = G.edges.filter (fun e => decide (e.1 = v) && m e.2.1) := by
    apply List.filter_congr
    intro x _
    simp only [Function.comp, swap_edge]
    exact Bool.and_comm _ _
  rw [hfil]
  unfold Graph.edges
  rw [Graph.filter_edges_range G G.n v (fun e => m e.2.1), if_pos hv, List.filter_map,
    List.length_map]
  rfl

/-- The entry `D[v]` after one iteration of the loop of `KCore`. -/
theorem KCore_round_D_getD {σ : Type} (ops : ConnectWhilePeelingOps σ) (G : Graph)
    (ih : Bool) (s : KCoreState σ) (v : Nat) (hv : v < G.n) :
    (KCore_round ops G ih s).D.getD v 0 =
      if 0 < edgesRemoved G (next_bucket_identifiers s.D s.b) v then
        apply_f (next_bucket_id s.D s.b) (s.D.getD v 0)
          (edgesRemoved G (next_bucket_identifiers s.D s.b) v % UINT_E_MOD)
      else s.D.getD v 0 := by
  unfold KCore_round
  simp only
  rw [List.getD_eq_getElem?_getD, List.getElem?_map, List.getElem?_range hv]
  rfl

/-- The identifiers that the bucket structure holds after one iteration. -/
theorem mem_KCore_round_b {σ : Type} (ops : ConnectWhilePeelingOps σ) (G : Graph)
    (ih : Bool) (s : KCoreState σ) (v : Nat) :
    v ∈ (KCore_round ops G ih s).b ↔ v ∈ s.b ∧ s.D.getD v 0 ≠ next_bucket_id s.D s.b := by
  unfold KCore_round
  simp

/-- An entry of `D` that is at most the bucket id is not changed by the iteration. -/
theorem KCore_round_D_of_le {σ : Type} (ops : ConnectWhilePeelingOps σ) (G : Graph)
    (ih : Bool) (s : KCoreState σ) (v : Nat) (hv : v < G.n)
    (hle : s.D.getD v 0 ≤ next_bucket_id s.D s.b) :
    (KCore_round ops G ih s).D.getD v 0 = s.D.getD v 0 := by
  rw [KCore_round_D_getD ops G ih s v hv]
  split_ifs with h
  · unfold apply_f
    rw [if_neg (not_lt.2 hle)]
  · rfl

/-- A list splits into the entries that pass a test and those that fail it. -/
theorem length_filter_add_length_filter_not {α : Type} (l : List α) (p : α → Bool) :
    (l.filter p).length + (l.filter (fun x => !p x)).length = l.length := by
  induction l with
  | nil => rfl
  | cons x xs ih =>
    simp only [List.filter_cons]
    cases hp : p x
    · simp only [Bool.false_eq_true, if_false, Bool.not_false, if_true, List.length_cons]
      omega
    · simp only [if_true, Bool.not_true, Bool.false_eq_true, if_false, List.length_cons]
      omega

/-- The active set as a set of vertices chosen by a test. -/
theorem next_bucket_identifiers_eq_filter (n : Nat) (D b : List Nat)
    (hb : b = (List.range n).filter (fun v => decide (v ∈ b))) :
    next_bucket_identifiers D b =
      (List.range n).filter
        (fun v => decide (v ∈ b) && decide (D.getD v 0 = next_bucket_id D b)) := by
  have h : next_bucket_identifiers D b =
      ((List.range n).filter (fun v => decide (v ∈ b))).filter
        (fun v => decide (D.getD v 0 = next_bucket_id D b)) := by
    rw [← hb]
    rfl
  rw [h, List.filter_filter]
  apply List.filter_congr
  intro x _
  exact Bool.and_comm _ _

/-- An identifier held by the bucket structure is a vertex. -/
theorem lt_of_mem_b (n : Nat) (b : List Nat)
    (hb : b = (List.range n).filter (fun v => decide (v ∈ b))) (v : Nat) (hv : v ∈ b) :
    v < n := by
  rw [hb] at hv
  exact List.mem_range.1 (List.mem_filter.1 hv).1

/-- The new degree computed by `apply_f` when the count is at most the degree, so that the
32-bit difference does not wrap. -/
theorem apply_f_eq (k deg r : Nat) (hr : r ≤ deg) (hdeg : deg < UINT_E_MOD) (hk : k < deg) :
    apply_f k deg (r % UINT_E_MOD) = max (deg - r) k := by
  unfold apply_f
  rw [if_pos hk]
  have hD : UINT_E_MOD = 4294967296 := rfl
  rw [hD] at hdeg ⊢
  have h1 : r % 4294967296 = r := Nat.mod_eq_of_lt (by omega)
  rw [h1]
  have h2 : (deg + 4294967296 - r) % 4294967296 = deg - r := by omega
  rw [h2]

/-- The entry `D[v]` of a vertex that stays in the bucket structure, after one iteration of
the loop of `KCore` on a symmetric graph. -/
theorem KCore_round_D_live {σ : Type} (ops : ConnectWhilePeelingOps σ) (G : Graph)
    (hsym : G.Symmetric)
    (hdeg : ∀ v, v < G.n → (G.out_neighbors v).length < UINT_E_MOD) (ih : Bool) (s : KCoreState σ)
    (hinv : KCoreInv G s) (v : Nat) (hv : v ∈ (KCore_round ops G ih s).b) :
    (KCore_round ops G ih s).D.getD v 0 =
        max (next_bucket_id s.D s.b)
          (degree_in G (fun u => decide (u ∈ (KCore_round ops G ih s).b)) v) ∧
      (KCore_round ops G ih s).D.getD v 0 ≤ s.D.getD v 0 ∧
      s.D.getD v 0 = degree_in G (fun u => decide (u ∈ s.b)) v := by
  obtain ⟨hvb, hvk⟩ := (mem_KCore_round_b ops G ih s v).1 hv
  have hvn : v < G.n := lt_of_mem_b G.n s.b hinv.b_eq v hvb
  have hmin := next_bucket_id_le s.D s.b v hvb
  have hne : s.b ≠ [] := List.ne_nil_of_mem hvb
  obtain ⟨v0, hv0, hk0⟩ := next_bucket_id_mem s.D s.b hne
  have hkp : s.prev_bkt ≤ next_bucket_id s.D s.b := by
    rw [hk0, hinv.live v0 hv0]
    exact le_max_left _ _
  have hlive := hinv.live v hvb
  have hDeq : s.D.getD v 0 = degree_in G (fun u => decide (u ∈ s.b)) v := by
    rcases max_choice s.prev_bkt (degree_in G (fun u => decide (u ∈ s.b)) v) with h | h
    · rw [h] at hlive
      omega
    · rw [h] at hlive
      exact hlive
  have hsplit := degree_in_split G (fun u => decide (u ∈ s.b))
    (fun u => decide (u ∈ (KCore_round ops G ih s).b))
    (fun u => decide (u ∈ s.b) && decide (s.D.getD u 0 = next_bucket_id s.D s.b)) v
    (by
      intro e _
      by_cases h1 : e.1 ∈ s.b <;>
        by_cases h2 : s.D.getD e.1 0 = next_bucket_id s.D s.b <;>
        simp [mem_KCore_round_b, h1, h2])
  have hr : edgesRemoved G (next_bucket_identifiers s.D s.b) v =
      degree_in G
        (fun u => decide (u ∈ s.b) && decide (s.D.getD u 0 = next_bucket_id s.D s.b)) v := by
    rw [next_bucket_identifiers_eq_filter G.n s.D s.b hinv.b_eq]
    exact edgesRemoved_eq_degree_in G hsym _ v hvn
  have hdv := hdeg v hvn
  have hle := degree_in_le G (fun u => decide (u ∈ s.b)) v
  rw [KCore_round_D_getD ops G ih s v hvn, hr]
  split_ifs with h
  · rw [apply_f_eq _ _ _ (by omega) (by omega) (by omega)]
    refine ⟨?_, ?_, hDeq⟩
    · rw [max_comm]
      congr 1
      omega
    · apply max_le
      · omega
      · exact hmin
  · refine ⟨?_, le_refl _, hDeq⟩
    rw [max_eq_right]
    · omega
    · omega

/-- One iteration of the loop of `KCore` on a symmetric graph keeps the invariant and takes
at least one identifier out of the bucket structure. -/
theorem KCore_round_inv {σ : Type} (ops : ConnectWhilePeelingOps σ) (G : Graph)
    (hwf : G.WellFormed) (hsym : G.Symmetric)
    (hdeg : ∀ v, v < G.n → (G.out_neighbors v).length < UINT_E_MOD) (ih : Bool) (s : KCoreState σ)
    (hinv : KCoreInv G s) (hne : s.b ≠ []) :
    KCoreInv G (KCore_round ops G ih s) ∧
      (KCore_round ops G ih s).b.length < s.b.length := by
  obtain ⟨v0, hv0, hk0⟩ := next_bucket_id_mem s.D s.b hne
  have hkp : s.prev_bkt ≤ next_bucket_id s.D s.b := by
    rw [hk0, hinv.live v0 hv0]
    exact le_max_left _ _
  have hmin := next_bucket_id_le s.D s.b
  have hlt := lt_of_mem_b G.n s.b hinv.b_eq
  have hmemb := mem_KCore_round_b ops G ih s
  have hprev : (KCore_round ops G ih s).prev_bkt = next_bucket_id s.D s.b := rfl
  -- a vertex that is active or was finished keeps its entry, at most the bucket id
  have hdone : ∀ v, v < G.n → v ∉ (KCore_round ops G ih s).b →
      (KCore_round ops G ih s).D.getD v 0 = s.D.getD v 0 ∧
        s.D.getD v 0 ≤ next_bucket_id s.D s.b := by
    intro v hv hnot
    have hle : s.D.getD v 0 ≤ next_bucket_id s.D s.b := by
      by_cases hvb : v ∈ s.b
      · by_contra hcon
        exact hnot ((hmemb v).2 ⟨hvb, fun h => hcon (le_of_eq h)⟩)
      · exact le_trans (hinv.done v hv hvb) hkp
    exact ⟨KCore_round_D_of_le ops G ih s v hv hle, hle⟩
  have hlive := KCore_round_D_live ops G hsym hdeg ih s hinv
  -- a live vertex above the previous bucket has its degree among the live vertices
  have hdegU : ∀ v ∈ s.b, s.prev_bkt < s.D.getD v 0 →
      s.D.getD v 0 = degree_in G (fun u => decide (u ∈ s.b)) v := by
    intro v hv hgt
    have h := hinv.live v hv
    rcases max_choice s.prev_bkt (degree_in G (fun u => decide (u ∈ s.b)) v) with h2 | h2
    · rw [h2] at h
      omega
    · rw [h2] at h
      exact h
  have hDge : ∀ v ∈ s.b, degree_in G (fun u => decide (u ∈ s.b)) v ≤ s.D.getD v 0 := by
    intro v hv
    rw [hinv.live v hv]
    exact le_max_right _ _
  -- a subgraph of minimum degree the bucket id that contains the live vertices
  have hcore : ∃ S : Nat → Bool, (∀ u ∈ s.b, S u = true) ∧
      ∀ u, S u = true → u < G.n ∧ next_bucket_id s.D s.b ≤ degree_in G S u := by
    rcases Nat.lt_or_ge s.prev_bkt (next_bucket_id s.D s.b) with hlt2 | hge
    · refine ⟨fun u => decide (u ∈ s.b), fun u hu => decide_eq_true hu, ?_⟩
      intro u hu
      have hub : u ∈ s.b := of_decide_eq_true hu
      refine ⟨hlt u hub, ?_⟩
      rw [← hdegU u hub (lt_of_lt_of_le hlt2 (hmin u hub))]
      exact hmin u hub
    · have hkeq : next_bucket_id s.D s.b = s.prev_bkt := le_antisymm hge hkp
      rw [hkeq]
      exact hinv.core
  -- the neighbours of a live vertex
  have hnbr : ∀ v ∈ s.b, s.D.getD v 0 ≤ degree_in G
      (fun u => decide (u ∈ s.b) || decide (next_bucket_id s.D s.b ≤ s.D.getD u 0)) v := by
    intro v hv
    rcases Nat.lt_or_ge s.prev_bkt (s.D.getD v 0) with hgt | hle
    · rw [hdegU v hv hgt]
      apply degree_in_mono
      intro e _ he
      simp only [Bool.or_eq_true, decide_eq_true_eq] at he ⊢
      exact Or.inl he
    · have hkeq : next_bucket_id s.D s.b = s.prev_bkt :=
        le_antisymm (le_trans (hmin v hv) hle) hkp
      rw [hkeq]
      exact hinv.live_neighbors v hv
  -- the step from the old neighbour test to the new one
  have hstep : ∀ (v : Nat) (x : Nat), x ≤ next_bucket_id s.D s.b →
      degree_in G
        (fun u => decide (u ∈ s.b) || decide (next_bucket_id s.D s.b ≤ s.D.getD u 0)) v ≤
      degree_in G (fun u => decide (u ∈ (KCore_round ops G ih s).b) ||
        decide (x ≤ (KCore_round ops G ih s).D.getD u 0)) v := by
    intro v x hx
    apply degree_in_mono
    intro e he h
    have hen : e.1 < G.n := hwf.out_neighbors_lt v e he
    simp only [Bool.or_eq_true, decide_eq_true_eq] at h ⊢
    by_cases hb2 : e.1 ∈ (KCore_round ops G ih s).b
    · exact Or.inl hb2
    · right
      obtain ⟨h1, h2⟩ := hdone e.1 hen hb2
      rw [h1]
      rcases h with h | h
      · have := hmin e.1 h
        omega
      · omega
  refine ⟨⟨?_, ?_, ?_, ?_, ?_, ?_, ?_, ?_, ?_, ?_, ?_⟩, ?_⟩
  · unfold KCore_round
    simp
  · have h1 : (KCore_round ops G ih s).b =
        ((List.range G.n).filter (fun v => decide (v ∈ s.b))).filter
          (fun v => !decide (s.D.getD v 0 = next_bucket_id s.D s.b)) := by
      rw [← hinv.b_eq]
      rfl
    rw [List.filter_filter] at h1
    conv_lhs => rw [h1]
    apply List.filter_congr
    intro x _
    by_cases hx1 : x ∈ s.b <;>
      by_cases hx2 : s.D.getD x 0 = next_bucket_id s.D s.b <;>
      simp [hmemb, hx1, hx2]
  · have h1 := length_filter_add_length_filter_not s.b
      (fun v => decide (s.D.getD v 0 = next_bucket_id s.D s.b))
    have h2 := hinv.finished_eq
    have h3 : (KCore_round ops G ih s).finished =
        s.finished + (s.b.filter
          (fun v => decide (s.D.getD v 0 = next_bucket_id s.D s.b))).length := rfl
    have h4 : (KCore_round ops G ih s).b =
        s.b.filter (fun v => !decide (s.D.getD v 0 = next_bucket_id s.D s.b)) := rfl
    rw [h3, h4]
    omega
  · intro v hv
    rw [hprev]
    exact (hlive v hv).1
  · intro v hv hnot
    rw [hprev, (hdone v hv hnot).1]
    exact (hdone v hv hnot).2
  · intro v hv hnot
    rw [(hdone v hv hnot).1]
    by_cases hvb : v ∈ s.b
    · have hvk : s.D.getD v 0 = next_bucket_id s.D s.b := by
        by_contra hcon
        exact hnot ((hmemb v).2 ⟨hvb, hcon⟩)
      rw [hvk]
      obtain ⟨S, hS1, hS2⟩ := hcore
      exact ⟨S, hS1 v hvb, hS2⟩
    · exact hinv.done_in v hv hvb
  · intro v hv hnot
    rw [(hdone v hv hnot).1]
    by_cases hvb : v ∈ s.b
    · have hvk : s.D.getD v 0 = next_bucket_id s.D s.b := by
        by_contra hcon
        exact hnot ((hmemb v).2 ⟨hvb, hcon⟩)
      rintro ⟨S, hSv, hS⟩
      have hsub := hinv.sub S (fun u hu => ⟨(hS u hu).1, by have := (hS u hu).2; omega⟩)
      have h1 := (hS v hSv).2
      have h2 : degree_in G S v ≤ degree_in G (fun u => decide (u ∈ s.b)) v :=
        degree_in_mono G S _ v (fun e _ he => decide_eq_true (hsub e.1 he))
      have h3 := hDge v hvb
      omega
    · exact hinv.done_out v hv hvb
  · rw [hprev]
    obtain ⟨S, hS1, hS2⟩ := hcore
    exact ⟨S, fun u hu => hS1 u ((hmemb u).1 hu).1, hS2⟩
  · intro S hS u hu
    rw [hprev] at hS
    have hsub := hinv.sub S (fun u hu => ⟨(hS u hu).1, by have := (hS u hu).2; omega⟩)
    have hub := hsub u hu
    refine (hmemb u).2 ⟨hub, ?_⟩
    have h1 := (hS u hu).2
    have h2 : degree_in G S u ≤ degree_in G (fun u => decide (u ∈ s.b)) u :=
      degree_in_mono G S _ u (fun e _ he => decide_eq_true (hsub e.1 he))
    have h3 := hDge u hub
    omega
  · intro v hv hnot
    obtain ⟨h1, h2⟩ := hdone v hv hnot
    rw [h1]
    by_cases hvb : v ∈ s.b
    · exact le_trans (hnbr v hvb) (hstep v _ h2)
    · refine le_trans (hinv.done_neighbors v hv hvb) ?_
      apply degree_in_mono
      intro e he h
      have hen : e.1 < G.n := hwf.out_neighbors_lt v e he
      simp only [Bool.or_eq_true, decide_eq_true_eq] at h ⊢
      by_cases hb2 : e.1 ∈ (KCore_round ops G ih s).b
      · exact Or.inl hb2
      · right
        obtain ⟨h3, h4⟩ := hdone e.1 hen hb2
        rw [h3]
        rcases h with h | h
        · have := hmin e.1 h
          have := hinv.done v hv hvb
          omega
        · exact h
  · intro v hv
    rw [hprev]
    have hvb := ((hmemb v).1 hv).1
    exact le_trans (le_trans (hlive v hv).2.1 (hnbr v hvb)) (hstep v _ (le_refl _))
  · have h1 := length_filter_add_length_filter_not s.b
      (fun v => decide (s.D.getD v 0 = next_bucket_id s.D s.b))
    have h4 : (KCore_round ops G ih s).b =
        s.b.filter (fun v => !decide (s.D.getD v 0 = next_bucket_id s.D s.b)) := rfl
    have h5 : 0 < (s.b.filter
        (fun v => decide (s.D.getD v 0 = next_bucket_id s.D s.b))).length := by
      apply List.length_pos_of_mem (a := v0)
      exact (mem_next_bucket_identifiers s.D s.b v0).2 ⟨hv0, hk0.symm⟩
    rw [h4]
    omega

/-- In a well-formed graph every stored edge leads into the set of all vertices. -/
theorem degree_in_of_all (G : Graph) (hwf : G.WellFormed) (S : Nat → Bool) (v : Nat)
    (hS : ∀ u, u < G.n → S u = true) :
    degree_in G S v = (G.out_neighbors v).length := by
  unfold degree_in
  rw [List.filter_eq_self.2]
  intro e he
  exact hS e.1 (hwf.out_neighbors_lt v e he)

/-- The invariant of the loop of `KCore` holds before the first iteration. -/
theorem KCore_inv_start {σ : Type} (G : Graph) (hwf : G.WellFormed) (c : σ) :
    KCoreInv G (⟨(List.range G.n).map (fun i => (G.out_neighbors i).length),
      List.range G.n, 0, 0, c⟩ : KCoreState σ) := by
  have hD : ∀ v, v < G.n →
      ((List.range G.n).map (fun i => (G.out_neighbors i).length)).getD v 0 =
        (G.out_neighbors v).length := by
    intro v hv
    rw [List.getD_eq_getElem?_getD, List.getElem?_map, List.getElem?_range hv]
    rfl
  refine ⟨?_, ?_, ?_, ?_, ?_, ?_, ?_, ?_, ?_, ?_, ?_⟩
  · simp
  · symm
    rw [List.filter_eq_self]
    intro v hv
    exact decide_eq_true hv
  · simp
  · intro v hv
    have hvn := List.mem_range.1 hv
    change ((List.range G.n).map (fun i => (G.out_neighbors i).length)).getD v 0 =
      max 0 (degree_in G (fun u => decide (u ∈ List.range G.n)) v)
    rw [hD v hvn, degree_in_of_all G hwf _ v
      (fun u hu => decide_eq_true (List.mem_range.2 hu))]
    exact (Nat.zero_max _).symm
  · intro v hv hnot
    exact absurd (List.mem_range.2 hv) hnot
  · intro v hv hnot
    exact absurd (List.mem_range.2 hv) hnot
  · intro v hv hnot
    exact absurd (List.mem_range.2 hv) hnot
  · refine ⟨fun u => decide (u < G.n), ?_, ?_⟩
    · intro u hu
      exact decide_eq_true (List.mem_range.1 hu)
    · intro u hu
      exact ⟨of_decide_eq_true hu, Nat.zero_le _⟩
  · intro S hS u hu
    exact List.mem_range.2 (hS u hu).1
  · intro v hv hnot
    exact absurd (List.mem_range.2 hv) hnot
  · intro v hv
    have hvn := List.mem_range.1 hv
    change ((List.range G.n).map (fun i => (G.out_neighbors i).length)).getD v 0 ≤ _
    rw [hD v hvn, degree_in_of_all G hwf _ v]
    intro u hu
    simp only [Bool.or_eq_true, decide_eq_true_eq]
    exact Or.inl (List.mem_range.2 hu)

/-- The loop of `KCore` on a symmetric graph ends within as many iterations as the bucket
structure holds identifiers, with the invariant and with an empty bucket structure. -/
theorem KCore_loop_inv {σ : Type} (ops : ConnectWhilePeelingOps σ) (G : Graph)
    (hwf : G.WellFormed) (hsym : G.Symmetric)
    (hdeg : ∀ v, v < G.n → (G.out_neighbors v).length < UINT_E_MOD) (ih : Bool)
    (fuel : Nat) (s : KCoreState σ) (hinv : KCoreInv G s) (hfuel : s.b.length ≤ fuel) :
    ∃ s2, KCore_loop ops G ih fuel s = some s2 ∧ KCoreInv G s2 ∧ s2.b = [] := by
  induction fuel generalizing s with
  | zero =>
    have hb : s.b = [] := List.length_eq_zero.1 (Nat.le_zero.1 hfuel)
    have hfin : s.finished = G.n := by
      have := hinv.finished_eq
      rw [hb] at this
      simpa using this
    exact ⟨s, by simp [KCore_loop, hfin], hinv, hb⟩
  | succ fuel ihf =>
    by_cases hfin : s.finished = G.n
    · have hb : s.b = [] := by
        have := hinv.finished_eq
        apply List.length_eq_zero.1
        omega
      exact ⟨s, by simp [KCore_loop, hfin], hinv, hb⟩
    · have hne : s.b ≠ [] := by
        intro hb
        have := hinv.finished_eq
        rw [hb] at this
        exact hfin (by simpa using this)
      obtain ⟨hinv2, hlen⟩ := KCore_round_inv ops G hwf hsym hdeg ih s hinv hne
      obtain ⟨s2, h1, h2, h3⟩ := ihf (KCore_round ops G ih s) hinv2 (by omega)
      refine ⟨s2, ?_, h2, h3⟩
      rw [KCore_loop, if_neg hfin]
      exact h1

/-- The function `KCore` returns on a symmetric graph, and the final state of its loop meets
the invariant with an empty bucket structure. -/
theorem KCore_returns {σ : Type} (ops : ConnectWhilePeelingOps σ) (G : Graph)
    (hwf : G.WellFormed) (hsym : G.Symmetric)
    (hdeg : ∀ v, v < G.n → (G.out_neighbors v).length < UINT_E_MOD) (c : σ) (ih : Bool) :
    ∃ s : KCoreState σ, KCore ops G c ih = some (s.D, s.connect_while_peeling) ∧
      KCoreInv G s ∧ s.b = [] := by
  obtain ⟨s, h1, h2, h3⟩ := KCore_loop_inv ops G hwf hsym hdeg ih G.n _
    (KCore_inv_start G hwf c) (by simp)
  refine ⟨s, ?_, h2, h3⟩
  unfold KCore
  rw [h1]
  rfl

/-- A vertex of a subgraph of minimum degree `k2` is in a subgraph of minimum degree `k`
for every `k ≤ k2`. -/
theorem InCore_mono (G : Graph) (k k2 v : Nat) (hk : k ≤ k2) (h : InCore G k2 v) :
    InCore G k v := by
  obtain ⟨S, hSv, hS⟩ := h
  exact ⟨S, hSv, fun u hu => ⟨(hS u hu).1, le_trans hk (hS u hu).2⟩⟩

/-- The example graphs are well-formed. -/
theorem K4_wellFormed : K4.WellFormed := by decide!

/-- The example graphs are symmetric. -/
theorem K4_symmetric : K4.Symmetric := by decide!

/-- The path is well-formed. -/
theorem path4_wellFormed : path4.WellFormed := by decide!

/-- The path is symmetric. -/
theorem path4_symmetric : path4.Symmetric := by decide!

/-- The graph `K4` with a pendant edge is well-formed. -/
theorem K4pendant_wellFormed : K4pendant.WellFormed := by decide!

/-- The graph `K4` with a pendant edge is symmetric. -/
theorem K4pendant_symmetric : K4pendant.Symmetric := by decide!

/-- C15: for every symmetric graph whose neighbour ids are vertices and whose degrees fit
32 bits, for every connect-while-peeling object and both values of `inline_hierarchy`,
`KCore` returns an array `D` with one entry per vertex, and `D[v]` is the coreness of `v`:
`v` belongs to a subgraph in which every vertex has degree at least `D[v]`, and to no
subgraph in which every vertex has a larger degree. Degrees count stored edges, which in a
graph without duplicate edges are the neighbours. -/
theorem KCore_coreness {σ : Type} (ops : ConnectWhilePeelingOps σ) (G : Graph)
    (hwf : G.WellFormed) (hsym : G.Symmetric)
    (hdeg : ∀ v, v < G.n → (G.out_neighbors v).length < UINT_E_MOD) (c : σ) (ih : Bool) :
    ∃ D c2, KCore ops G c ih = some (D, c2) ∧ D.length = G.n ∧
      ∀ v, v < G.n → IsCoreness G v (D.getD v 0) := by
  obtain ⟨s, h1, hinv, hb⟩ := KCore_returns ops G hwf hsym hdeg c ih
  refine ⟨s.D, s.connect_while_peeling, h1, hinv.length_D, ?_⟩
  intro v hv
  have hnot : v ∉ s.b := by
    rw [hb]
    exact List.not_mem_nil v
  refine ⟨hinv.done_in v hv hnot, ?_⟩
  intro k2 hk2
  by_contra hcon
  exact hinv.done_out v hv hnot (InCore_mono G _ k2 v (by omega) hk2)

/-- Witness for C15: the graphs `K4`, the path `0 – 1 – 2 – 3` and `K4` with the pendant
edge `4 – 0`, with their arrays `[3,3,3,3]`, `[1,1,1,1]` and `[3,3,3,3,1]`. -/
theorem KCore_coreness_witness :
    K4.WellFormed ∧ K4.Symmetric ∧
    (∀ v, v < K4.n → (K4.out_neighbors v).length < UINT_E_MOD) ∧
    (∃ D c2, KCore noConnectOps K4 () false = some (D, c2) ∧ D.length = K4.n ∧
      ∀ v, v < K4.n → IsCoreness K4 v (D.getD v 0)) ∧
    KCore noConnectOps K4 () false = some ([3, 3, 3, 3], ()) ∧
    KCore noConnectOps path4 () false = some ([1, 1, 1, 1], ()) ∧
    KCore noConnectOps K4pendant () false = some ([3, 3, 3, 3, 1], ()) :=
  ⟨K4_wellFormed, K4_symmetric, by decide,
   KCore_coreness noConnectOps K4 K4_wellFormed K4_symmetric (by decide) () false,
   by decide!, by decide!, by decide!⟩

/-- C16: for every symmetric graph whose neighbour ids are vertices and whose degrees fit
32 bits, `KCore` returns an array `D` such that every vertex `v` with `D[v] = k` has at
least `k` stored neighbours `u` with `D[u] ≥ k`. -/
theorem KCore_neighbors {σ : Type} (ops : ConnectWhilePeelingOps σ) (G : Graph)
    (hwf : G.WellFormed) (hsym : G.Symmetric)
    (hdeg : ∀ v, v < G.n → (G.out_neighbors v).length < UINT_E_MOD) (c : σ) (ih : Bool) :
    ∃ D c2, KCore ops G c ih = some (D, c2) ∧
      ∀ (v k : Nat), D[v]? = some k →
        k ≤ ((G.out_neighbors v).filter (fun e => decide (k ≤ D.getD e.1 0))).length := by
  obtain ⟨s, h1, hinv, hb⟩ := KCore_returns ops G hwf hsym hdeg c ih
  refine ⟨s.D, s.connect_while_peeling, h1, ?_⟩
  intro v k hvk
  have hvl : v < s.D.length := by
    by_contra h
    rw [List.getElem?_eq_none (not_lt.1 h)] at hvk
    exact absurd hvk (by simp)
  have hv : v < G.n := hinv.length_D ▸ hvl
  have hnot : v ∉ s.b := by
    rw [hb]
    exact List.not_mem_nil v
  have hk : s.D.getD v 0 = k := by
    rw [List.getD_eq_getElem?_getD, hvk]
    rfl
  have h := hinv.done_neighbors v hv hnot
  rw [hk, hb] at h
  refine le_trans h (le_of_eq ?_)
  unfold degree_in
  congr 1

/-- Witness for C16: the graph `K4` with the pendant edge `4 – 0`. -/
theorem KCore_neighbors_witness :
    K4pendant.WellFormed ∧ K4pendant.Symmetric ∧
    (∀ v, v < K4pendant.n → (K4pendant.out_neighbors v).length < UINT_E_MOD) ∧
    ∃ D c2, KCore noConnectOps K4pendant () false = some (D, c2) ∧
      ∀ (v k : Nat), D[v]? = some k →
        k ≤ ((K4pendant.out_neighbors v).filter
          (fun e => decide (k ≤ D.getD e.1 0))).length :=
  ⟨K4pendant_wellFormed, K4pendant_symmetric, by decide,
   KCore_neighbors noConnectOps K4pendant K4pendant_wellFormed K4pendant_symmetric
     (by decide) () false⟩

/-- Uniting keeps the number of entries. -/
theorem unite_impl_length (u v : Nat) (parents : List Nat) :
    (unite_impl u v parents).length = parents.length := by
  simp [unite_impl]

/-- The root of a vertex after uniting, from its root before. -/
theorem find_compress_unite_impl (u v : Nat) (parents : List Nat) (a : Nat)
    (ha : a < parents.length) :
    find_compress a (unite_impl u v parents) =
      if find_compress a parents =
          max (find_compress u parents) (find_compress v parents) then
        min (find_compress u parents) (find_compress v parents)
      else find_compress a parents := by
  unfold find_compress unite_impl
  rw [List.getD_eq_getElem?_getD, List.getElem?_map, List.getElem?_eq_getElem ha,
    List.getD_eq_getElem?_getD, List.getElem?_eq_getElem ha]
  rfl

/-- A sequence of unions keeps the number of entries. -/
theorem foldl_unite_impl_length (pairs : List (Nat × Nat)) (parents : List Nat) :
    (pairs.foldl (fun p e => unite_impl e.1 e.2 p) parents).length = parents.length := by
  induction pairs generalizing parents with
  | nil => rfl
  | cons e es ih => rw [List.foldl_cons, ih, unite_impl_length]

/-- Vertices with one root keep one root through a sequence of unions, and the two vertices
of a union of the sequence end with one root. -/
theorem foldl_unite_impl_eq (pairs : List (Nat × Nat)) (parents : List Nat)
    (hlt : ∀ e ∈ pairs, e.1 < parents.length ∧ e.2 < parents.length) (a b : Nat)
    (ha : a < parents.length) (hb : b < parents.length)
    (h : find_compress a parents = find_compress b parents ∨ (a, b) ∈ pairs) :
    find_compress a (pairs.foldl (fun p e => unite_impl e.1 e.2 p) parents) =
      find_compress b (pairs.foldl (fun p e => unite_impl e.1 e.2 p) parents) := by
  induction pairs generalizing parents with
  | nil =>
    rcases h with h | h
    · exact h
    · exact absurd h (List.not_mem_nil _)
  | cons e es ih =>
    rw [List.foldl_cons]
    have hl := unite_impl_length e.1 e.2 parents
    apply ih
    · intro x hx
      rw [hl]
      exact hlt x (List.mem_cons_of_mem _ hx)
    · rw [hl]; exact ha
    · rw [hl]; exact hb
    · rcases h with h | h
      · left
        rw [find_compress_unite_impl _ _ _ _ ha, find_compress_unite_impl _ _ _ _ hb, h]
      · rcases List.mem_cons.1 h with h | h
        · left
          subst h
          rw [find_compress_unite_impl _ _ _ _ ha, find_compress_unite_impl _ _ _ _ hb]
          simp only
          rcases le_total (find_compress a parents) (find_compress b parents) with h2 | h2
          · rw [max_eq_right h2, min_eq_left h2]
            by_cases h3 : find_compress a parents = find_compress b parents
            · rw [if_pos h3, if_pos rfl]
            · rw [if_neg h3, if_pos rfl]
          · rw [max_eq_left h2, min_eq_right h2]
            by_cases h3 : find_compress b parents = find_compress a parents
            · rw [if_pos rfl, if_pos h3]
            · rw [if_pos rfl, if_neg h3]
        · right; exact h

/-- Through a sequence of unions of related vertices the root of every vertex stays a
vertex related to it. -/
theorem foldl_unite_impl_sound (R : Nat → Nat → Prop) (pairs : List (Nat × Nat))
    (parents : List Nat)
    (hlt : ∀ e ∈ pairs, e.1 < parents.length ∧ e.2 < parents.length ∧ R e.1 e.2)
    (hinv : ∀ a, a < parents.length →
      find_compress a parents < parents.length ∧
        Relation.EqvGen R a (find_compress a parents)) (a : Nat) (ha : a < parents.length) :
    find_compress a (pairs.foldl (fun p e => unite_impl e.1 e.2 p) parents) <
        parents.length ∧
      Relation.EqvGen R a
        (find_compress a (pairs.foldl (fun p e => unite_impl e.1 e.2 p) parents)) := by
  induction pairs generalizing parents with
  | nil => exact hinv a ha
  | cons e es ih =>
    rw [List.foldl_cons]
    have hl := unite_impl_length e.1 e.2 parents
    obtain ⟨he1, he2, heR⟩ := hlt e (List.mem_cons_self _ _)
    have := ih (unite_impl e.1 e.2 parents)
      (by
        intro x hx
        rw [hl]
        exact hlt x (List.mem_cons_of_mem _ hx))
      (by
        intro x hx
        rw [hl] at hx ⊢
        rw [find_compress_unite_impl _ _ _ _ hx]
        obtain ⟨hx1, hx2⟩ := hinv x hx
        obtain ⟨hu1, hu2⟩ := hinv e.1 he1
        obtain ⟨hv1, hv2⟩ := hinv e.2 he2
        have huv : Relation.EqvGen R (find_compress e.1 parents)
            (find_compress e.2 parents) :=
          Relation.EqvGen.trans _ _ _ (Relation.EqvGen.symm _ _ hu2)
            (Relation.EqvGen.trans _ _ _ (Relation.EqvGen.rel _ _ heR) hv2)
        split_ifs with h
        · rcases le_total (find_compress e.1 parents) (find_compress e.2 parents) with h2 | h2
          · rw [min_eq_left h2]
            rw [max_eq_right h2] at h
            refine ⟨hu1, ?_⟩
            rw [h] at hx2
            exact Relation.EqvGen.trans _ _ _ hx2 (Relation.EqvGen.symm _ _ huv)
          · rw [min_eq_right h2]
            rw [max_eq_left h2] at h
            refine ⟨hv1, ?_⟩
            rw [h] at hx2
            exact Relation.EqvGen.trans _ _ _ hx2 huv
        · exact ⟨hx1, hx2⟩)
      (by rw [hl]; exact ha)
    rw [hl] at this
    exact this

/-- A fold whose step acts only on the entries that pass a test is the fold over these
entries. -/
theorem foldl_ite_eq_foldl_filter {α β : Type} (p : α → Prop) [DecidablePred p]
    (f : β → α → β) (l : List α) (b : β) :
    l.foldl (fun c e => if p e then f c e else c) b =
      (l.filter (fun e => decide (p e))).foldl f b := by
  induction l generalizing b with
  | nil => rfl
  | cons x xs ih =>
    rw [List.foldl_cons, List.filter_cons]
    by_cases h : p x
    · simp only [h, if_true, decide_True, List.foldl_cons]
      exact ih _
    · simp only [h, if_false, decide_False, Bool.false_eq_true]
      exact ih _

/-- The array `clusters` as a sequence of unions over the stored edges between vertices of
coreness at least the threshold. -/
theorem KCoreClusterer_clusters_eq (G : Graph) (cores : List Nat) (threshold : Int) :
    KCoreClusterer.clusters G cores threshold =
      ((G.edges.filter (fun e => decide (threshold_as_uintE threshold ≤ cores.getD e.1 0 ∧
          threshold_as_uintE threshold ≤ cores.getD e.2.1 0))).map
        (fun e => (e.1, e.2.1))).foldl (fun p e => unite_impl e.1 e.2 p)
        (List.range G.n) := by
  unfold KCoreClusterer.clusters
  rw [List.foldl_map]
  exact foldl_ite_eq_foldl_filter
    (fun e : Nat × Nat × ℚ => threshold_as_uintE threshold ≤ cores.getD e.1 0 ∧
      threshold_as_uintE threshold ≤ cores.getD e.2.1 0)
    (fun c e => unite_impl e.1 e.2.1 c) G.edges (List.range G.n)

/-- The threshold in the comparison, for a threshold that is not negative. -/
theorem threshold_as_uintE_le (threshold : Int) (h0 : 0 ≤ threshold)
    (h1 : threshold ≤ (UINT_E_MAX : Int)) (x : Nat) :
    threshold_as_uintE threshold ≤ x ↔ threshold ≤ (x : Int) := by
  unfold threshold_as_uintE
  have hM : (UINT_E_MAX : Int) = 4294967295 := rfl
  have hD : (UINT_E_MOD : Int) = 4294967296 := rfl
  rw [hD]
  omega

/-- The unions of `KCoreClusterer::Cluster` are the edges of the induced subgraph. -/
theorem mem_cluster_unions (G : Graph) (cores : List Nat) (threshold : Int)
    (h0 : 0 ≤ threshold) (h1 : threshold ≤ (UINT_E_MAX : Int)) (a b : Nat) :
    (a, b) ∈ (G.edges.filter (fun e => decide (threshold_as_uintE threshold ≤
        cores.getD e.1 0 ∧ threshold_as_uintE threshold ≤ cores.getD e.2.1 0))).map
        (fun e => (e.1, e.2.1)) ↔ core_edge G cores threshold a b := by
  simp only [List.mem_map, List.mem_filter, decide_eq_true_eq, Prod.mk.injEq,
    threshold_as_uintE_le threshold h0 h1, core_edge]
  constructor
  · rintro ⟨⟨u, v, w⟩, ⟨he, h2, h3⟩, rfl, rfl⟩
    exact ⟨⟨w, he⟩, h2, h3⟩
  · rintro ⟨⟨w, he⟩, h2, h3⟩
    exact ⟨(a, b, w), ⟨he, h2, h3⟩, rfl, rfl⟩

/-- The source of a stored edge is a vertex. -/
theorem Graph.fst_lt_of_mem_edges (G : Graph) (e : Nat × Nat × ℚ) (he : e ∈ G.edges) :
    e.1 < G.n := by
  obtain ⟨u, v, w⟩ := e
  exact G.lt_n_of_mem_out_neighbors u (v, w) ((G.mem_edges u v w).1 he)

/-- The array `clusters` of `KCoreClusterer::Cluster` gives two vertices one id exactly when
a path of edges between vertices of coreness at least the threshold joins them. -/
theorem KCoreClusterer_clusters_spec (G : Graph) (hwf : G.WellFormed) (cores : List Nat)
    (threshold : Int) (h0 : 0 ≤ threshold) (h1 : threshold ≤ (UINT_E_MAX : Int)) :
    (KCoreClusterer.clusters G cores threshold).length = G.n ∧
    ∀ a b, a < G.n → b < G.n →
      ((KCoreClusterer.clusters G cores threshold).getD a 0 =
          (KCoreClusterer.clusters G cores threshold).getD b 0 ↔
        Relation.EqvGen (core_edge G cores threshold) a b) := by
  have hlt : ∀ a b, core_edge G cores threshold a b → a < G.n ∧ b < G.n := by
    rintro a b ⟨⟨w, he⟩, _, _⟩
    exact ⟨G.fst_lt_of_mem_edges _ he, hwf _ he⟩
  have hpairs : ∀ e ∈ (G.edges.filter (fun e => decide (threshold_as_uintE threshold ≤
        cores.getD e.1 0 ∧ threshold_as_uintE threshold ≤ cores.getD e.2.1 0))).map
        (fun e => (e.1, e.2.1)),
      e.1 < (List.range G.n).length ∧ e.2 < (List.range G.n).length ∧
        core_edge G cores threshold e.1 e.2 := by
    rintro ⟨a, b⟩ he
    have hc := (mem_cluster_unions G cores threshold h0 h1 a b).1 he
    rw [List.length_range]
    exact ⟨(hlt a b hc).1, (hlt a b hc).2, hc⟩
  have hstart : ∀ a, a < (List.range G.n).length →
      find_compress a (List.range G.n) < (List.range G.n).length ∧
        Relation.EqvGen (core_edge G cores threshold) a
          (find_compress a (List.range G.n)) := by
    intro a ha
    have hid : find_compress a (List.range G.n) = a := by
      unfold find_compress
      rw [List.getD_eq_getElem?_getD, List.getElem?_range (by simpa using ha)]
      rfl
    rw [hid]
    exact ⟨ha, Relation.EqvGen.refl a⟩
  rw [KCoreClusterer_clusters_eq]
  refine ⟨by rw [foldl_unite_impl_length, List.length_range], ?_⟩
  have key : ∀ x y, Relation.EqvGen (core_edge G cores threshold) x y →
      (x < G.n ↔ y < G.n) ∧ (x < G.n →
        find_compress x (((G.edges.filter (fun e => decide (threshold_as_uintE threshold ≤
          cores.getD e.1 0 ∧ threshold_as_uintE threshold ≤ cores.getD e.2.1 0))).map
          (fun e => (e.1, e.2.1))).foldl (fun p e => unite_impl e.1 e.2 p)
          (List.range G.n)) =
        find_compress y (((G.edges.filter (fun e => decide (threshold_as_uintE threshold ≤
          cores.getD e.1 0 ∧ threshold_as_uintE threshold ≤ cores.getD e.2.1 0))).map
          (fun e => (e.1, e.2.1))).foldl (fun p e => unite_impl e.1 e.2 p)
          (List.range G.n))) := by
    intro x y h
    induction h with
    | rel x y hxy =>
      obtain ⟨hx, hy⟩ := hlt x y hxy
      refine ⟨⟨fun _ => hy, fun _ => hx⟩, fun _ => ?_⟩
      exact foldl_unite_impl_eq _ _ (fun e he => ⟨(hpairs e he).1, (hpairs e he).2.1⟩) x y
        (by simpa using hx) (by simpa using hy)
        (Or.inr ((mem_cluster_unions G cores threshold h0 h1 x y).2 hxy))
    | refl x => exact ⟨Iff.rfl, fun _ => rfl⟩
    | symm x y _ ih => exact ⟨ih.1.symm, fun hy => (ih.2 (ih.1.2 hy)).symm⟩
    | trans x y z _ _ ih1 ih2 =>
      exact ⟨ih1.1.trans ih2.1, fun hx => (ih1.2 hx).trans (ih2.2 (ih1.1.1 hx))⟩
  intro a b ha hb
  have hal : a < (List.range G.n).length := by simpa using ha
  have hbl : b < (List.range G.n).length := by simpa using hb
  constructor
  · intro h
    have hsa := (foldl_unite_impl_sound _ _ _ hpairs hstart a hal).2
    have hsb := (foldl_unite_impl_sound _ _ _ hpairs hstart b hbl).2
    unfold find_compress at hsa hsb
    rw [h] at hsa
    exact Relation.EqvGen.trans _ _ _ hsa (Relation.EqvGen.symm _ _ hsb)
  · intro h
    exact (key a b h).2 ha

/-- The vertices below `n` that are equal to `i`. -/
theorem filter_range_eq (n i : Nat) (hi : i < n) :
    (List.range n).filter (fun j => decide (j = i)) = [i] := by
  induction n with
  | zero => exact absurd hi (Nat.not_lt_zero _)
  | succ n ih =>
    rw [List.range_succ, List.filter_append]
    by_cases h : i < n
    · rw [ih h]
      have : ¬ n = i := by omega
      simp [this]
    · have hin : i = n := by omega
      subst hin
      have hnil : (List.range i).filter (fun j => decide (j = i)) = [] := by
        rw [List.filter_eq_nil_iff]
        intro a ha
        have := List.mem_range.1 ha
        simp only [decide_eq_true_eq]
        omega
      rw [hnil]
      simp

/-- A path that starts at a vertex without an edge of the relation stays there. -/
theorem eqvGen_eq_of_isolated {R : Nat → Nat → Prop} (i : Nat)
    (hi : ∀ x, ¬ R i x ∧ ¬ R x i) (a b : Nat) (h : Relation.EqvGen R a b) :
    (a = i ↔ b = i) := by
  induction h with
  | rel x y hxy =>
    constructor
    · intro hx
      subst hx
      exact absurd hxy (hi y).1
    · intro hy
      subst hy
      exact absurd hxy (hi x).2
  | refl x => exact Iff.rfl
  | symm x y _ ih => exact ih.symm
  | trans x y z _ _ ih1 ih2 => exact ih1.trans ih2

/-- The grouping of the vertices by their cluster id meets the contract of
`DenseClusteringToNestedClustering`. -/
theorem DenseClusteringToNestedClustering_isDenseToNested :
    IsDenseToNested DenseClusteringToNestedClustering := by
  intro clustering
  unfold DenseClusteringToNestedClustering OutputIndicesById
  simp only [id]
  have hcongr : ∀ i, i < clustering.length →
      (List.range clustering.length).filter
        (fun j => decide (clustering.getD j UINT_E_MAX = clustering.getD i UINT_E_MAX)) =
      (List.range clustering.length).filter
        (fun j => decide (clustering[j]? = clustering[i]?)) := by
    intro i hi
    apply List.filter_congr
    intro x hx
    have hx := List.mem_range.1 hx
    rw [List.getD_eq_getElem?_getD, List.getD_eq_getElem?_getD,
      List.getElem?_eq_getElem hx, List.getElem?_eq_getElem hi]
    simp
  constructor
  · intro cl
    simp only [List.mem_map, List.mem_dedup, List.mem_range, List.map_id_fun, id]
    constructor
    · rintro ⟨c, ⟨i, hi, rfl⟩, rfl⟩
      exact ⟨i, hi, hcongr i hi⟩
    · rintro ⟨i, hi, rfl⟩
      exact ⟨clustering.getD i UINT_E_MAX, ⟨i, hi, rfl⟩, hcongr i hi⟩
  · rw [List.pairwise_map]
    apply (List.nodup_dedup _).imp
    intro a b hab x hxa hxb
    have h1 := (List.mem_filter.1 hxa).2
    have h2 := (List.mem_filter.1 hxb).2
    simp only [decide_eq_true_eq] at h1 h2
    exact hab (h1.symm.trans h2)

/-- C17 (amended): for every graph whose neighbour ids are vertices, every array `cores` and
every threshold `0 ≤ t < 2^32`, the clusters returned by `KCoreClusterer::Cluster` partition
all vertices: every vertex lies in a returned cluster, no two returned clusters share a
vertex, the cluster of a vertex `i` holds exactly the vertices joined to `i` by a path of
edges whose endpoints all have `cores ≥ t`, and a vertex with `cores < t` is returned as the
cluster `[i]` of its own. -/
theorem KCoreClusterer_Cluster_components (nest : List Nat → List (List Nat))
    (hnest : IsDenseToNested nest) (G : Graph) (hwf : G.WellFormed) (cores : List Nat)
    (threshold : Int) (h0 : 0 ≤ threshold) (h1 : threshold ≤ (UINT_E_MAX : Int)) :
    (∀ i, i < G.n → ∃ cl ∈ KCoreClusterer.Cluster nest G cores threshold, i ∈ cl) ∧
    (KCoreClusterer.Cluster nest G cores threshold).Pairwise List.Disjoint ∧
    (∀ cl ∈ KCoreClusterer.Cluster nest G cores threshold, ∀ i ∈ cl, ∀ j,
      j ∈ cl ↔ j < G.n ∧ Relation.EqvGen (core_edge G cores threshold) i j) ∧
    (∀ i, i < G.n → (cores.getD i 0 : Int) < threshold →
      [i] ∈ KCoreClusterer.Cluster nest G cores threshold) := by
  obtain ⟨hlen, hspec⟩ := KCoreClusterer_clusters_spec G hwf cores threshold h0 h1
  obtain ⟨hmem, hdisj⟩ := hnest (KCoreClusterer.clusters G cores threshold)
  rw [hlen] at hmem
  have hclass : ∀ i, i < G.n → ∀ j,
      j ∈ (List.range G.n).filter (fun j =>
        decide ((KCoreClusterer.clusters G cores threshold)[j]? =
          (KCoreClusterer.clusters G cores threshold)[i]?)) ↔
      j < G.n ∧ Relation.EqvGen (core_edge G cores threshold) i j := by
    intro i hi j
    rw [List.mem_filter, List.mem_range, decide_eq_true_eq]
    constructor
    · rintro ⟨hj, h⟩
      refine ⟨hj, (hspec i j hi hj).1 ?_⟩
      rw [List.getD_eq_getElem?_getD, List.getD_eq_getElem?_getD, h]
    · rintro ⟨hj, h⟩
      refine ⟨hj, ?_⟩
      have h2 := (hspec i j hi hj).2 h
      have hil : i < (KCoreClusterer.clusters G cores threshold).length := by
        rw [hlen]
        exact hi
      have hjl : j < (KCoreClusterer.clusters G cores threshold).length := by
        rw [hlen]
        exact hj
      rw [List.getD_eq_getElem?_getD, List.getD_eq_getElem?_getD,
        List.getElem?_eq_getElem hil, List.getElem?_eq_getElem hjl] at h2
      simp only [Option.getD_some] at h2
      rw [List.getElem?_eq_getElem hil, List.getElem?_eq_getElem hjl, h2]
  refine ⟨?_, hdisj, ?_, ?_⟩
  · intro i hi
    exact ⟨_, (hmem _).2 ⟨i, hi, rfl⟩, (hclass i hi i).2 ⟨hi, Relation.EqvGen.refl i⟩⟩
  · intro cl hcl i hicl j
    obtain ⟨i0, hi0, rfl⟩ := (hmem cl).1 hcl
    obtain ⟨hi, hii0⟩ := (hclass i0 hi0 i).1 hicl
    rw [hclass i0 hi0 j]
    constructor
    · rintro ⟨hj, h⟩
      exact ⟨hj, Relation.EqvGen.trans _ _ _ (Relation.EqvGen.symm _ _ hii0) h⟩
    · rintro ⟨hj, h⟩
      exact ⟨hj, Relation.EqvGen.trans _ _ _ hii0 h⟩
  · intro i hi hlow
    have hiso : ∀ x, ¬ core_edge G cores threshold i x ∧ ¬ core_edge G cores threshold x i := by
      intro x
      constructor
      · rintro ⟨_, h2, _⟩
        omega
      · rintro ⟨_, _, h3⟩
        omega
    have heq : (List.range G.n).filter (fun j =>
        decide ((KCoreClusterer.clusters G cores threshold)[j]? =
          (KCoreClusterer.clusters G cores threshold)[i]?)) = [i] := by
      rw [← filter_range_eq G.n i hi]
      apply List.filter_congr
      intro j hj
      have hj := List.mem_range.1 hj
      have h := hclass i hi j
      rw [List.mem_filter, List.mem_range, decide_eq_true_eq] at h
      by_cases hji : j = i
      · subst hji
        simp
      · have hne : ¬ Relation.EqvGen (core_edge G cores threshold) i j := by
          intro hp
          exact hji ((eqvGen_eq_of_isolated i hiso i j hp).1 rfl)
        have hne2 : ¬ (KCoreClusterer.clusters G cores threshold)[j]? =
            (KCoreClusterer.clusters G cores threshold)[i]? := by
          intro hh
          exact hne (h.1 ⟨hj, hh⟩).2
        simp [hji, hne2]
    rw [← heq]
    exact (hmem _).2 ⟨i, hi, rfl⟩

/-- Witness for C17: the graph `K4` with coreness `[3,3,3,3]` and threshold `3` returns the
single cluster `{0,1,2,3}`. -/
theorem KCoreClusterer_Cluster_components_witness :
    IsDenseToNested DenseClusteringToNestedClustering ∧ K4.WellFormed ∧
    (0 : Int) ≤ 3 ∧ (3 : Int) ≤ (UINT_E_MAX : Int) ∧
    (KCoreClusterer.Cluster DenseClusteringToNestedClustering K4 [3, 3, 3, 3]
      3).Pairwise List.Disjoint ∧
    KCoreClusterer.Cluster DenseClusteringToNestedClustering K4 [3, 3, 3, 3] 3 =
      [[0, 1, 2, 3]] :=
  ⟨DenseClusteringToNestedClustering_isDenseToNested, K4_wellFormed, by decide, by decide,
   (KCoreClusterer_Cluster_components DenseClusteringToNestedClustering
     DenseClusteringToNestedClustering_isDenseToNested K4 K4_wellFormed [3, 3, 3, 3] 3
     (by decide) (by decide)).2.1, by decide!⟩

/-- Counterexample for C17 as stated: on the path `0 – 1 – 2 – 3`, whose coreness is
`[1,1,1,1]`, with threshold `2` no union is made and the array `clusters` is `[0,1,2,3]`,
the same array as on four vertices without edges with threshold `0`; so whatever the helper
`nest` does, the two calls return the same clustering, and with the grouping by cluster id
the path returns the four clusters `[0]`, `[1]`, `[2]`, `[3]` of vertices of coreness below
the threshold, not the empty clustering. -/
theorem KCoreClusterer_Cluster_returns_low_coreness :
    (KCore noConnectOps path4 () false).map Prod.fst = some [1, 1, 1, 1] ∧
    (KCore noConnectOps empty4 () false).map Prod.fst = some [0, 0, 0, 0] ∧
    (∀ nest : List Nat → List (List Nat),
      KCoreClusterer.Cluster nest path4 [1, 1, 1, 1] 2 = nest [0, 1, 2, 3] ∧
      KCoreClusterer.Cluster nest empty4 [0, 0, 0, 0] 0 = nest [0, 1, 2, 3]) ∧
    KCoreClusterer.Cluster DenseClusteringToNestedClustering path4 [1, 1, 1, 1] 2 =
      [[0], [1], [2], [3]] :=
  ⟨by decide!, by decide!,
   fun nest => ⟨congrArg nest (by decide!), congrArg nest (by decide!)⟩, by decide!⟩

/-- C19 (evaluation at the failing input): on the graph `K4` the post-hoc variant and the
simple inline variant of `KCore_connect` return the array `[4,4,4,4]` of length `4`, whose
entries name the node `4` that is not an index of the array and has no entry `NONE`; the
efficient inline variant returns `[4,4,4,4,NONE]`. On four vertices without edges the
simple inline variant returns an array whose leaves have no parent. -/
theorem KCore_connect_K4_parent_out_of_range :
    KCore_connect sortWith K4 false false = some [4, 4, 4, 4] ∧
    KCore_connect sortWith K4 true false = some [4, 4, 4, 4] ∧
    KCore_connect sortWith K4 false true = some [4, 4, 4, 4, UINT_E_MAX] ∧
    KCore_connect sortWith empty4 true false =
      some [UINT_E_MAX, UINT_E_MAX, UINT_E_MAX, UINT_E_MAX] := by
  refine ⟨?_, ?_, ?_, ?_⟩ <;> decide!

/-- The entry of a list after `set`, read with a default. -/
theorem getD_set (l : List Nat) (i j v d : Nat) (hi : i < l.length) :
    (l.set i v).getD j d = if j = i then v else l.getD j d := by
  rw [List.getD_eq_getElem?_getD, List.getD_eq_getElem?_getD, List.getElem?_set]
  by_cases h : i = j
  · subst h
    simp [hi]
  · have h2 : ¬ j = i := fun hh => h hh.symm
    simp [h, h2]

/-- One step of the inner loop of a tree level keeps its invariant. -/
theorem thread_parent_inv (n next : Nat) (l : Nat) (rest : List Nat) (t : TreeState)
    (parent : Nat) (hl : l < n) (hnot : l ∉ rest) (h1 : t.prev_max_parent ≤ parent)
    (h2 : parent < next) (hinv : ThreadInv n next (l :: rest) t) :
    ThreadInv n next rest (thread_parent parent t l) ∧
      (thread_parent parent t l).prev_max_parent = t.prev_max_parent := by
  obtain ⟨hpp, hT, hall, hrest, hent⟩ := hinv
  have hlp : t.prev_parent.getD l 0 < t.connectivity_tree.length := by
    rw [hT]
    exact hrest l (List.mem_cons_self _ _)
  have hread : (t.connectivity_tree.set (t.prev_parent.getD l 0) parent).getD
      (t.prev_parent.getD l 0) 0 = parent := by
    rw [getD_set _ _ _ _ _ hlp, if_pos rfl]
  have hl2 : l < t.prev_parent.length := by
    rw [hpp]
    exact hl
  refine ⟨⟨?_, ?_, ?_, ?_, ?_⟩, rfl⟩
  · simp [thread_parent, hpp]
  · simp [thread_parent, hT]
  · intro x hx
    change (t.prev_parent.set l _).getD x 0 < next
    rw [getD_set _ _ _ _ _ hl2, hread]
    split_ifs
    · exact h2
    · exact hall x hx
  · intro x hx
    change (t.prev_parent.set l _).getD x 0 < t.prev_max_parent
    rw [getD_set _ _ _ _ _ hl2, hread]
    have hne : x ≠ l := by
      intro h
      subst h
      exact hnot hx
    rw [if_neg hne]
    exact hrest x (List.mem_cons_of_mem _ hx)
  · intro j hj
    change j < (t.connectivity_tree.set (t.prev_parent.getD l 0) parent).getD j 0
    rw [getD_set _ _ _ _ _ hlp]
    split_ifs
    · omega
    · exact hent j hj

/-- The length of a resized vector. -/
theorem resize_length (T : List Nat) (size value : Nat) :
    (resize T size value).length = size := by
  unfold resize
  rw [List.length_append, List.length_take, List.length_replicate]
  omega

/-- The entries of a vector that is resized to a larger size. -/
theorem resize_getD (T : List Nat) (size value j d : Nat) (hsize : T.length ≤ size)
    (hj : j < size) :
    (resize T size value).getD j d = if j < T.length then T.getD j d else value := by
  unfold resize
  rw [List.take_of_length_le hsize]
  rw [List.getD_eq_getElem?_getD, List.getD_eq_getElem?_getD]
  by_cases h : j < T.length
  · rw [List.getElem?_append_left h, if_pos h]
  · rw [List.getElem?_append_right (not_lt.1 h), if_neg h]
    rw [List.getElem?_replicate]
    have : j - T.length < size - T.length := by omega
    simp [this]

/-- The resizing at the top of a tree level gives the invariant of its inner loop. -/
theorem resize_threadInv (n next : Nat) (t : TreeState) (hinv : LevelInv n t)
    (hnext : t.prev_max_parent ≤ next) (hmax : t.prev_max_parent ≤ UINT_E_MAX) :
    ThreadInv n next (List.range n)
      { t with connectivity_tree := resize t.connectivity_tree t.prev_max_parent UINT_E_MAX } := by
  obtain ⟨hpp, hT, hall, hent⟩ := hinv
  refine ⟨hpp, resize_length _ _ _, ?_, ?_, ?_⟩
  · intro l hl
    exact lt_of_lt_of_le (hall l hl) hnext
  · intro l hl
    exact hall l (List.mem_range.1 hl)
  · intro j hj
    change j < (resize t.connectivity_tree t.prev_max_parent UINT_E_MAX).getD j 0
    rw [resize_getD _ _ _ _ _ hT hj]
    split_ifs with h
    · exact hent j h
    · exact lt_of_lt_of_le hj hmax

/-- The invariant of the inner loop after its last step gives the invariant of the level
loop for the next value of `prev_max_parent`. -/
theorem threadInv_levelInv (n next : Nat) (t : TreeState) (hinv : ThreadInv n next [] t)
    (hnext : t.prev_max_parent ≤ next) :
    LevelInv n { t with prev_max_parent := next } := by
  obtain ⟨hpp, hT, hall, _, hent⟩ := hinv
  refine ⟨hpp, ?_, hall, ?_⟩
  · change t.connectivity_tree.length ≤ next
    omega
  · intro j hj
    change j < t.connectivity_tree.length at hj
    exact hent j (by omega)

/-- The inner loop of a tree level keeps its invariant, when every step either leaves the
state or threads a parent between `prev_max_parent` and its next value. -/
theorem foldl_thread_inv (n next pmp : Nat) (step : TreeState → Nat → TreeState)
    (ls : List Nat) (hnd : ls.Nodup) (hlt : ∀ l ∈ ls, l < n)
    (hstep : ∀ (t : TreeState) (l : Nat), l ∈ ls → t.prev_max_parent = pmp →
      step t l = t ∨ ∃ v, pmp ≤ v ∧ v < next ∧ step t l = thread_parent v t l)
    (t : TreeState) (hpmp : t.prev_max_parent = pmp) (hinv : ThreadInv n next ls t) :
    ThreadInv n next [] (ls.foldl step t) ∧ (ls.foldl step t).prev_max_parent = pmp := by
  induction ls generalizing t with
  | nil => exact ⟨hinv, hpmp⟩
  | cons l rest ih =>
    rw [List.foldl_cons]
    rw [List.nodup_cons] at hnd
    have hrest : ∀ (t : TreeState) (x : Nat), x ∈ rest → t.prev_max_parent = pmp →
        step t x = t ∨ ∃ v, pmp ≤ v ∧ v < next ∧ step t x = thread_parent v t x :=
      fun t x hx => hstep t x (List.mem_cons_of_mem _ hx)
    rcases hstep t l (List.mem_cons_self _ _) hpmp with h | ⟨v, hv1, hv2, h⟩
    · rw [h]
      apply ih hnd.2 (fun x hx => hlt x (List.mem_cons_of_mem _ hx)) hrest t hpmp
      obtain ⟨h1, h2, h3, h4, h5⟩ := hinv
      exact ⟨h1, h2, h3, fun x hx => h4 x (List.mem_cons_of_mem _ hx), h5⟩
    · rw [h]
      obtain ⟨h1, h2⟩ := thread_parent_inv n next l rest t v
        (hlt l (List.mem_cons_self _ _)) hnd.1 (by omega) hv2 hinv
      exact ih hnd.2 (fun x hx => hlt x (List.mem_cons_of_mem _ hx)) hrest _
        (by rw [h2, hpmp]) h1

/-- The invariant of the level loops holds at their start. -/
theorem levelInv_start (n : Nat) (hn : n ≤ UINT_E_MAX) :
    LevelInv n ⟨List.replicate n UINT_E_MAX, List.range n, n⟩ := by
  refine ⟨by simp, by simp, ?_, ?_⟩
  · intro l hl
    change (List.range n).getD l 0 < n
    rw [List.getD_eq_getElem?_getD, List.getElem?_range hl]
    exact hl
  · intro j hj
    change j < (List.replicate n UINT_E_MAX).length at hj
    change j < (List.replicate n UINT_E_MAX).getD j 0
    rw [List.length_replicate] at hj
    rw [List.getD_eq_getElem?_getD, List.getElem?_replicate, if_pos hj]
    exact lt_of_lt_of_le hj hn

/-- Uniting keeps the roots below a bound. -/
theorem unite_impl_bound (n u v : Nat) (parents : List Nat) (h : ∀ p ∈ parents, p < n) :
    ∀ p ∈ unite_impl u v parents, p < n := by
  intro p hp
  unfold unite_impl at hp
  obtain ⟨x, hx, rfl⟩ := List.mem_map.1 hp
  have hxn := h x hx
  split_ifs with hc
  · have := min_le_max (a := find_compress u parents) (b := find_compress v parents)
    omega
  · exact hxn

/-- A fold keeps a property that each of its steps keeps. -/
theorem foldl_preserves {α β : Type} (P : β → Prop) (f : β → α → β) (l : List α)
    (h : ∀ b a, a ∈ l → P b → P (f b a)) (b : β) (hb : P b) : P (l.foldl f b) := by
  induction l generalizing b with
  | nil => exact hb
  | cons x xs ih =>
    rw [List.foldl_cons]
    exact ih (fun b a ha => h b a (List.mem_cons_of_mem _ ha)) _
      (h b x (List.mem_cons_self _ _) hb)

/-- The loop of `KCore` on a symmetric graph keeps, next to its own invariant, every
property of the state that one iteration keeps. -/
theorem KCore_loop_inv_with {σ : Type} (ops : ConnectWhilePeelingOps σ) (G : Graph)
    (hwf : G.WellFormed) (hsym : G.Symmetric)
    (hdeg : ∀ v, v < G.n → (G.out_neighbors v).length < UINT_E_MOD) (ih : Bool)
    (J : KCoreState σ → Prop)
    (hJ : ∀ s, KCoreInv G s → s.b ≠ [] → J s → J (KCore_round ops G ih s))
    (fuel : Nat) (s : KCoreState σ) (hinv : KCoreInv G s) (hj : J s)
    (hfuel : s.b.length ≤ fuel) :
    ∃ s2, KCore_loop ops G ih fuel s = some s2 ∧ KCoreInv G s2 ∧ s2.b = [] ∧ J s2 := by
  induction fuel generalizing s with
  | zero =>
    have hb : s.b = [] := List.length_eq_zero.1 (Nat.le_zero.1 hfuel)
    have hfin : s.finished = G.n := by
      have := hinv.finished_eq
      rw [hb] at this
      simpa using this
    exact ⟨s, by simp [KCore_loop, hfin], hinv, hb, hj⟩
  | succ fuel ihf =>
    by_cases hfin : s.finished = G.n
    · have hb : s.b = [] := by
        have := hinv.finished_eq
        apply List.length_eq_zero.1
        omega
      exact ⟨s, by simp [KCore_loop, hfin], hinv, hb, hj⟩
    · have hne : s.b ≠ [] := by
        intro hb
        have := hinv.finished_eq
        rw [hb] at this
        exact hfin (by simpa using this)
      obtain ⟨hinv2, hlen⟩ := KCore_round_inv ops G hwf hsym hdeg ih s hinv hne
      obtain ⟨s2, h1, h2, h3, h4⟩ := ihf (KCore_round ops G ih s) hinv2
        (hJ s hinv hne hj) (by omega)
      refine ⟨s2, ?_, h2, h3, h4⟩
      rw [KCore_loop, if_neg hfin]
      exact h1

/-- The function `KCore` returns on a symmetric graph, and its final state has every
property that holds at the start and that one iteration keeps. -/
theorem KCore_returns_with {σ : Type} (ops : ConnectWhilePeelingOps σ) (G : Graph)
    (hwf : G.WellFormed) (hsym : G.Symmetric)
    (hdeg : ∀ v, v < G.n → (G.out_neighbors v).length < UINT_E_MOD) (c : σ) (ih : Bool)
    (J : KCoreState σ → Prop)
    (hJ : ∀ s, KCoreInv G s → s.b ≠ [] → J s → J (KCore_round ops G ih s))
    (hJ0 : J ⟨(List.range G.n).map (fun i => (G.out_neighbors i).length),
      List.range G.n, 0, 0, c⟩) :
    ∃ s : KCoreState σ, KCore ops G c ih = some (s.D, s.connect_while_peeling) ∧
      KCoreInv G s ∧ s.b = [] ∧ J s := by
  obtain ⟨s, h1, h2, h3, h4⟩ := KCore_loop_inv_with ops G hwf hsym hdeg ih J hJ G.n _
    (KCore_inv_start G hwf c) hJ0 (by simp)
  refine ⟨s, ?_, h2, h3, h4⟩
  unfold KCore
  rw [h1]
  rfl

/-- The number of marked roots below `a` grows with `a`. -/
theorem map_parents_mono (n : Nat) (cores : List Nat) (fcc : Nat) (uf : List Nat)
    (a b : Nat) (hab : a ≤ b) :
    map_parents n cores fcc uf a ≤ map_parents n cores fcc uf b := by
  induction b with
  | zero =>
    have : a = 0 := by omega
    subst this
    exact le_refl _
  | succ b ih =>
    rcases Nat.eq_or_lt_of_le hab with h | h
    · subst h
      exact le_refl _
    · have h1 := ih (by omega)
      unfold map_parents at h1 ⊢
      rw [List.range_succ, List.filter_append, List.length_append]
      omega

/-- The rank of a marked root is below the number of marked roots. -/
theorem map_parents_lt (n : Nat) (cores : List Nat) (fcc : Nat) (uf : List Nat) (l : Nat)
    (hl : l < n) (hact : posthoc_active cores fcc l = true) (hq : uf.getD l 0 < n) :
    map_parents n cores fcc uf (uf.getD l 0) < map_parents n cores fcc uf n := by
  have hmark : map_parents_mark n cores fcc uf (uf.getD l 0) = true := by
    unfold map_parents_mark
    rw [List.any_eq_true]
    exact ⟨l, List.mem_range.2 hl, by simp [hact]⟩
  have h1 := map_parents_mono n cores fcc uf (uf.getD l 0 + 1) n (by omega)
  generalize uf.getD l 0 = q at hmark h1 hq ⊢
  have h2 : map_parents n cores fcc uf (q + 1) = map_parents n cores fcc uf q + 1 := by
    unfold map_parents
    rw [List.range_succ, List.filter_append, List.length_append]
    simp only [List.filter_cons, hmark, if_true, List.filter_nil, List.length_singleton]
  omega

/-- The number of marked roots is at most the number of vertices. -/
theorem map_parents_le (n : Nat) (cores : List Nat) (fcc : Nat) (uf : List Nat) (p : Nat) :
    map_parents n cores fcc uf p ≤ p := by
  unfold map_parents
  exact le_trans (List.length_filter_le _ _) (by simp)

/-- The tree part of one level of the post-hoc variant keeps the invariant of the level
loop and adds at most `n` to `prev_max_parent`. -/
theorem posthoc_tree_inv (n fcc : Nat) (cores uf : List Nat) (t : TreeState)
    (hinv : LevelInv n t) (huf : ∀ l, l < n → uf.getD l 0 < n)
    (hmax : t.prev_max_parent + n ≤ UINT_E_MAX) :
    LevelInv n
      { (List.range n).foldl
          (fun t2 l =>
            if posthoc_active cores fcc l then
              thread_parent
                ((t.prev_max_parent + map_parents n cores fcc uf (uf.getD l 0)) %
                  UINT_E_MOD) t2 l
            else t2)
          { t with
            connectivity_tree := resize t.connectivity_tree t.prev_max_parent UINT_E_MAX }
        with prev_max_parent :=
          (t.prev_max_parent + map_parents n cores fcc uf n) % UINT_E_MOD } ∧
      (t.prev_max_parent + map_parents n cores fcc uf n) % UINT_E_MOD ≤
        t.prev_max_parent + n := by
  have hM : UINT_E_MAX = 4294967295 := rfl
  have hD : UINT_E_MOD = 4294967296 := rfl
  have hle := map_parents_le n cores fcc uf n
  have hmod : (t.prev_max_parent + map_parents n cores fcc uf n) % UINT_E_MOD =
      t.prev_max_parent + map_parents n cores fcc uf n :=
    Nat.mod_eq_of_lt (by omega)
  have hstart := resize_threadInv n (t.prev_max_parent + map_parents n cores fcc uf n) t hinv
    (by omega) (by omega)
  obtain ⟨hfold, hpmp⟩ := foldl_thread_inv n
    (t.prev_max_parent + map_parents n cores fcc uf n) t.prev_max_parent
    (fun t2 l =>
      if posthoc_active cores fcc l then
        thread_parent
          ((t.prev_max_parent + map_parents n cores fcc uf (uf.getD l 0)) % UINT_E_MOD) t2 l
      else t2)
    (List.range n) (List.nodup_range n) (fun l hl => List.mem_range.1 hl)
    (by
      intro t2 l hl _
      have hl := List.mem_range.1 hl
      by_cases hact : posthoc_active cores fcc l = true
      · right
        have hlt := map_parents_lt n cores fcc uf l hl hact (huf l hl)
        refine ⟨(t.prev_max_parent + map_parents n cores fcc uf (uf.getD l 0)) % UINT_E_MOD,
          ?_, ?_, ?_⟩
        · rw [Nat.mod_eq_of_lt (by omega)]
          omega
        · rw [Nat.mod_eq_of_lt (by omega)]
          omega
        · simp only [hact, if_true]
      · left
        simp only [hact, Bool.false_eq_true, if_false])
    { t with connectivity_tree := resize t.connectivity_tree t.prev_max_parent UINT_E_MAX }
    rfl hstart
  have h := threadInv_levelInv n (t.prev_max_parent + map_parents n cores fcc uf n) _ hfold
    (by omega)
  refine ⟨?_, by omega⟩
  rw [hmod]
  exact h

/-- The unions of one vertex in the post-hoc variant keep the roots below a bound. -/
theorem posthoc_unite_bound (G : Graph) (cores : List Nat) (fcc : Nat) (uf : List Nat)
    (x n : Nat) (h : ∀ p ∈ uf, p < n) : ∀ p ∈ posthoc_unite G cores fcc uf x, p < n := by
  unfold posthoc_unite
  apply foldl_preserves (fun uf : List Nat => ∀ p ∈ uf, p < n) _ _ _ uf h
  intro uf2 e _ h2
  split_ifs
  · exact h2
  · exact unite_impl_bound n x e.1 uf2 h2

/-- An entry read with the default `0` from a list of roots below `n` is below `n`. -/
theorem getD_lt_of_bound (uf : List Nat) (n l : Nat) (hn : 0 < n) (h : ∀ p ∈ uf, p < n) :
    uf.getD l 0 < n := by
  rw [List.getD_eq_getElem?_getD]
  rcases hp : uf[l]? with _ | p
  · exact hn
  · exact h p (List.getElem?_mem hp)

/-- One level of the post-hoc variant keeps the roots below `n` and the invariant of the
level loop, and adds at most `n` to `prev_max_parent`. -/
theorem posthoc_level_inv (G : Graph) (cores sorted_vert vert_buckets : List Nat)
    (s : PostHocState) (i : Nat) (huf : ∀ p ∈ s.uf, p < G.n) (hinv : LevelInv G.n s.tree)
    (hmax : s.tree.prev_max_parent + G.n ≤ UINT_E_MAX) :
    (∀ p ∈ (posthoc_level G cores sorted_vert vert_buckets s i).uf, p < G.n) ∧
      LevelInv G.n (posthoc_level G cores sorted_vert vert_buckets s i).tree ∧
      (posthoc_level G cores sorted_vert vert_buckets s i).tree.prev_max_parent ≤
        s.tree.prev_max_parent + G.n := by
  have huf2 : ∀ p ∈ (posthoc_level G cores sorted_vert vert_buckets s i).uf, p < G.n := by
    unfold posthoc_level
    dsimp only
    split_ifs
    · apply foldl_preserves (fun uf : List Nat => ∀ p ∈ uf, p < G.n) _ _ _ s.uf huf
      intro uf2 j _ h2
      exact posthoc_unite_bound G cores _ uf2 _ G.n h2
    · exact huf
  refine ⟨huf2, ?_⟩
  have h := posthoc_tree_inv G.n
    (cores.getD (sorted_vert.getD (vert_buckets.getD i 0) 0) 0) cores
    (posthoc_level G cores sorted_vert vert_buckets s i).uf s.tree hinv
    (fun l hl => getD_lt_of_bound _ G.n l (by omega) huf2) hmax
  exact h

/-- The level loop of the post-hoc variant keeps its invariant. -/
theorem foldl_posthoc_level_inv (G : Graph) (cores sorted_vert vert_buckets : List Nat)
    (is : List Nat) (s : PostHocState) (huf : ∀ p ∈ s.uf, p < G.n)
    (hinv : LevelInv G.n s.tree)
    (hmax : s.tree.prev_max_parent + is.length * G.n ≤ UINT_E_MAX) :
    LevelInv G.n (is.foldl (posthoc_level G cores sorted_vert vert_buckets) s).tree := by
  induction is generalizing s with
  | nil => exact hinv
  | cons i rest ih =>
    rw [List.foldl_cons]
    rw [List.length_cons, Nat.succ_mul] at hmax
    obtain ⟨h1, h2, h3⟩ := posthoc_level_inv G cores sorted_vert vert_buckets s i huf hinv
      (by omega)
    exact ih _ h1 h2 (by omega)

/-- The boundary indices are at most one more than the keys. -/
theorem GetBoundaryIndices_length_le (n : Nat) (eq : Nat → Nat → Bool) :
    (GetBoundaryIndices n eq).length ≤ n + 1 := by
  unfold GetBoundaryIndices
  rw [List.length_append, List.length_singleton]
  have := List.length_filter_le (fun i => decide (i = 0) || !(eq i (i - 1))) (List.range n)
  rw [List.length_range] at this
  omega

/-- Every entry of the tree of the post-hoc variant lies above its index, when the node
ids fit 32 bits. -/
theorem construct_nd_connectivity_increasing
    (sort : (Nat → Nat → Bool) → List Nat → List Nat) (G : Graph) (cores : List Nat)
    (hmax : G.n + G.n * G.n ≤ UINT_E_MAX) (j : Nat)
    (hj : j < (construct_nd_connectivity sort G cores).length) :
    j < (construct_nd_connectivity sort G cores).getD j 0 := by
  have hGn : G.n < UINT_E_MAX := by
    have hM : UINT_E_MAX = 4294967295 := rfl
    rcases Nat.eq_zero_or_pos G.n with h0 | hpos
    · omega
    · have := Nat.mul_le_mul_right G.n hpos
      omega
  unfold construct_nd_connectivity at hj ⊢
  rw [kcore_GetBoundaryIndices_eq _ _ hGn] at hj ⊢
  have hlen := GetBoundaryIndices_length_le G.n (fun i j =>
    decide (cores.getD
      ((sort (fun p q => decide (cores.getD p 0 > cores.getD q 0))
        (List.range G.n)).getD i 0) 0 =
      cores.getD
        ((sort (fun p q => decide (cores.getD p 0 > cores.getD q 0))
          (List.range G.n)).getD j 0) 0))
  have hinv := foldl_posthoc_level_inv G cores
    (sort (fun p q => decide (cores.getD p 0 > cores.getD q 0)) (List.range G.n))
    (GetBoundaryIndices G.n (fun i j =>
      decide (cores.getD
        ((sort (fun p q => decide (cores.getD p 0 > cores.getD q 0))
          (List.range G.n)).getD i 0) 0 =
        cores.getD
          ((sort (fun p q => decide (cores.getD p 0 > cores.getD q 0))
            (List.range G.n)).getD j 0) 0)))
    (List.range ((GetBoundaryIndices G.n (fun i j =>
      decide (cores.getD
        ((sort (fun p q => decide (cores.getD p 0 > cores.getD q 0))
          (List.range G.n)).getD i 0) 0 =
        cores.getD
          ((sort (fun p q => decide (cores.getD p 0 > cores.getD q 0))
            (List.range G.n)).getD j 0) 0))).length - 1))
    ⟨List.range G.n, ⟨List.replicate G.n UINT_E_MAX, List.range G.n, G.n⟩⟩
    (fun p hp => List.mem_range.1 hp)
    (levelInv_start G.n (by omega))
    (by
      rw [List.length_range]
      change G.n + _ * G.n ≤ UINT_E_MAX
      have hmul := Nat.mul_le_mul_right G.n (show (GetBoundaryIndices G.n (fun i j =>
        decide (cores.getD
          ((sort (fun p q => decide (cores.getD p 0 > cores.getD q 0))
            (List.range G.n)).getD i 0) 0 =
          cores.getD
            ((sort (fun p q => decide (cores.getD p 0 > cores.getD q 0))
              (List.range G.n)).getD j 0) 0))).length - 1 ≤ G.n by omega)
      omega)
  exact hinv.2.2.2 j hj

/-- The walk along the parents stops, when a measure of the indices falls with every step:
with more fuel than the measure of the start the walk returns the visited indices, which
begin with the start, follow the parents, and have falling measures. -/
theorem parent_walk_of_measure (T : List Nat) (μ : Nat → Nat)
    (hμ : ∀ j, j < T.length → T.getD j UINT_E_MAX ≠ UINT_E_MAX →
      μ (T.getD j UINT_E_MAX) < μ j) (fuel j : Nat) (hfuel : μ j < fuel) :
    ∃ path, parent_walk T fuel j = some path ∧ path.head? = some j ∧
      path.Chain' (fun a b => a < T.length ∧ b = T.getD a UINT_E_MAX ∧ b ≠ UINT_E_MAX) ∧
      path.Pairwise (fun a b => μ b < μ a) ∧ ∀ x ∈ path, μ x ≤ μ j := by
  induction fuel generalizing j with
  | zero => exact absurd hfuel (Nat.not_lt_zero _)
  | succ fuel ih =>
    by_cases hstep : j < T.length ∧ T.getD j UINT_E_MAX ≠ UINT_E_MAX
    · have hlt := hμ j hstep.1 hstep.2
      obtain ⟨p, hp, hhead, hchain, hpair, hle⟩ := ih (T.getD j UINT_E_MAX) (by omega)
      refine ⟨j :: p, ?_, rfl, ?_, ?_, ?_⟩
      · rw [parent_walk, if_pos hstep, hp]
        rfl
      · cases p with
        | nil => exact List.chain'_singleton j
        | cons x xs =>
          have hx : x = T.getD j UINT_E_MAX := by
            simpa using hhead
          rw [List.chain'_cons]
          refine ⟨⟨hstep.1, hx, ?_⟩, hchain⟩
          rw [hx]
          exact hstep.2
      · rw [List.pairwise_cons]
        exact ⟨fun x hx => lt_of_le_of_lt (hle x hx) hlt, hpair⟩
      · intro x hx
        rcases List.mem_cons.1 hx with h | h
        · rw [h]
        · exact le_trans (hle x h) (le_of_lt hlt)
    · refine ⟨[j], ?_, rfl, List.chain'_singleton j, List.pairwise_singleton _ _, ?_⟩
      · rw [parent_walk, if_neg hstep]
      · intro x hx
        rw [List.mem_singleton.1 hx]

/-- A walk that stops returns the same indices for every fuel that is at least their
number. -/
theorem parent_walk_fuel (T : List Nat) (fuel j : Nat) (path : List Nat)
    (h : parent_walk T fuel j = some path) (fuel2 : Nat) (h2 : path.length ≤ fuel2) :
    parent_walk T fuel2 j = some path := by
  induction fuel generalizing j path fuel2 with
  | zero => simp [parent_walk] at h
  | succ fuel ih =>
    rw [parent_walk] at h
    by_cases hstep : j < T.length ∧ T.getD j UINT_E_MAX ≠ UINT_E_MAX
    · rw [if_pos hstep] at h
      rcases hp : parent_walk T fuel (T.getD j UINT_E_MAX) with _ | p
      · rw [hp] at h
        simp at h
      · rw [hp] at h
        simp only [Option.map_some', Option.some.injEq] at h
        subst h
        cases fuel2 with
        | zero => simp at h2
        | succ fuel2 =>
          rw [parent_walk, if_pos hstep, ih _ p hp fuel2 (by simpa using h2)]
          rfl
    · rw [if_neg hstep] at h
      simp only [Option.some.injEq] at h
      subst h
      cases fuel2 with
      | zero => simp at h2
      | succ fuel2 => rw [parent_walk, if_neg hstep]

/-- A list of indices without repetition whose entries, the last one apart, are indices of
`T` has at most one entry more than `T`. -/
theorem chain_length_le (T : List Nat) (path : List Nat) (hnd : path.Nodup)
    (hchain : path.Chain'
      (fun a b => a < T.length ∧ b = T.getD a UINT_E_MAX ∧ b ≠ UINT_E_MAX)) :
    path.length ≤ T.length + 1 := by
  have hsub : ∀ a ∈ path.dropLast, a < T.length := by
    induction path with
    | nil => simp
    | cons x xs ih =>
      cases xs with
      | nil => simp
      | cons y ys =>
        rw [List.chain'_cons] at hchain
        rw [List.dropLast_cons₂]
        intro a ha
        rcases List.mem_cons.1 ha with h | h
        · rw [h]
          exact hchain.1.1
        · exact ih (List.nodup_cons.1 hnd).2 hchain.2 a h
  have h1 := (List.subperm_of_subset (hnd.sublist (List.dropLast_sublist path))
    (fun a ha => List.mem_range.2 (hsub a ha))).length_le
  rw [List.length_dropLast, List.length_range] at h1
  omega

/-- In a tree whose slots hold values above their index, the walk from every index stops
within one step more than the tree has slots, and the visited indices increase. -/
theorem parent_walk_increasing (T : List Nat)
    (hT : ∀ j, j < T.length → j < T.getD j 0) (i : Nat) :
    ∃ path, parent_walk T (T.length + 1) i = some path ∧ path.head? = some i ∧
      path.Chain' (fun a b => a < T.length ∧ b = T.getD a UINT_E_MAX ∧ b ≠ UINT_E_MAX) ∧
      path.Pairwise (fun a b => a < b) ∧ path.Nodup := by
  have hT2 : ∀ j, j < T.length → j < T.getD j UINT_E_MAX := by
    intro j hj
    have := hT j hj
    rw [List.getD_eq_getElem?_getD, List.getElem?_eq_getElem hj] at this ⊢
    exact this
  obtain ⟨p, hp, hhead, hchain, hpair, _⟩ := parent_walk_of_measure T
    (fun j => T.length - j)
    (by
      intro j hj _
      have := hT2 j hj
      dsimp only
      omega)
    (T.length + 1) i (by dsimp only; omega)
  have hinc : p.Pairwise (fun a b => a < b) := by
    have hchain2 : p.Chain' (fun a b => a < b) := by
      apply hchain.imp
      rintro a b ⟨h1, h2, _⟩
      rw [h2]
      exact hT2 a h1
    exact List.chain'_iff_pairwise.1 hchain2
  exact ⟨p, hp, hhead, hchain, hinc, hinc.imp (fun h => Nat.ne_of_lt h)⟩

/-- Uniting two roots of equal core number keeps the invariant, and the smaller root is the
root of both afterwards. -/
theorem EfficientInv_unite (n : Nat) (cores : Nat → Nat) (P : Nat → Prop)
    (s : EfficientConnectWhilePeeling) (hinv : EfficientInv n cores P s) (a b : Nat)
    (ha : a < n) (hPa : P a) (hPb : P b)
    (hra : s.uf.getD a 0 = a) (hrb : s.uf.getD b 0 = b) (hc : cores a = cores b) :
    EfficientInv n cores P ⟨unite_impl a b s.uf, s.links⟩ ∧
      ∀ x, x < n → (unite_impl a b s.uf).getD x 0 =
        if s.uf.getD x 0 = max a b then min a b else s.uf.getD x 0 := by
  have hget : ∀ x, x < n → (unite_impl a b s.uf).getD x 0 =
      if s.uf.getD x 0 = max a b then min a b else s.uf.getD x 0 := by
    intro x hx
    have h := find_compress_unite_impl a b s.uf x (by rw [hinv.length_uf]; exact hx)
    unfold find_compress at h
    rw [hra, hrb] at h
    exact h
  have hmin_lt : min a b < n := lt_of_le_of_lt (min_le_left _ _) ha
  have hmin_root : s.uf.getD (min a b) 0 = min a b := by
    rcases min_choice a b with h | h <;> rw [h] <;> assumption
  have hmin_P : P (min a b) := by
    rcases min_choice a b with h | h <;> rw [h] <;> assumption
  have hmax_P : P (max a b) := by
    rcases max_choice a b with h | h <;> rw [h] <;> assumption
  have hmin_c : cores (min a b) = cores (max a b) := by
    rcases le_total a b with h | h
    · rw [min_eq_left h, max_eq_right h, hc]
    · rw [min_eq_right h, max_eq_left h, hc]
  refine ⟨⟨?_, hinv.length_links, ?_, ?_, ?_, ?_, ?_, hinv.link⟩, hget⟩
  · change (unite_impl a b s.uf).length = n
    rw [unite_impl_length, hinv.length_uf]
  · intro x hx
    change (unite_impl a b s.uf).getD x 0 < n
    rw [hget x hx]
    split_ifs
    · exact hmin_lt
    · exact hinv.root_lt x hx
  · intro x hx
    change (unite_impl a b s.uf).getD ((unite_impl a b s.uf).getD x 0) 0 =
      (unite_impl a b s.uf).getD x 0
    rw [hget x hx]
    by_cases h1 : s.uf.getD x 0 = max a b
    · rw [if_pos h1, hget _ hmin_lt, hmin_root]
      split_ifs <;> rfl
    · rw [if_neg h1, hget _ (hinv.root_lt x hx), hinv.root_root x hx, if_neg h1]
  · intro x hx hPx
    change P ((unite_impl a b s.uf).getD x 0)
    rw [hget x hx]
    split_ifs
    · exact hmin_P
    · exact hinv.root_peeled x hx hPx
  · intro x hx hPx
    refine ⟨?_, (hinv.unpeeled x hx hPx).2⟩
    change (unite_impl a b s.uf).getD x 0 = x
    rw [hget x hx, (hinv.unpeeled x hx hPx).1]
    have hne : x ≠ max a b := by
      intro h
      rw [h] at hPx
      exact hPx hmax_P
    rw [if_neg hne]
  · intro x hx hPx
    change cores ((unite_impl a b s.uf).getD x 0) = cores x
    rw [hget x hx]
    by_cases h1 : s.uf.getD x 0 = max a b
    · rw [if_pos h1, hmin_c, ← h1]
      exact hinv.root_cores x hx hPx
    · rw [if_neg h1]
      exact hinv.root_cores x hx hPx

/-- Storing at the root `b` a link to a peeled vertex of smaller core number keeps the
invariant. -/
theorem EfficientInv_set_link (n : Nat) (cores : Nat → Nat) (P : Nat → Prop)
    (s : EfficientConnectWhilePeeling) (hinv : EfficientInv n cores P s) (a b : Nat)
    (ha : a < n) (hb : b < n) (hPa : P a) (hPb : P b) (hc : cores a < cores b) :
    EfficientInv n cores P ⟨s.uf, s.links.set b a⟩ := by
  have hbl : b < s.links.length := by
    rw [hinv.length_links]
    exact hb
  refine ⟨hinv.length_uf, ?_, hinv.root_lt, hinv.root_root, hinv.root_peeled, ?_,
    hinv.root_cores, ?_⟩
  · change (s.links.set b a).length = n
    rw [List.length_set, hinv.length_links]
  · intro x hx hPx
    refine ⟨(hinv.unpeeled x hx hPx).1, ?_⟩
    change (s.links.set b a).getD x UINT_E_MAX = UINT_E_MAX
    rw [getD_set _ _ _ _ _ hbl]
    have hne : x ≠ b := by
      intro h
      rw [h] at hPx
      exact hPx hPb
    rw [if_neg hne]
    exact (hinv.unpeeled x hx hPx).2
  · intro x hx hl
    change (s.links.set b a).getD x UINT_E_MAX ≠ UINT_E_MAX at hl
    change (s.links.set b a).getD x UINT_E_MAX < n ∧ P ((s.links.set b a).getD x UINT_E_MAX) ∧
      cores ((s.links.set b a).getD x UINT_E_MAX) < cores x
    rw [getD_set _ _ _ _ _ hbl] at hl ⊢
    by_cases hxb : x = b
    · rw [if_pos hxb]
      rw [hxb]
      exact ⟨ha, hPa, hc⟩
    · rw [if_neg hxb] at hl ⊢
      exact hinv.link x hx hl

/-- The method `EfficientConnectWhilePeeling::link` on two peeled vertices returns when the
allowed nesting is above the measure of its arguments, and it keeps the invariant. -/
theorem EfficientConnectWhilePeeling_link_inv (n : Nat) (cores : Nat → Nat) (P : Nat → Prop)
    (fuel : Nat) (a b : Nat) (s : EfficientConnectWhilePeeling)
    (hinv : EfficientInv n cores P s) (ha : a < n) (hb : b < n) (hPa : P a) (hPb : P b)
    (hfuel : link_measure cores a b < fuel) :
    ∃ s2, EfficientConnectWhilePeeling.link cores fuel a b s = some s2 ∧
      EfficientInv n cores P s2 := by
  induction fuel generalizing a b s with
  | zero => exact absurd hfuel (Nat.not_lt_zero _)
  | succ fuel ih =>
    obtain ⟨a2, ha2⟩ : ∃ a2, find_compress a s.uf = a2 := ⟨_, rfl⟩
    obtain ⟨b2, hb2⟩ : ∃ b2, find_compress b s.uf = b2 := ⟨_, rfl⟩
    have ha2n : a2 < n := by rw [← ha2]; exact hinv.root_lt a ha
    have hb2n : b2 < n := by rw [← hb2]; exact hinv.root_lt b hb
    have hPa2 : P a2 := by rw [← ha2]; exact hinv.root_peeled a ha hPa
    have hPb2 : P b2 := by rw [← hb2]; exact hinv.root_peeled b hb hPb
    have hca : cores a2 = cores a := by rw [← ha2]; exact hinv.root_cores a ha hPa
    have hcb : cores b2 = cores b := by rw [← hb2]; exact hinv.root_cores b hb hPb
    have hra : s.uf.getD a2 0 = a2 := by rw [← ha2]; exact hinv.root_root a ha
    have hrb : s.uf.getD b2 0 = b2 := by rw [← hb2]; exact hinv.root_root b hb
    have hfa : find_compress a2 s.uf = a2 := hra
    have hfb : find_compress b2 s.uf = b2 := hrb
    rw [EfficientConnectWhilePeeling.link]
    simp only [ha2, hb2, hfa, hfb]
    unfold link_measure at hfuel
    rw [← hca, ← hcb] at hfuel
    by_cases heq : cores a2 = cores b2
    · -- equal core numbers
      rw [if_pos heq]
      rw [if_pos heq, heq, max_self] at hfuel
      obtain ⟨hinv1, hget⟩ := EfficientInv_unite n cores P s hinv a2 b2 ha2n hPa2 hPb2 hra hrb heq
      obtain ⟨p, hp⟩ : ∃ p, find_compress a2 (unite_impl a2 b2 s.uf) = p := ⟨_, rfl⟩
      have hpn : p < n := by rw [← hp]; exact hinv1.root_lt a2 ha2n
      have hPp : P p := by rw [← hp]; exact hinv1.root_peeled a2 ha2n hPa2
      have hcp : cores p = cores a2 := by rw [← hp]; exact hinv1.root_cores a2 ha2n hPa2
      simp only [hp]
      -- the first nested call
      have hfirst : ∃ s2,
          (if s.links.getD a2 UINT_E_MAX ≠ UINT_E_MAX ∧ p ≠ a2 then
            EfficientConnectWhilePeeling.link cores fuel (s.links.getD a2 UINT_E_MAX) p
              ⟨unite_impl a2 b2 s.uf, s.links⟩
          else some ⟨unite_impl a2 b2 s.uf, s.links⟩) = some s2 ∧
            EfficientInv n cores P s2 := by
        by_cases h1 : s.links.getD a2 UINT_E_MAX ≠ UINT_E_MAX ∧ p ≠ a2
        · rw [if_pos h1]
          obtain ⟨hl1, hl2, hl3⟩ := hinv.link a2 ha2n h1.1
          apply ih _ _ _ hinv1 hl1 hpn hl2 hPp
          unfold link_measure
          have hne : cores (s.links.getD a2 UINT_E_MAX) ≠ cores p := by omega
          have hlt : cores (s.links.getD a2 UINT_E_MAX) < cores p := by omega
          rw [if_neg hne, if_pos hlt, max_eq_right (le_of_lt hlt)]
          omega
        · rw [if_neg h1]
          exact ⟨_, rfl, hinv1⟩
      obtain ⟨s2, hs2, hinv2⟩ := hfirst
      rw [hs2, Option.some_bind]
      by_cases h2 : s.links.getD b2 UINT_E_MAX ≠ UINT_E_MAX ∧ p ≠ b2
      · rw [if_pos h2]
        obtain ⟨hl1, hl2, hl3⟩ := hinv.link b2 hb2n h2.1
        apply ih _ _ _ hinv2 hl1 hpn hl2 hPp
        unfold link_measure
        have hne : cores (s.links.getD b2 UINT_E_MAX) ≠ cores p := by omega
        have hlt : cores (s.links.getD b2 UINT_E_MAX) < cores p := by omega
        rw [if_neg hne, if_pos hlt, max_eq_right (le_of_lt hlt)]
        omega
      · rw [if_neg h2]
        exact ⟨_, rfl, hinv2⟩
    · rw [if_neg heq]
      rw [if_neg heq] at hfuel
      by_cases hlt : cores a2 < cores b2
      · -- the first argument has the smaller core number
        rw [if_pos hlt]
        rw [if_pos hlt, max_eq_right (le_of_lt hlt)] at hfuel
        by_cases hc : s.links.getD b2 UINT_E_MAX = UINT_E_MAX
        · rw [if_pos hc]
          exact ⟨_, rfl, EfficientInv_set_link n cores P s hinv a2 b2 ha2n hb2n hPa2 hPb2 hlt⟩
        · rw [if_neg hc]
          obtain ⟨hl1, hl2, hl3⟩ := hinv.link b2 hb2n hc
          have hmeasure : link_measure cores a2 (s.links.getD b2 UINT_E_MAX) < fuel := by
            unfold link_measure
            have hmax : max (cores a2) (cores (s.links.getD b2 UINT_E_MAX)) < cores b2 :=
              max_lt hlt hl3
            split_ifs <;> omega
          by_cases hca2 : cores (s.links.getD b2 UINT_E_MAX) < cores a2
          · rw [if_pos hca2]
            have hinv1 := EfficientInv_set_link n cores P s hinv a2 b2 ha2n hb2n hPa2 hPb2 hlt
            have hnot : ¬ (b2 ≠ b2) := fun h => h rfl
            rw [if_neg hnot, Option.some_bind]
            exact ih _ _ _ hinv1 ha2n hl1 hPa2 hl2 hmeasure
          · rw [if_neg hca2]
            exact ih _ _ _ hinv ha2n hl1 hPa2 hl2 hmeasure
      · -- the first argument has the larger core number
        rw [if_neg hlt]
        rw [if_neg hlt] at hfuel
        apply ih _ _ _ hinv hb2n ha2n hPb2 hPa2
        unfold link_measure
        have hne : cores b2 ≠ cores a2 := fun h => heq h.symm
        have hlt2 : cores b2 < cores a2 := by omega
        rw [if_neg hne, if_pos hlt2, max_eq_right (le_of_lt hlt2)]
        rw [max_eq_left (le_of_lt hlt2)] at hfuel
        omega

/-- The invariant depends on the core numbers of the peeled vertices only. -/
theorem EfficientInv_congr (n : Nat) (c c2 : Nat → Nat) (P : Nat → Prop)
    (s : EfficientConnectWhilePeeling) (h : ∀ a, a < n → P a → c a = c2 a)
    (hinv : EfficientInv n c P s) : EfficientInv n c2 P s := by
  refine ⟨hinv.length_uf, hinv.length_links, hinv.root_lt, hinv.root_root, hinv.root_peeled,
    hinv.unpeeled, ?_, ?_⟩
  · intro a ha hPa
    rw [← h a ha hPa, ← h _ (hinv.root_lt a ha) (hinv.root_peeled a ha hPa)]
    exact hinv.root_cores a ha hPa
  · intro b hb hl
    obtain ⟨h1, h2, h3⟩ := hinv.link b hb hl
    have hPb : P b := by
      by_contra hcon
      exact hl (hinv.unpeeled b hb hcon).2
    refine ⟨h1, h2, ?_⟩
    rw [← h _ h1 h2, ← h b hb hPb]
    exact h3

/-- The invariant stays when more vertices are peeled. -/
theorem EfficientInv_mono (n : Nat) (c : Nat → Nat) (P P2 : Nat → Prop)
    (s : EfficientConnectWhilePeeling) (h : ∀ a, a < n → P a → P2 a)
    (hinv : EfficientInv n c P s) : EfficientInv n c P2 s := by
  refine ⟨hinv.length_uf, hinv.length_links, hinv.root_lt, hinv.root_root, ?_, ?_, ?_, ?_⟩
  · intro a ha hPa
    by_cases hp : P a
    · exact h _ (hinv.root_lt a ha) (hinv.root_peeled a ha hp)
    · rw [(hinv.unpeeled a ha hp).1]
      exact hPa
  · intro a ha hPa
    exact hinv.unpeeled a ha (fun hp => hPa (h a ha hp))
  · intro a ha _
    by_cases hp : P a
    · exact hinv.root_cores a ha hp
    · rw [(hinv.unpeeled a ha hp).1]
  · intro b hb hl
    obtain ⟨h1, h2, h3⟩ := hinv.link b hb hl
    exact ⟨h1, h _ h1 h2, h3⟩

/-- A vertex stores at most as many edges as the graph. -/
theorem out_neighbors_length_le_edges (G : Graph) (v : Nat) :
    (G.out_neighbors v).length ≤ G.edges.length := by
  by_cases hv : v < G.n
  · have h := Graph.filter_edges_range G G.n v (fun _ => true)
    rw [if_pos hv] at h
    have h2 := List.length_filter_le (fun e : Nat × Nat × ℚ => decide (e.1 = v) && true)
      G.edges
    unfold Graph.edges at h2
    rw [h, List.filter_true, List.length_map] at h2
    exact h2
  · have : G.out_neighbors v = [] := by
      unfold Graph.out_neighbors
      rw [List.getD_eq_getElem?_getD, List.getElem?_eq_none (not_lt.1 hv)]
      rfl
    rw [this]
    exact Nat.zero_le _

/-- Under the invariant of the loop of `KCore` every entry of `D` is at most the stored
degree. -/
theorem KCoreInv_D_le {σ : Type} (G : Graph) (s : KCoreState σ) (hinv : KCoreInv G s)
    (v : Nat) (hv : v < G.n) : s.D.getD v 0 ≤ (G.out_neighbors v).length := by
  by_cases hb : v ∈ s.b
  · exact le_trans (hinv.live_neighbors v hb) (degree_in_le G _ v)
  · exact le_trans (hinv.done_neighbors v hv hb) (degree_in_le G _ v)

/-- After one iteration of the loop of `KCore` the vertices outside the bucket structure are
the vertices whose entry of `D` was at most the bucket id, and their entry is kept. -/
theorem KCore_round_done {σ : Type} (ops : ConnectWhilePeelingOps σ) (G : Graph) (ih : Bool)
    (s : KCoreState σ) (hinv : KCoreInv G s) (hne : s.b ≠ []) (v : Nat) (hv : v < G.n) :
    (v ∉ (KCore_round ops G ih s).b ↔ s.D.getD v 0 ≤ next_bucket_id s.D s.b) ∧
    (v ∉ (KCore_round ops G ih s).b →
      (KCore_round ops G ih s).D.getD v 0 = s.D.getD v 0) ∧
    (v ∉ s.b → v ∉ (KCore_round ops G ih s).b) := by
  obtain ⟨v0, hv0, hk0⟩ := next_bucket_id_mem s.D s.b hne
  have hkp : s.prev_bkt ≤ next_bucket_id s.D s.b := by
    rw [hk0, hinv.live v0 hv0]
    exact le_max_left _ _
  have hmemb := mem_KCore_round_b ops G ih s v
  have hiff : v ∉ (KCore_round ops G ih s).b ↔ s.D.getD v 0 ≤ next_bucket_id s.D s.b := by
    constructor
    · intro hnot
      by_cases hvb : v ∈ s.b
      · by_contra hcon
        exact hnot (hmemb.2 ⟨hvb, fun h => hcon (le_of_eq h)⟩)
      · exact le_trans (hinv.done v hv hvb) hkp
    · intro hle hin
      obtain ⟨h1, h2⟩ := hmemb.1 hin
      have := next_bucket_id_le s.D s.b v h1
      omega
  refine ⟨hiff, ?_, ?_⟩
  · intro hnot
    exact KCore_round_D_of_le ops G ih s v hv (hiff.1 hnot)
  · intro hnot hin
    exact hnot (hmemb.1 hin).1

/-- The lambda `cores_func` returns the entry of `D` at the vertices whose entry is at most
the bucket id. -/
theorem cores_func_of_le (D : List Nat) (k n a : Nat) (h : D.getD a 0 ≤ k) :
    cores_func D k n a = D.getD a 0 := by
  unfold cores_func
  rw [if_neg (not_lt.2 h)]

/-- One iteration of the loop of `KCore` with the hooks of the efficient inline variant
keeps the invariant of the `EfficientConnectWhilePeeling` object, for the entries of `D` as
core numbers and the vertices outside the bucket structure as peeled vertices; no call of
`link` runs out of its allowed nesting. -/
theorem KCore_round_efficient_inv (G : Graph) (hwf : G.WellFormed) (ih : Bool)
    (s : KCoreState (Option EfficientConnectWhilePeeling)) (hinv : KCoreInv G s)
    (hne : s.b ≠ [])
    (hj : ∃ e, s.connect_while_peeling = some e ∧
      EfficientInv G.n (fun a => s.D.getD a 0) (fun a => a ∉ s.b) e) :
    ∃ e, (KCore_round (efficientOps (link_fuel G)) G ih s).connect_while_peeling = some e ∧
      EfficientInv G.n
        (fun a => (KCore_round (efficientOps (link_fuel G)) G ih s).D.getD a 0)
        (fun a => a ∉ (KCore_round (efficientOps (link_fuel G)) G ih s).b) e := by
  obtain ⟨e0, he0, hinv0⟩ := hj
  have hdone := KCore_round_done (efficientOps (link_fuel G)) G ih s hinv hne
  obtain ⟨v0, hv0, hk0⟩ := next_bucket_id_mem s.D s.b hne
  have hv0n : v0 < G.n := lt_of_mem_b G.n s.b hinv.b_eq v0 hv0
  have hk_le : next_bucket_id s.D s.b ≤ G.edges.length := by
    rw [hk0]
    exact le_trans (KCoreInv_D_le G s hinv v0 hv0n) (out_neighbors_length_le_edges G v0)
  -- the invariant for the peeled vertices of this iteration and the lambda `cores_func`
  have hstart : EfficientInv G.n (cores_func s.D (next_bucket_id s.D s.b) G.n)
      (fun a => a ∉ (KCore_round (efficientOps (link_fuel G)) G ih s).b) e0 := by
    apply EfficientInv_congr G.n (fun a => s.D.getD a 0)
    · intro a ha hPa
      exact (cores_func_of_le s.D _ G.n a ((hdone a ha).1.1 hPa)).symm
    · exact EfficientInv_mono G.n _ (fun a => a ∉ s.b) _ e0
        (fun a ha hPa => (hdone a ha).2.2 hPa) hinv0
  have hcores_le : ∀ a, a < G.n → a ∉ (KCore_round (efficientOps (link_fuel G)) G ih s).b →
      cores_func s.D (next_bucket_id s.D s.b) G.n a ≤ G.edges.length := by
    intro a ha hPa
    rw [cores_func_of_le s.D _ G.n a ((hdone a ha).1.1 hPa)]
    exact le_trans ((hdone a ha).1.1 hPa) hk_le
  -- one call of `link_func`
  have hlink : ∀ (u : Nat) (c : Option EfficientConnectWhilePeeling),
      u ∈ next_bucket_identifiers s.D s.b →
      (∃ e, c = some e ∧ EfficientInv G.n (cores_func s.D (next_bucket_id s.D s.b) G.n)
        (fun a => a ∉ (KCore_round (efficientOps (link_fuel G)) G ih s).b) e) →
      ∃ e, link_func (efficientOps (link_fuel G)) G s.D (next_bucket_id s.D s.b) u c =
          some e ∧
        EfficientInv G.n (cores_func s.D (next_bucket_id s.D s.b) G.n)
          (fun a => a ∉ (KCore_round (efficientOps (link_fuel G)) G ih s).b) e := by
    intro u c hu hc
    obtain ⟨hub, huk⟩ := (mem_next_bucket_identifiers s.D s.b u).1 hu
    have hun : u < G.n := lt_of_mem_b G.n s.b hinv.b_eq u hub
    have hPu : u ∉ (KCore_round (efficientOps (link_fuel G)) G ih s).b :=
      (hdone u hun).1.2 (le_of_eq huk)
    unfold link_func
    refine foldl_preserves
      (fun c : Option EfficientConnectWhilePeeling => ∃ e, c = some e ∧
        EfficientInv G.n (cores_func s.D (next_bucket_id s.D s.b) G.n)
          (fun a => a ∉ (KCore_round (efficientOps (link_fuel G)) G ih s).b) e)
      _ (G.out_neighbors u) ?_ c hc
    intro c2 x hx hc2
    have hxn : x.1 < G.n := hwf.out_neighbors_lt u x hx
    split_ifs with hcond
    · obtain ⟨e2, he2, hinv2⟩ := hc2
      have hPx : x.1 ∉ (KCore_round (efficientOps (link_fuel G)) G ih s).b :=
        (hdone x.1 hxn).1.2 hcond.2
      obtain ⟨e3, he3, hinv3⟩ := EfficientConnectWhilePeeling_link_inv G.n
        (cores_func s.D (next_bucket_id s.D s.b) G.n)
        (fun a => a ∉ (KCore_round (efficientOps (link_fuel G)) G ih s).b)
        (link_fuel G) u x.1 e2 hinv2 hun hxn hPu hPx
        (by
          have h1 := hcores_le u hun hPu
          have h2 := hcores_le x.1 hxn hPx
          have h3 : max (cores_func s.D (next_bucket_id s.D s.b) G.n u)
              (cores_func s.D (next_bucket_id s.D s.b) G.n x.1) ≤ G.edges.length :=
            max_le h1 h2
          unfold link_measure link_fuel
          split_ifs <;> omega)
      refine ⟨e3, ?_, hinv3⟩
      rw [he2]
      exact he3
    · exact hc2
  -- the calls for all active vertices
  have hfold := foldl_preserves
    (fun c : Option EfficientConnectWhilePeeling => ∃ e, c = some e ∧
      EfficientInv G.n (cores_func s.D (next_bucket_id s.D s.b) G.n)
        (fun a => a ∉ (KCore_round (efficientOps (link_fuel G)) G ih s).b) e)
    (fun c u => link_func (efficientOps (link_fuel G)) G s.D (next_bucket_id s.D s.b) u c)
    (next_bucket_identifiers s.D s.b)
    (fun c u hu hc => hlink u c hu hc)
    (if ih = true ∧ s.prev_bkt ≠ next_bucket_id s.D s.b ∧ next_bucket_id s.D s.b ≠ 0
      then (efficientOps (link_fuel G)).init (next_bucket_id s.D s.b) s.connect_while_peeling
      else s.connect_while_peeling)
    (by
      refine ⟨e0, ?_, hstart⟩
      split_ifs
      · exact he0
      · exact he0)
  obtain ⟨e, he, hinve⟩ := hfold
  refine ⟨e, he, ?_⟩
  apply EfficientInv_congr G.n (cores_func s.D (next_bucket_id s.D s.b) G.n)
  · intro a ha hPa
    rw [cores_func_of_le s.D _ G.n a ((hdone a ha).1.1 hPa)]
    exact ((hdone a ha).2.1 hPa).symm
  · exact hinve

/-- Every position lies in a run between two consecutive boundary indices, and has the key
of the first position of the run. -/
theorem GetBoundaryIndices_run (n : Nat) (key : Nat → Nat) (pos : Nat) (hpos : pos < n) :
    ∃ i, i + 1 < (GetBoundaryIndices n (fun x y => decide (key x = key y))).length ∧
      (GetBoundaryIndices n (fun x y => decide (key x = key y))).getD i 0 ≤ pos ∧
      pos < (GetBoundaryIndices n (fun x y => decide (key x = key y))).getD (i + 1) 0 ∧
      key pos = key ((GetBoundaryIndices n (fun x y => decide (key x = key y))).getD i 0) := by
  induction pos with
  | zero =>
    obtain ⟨i, hi, hx⟩ := GetBoundaryIndices_exists n (fun x y => decide (key x = key y)) 0
      hpos (Or.inl rfl)
    have hc := GetBoundaryIndices_consecutive n (fun x y => decide (key x = key y)) i hi
    refine ⟨i, hi, by omega, by omega, by rw [hx]⟩
  | succ p ih =>
    by_cases hb : key (p + 1) = key p
    · obtain ⟨i, hi, h1, h2, h3⟩ := ih (by omega)
      have hc := GetBoundaryIndices_consecutive n (fun x y => decide (key x = key y)) i hi
      refine ⟨i, hi, by omega, ?_, by rw [hb, h3]⟩
      by_contra hcon
      have heq : (GetBoundaryIndices n (fun x y => decide (key x = key y))).getD (i + 1) 0 =
          p + 1 := by omega
      have h5 := hc.2.2.2.2 (by omega)
      rw [heq] at h5
      simp only [Nat.add_sub_cancel, decide_eq_false_iff_not] at h5
      exact h5 hb
    · obtain ⟨i, hi, hx⟩ := GetBoundaryIndices_exists n (fun x y => decide (key x = key y))
        (p + 1) hpos (Or.inr (by simpa using hb))
      have hc := GetBoundaryIndices_consecutive n (fun x y => decide (key x = key y)) i hi
      refine ⟨i, hi, by omega, by omega, by rw [hx]⟩

/-- A position lies in one run only. -/
theorem GetBoundaryIndices_run_unique (n : Nat) (eq : Nat → Nat → Bool) (pos i j : Nat)
    (hi : i + 1 < (GetBoundaryIndices n eq).length)
    (hj : j + 1 < (GetBoundaryIndices n eq).length)
    (hi1 : (GetBoundaryIndices n eq).getD i 0 ≤ pos)
    (hi2 : pos < (GetBoundaryIndices n eq).getD (i + 1) 0)
    (hj1 : (GetBoundaryIndices n eq).getD j 0 ≤ pos)
    (hj2 : pos < (GetBoundaryIndices n eq).getD (j + 1) 0) : i = j := by
  have hM := GetBoundaryIndices_pairwise n eq
  have hi0 : i < (GetBoundaryIndices n eq).length := by omega
  have hj0 : j < (GetBoundaryIndices n eq).length := by omega
  rw [List.getD_eq_getElem _ _ hi0] at hi1
  rw [List.getD_eq_getElem _ _ hi] at hi2
  rw [List.getD_eq_getElem _ _ hj0] at hj1
  rw [List.getD_eq_getElem _ _ hj] at hj2
  have h1 := lt_of_getElem_lt_of_pairwise _ hM i (j + 1) hi0 hj (by omega)
  have h2 := lt_of_getElem_lt_of_pairwise _ hM j (i + 1) hj0 hi (by omega)
  omega

/-- A fold of writes ends with the value `V` at the slot `c`, when every write to `c` has
the value `V` and either the slot starts with `V` or there is a write to it. -/
theorem foldl_set_getD (runs : List Nat) (slot val : Nat → Nat) (c V : Nat)
    (hall : ∀ r ∈ runs, slot r = c → val r = V) (T0 : List Nat) (hc : c < T0.length)
    (hex : T0.getD c 0 = V ∨ ∃ r ∈ runs, slot r = c) :
    (runs.foldl (fun T r => T.set (slot r) (val r)) T0).getD c 0 = V ∧
      (runs.foldl (fun T r => T.set (slot r) (val r)) T0).length = T0.length := by
  induction runs generalizing T0 with
  | nil =>
    rcases hex with h | ⟨r, hr, _⟩
    · exact ⟨h, rfl⟩
    · exact absurd hr (List.not_mem_nil _)
  | cons r rs ih =>
    rw [List.foldl_cons]
    have hlen : (T0.set (slot r) (val r)).length = T0.length := List.length_set _ _ _
    have := ih (fun x hx => hall x (List.mem_cons_of_mem _ hx)) (T0.set (slot r) (val r))
      (by rw [hlen]; exact hc)
      (by
        by_cases hs : slot r = c
        · left
          rw [hs, getD_set _ _ _ _ _ hc, if_pos rfl]
          exact hall r (List.mem_cons_self _ _) hs
        · rcases hex with h | ⟨x, hx, hxc⟩
          · left
            by_cases hsl : slot r < T0.length
            · rw [getD_set _ _ _ _ _ hsl, if_neg (fun hh => hs hh.symm)]
              exact h
            · rw [List.set_eq_of_length_le (not_lt.1 hsl)]
              exact h
          · rcases List.mem_cons.1 hx with hxr | hxr
            · rw [hxr] at hxc
              exact absurd hxc hs
            · right
              exact ⟨x, hxr, hxc⟩)
    rw [hlen] at this
    exact this

/-- A fold of writes that never writes to the slot `c` keeps it. -/
theorem foldl_set_getD_of_ne (runs : List Nat) (slot val : Nat → Nat) (c : Nat)
    (hall : ∀ r ∈ runs, slot r ≠ c) (T0 : List Nat) :
    (runs.foldl (fun T r => T.set (slot r) (val r)) T0).getD c 0 = T0.getD c 0 ∧
      (runs.foldl (fun T r => T.set (slot r) (val r)) T0).length = T0.length := by
  induction runs generalizing T0 with
  | nil => exact ⟨rfl, rfl⟩
  | cons r rs ih =>
    rw [List.foldl_cons]
    obtain ⟨h1, h2⟩ := ih (fun x hx => hall x (List.mem_cons_of_mem _ hx))
      (T0.set (slot r) (val r))
    rw [h1, h2]
    refine ⟨?_, List.length_set _ _ _⟩
    by_cases hsl : slot r < T0.length
    · rw [getD_set _ _ _ _ _ hsl,
        if_neg (fun hh => hall r (List.mem_cons_self _ _) hh.symm)]
    · rw [List.set_eq_of_length_le (not_lt.1 hsl)]

/-- The first pass of the efficient variant ends with the value `V` at the vertex `c`, when
every write to `c` has the value `V` and either the slot starts with `V` or a bucket holds
`c`. -/
theorem foldl_assign_bucket_getD (sorted_vert vert_buckets : List Nat) (pmp : Nat)
    (is : List Nat) (c V : Nat) (T0 : List Nat) (hc : c < T0.length)
    (hall : ∀ i ∈ is, ∀ a, a < vert_buckets.getD (i + 1) 0 - vert_buckets.getD i 0 →
      sorted_vert.getD (vert_buckets.getD i 0 + a) 0 = c → (pmp + i) % UINT_E_MOD = V)
    (hex : T0.getD c 0 = V ∨ ∃ i ∈ is, ∃ a,
      a < vert_buckets.getD (i + 1) 0 - vert_buckets.getD i 0 ∧
        sorted_vert.getD (vert_buckets.getD i 0 + a) 0 = c) :
    (is.foldl (assign_bucket sorted_vert vert_buckets pmp) T0).getD c 0 = V ∧
      (is.foldl (assign_bucket sorted_vert vert_buckets pmp) T0).length = T0.length := by
  induction is generalizing T0 with
  | nil =>
    rcases hex with h | ⟨i, hi, _⟩
    · exact ⟨h, rfl⟩
    · exact absurd hi (List.not_mem_nil _)
  | cons i rest ih =>
    rw [List.foldl_cons]
    by_cases hw : ∃ a, a < vert_buckets.getD (i + 1) 0 - vert_buckets.getD i 0 ∧
        sorted_vert.getD (vert_buckets.getD i 0 + a) 0 = c
    · obtain ⟨a, ha, hac⟩ := hw
      obtain ⟨h1, h2⟩ := foldl_set_getD
        (List.range (vert_buckets.getD (i + 1) 0 - vert_buckets.getD i 0))
        (fun a => sorted_vert.getD (vert_buckets.getD i 0 + a) 0)
        (fun _ => (pmp + i) % UINT_E_MOD) c V
        (fun r hr hrc => hall i (List.mem_cons_self _ _) r (List.mem_range.1 hr) hrc)
        T0 hc (Or.inr ⟨a, List.mem_range.2 ha, hac⟩)
      have := ih (assign_bucket sorted_vert vert_buckets pmp T0 i)
        (by unfold assign_bucket; rw [h2]; exact hc)
        (fun j hj => hall j (List.mem_cons_of_mem _ hj))
        (Or.inl (by unfold assign_bucket; exact h1))
      refine ⟨this.1, ?_⟩
      rw [this.2]
      unfold assign_bucket
      exact h2
    · obtain ⟨h1, h2⟩ := foldl_set_getD_of_ne
        (List.range (vert_buckets.getD (i + 1) 0 - vert_buckets.getD i 0))
        (fun a => sorted_vert.getD (vert_buckets.getD i 0 + a) 0)
        (fun _ => (pmp + i) % UINT_E_MOD) c
        (fun r hr hrc => hw ⟨r, List.mem_range.1 hr, hrc⟩) T0
      have := ih (assign_bucket sorted_vert vert_buckets pmp T0 i)
        (by unfold assign_bucket; rw [h2]; exact hc)
        (fun j hj => hall j (List.mem_cons_of_mem _ hj))
        (by
          rcases hex with h | ⟨j, hj, a, ha, hac⟩
          · left
            unfold assign_bucket
            rw [h1]
            exact h
          · rcases List.mem_cons.1 hj with hji | hji
            · subst hji
              exact absurd ⟨a, ha, hac⟩ hw
            · right
              exact ⟨j, hji, a, ha, hac⟩)
      refine ⟨this.1, ?_⟩
      rw [this.2]
      unfold assign_bucket
      exact h2

/-- A fold of writes keeps the length. -/
theorem foldl_set_length (runs : List Nat) (slot val : Nat → Nat) (T0 : List Nat) :
    (runs.foldl (fun T r => T.set (slot r) (val r)) T0).length = T0.length := by
  induction runs generalizing T0 with
  | nil => rfl
  | cons r rs ih => rw [List.foldl_cons, ih, List.length_set]

/-- The first pass of the efficient variant keeps the length of the tree. -/
theorem foldl_assign_bucket_length (sorted_vert vert_buckets : List Nat) (pmp : Nat)
    (is : List Nat) (T0 : List Nat) :
    (is.foldl (assign_bucket sorted_vert vert_buckets pmp) T0).length = T0.length := by
  induction is generalizing T0 with
  | nil => rfl
  | cons i rest ih =>
    rw [List.foldl_cons, ih]
    unfold assign_bucket
    exact foldl_set_length _ _ _ _

/-- After the first pass of the efficient variant every vertex has as parent the node of the
bucket that holds it, and the first vertex of that bucket has the same root. -/
theorem assign_bucket_spec (n : Nat) (parents sorted_vert vert_buckets : List Nat)
    (hperm : sorted_vert.Perm (List.range n)) (hsize : n + n < UINT_E_MOD)
    (hvb : vert_buckets = GetBoundaryIndices n (fun i j =>
      decide (parents.getD (sorted_vert.getD i 0) 0 = parents.getD (sorted_vert.getD j 0) 0)))
    (v : Nat) (hv : v < n) :
    ∃ i, i + 1 < vert_buckets.length ∧
      ((List.range (vert_buckets.length - 1)).foldl (assign_bucket sorted_vert vert_buckets n)
        (List.replicate n UINT_E_MAX)).getD v 0 = n + i ∧
      parents.getD (sorted_vert.getD (vert_buckets.getD i 0) 0) 0 = parents.getD v 0 := by
  have hlen : sorted_vert.length = n := by
    rw [hperm.length_eq, List.length_range]
  have hnd : sorted_vert.Nodup := hperm.nodup_iff.2 (List.nodup_range n)
  have hBle : vert_buckets.length ≤ n + 1 := by
    rw [hvb]
    exact GetBoundaryIndices_length_le _ _
  have hvmem : v ∈ sorted_vert := hperm.mem_iff.2 (List.mem_range.2 hv)
  obtain ⟨pos, hpos, hposv⟩ := List.getElem_of_mem hvmem
  have hposn : pos < n := hlen ▸ hpos
  have hgetpos : sorted_vert.getD pos 0 = v := by
    rw [List.getD_eq_getElem _ _ hpos]
    exact hposv
  obtain ⟨i, hi, hi1, hi2, hkey⟩ := GetBoundaryIndices_run n
    (fun x => parents.getD (sorted_vert.getD x 0) 0) pos hposn
  rw [← hvb] at hi hi1 hi2 hkey
  rw [hgetpos] at hkey
  refine ⟨i, hi, ?_, hkey.symm⟩
  have hM : UINT_E_MOD = 4294967296 := rfl
  refine (foldl_assign_bucket_getD sorted_vert vert_buckets n
    (List.range (vert_buckets.length - 1)) v (n + i) (List.replicate n UINT_E_MAX)
    (by simpa using hv) ?_ ?_).1
  · intro j hj a ha hac
    have hj := List.mem_range.1 hj
    have hj1 : j + 1 < vert_buckets.length := by omega
    have hcj := GetBoundaryIndices_consecutive n (fun i j =>
      decide (parents.getD (sorted_vert.getD i 0) 0 = parents.getD (sorted_vert.getD j 0) 0))
      j (hvb ▸ hj1)
    rw [← hvb] at hcj
    have hpos2 : vert_buckets.getD j 0 + a < sorted_vert.length := by omega
    rw [List.getD_eq_getElem _ _ hpos2, ← hposv] at hac
    have hpp := hnd.getElem_inj_iff.1 hac
    have hij : i = j := by
      have := GetBoundaryIndices_run_unique n (fun i j =>
        decide (parents.getD (sorted_vert.getD i 0) 0 = parents.getD (sorted_vert.getD j 0) 0))
        pos i j (hvb ▸ hi) (hvb ▸ hj1)
      rw [← hvb] at this
      exact this hi1 hi2 (by omega) (by omega)
    rw [← hij]
    exact Nat.mod_eq_of_lt (by omega)
  · right
    refine ⟨i, List.mem_range.2 (by omega), pos - vert_buckets.getD i 0, by omega, ?_⟩
    rw [Nat.add_sub_cancel' hi1]
    exact hgetpos

/-- The last loop of the efficient variant keeps the parents of the vertices, and gives a
node either no parent or the parent of the vertex linked from a vertex below the node. -/
theorem stitch_link_spec (n L : Nat) (parents links T1 T2 : List Nat)
    (hT2len : T2.length = L) (hT2a : ∀ v, v < n → T2.getD v 0 = T1.getD v 0)
    (hT2b : ∀ j, n ≤ j → j < L → T2.getD j 0 = UINT_E_MAX)
    (hT1 : ∀ v, v < n → n ≤ T1.getD v 0 ∧ T1.getD v 0 < L)
    (hlinks : ∀ b, b < n → links.getD b UINT_E_MAX ≠ UINT_E_MAX →
      links.getD b UINT_E_MAX < n)
    (is : List Nat) (his : ∀ i ∈ is, i < n) :
    (is.foldl (stitch_link parents links) T2).length = L ∧
    (∀ v, v < n → (is.foldl (stitch_link parents links) T2).getD v 0 = T1.getD v 0) ∧
    (∀ j, n ≤ j → j < L →
      (is.foldl (stitch_link parents links) T2).getD j 0 = UINT_E_MAX ∨
      ∃ r, r < n ∧ links.getD r UINT_E_MAX ≠ UINT_E_MAX ∧ T1.getD r 0 = j ∧
        (is.foldl (stitch_link parents links) T2).getD j 0 =
          T1.getD (links.getD r UINT_E_MAX) 0) := by
  refine foldl_preserves
    (fun T : List Nat => T.length = L ∧ (∀ v, v < n → T.getD v 0 = T1.getD v 0) ∧
      (∀ j, n ≤ j → j < L → T.getD j 0 = UINT_E_MAX ∨
        ∃ r, r < n ∧ links.getD r UINT_E_MAX ≠ UINT_E_MAX ∧ T1.getD r 0 = j ∧
          T.getD j 0 = T1.getD (links.getD r UINT_E_MAX) 0))
    (stitch_link parents links) is ?_ T2 ⟨hT2len, hT2a, fun j h1 h2 => Or.inl (hT2b j h1 h2)⟩
  rintro T i hi ⟨hlen, ha, hb⟩
  have hin := his i hi
  unfold stitch_link
  by_cases hl : links.getD i UINT_E_MAX = UINT_E_MAX
  · rw [if_pos hl]
    exact ⟨hlen, ha, hb⟩
  · rw [if_neg hl]
    by_cases hr : i = parents.getD i 0
    · rw [if_pos hr]
      have hli := hlinks i hin hl
      have hTi : T.getD i 0 = T1.getD i 0 := ha i hin
      have hTl : T.getD (links.getD i UINT_E_MAX) 0 = T1.getD (links.getD i UINT_E_MAX) 0 :=
        ha _ hli
      obtain ⟨h1, h2⟩ := hT1 i hin
      have hidx : T.getD i 0 < T.length := by
        rw [hTi, hlen]
        exact h2
      refine ⟨by rw [List.length_set, hlen], ?_, ?_⟩
      · intro v hv
        rw [getD_set _ _ _ _ _ hidx]
        have hne : v ≠ T.getD i 0 := by
          rw [hTi]
          omega
        rw [if_neg hne]
        exact ha v hv
      · intro j hj1 hj2
        rw [getD_set _ _ _ _ _ hidx]
        by_cases hji : j = T.getD i 0
        · right
          rw [if_pos hji]
          exact ⟨i, hin, hl, by rw [hji, hTi], hTl⟩
        · rw [if_neg hji]
          exact hb j hj1 hj2
    · rw [if_neg hr]
      exact ⟨hlen, ha, hb⟩

/-- An entry of a list read at a valid index does not depend on the default. -/
theorem getD_default (l : List Nat) (j d d2 : Nat) (hj : j < l.length) :
    l.getD j d = l.getD j d2 := by
  rw [List.getD_eq_getElem _ _ hj, List.getD_eq_getElem _ _ hj]

/-- An entry of a permutation of the vertices is a vertex. -/
theorem getD_perm_range_lt (n : Nat) (sorted_vert : List Nat)
    (hperm : sorted_vert.Perm (List.range n)) (pos : Nat) (hpos : pos < n) :
    sorted_vert.getD pos 0 < n := by
  have hlen : sorted_vert.length = n := by
    rw [hperm.length_eq, List.length_range]
  rw [List.getD_eq_getElem _ _ (hlen ▸ hpos)]
  exact List.mem_range.1 (hperm.mem_iff.1 (List.getElem_mem _))

/-- The walk along the parents of a tree in which the parent of a vertex is a node, the
vertices below one node have one core number, and the parent of a node lies above vertices
of a smaller core number: the walk from a vertex stops within one step more than the tree
has slots, visits no index twice, and each step leads from above vertices of a larger core
number to above vertices of a smaller one. -/
theorem parent_walk_of_cores (n : Nat) (T : List Nat) (c : Nat → Nat)
    (hA : ∀ v, v < n → n ≤ T.getD v 0 ∧ T.getD v 0 < T.length)
    (hB : ∀ u v, u < n → v < n → T.getD u 0 = T.getD v 0 → c u = c v)
    (hC : ∀ j, n ≤ j → j < T.length → T.getD j 0 = UINT_E_MAX ∨
      ∃ r l, r < n ∧ l < n ∧ c l < c r ∧ T.getD r 0 = j ∧ T.getD j 0 = T.getD l 0)
    (i : Nat) :
    ∃ path, parent_walk T (T.length + 1) i = some path ∧ path.head? = some i ∧
      path.Chain' (fun a b => a < T.length ∧ b = T.getD a UINT_E_MAX ∧ b ≠ UINT_E_MAX) ∧
      path.Nodup ∧
      path.Chain' (fun a b => ∀ u v, u < n → v < n → T.getD u 0 = a → T.getD v 0 = b →
        c v < c u) := by
  -- the core number of the vertices below a node
  have hγ : ∀ j r, r < n → T.getD r 0 = j →
      (((List.range n).find? (fun l => decide (T.getD l 0 = j))).map c).getD 0 = c r := by
    intro j r hr hrj
    rcases hfind : (List.range n).find? (fun l => decide (T.getD l 0 = j)) with _ | l
    · rw [List.find?_eq_none] at hfind
      have := hfind r (List.mem_range.2 hr)
      simp only [decide_eq_true_eq] at this
      exact absurd hrj this
    · have h1 := List.find?_some hfind
      have h2 := List.mem_range.1 (List.mem_of_find?_eq_some hfind)
      simp only [decide_eq_true_eq] at h1
      simp only [Option.map_some', Option.getD_some]
      exact hB l r h2 hr (h1.trans hrj.symm)
  have hstep : ∀ j, j < T.length → T.getD j UINT_E_MAX ≠ UINT_E_MAX →
      (fun j => if j < n then c j + 1
        else (((List.range n).find? (fun l => decide (T.getD l 0 = j))).map c).getD 0)
        (T.getD j UINT_E_MAX) <
      (fun j => if j < n then c j + 1
        else (((List.range n).find? (fun l => decide (T.getD l 0 = j))).map c).getD 0) j := by
    intro j hj hne
    rw [getD_default T j UINT_E_MAX 0 hj] at hne ⊢
    dsimp only
    by_cases hjn : j < n
    · obtain ⟨h1, _⟩ := hA j hjn
      rw [if_neg (by omega), if_pos hjn, hγ _ j hjn rfl]
      omega
    · rcases hC j (by omega) hj with h | ⟨r, l, hr, hl, hlt, hrj, hjl⟩
      · exact absurd h hne
      · obtain ⟨h1, _⟩ := hA l hl
        rw [if_neg (by omega), if_neg hjn, hγ _ l hl hjl.symm, hγ _ r hr hrj]
        exact hlt
  obtain ⟨p, hp, hhead, hchain, hpair, _⟩ := parent_walk_of_measure T
    (fun j => if j < n then c j + 1
      else (((List.range n).find? (fun l => decide (T.getD l 0 = j))).map c).getD 0)
    hstep _ i (Nat.lt_succ_self _)
  have hnd : p.Nodup := hpair.imp (fun h => by
    intro hab
    rw [hab] at h
    exact Nat.lt_irrefl _ h)
  refine ⟨p, parent_walk_fuel T _ i p hp _ (chain_length_le T p hnd hchain), hhead, hchain,
    hnd, ?_⟩
  apply hchain.imp
  rintro a b ⟨ha, hb, hbne⟩ u v hu hv hua hvb
  rw [getD_default T a UINT_E_MAX 0 ha] at hb
  by_cases han : a < n
  · have := (hA u hu).1
    omega
  · rcases hC a (by omega) ha with h | ⟨r, l, hr, hl, hlt, hra, hal⟩
    · rw [← hb] at h
      exact absurd h hbne
    · have h1 : c u = c r := hB u r hu hr (hua.trans hra.symm)
      have h2 : c v = c l := hB v l hv hl (by rw [hvb, hb, hal])
      omega

/-- The array `D` computed by the loop of `KCore` does not depend on the hooks. -/
theorem KCore_loop_D {σ τ : Type} (ops : ConnectWhilePeelingOps σ)
    (ops2 : ConnectWhilePeelingOps τ) (G : Graph) (ih ih2 : Bool) (fuel : Nat)
    (s : KCoreState σ) (s2 : KCoreState τ)
    (h : s.D = s2.D ∧ s.b = s2.b ∧ s.prev_bkt = s2.prev_bkt ∧ s.finished = s2.finished) :
    (KCore_loop ops G ih fuel s).map (fun r => r.D) =
      (KCore_loop ops2 G ih2 fuel s2).map (fun r => r.D) := by
  induction fuel generalizing s s2 with
  | zero =>
    unfold KCore_loop
    rw [h.2.2.2]
    split_ifs
    · simp [h.1]
    · rfl
  | succ fuel ihf =>
    rw [KCore_loop, KCore_loop, h.2.2.2]
    split_ifs
    · simp [h.1]
    · apply ihf
      unfold KCore_round
      simp only [h.1, h.2.1, h.2.2.2, and_self]

/-- The array `D` returned by `KCore` does not depend on the hooks. -/
theorem KCore_D {σ τ : Type} (ops : ConnectWhilePeelingOps σ)
    (ops2 : ConnectWhilePeelingOps τ) (G : Graph) (c : σ) (c2 : τ) (ih ih2 : Bool) :
    (KCore ops G c ih).map Prod.fst = (KCore ops2 G c2 ih2).map Prod.fst := by
  have h := KCore_loop_D ops ops2 G ih ih2 G.n
    ⟨(List.range G.n).map (fun i => (G.out_neighbors i).length), List.range G.n, 0, 0, c⟩
    ⟨(List.range G.n).map (fun i => (G.out_neighbors i).length), List.range G.n, 0, 0, c2⟩
    ⟨rfl, rfl, rfl, rfl⟩
  unfold KCore
  rw [Option.map_map, Option.map_map]
  exact h

/-- The invariant of the `EfficientConnectWhilePeeling` object holds at the start of
`KCore`, when no vertex is peeled. -/
theorem EfficientInv_start (n : Nat) (cores : Nat → Nat) :
    EfficientInv n cores (fun a => a ∉ List.range n) (EfficientConnectWhilePeeling.mk_n n) := by
  have hid : ∀ a, a < n → (List.range n).getD a 0 = a := by
    intro a ha
    rw [List.getD_eq_getElem?_getD, List.getElem?_range ha]
    rfl
  have hnone : ∀ a, a < n → (List.replicate n UINT_E_MAX).getD a UINT_E_MAX = UINT_E_MAX := by
    intro a ha
    rw [List.getD_eq_getElem?_getD, List.getElem?_replicate, if_pos ha]
    rfl
  refine ⟨by simp [EfficientConnectWhilePeeling.mk_n],
    by simp [EfficientConnectWhilePeeling.mk_n], ?_, ?_, ?_, ?_, ?_, ?_⟩
  · intro a ha
    change (List.range n).getD a 0 < n
    rw [hid a ha]
    exact ha
  · intro a ha
    change (List.range n).getD ((List.range n).getD a 0) 0 = (List.range n).getD a 0
    rw [hid a ha, hid a ha]
  · intro a ha hP
    exact absurd (List.mem_range.2 ha) hP
  · intro a ha _
    exact ⟨hid a ha, hnone a ha⟩
  · intro a ha hP
    exact absurd (List.mem_range.2 ha) hP
  · intro b hb hl
    exact absurd (hnone b hb) hl

/-- The sequential sort returns a rearrangement of its input. -/
theorem sortWith_perm (less : Nat → Nat → Bool) (l : List Nat) : (sortWith less l).Perm l :=
  List.perm_insertionSort _ l

/-- Every index below `n` lies between two consecutive boundary indices. -/
theorem GetBoundaryIndices_cover (n : Nat) (eq : Nat → Nat → Bool) (pos : Nat)
    (hpos : pos < n) :
    ∃ i, i + 1 < (GetBoundaryIndices n eq).length ∧
      (GetBoundaryIndices n eq).getD i 0 ≤ pos ∧
      pos < (GetBoundaryIndices n eq).getD (i + 1) 0 := by
  induction pos with
  | zero =>
    obtain ⟨i, hi, hx⟩ := GetBoundaryIndices_exists n eq 0 hpos (Or.inl rfl)
    have hc := GetBoundaryIndices_consecutive n eq i hi
    exact ⟨i, hi, by omega, by omega⟩
  | succ p ih =>
    by_cases hb : eq (p + 1) (p + 1 - 1) = false
    · obtain ⟨i, hi, hx⟩ := GetBoundaryIndices_exists n eq (p + 1) hpos (Or.inr hb)
      have hc := GetBoundaryIndices_consecutive n eq i hi
      exact ⟨i, hi, by omega, by omega⟩
    · obtain ⟨i, hi, h1, h2⟩ := ih (by omega)
      have hc := GetBoundaryIndices_consecutive n eq i hi
      refine ⟨i, hi, by omega, ?_⟩
      by_contra hcon
      have heq : (GetBoundaryIndices n eq).getD (i + 1) 0 = p + 1 := by omega
      have := hc.2.2.2.2 (by omega)
      rw [heq] at this
      exact hb this

/-- When all keys are equal, the only entries of `mark_keys` that are not the sentinel are
the first one and possibly the last one. -/
theorem kcore_GetBoundaryIndices_const (n : Nat) :
    kcore_hierarchical.GetBoundaryIndices (n + 1) (fun _ _ => true) =
      0 :: (if (n + 1) % UINT_E_MOD ≠ UINT_E_MAX then [(n + 1) % UINT_E_MOD] else []) := by
  have hM : UINT_E_MAX = 4294967295 := rfl
  have hMod : UINT_E_MOD = 4294967296 := rfl
  unfold kcore_hierarchical.GetBoundaryIndices kcore_hierarchical.mark_keys
  rw [List.range_succ_eq_map, List.map_cons, List.map_map, List.filter_append]
  have h0 : (if (0 : Nat) ≠ 0 ∧ (fun (_ _ : Nat) => true) 0 (0 - 1) = true then UINT_E_MAX
      else 0 % UINT_E_MOD) = 0 := by simp
  rw [h0, List.filter_cons_of_pos (by simp [hM])]
  have h1 : List.filter (fun x => decide (x ≠ UINT_E_MAX))
      (List.map ((fun i => if i ≠ 0 ∧ (fun (_ _ : Nat) => true) i (i - 1) = true
        then UINT_E_MAX else i % UINT_E_MOD) ∘ Nat.succ) (List.range n)) = [] := by
    rw [List.filter_eq_nil_iff]
    intro a ha
    obtain ⟨i, _, hi⟩ := List.mem_map.1 ha
    simp at hi
    simp [hi]
  rw [h1, List.cons_append, List.nil_append]
  congr 1
  by_cases h : (n + 1) % UINT_E_MOD ≠ UINT_E_MAX
  · rw [if_pos h, List.filter_cons_of_pos (by simpa using h)]; rfl
  · rw [if_neg h, List.filter_cons_of_neg (by simpa using h)]; rfl

/-- C22 (counterexample): for `UINT_E_MAX = 2^32 - 1` keys that are all equal,
`GetBoundaryIndices` of `gbbs::kcore_hierarchical` returns `[0]`: the last entry `n` is the
sentinel and is filtered out, so the result is not followed by `n`. -/
theorem kcore_GetBoundaryIndices_drops_sentinel :
    kcore_hierarchical.GetBoundaryIndices UINT_E_MAX (fun _ _ => true) = [0] := by
  have h := kcore_GetBoundaryIndices_const 4294967294
  have hM : UINT_E_MAX = 4294967294 + 1 := rfl
  rw [hM, h]
  have : (4294967294 + 1) % UINT_E_MOD = UINT_E_MAX := by decide
  rw [if_neg (by rw [this]; exact fun h => h rfl)]

/-- C22: for every number of keys `n < 2^32 - 1` and every key-equality predicate `eq`,
`GetBoundaryIndices` of `gbbs::kcore_hierarchical` returns exactly the indices `i < n` with
`i = 0` or `eq(i, i - 1)` false, in increasing order, followed by `n`; the sequence is
strictly increasing; two consecutive entries bound a maximal run of indices whose adjacent
keys are equal; every index below `n` lies in exactly one run; and for `n = 0` the result is
`[0]`. -/
theorem kcore_GetBoundaryIndices_runs (n : Nat) (eq : Nat → Nat → Bool)
    (hn : n < UINT_E_MAX) :
    kcore_hierarchical.GetBoundaryIndices n eq =
      (List.range n).filter (fun i => decide (i = 0) || !(eq i (i - 1))) ++ [n] ∧
    (kcore_hierarchical.GetBoundaryIndices n eq).Pairwise (fun a b => a < b) ∧
    (∀ x, x ∈ kcore_hierarchical.GetBoundaryIndices n eq ↔
      (x < n ∧ (x = 0 ∨ eq x (x - 1) = false)) ∨ x = n) ∧
    (∀ j, j + 1 < (kcore_hierarchical.GetBoundaryIndices n eq).length →
      (kcore_hierarchical.GetBoundaryIndices n eq).getD j 0 <
        (kcore_hierarchical.GetBoundaryIndices n eq).getD (j + 1) 0 ∧
      (kcore_hierarchical.GetBoundaryIndices n eq).getD (j + 1) 0 ≤ n ∧
      ((kcore_hierarchical.GetBoundaryIndices n eq).getD j 0 = 0 ∨
        eq ((kcore_hierarchical.GetBoundaryIndices n eq).getD j 0)
          ((kcore_hierarchical.GetBoundaryIndices n eq).getD j 0 - 1) = false) ∧
      (∀ x, (kcore_hierarchical.GetBoundaryIndices n eq).getD j 0 < x →
        x < (kcore_hierarchical.GetBoundaryIndices n eq).getD (j + 1) 0 →
        eq x (x - 1) = true) ∧
      ((kcore_hierarchical.GetBoundaryIndices n eq).getD (j + 1) 0 < n →
        eq ((kcore_hierarchical.GetBoundaryIndices n eq).getD (j + 1) 0)
          ((kcore_hierarchical.GetBoundaryIndices n eq).getD (j + 1) 0 - 1) = false)) ∧
    (∀ x, x < n → ∃ j, (j + 1 < (kcore_hierarchical.GetBoundaryIndices n eq).length ∧
      (kcore_hierarchical.GetBoundaryIndices n eq).getD j 0 ≤ x ∧
      x < (kcore_hierarchical.GetBoundaryIndices n eq).getD (j + 1) 0) ∧
      ∀ j2, j2 + 1 < (kcore_hierarchical.GetBoundaryIndices n eq).length →
        (kcore_hierarchical.GetBoundaryIndices n eq).getD j2 0 ≤ x →
        x < (kcore_hierarchical.GetBoundaryIndices n eq).getD (j2 + 1) 0 → j2 = j) ∧
    (n = 0 → kcore_hierarchical.GetBoundaryIndices n eq = [0]) := by
  rw [kcore_GetBoundaryIndices_eq n eq hn]
  refine ⟨rfl, GetBoundaryIndices_pairwise n eq, mem_GetBoundaryIndices n eq,
    fun j hj => ?_, fun x hx => ?_, fun h0 => by subst h0; rfl⟩
  · obtain ⟨h1, h2, h3, h4, h5⟩ := GetBoundaryIndices_consecutive n eq j hj
    exact ⟨h1, h2, h3, fun x hx1 hx2 => (h4 x hx1 hx2).2, h5⟩
  · obtain ⟨j, hj, hj1, hj2⟩ := GetBoundaryIndices_cover n eq x hx
    exact ⟨j, ⟨hj, hj1, hj2⟩, fun j2 h1 h2 h3 =>
      GetBoundaryIndices_run_unique n eq x j2 j h1 hj h2 h3 hj1 hj2⟩

/-- C22 (witness): five keys `7, 7, 3, 3, 3`. -/
theorem kcore_GetBoundaryIndices_runs_witness :
    kcore_hierarchical.GetBoundaryIndices 5
        (fun i j => decide ([7, 7, 3, 3, 3].getD i 0 = [7, 7, 3, 3, 3].getD j 0)) = [0, 2, 5] ∧
      kcore_hierarchical.GetBoundaryIndices 0 (fun _ _ => true) = [0] := by
  have h := kcore_GetBoundaryIndices_runs 5
    (fun i j => decide ([7, 7, 3, 3, 3].getD i 0 = [7, 7, 3, 3, 3].getD j 0)) (by decide)
  have h0 := kcore_GetBoundaryIndices_runs 0 (fun _ _ => true) (by decide)
  exact ⟨h.1.trans (by decide), h0.2.2.2.2.2 rfl⟩

/-! ### NearestNeighborLinkage without an edge of weight at least the threshold -/

/-- The scan keeps its start value when every weight is below the threshold. -/
theorem scan_neighbors_of_lt (weight_threshold : ℚ) (undefined_neighbor : Nat)
    (es : List (Nat × ℚ)) (h : ∀ e ∈ es, e.2 < weight_threshold) :
    scan_neighbors weight_threshold undefined_neighbor es =
      (weight_threshold, undefined_neighbor) := by
  unfold scan_neighbors
  induction es with
  | nil => rfl
  | cons e es ih =>
    have he : e.2 < weight_threshold := h e (List.mem_cons_self _ _)
    have hstep : find_max_neighbor_func weight_threshold undefined_neighbor
        (weight_threshold, undefined_neighbor) e = (weight_threshold, undefined_neighbor) := by
      unfold find_max_neighbor_func
      rw [if_neg]
      rintro (h1 | h1)
      · rcases h1 with h2 | h2
        · exact absurd h2 (not_lt.2 (le_of_lt he))
        · exact h2.1 he
      · exact (ne_of_lt he) h1.1
    rw [List.foldl_cons, hstep]
    exact ih (fun e2 he2 => h e2 (List.mem_cons_of_mem _ he2))

/-- No vertex marks a neighbour when every stored weight is below the threshold. -/
theorem max_neighbor_of_lt (G : Graph) (weight_threshold : ℚ)
    (h : ∀ e ∈ G.edges, e.2.2 < weight_threshold) (i : Nat) (hi : i < G.n) :
    max_neighbor G weight_threshold i = G.n := by
  unfold max_neighbor
  rw [scan_neighbors_of_lt]
  intro e he
  have hmem : (i, e.1, e.2) ∈ G.edges := by
    unfold Graph.edges
    rw [List.mem_flatMap]
    exact ⟨i, List.mem_range.2 hi, List.mem_map.2 ⟨e, he, rfl⟩⟩
  exact h _ hmem

/-- C23: for every graph and threshold in which every stored edge has a weight below the
threshold (in particular for every graph without edges), for every connected-components
routine and every sort, `NearestNeighborLinkage` returns the identity labeling
`[0, 1, ..., n - 1]`. -/
theorem NearestNeighborLinkage_identity (cc : Nat → List (Nat × Nat) → List Nat)
    (sort : List (Nat × Nat) → List (Nat × Nat)) (G : Graph) (weight_threshold : ℚ)
    (h : ∀ e ∈ G.edges, e.2.2 < weight_threshold) :
    NearestNeighborLinkage cc sort G weight_threshold = .ok (List.range G.n) := by
  have hf : filtered_edges G weight_threshold = [] := by
    unfold filtered_edges marked_neighbors
    rw [List.filter_eq_nil_iff]
    intro x hx
    rcases List.mem_append.1 hx with hx | hx
    · obtain ⟨i, hi, rfl⟩ := List.mem_map.1 hx
      simp [max_neighbor_of_lt G weight_threshold h i (List.mem_range.1 hi)]
    · obtain ⟨i, hi, rfl⟩ := List.mem_map.1 hx
      simp [max_neighbor_of_lt G weight_threshold h i (List.mem_range.1 hi)]
  unfold NearestNeighborLinkage
  rw [hf]
  rfl

/-- C23 (witness): four vertices without edges and the threshold `0` give `[0, 1, 2, 3]`. -/
theorem NearestNeighborLinkage_identity_witness :
    (∀ e ∈ empty4.edges, e.2.2 < (0 : ℚ)) ∧
      NearestNeighborLinkage sequentialCC sortBySource empty4 0 = .ok [0, 1, 2, 3] :=
  ⟨by decide, NearestNeighborLinkage_identity sequentialCC sortBySource empty4 0 (by decide)⟩

/-! ### CompressGraph along the labeling of NearestNeighborLinkage -/

/-- Without node weights the spec sum of a cluster is the number of its vertices. -/
theorem cluster_weight_nil (n : Nat) (cluster_ids : List Nat) (c : Nat) :
    cluster_weight n [] cluster_ids c =
      ((List.range n).filter (fun i => decide (cluster_ids[i]? = some c))).length := by
  unfold cluster_weight
  have h1 : ∀ l : List Nat, (l.map (node_weight_of [])).sum = l.length := by
    intro l
    induction l with
    | nil => rfl
    | cons a l ih => simp [node_weight_of, ih]; omega
  rw [h1]

/-- For every graph with fewer than `2 ^ 32` vertices and every labeling `L` of the `n`
vertices by vertex ids that `NearestNeighborLinkage` returns, the compression with `SUM` and
without node weights succeeds; the compressed graph has one vertex per id up to the largest
label, every label is one of its vertices, the node weight of the vertex `c` is the number
of vertices labelled `c` (`0` when `c` is not a label), and the number of compressed vertices
is at least the number of distinct labels, with equality exactly when every id below it is a
label. -/
theorem CompressGraph_labeling_by_ids (cc : Nat → List (Nat × Nat) → List Nat)
    (sort : List (Nat × Nat) → List (Nat × Nat)) (G : Graph) (weight_threshold : ℚ)
    (L : List Nat) (hL : NearestNeighborLinkage cc sort G weight_threshold = .ok L)
    (hlen : L.length = G.n) (hlab : ∀ l ∈ L, l < G.n) (hn : G.n < UINT_E_MOD) :
    ∃ G' NW', (NearestNeighborLinkage cc sort G weight_threshold >>=
        fun L => CompressGraph G [] L .SUM) = .ok (G', NW') ∧
      G'.n = num_compressed_vertices L ∧ NW'.length = G'.n ∧
      (∀ l ∈ L, l < G'.n) ∧
      (0 < G.n → ∃ m ∈ L, (∀ l ∈ L, l ≤ m) ∧ G'.n = m + 1) ∧
      (∀ c, c < G'.n → NW'[c]? =
        some ((List.range G.n).filter (fun i => decide (L[i]? = some c))).length) ∧
      (∀ c, c < G'.n → c ∉ L → NW'[c]? = some 0) ∧
      L.dedup.length ≤ G'.n ∧
      (L.dedup.length = G'.n ↔ ∀ c, c < G'.n → c ∈ L) := by
  have hM : UINT_E_MAX = 4294967295 := rfl
  have hD : UINT_E_MOD = 4294967296 := rfl
  obtain ⟨G', hG'⟩ := compressed_node_weights_returned G [] L .SUM (by decide)
  have hGn : G'.n = num_compressed_vertices L := by
    unfold CompressGraph at hG'
    rw [if_neg (by decide), if_pos (Or.inl rfl)] at hG'
    have := (Prod.mk.inj (Except.ok.inj hG')).1
    rw [← this, MakeGbbsGraph_n]
  have hbound : ∀ x ∈ L, x ≤ UINT_E_MAX := fun x hx => by have := hlab x hx; omega
  have hne : ∀ x ∈ L, x ≠ UINT_E_MAX := fun x hx => by have := hlab x hx; omega
  have hlt : ∀ l ∈ L, l < G'.n := fun l hl => by
    rw [hGn]; exact lt_num_compressed_of_mem L hbound l hl (hne l hl)
  have hw : ∀ c, c < G'.n → (compressed_node_weights G.n [] L)[c]? =
      some ((List.range G.n).filter (fun i => decide (L[i]? = some c))).length := by
    intro c hc
    rw [compressed_node_weights, foldl_add_node_weight_getElem? [] L G.n c (hGn ▸ hc),
      Nat.mod_eq_of_lt (lt_of_le_of_lt (cluster_weight_nil_le G.n L c) hn), cluster_weight_nil]
  have hsub : L.dedup ⊆ List.range G'.n := fun l hl =>
    List.mem_range.2 (hlt l (List.mem_dedup.1 hl))
  have hle : L.dedup.length ≤ G'.n := by
    have := (List.subperm_of_subset (List.nodup_dedup L) hsub).length_le
    rwa [List.length_range] at this
  refine ⟨G', _, ?_, hGn, ?_, hlt, ?_, hw, ?_, hle, ?_⟩
  · rw [hL]; exact hG'
  · rw [compressed_node_weights_length, hGn]
  · intro hpos
    rcases Reduce_max_label_spec L with ⟨_, hall⟩ | ⟨hrne, hmem, hmax⟩
    · have hex : ∃ x, x ∈ L := by
        cases L with
        | nil => simp at hlen; omega
        | cons a l => exact ⟨a, List.mem_cons_self _ _⟩
      obtain ⟨x, hx⟩ := hex
      exact absurd (hall x hx) (hne x hx)
    · refine ⟨_, hmem, fun l hl => hmax l hl (hne l hl), ?_⟩
      rw [hGn]
      unfold num_compressed_vertices
      have := hlab _ hmem
      rw [Nat.mod_eq_of_lt (by omega)]
      omega
  · intro c hc hcL
    rw [hw c hc]
    have : (List.range G.n).filter (fun i => decide (L[i]? = some c)) = [] := by
      rw [List.filter_eq_nil_iff]
      intro i _ hi
      have hi' : L[i]? = some c := by simpa using hi
      exact hcL (List.mem_iff_getElem?.2 ⟨i, hi'⟩)
    rw [this]; rfl
  · constructor
    · intro heq c hc
      have hperm : L.dedup.Perm (List.range G'.n) :=
        (List.subperm_of_subset (List.nodup_dedup L) hsub).perm_of_length_le
          (by rw [List.length_range, heq])
      exact List.mem_dedup.1 (hperm.mem_iff.2 (List.mem_range.2 hc))
    · intro hall
      have hsub2 : List.range G'.n ⊆ L.dedup := fun c hc =>
        List.mem_dedup.2 (hall c (List.mem_range.1 hc))
      have := (List.subperm_of_subset (List.nodup_range _) hsub2).length_le
      rw [List.length_range] at this
      omega

/-! ### The scaling factors of DEFAULT_AVERAGE -/

/-- With node weights given for all `n` vertices, the spec sum of a cluster is at most the
total node weight. -/
theorem cluster_weight_le_sum (n : Nat) (NW cluster_ids : List Nat) (c : Nat)
    (hne : NW ≠ []) (hlen : NW.length = n) :
    cluster_weight n NW cluster_ids c ≤ NW.sum := by
  unfold cluster_weight
  have hnw : node_weight_of NW = fun i => NW.getD i 0 := by
    funext i
    unfold node_weight_of
    rw [if_neg]
    simpa using hne
  rw [hnw]
  calc (((List.range n).filter (fun i => decide (cluster_ids[i]? = some c))).map
          (fun i => NW.getD i 0)).sum
      ≤ ((List.range n).map (fun i => NW.getD i 0)).sum :=
        List.Sublist.sum_le_sum ((List.filter_sublist _).map _) (fun a _ => Nat.zero_le a)
    _ = NW.sum := by rw [← hlen, map_getD_range_length]

/-- The spec sum of a cluster is at least the node weight of each of its vertices. -/
theorem node_weight_le_cluster_weight (n : Nat) (NW cluster_ids : List Nat) (c i : Nat)
    (hi : i < n) (hc : cluster_ids[i]? = some c) :
    node_weight_of NW i ≤ cluster_weight n NW cluster_ids c := by
  unfold cluster_weight
  apply List.le_sum_of_mem
  exact List.mem_map.2 ⟨i, List.mem_filter.2 ⟨List.mem_range.2 hi, by simpa using hc⟩, rfl⟩

/-! ### The degrees during the peeling -/

/-- The bucket structure is empty exactly when all vertices are finished. -/
theorem KCoreInv_b_ne_nil {σ : Type} (G : Graph) (s : KCoreState σ) (hinv : KCoreInv G s)
    (hfin : s.finished ≠ G.n) : s.b ≠ [] := by
  intro hb
  have := hinv.finished_eq
  rw [hb] at this
  simp at this
  exact hfin this

/-- The invariant of the loop holds at the start of every iteration. -/
theorem KCore_rounds_inv {σ : Type} (ops : ConnectWhilePeelingOps σ) (G : Graph)
    (hwf : G.WellFormed) (hsym : G.Symmetric)
    (hdeg : ∀ v, v < G.n → (G.out_neighbors v).length < UINT_E_MOD) (ih : Bool)
    (rounds : Nat) (s : KCoreState σ) (hinv : KCoreInv G s) :
    KCoreInv G (KCore_rounds ops G ih rounds s) := by
  induction rounds generalizing s with
  | zero => exact hinv
  | succ r ihr =>
    unfold KCore_rounds
    split_ifs with hfin
    · exact hinv
    · exact ihr _ (KCore_round_inv ops G hwf hsym hdeg ih s hinv
        (KCoreInv_b_ne_nil G s hinv hfin)).1

/-- C29: on a symmetric graph whose neighbour ids are vertices and whose degrees fit 32 bits,
at the start of every iteration of the loop of `KCore` (the state after any number of
rounds), for every vertex `v` that is not yet finished, that is, still held by the bucket
structure, so that another round is run: `D[v]`
is at least the number of stored edges of `v` to vertices that are not yet finished (the
number of its unfinished neighbours when no edge is stored twice), and at least the bucket
id `k` of the round; the count `edgesRemoved` that `apply_f` gets is at most `D[v]`; when
`D[v] > k` the 32-bit difference `deg - edgesRemoved` is the exact difference; the value
returned by `apply_f` is at least `k` and at most `D[v]`, and so is the new `D[v]`. -/
theorem KCore_apply_f_no_wrap {σ : Type} (ops : ConnectWhilePeelingOps σ) (G : Graph)
    (hwf : G.WellFormed) (hsym : G.Symmetric)
    (hdeg : ∀ v, v < G.n → (G.out_neighbors v).length < UINT_E_MOD)
    (connect_while_peeling : σ) (inline_hierarchy : Bool) (rounds : Nat) (v : Nat)
    (hv : v ∈ (KCore_rounds ops G inline_hierarchy rounds
      ⟨(List.range G.n).map (fun i => (G.out_neighbors i).length), List.range G.n, 0, 0,
        connect_while_peeling⟩).b) :
    ∀ s, s = KCore_rounds ops G inline_hierarchy rounds
      ⟨(List.range G.n).map (fun i => (G.out_neighbors i).length), List.range G.n, 0, 0,
        connect_while_peeling⟩ →
    degree_in G (fun u => decide (u ∈ s.b)) v ≤ s.D.getD v 0 ∧
    next_bucket_id s.D s.b ≤ s.D.getD v 0 ∧
    edgesRemoved G (next_bucket_identifiers s.D s.b) v ≤ s.D.getD v 0 ∧
    edgesRemoved G (next_bucket_identifiers s.D s.b) v < UINT_E_MOD ∧
    (next_bucket_id s.D s.b < s.D.getD v 0 →
      (s.D.getD v 0 + UINT_E_MOD - edgesRemoved G (next_bucket_identifiers s.D s.b) v) %
        UINT_E_MOD = s.D.getD v 0 - edgesRemoved G (next_bucket_identifiers s.D s.b) v) ∧
    next_bucket_id s.D s.b ≤ apply_f (next_bucket_id s.D s.b) (s.D.getD v 0)
      (edgesRemoved G (next_bucket_identifiers s.D s.b) v % UINT_E_MOD) ∧
    apply_f (next_bucket_id s.D s.b) (s.D.getD v 0)
      (edgesRemoved G (next_bucket_identifiers s.D s.b) v % UINT_E_MOD) ≤ s.D.getD v 0 ∧
    next_bucket_id s.D s.b ≤ (KCore_round ops G inline_hierarchy s).D.getD v 0 ∧
    (KCore_round ops G inline_hierarchy s).D.getD v 0 ≤ s.D.getD v 0 := by
  intro s hs
  rw [← hs] at hv
  have hinv : KCoreInv G s := by
    rw [hs]
    exact KCore_rounds_inv ops G hwf hsym hdeg inline_hierarchy rounds _
      (KCore_inv_start G hwf connect_while_peeling)
  have hvn : v < G.n := lt_of_mem_b G.n s.b hinv.b_eq v hv
  have hlive := hinv.live v hv
  have h1 : degree_in G (fun u => decide (u ∈ s.b)) v ≤ s.D.getD v 0 := by
    rw [hlive]; exact le_max_right _ _
  have h2 : next_bucket_id s.D s.b ≤ s.D.getD v 0 := next_bucket_id_le s.D s.b v hv
  have her : edgesRemoved G (next_bucket_identifiers s.D s.b) v ≤
      degree_in G (fun u => decide (u ∈ s.b)) v := by
    rw [next_bucket_identifiers_eq_filter G.n s.D s.b hinv.b_eq,
      edgesRemoved_eq_degree_in G hsym _ v hvn]
    apply degree_in_mono
    intro e _ hu
    simp only [Bool.and_eq_true, decide_eq_true_eq] at hu
    simpa using hu.1
  have h3 : edgesRemoved G (next_bucket_identifiers s.D s.b) v ≤ s.D.getD v 0 :=
    le_trans her h1
  have hDlt : s.D.getD v 0 < UINT_E_MOD :=
    lt_of_le_of_lt (KCoreInv_D_le G s hinv v hvn) (hdeg v hvn)
  have h4 : edgesRemoved G (next_bucket_identifiers s.D s.b) v < UINT_E_MOD :=
    lt_of_le_of_lt h3 hDlt
  have h5 : next_bucket_id s.D s.b < s.D.getD v 0 →
      (s.D.getD v 0 + UINT_E_MOD - edgesRemoved G (next_bucket_identifiers s.D s.b) v) %
        UINT_E_MOD = s.D.getD v 0 - edgesRemoved G (next_bucket_identifiers s.D s.b) v := by
    intro _
    have : s.D.getD v 0 + UINT_E_MOD - edgesRemoved G (next_bucket_identifiers s.D s.b) v =
        (s.D.getD v 0 - edgesRemoved G (next_bucket_identifiers s.D s.b) v) + UINT_E_MOD := by
      omega
    rw [this, Nat.add_mod_right, Nat.mod_eq_of_lt (by omega)]
  have h67 : next_bucket_id s.D s.b ≤ apply_f (next_bucket_id s.D s.b) (s.D.getD v 0)
        (edgesRemoved G (next_bucket_identifiers s.D s.b) v % UINT_E_MOD) ∧
      apply_f (next_bucket_id s.D s.b) (s.D.getD v 0)
        (edgesRemoved G (next_bucket_identifiers s.D s.b) v % UINT_E_MOD) ≤ s.D.getD v 0 := by
    by_cases hk : next_bucket_id s.D s.b < s.D.getD v 0
    · rw [apply_f_eq _ _ _ h3 hDlt hk]
      exact ⟨le_max_right _ _, max_le (Nat.sub_le _ _) (le_of_lt hk)⟩
    · unfold apply_f
      rw [if_neg (by omega)]
      exact ⟨h2, le_refl _⟩
  refine ⟨h1, h2, h3, h4, h5, h67.1, h67.2, ?_⟩
  rw [KCore_round_D_getD ops G inline_hierarchy s v hvn]
  split_ifs
  · exact h67
  · exact ⟨h2, le_refl _⟩

/-- C29 (witness): the complete graph `K4` with a pendant edge, after one round, for the
vertex `0`. -/
theorem KCore_apply_f_no_wrap_witness :
    ∃ s, s = KCore_rounds noConnectOps K4pendant false 1
        ⟨(List.range K4pendant.n).map (fun i => (K4pendant.out_neighbors i).length),
          List.range K4pendant.n, 0, 0, ()⟩ ∧
      s.finished ≠ K4pendant.n ∧ 0 ∈ s.b ∧
      degree_in K4pendant (fun u => decide (u ∈ s.b)) 0 ≤ s.D.getD 0 0 ∧
      edgesRemoved K4pendant (next_bucket_identifiers s.D s.b) 0 ≤ s.D.getD 0 0 :=
  ⟨_, rfl, by decide, by decide,
    ((KCore_apply_f_no_wrap noConnectOps K4pendant K4pendant_wellFormed K4pendant_symmetric
      (by decide) () false 1 0 (by decide)) _ rfl).1,
    ((KCore_apply_f_no_wrap noConnectOps K4pendant K4pendant_wellFormed K4pendant_symmetric
      (by decide) () false 1 0 (by decide)) _ rfl).2.2.1⟩

/-! ### The invariant of the efficient inline builder -/

/-- A property that holds at the start of `KCore` and that one iteration keeps holds at the
start of every iteration. -/
theorem KCore_rounds_inv_with {σ : Type} (ops : ConnectWhilePeelingOps σ) (G : Graph)
    (hwf : G.WellFormed) (hsym : G.Symmetric)
    (hdeg : ∀ v, v < G.n → (G.out_neighbors v).length < UINT_E_MOD) (ih : Bool)
    (J : KCoreState σ → Prop)
    (hJ : ∀ s, KCoreInv G s → s.b ≠ [] → J s → J (KCore_round ops G ih s))
    (rounds : Nat) (s : KCoreState σ) (hinv : KCoreInv G s) (hj : J s) :
    KCoreInv G (KCore_rounds ops G ih rounds s) ∧ J (KCore_rounds ops G ih rounds s) := by
  induction rounds generalizing s with
  | zero => exact ⟨hinv, hj⟩
  | succ r ihr =>
    unfold KCore_rounds
    split_ifs with hfin
    · exact ⟨hinv, hj⟩
    · have hne := KCoreInv_b_ne_nil G s hinv hfin
      exact ihr _ (KCore_round_inv ops G hwf hsym hdeg ih s hinv hne).1 (hJ s hinv hne hj)

/-- In a state that satisfies the invariant, two vertices of one union-find set have the
same core number, and a link leads to a vertex of a smaller core number. -/
theorem EfficientInv_same_core (n : Nat) (cores : Nat → Nat) (P : Nat → Prop)
    (e : EfficientConnectWhilePeeling) (hE : EfficientInv n cores P e) :
    (∀ a b, a < n → b < n → e.uf.getD a 0 = e.uf.getD b 0 → cores a = cores b) ∧
    (∀ x, x < n → e.links.getD x UINT_E_MAX ≠ UINT_E_MAX →
      e.links.getD x UINT_E_MAX < n ∧ cores (e.links.getD x UINT_E_MAX) < cores x) := by
  refine ⟨fun a b ha hb hab => ?_, fun x hx hl => ⟨(hE.link x hx hl).1, (hE.link x hx hl).2.2⟩⟩
  by_cases hPa : P a
  · by_cases hPb : P b
    · rw [← hE.root_cores a ha hPa, ← hE.root_cores b hb hPb, hab]
    · have h1 := (hE.unpeeled b hb hPb).1
      have h2 := hE.root_peeled a ha hPa
      rw [hab, h1] at h2
      exact absurd h2 hPb
  · have h1 := (hE.unpeeled a ha hPa).1
    by_cases hPb : P b
    · have h2 := hE.root_peeled b hb hPb
      rw [← hab, h1] at h2
      exact absurd h2 hPa
    · have h3 := (hE.unpeeled b hb hPb).1
      have : a = b := by rw [← h1, hab, h3]
      rw [this]

/-- C27: in the efficient inline builder, run sequentially, (1) a call `link(a, b)` on a
state that satisfies the invariant, for two vertices that are peeled, returns within every
bound on the nesting above `link_measure` (three times the larger core number plus `2`) and
the new state satisfies the invariant; (2) on a symmetric graph whose neighbour ids are
vertices and whose degrees fit 32 bits, at the start of every iteration of the loop of
`KCore` all calls of `link` made so far have returned, and in the state `(uf, links)` all
vertices of one union-find set have the same `D`, every link `links[x]` that is not `NONE`
leads to a vertex of strictly smaller `D`, and `D` is the coreness for every finished vertex,
while an unfinished vertex is alone in its set and has no link; (3) `KCore` returns the
coreness array and a state with this invariant. -/
theorem EfficientConnectWhilePeeling_link_keeps_invariant (G : Graph)
    (hwf : G.WellFormed) (hsym : G.Symmetric)
    (hdeg : ∀ v, v < G.n → (G.out_neighbors v).length < UINT_E_MOD) :
    (∀ (cores : Nat → Nat) (P : Nat → Prop) (s : EfficientConnectWhilePeeling)
      (fuel a b : Nat), EfficientInv G.n cores P s → a < G.n → b < G.n → P a → P b →
      link_measure cores a b < fuel →
      ∃ s2, EfficientConnectWhilePeeling.link cores fuel a b s = some s2 ∧
        EfficientInv G.n cores P s2 ∧
        (∀ x y, x < G.n → y < G.n → s2.uf.getD x 0 = s2.uf.getD y 0 → cores x = cores y) ∧
        (∀ x, x < G.n → s2.links.getD x UINT_E_MAX ≠ UINT_E_MAX →
          s2.links.getD x UINT_E_MAX < G.n ∧ cores (s2.links.getD x UINT_E_MAX) < cores x)) ∧
    (∀ rounds s, s = KCore_rounds (efficientOps (link_fuel G)) G true rounds
        ⟨(List.range G.n).map (fun i => (G.out_neighbors i).length), List.range G.n, 0, 0,
          some (EfficientConnectWhilePeeling.mk_n G.n)⟩ →
      ∃ e, s.connect_while_peeling = some e ∧
        (∀ x y, x < G.n → y < G.n → e.uf.getD x 0 = e.uf.getD y 0 →
          s.D.getD x 0 = s.D.getD y 0) ∧
        (∀ x, x < G.n → e.links.getD x UINT_E_MAX ≠ UINT_E_MAX →
          e.links.getD x UINT_E_MAX < G.n ∧
          s.D.getD (e.links.getD x UINT_E_MAX) 0 < s.D.getD x 0) ∧
        (∀ x, x < G.n → x ∉ s.b → IsCoreness G x (s.D.getD x 0)) ∧
        (∀ x, x < G.n → x ∈ s.b →
          e.uf.getD x 0 = x ∧ e.links.getD x UINT_E_MAX = UINT_E_MAX ∧
          ∀ y, y < G.n → e.uf.getD y 0 = x → y = x)) ∧
    (∃ D e, KCore (efficientOps (link_fuel G)) G
        (some (EfficientConnectWhilePeeling.mk_n G.n)) true = some (D, some e) ∧
      (∀ x, x < G.n → IsCoreness G x (D.getD x 0)) ∧
      (∀ x y, x < G.n → y < G.n → e.uf.getD x 0 = e.uf.getD y 0 → D.getD x 0 = D.getD y 0) ∧
      (∀ x, x < G.n → e.links.getD x UINT_E_MAX ≠ UINT_E_MAX →
        e.links.getD x UINT_E_MAX < G.n ∧
        D.getD (e.links.getD x UINT_E_MAX) 0 < D.getD x 0)) := by
  have hcore : ∀ (s : KCoreState (Option EfficientConnectWhilePeeling)), KCoreInv G s →
      ∀ x, x < G.n → x ∉ s.b → IsCoreness G x (s.D.getD x 0) := by
    intro s hinv x hx hxb
    refine ⟨hinv.done_in x hx hxb, fun k2 hk2 => ?_⟩
    by_contra hcon
    exact hinv.done_out x hx hxb (InCore_mono G _ k2 x (by omega) hk2)
  refine ⟨?_, ?_, ?_⟩
  · intro cores P s fuel a b hE ha hb hPa hPb hfuel
    obtain ⟨s2, h1, h2⟩ :=
      EfficientConnectWhilePeeling_link_inv G.n cores P fuel a b s hE ha hb hPa hPb hfuel
    have h3 := EfficientInv_same_core G.n cores P s2 h2
    exact ⟨s2, h1, h2, h3.1, h3.2⟩
  · intro rounds s hs
    obtain ⟨hinv, e, he, hE⟩ := KCore_rounds_inv_with (efficientOps (link_fuel G)) G
      hwf hsym hdeg true
      (fun s => ∃ e, s.connect_while_peeling = some e ∧
        EfficientInv G.n (fun a => s.D.getD a 0) (fun a => a ∉ s.b) e)
      (fun s hinv hne hj => KCore_round_efficient_inv G hwf true s hinv hne hj)
      rounds _ (KCore_inv_start G hwf _) ⟨_, rfl, EfficientInv_start G.n _⟩
    rw [← hs] at hinv he hE
    have h3 := EfficientInv_same_core G.n _ _ e hE
    refine ⟨e, he, h3.1, h3.2, hcore s hinv, fun x hx hxb => ?_⟩
    have hun := hE.unpeeled x hx (fun h => h hxb)
    refine ⟨hun.1, hun.2, fun y hy hyx => ?_⟩
    by_contra hne
    by_cases hyb : y ∈ s.b
    · have := (hE.unpeeled y hy (fun h => h hyb)).1
      exact hne (by rw [← this, hyx])
    · have := hE.root_peeled y hy hyb
      rw [hyx] at this
      exact this hxb
  · obtain ⟨s, hK, hinv, hb, e, he, hE⟩ := KCore_returns_with (efficientOps (link_fuel G)) G
      hwf hsym hdeg (some (EfficientConnectWhilePeeling.mk_n G.n)) true
      (fun s => ∃ e, s.connect_while_peeling = some e ∧
        EfficientInv G.n (fun a => s.D.getD a 0) (fun a => a ∉ s.b) e)
      (fun s hinv hne hj => KCore_round_efficient_inv G hwf true s hinv hne hj)
      ⟨_, rfl, EfficientInv_start G.n _⟩
    have h3 := EfficientInv_same_core G.n _ _ e hE
    refine ⟨s.D, e, by rw [hK, he], fun x hx => hcore s hinv x hx (by rw [hb]; simp),
      h3.1, h3.2⟩

/-- C27 (witness): the complete graph `K4` with a pendant edge. -/
theorem EfficientConnectWhilePeeling_link_keeps_invariant_witness :
    ∃ D e, KCore (efficientOps (link_fuel K4pendant)) K4pendant
        (some (EfficientConnectWhilePeeling.mk_n K4pendant.n)) true = some (D, some e) ∧
      (∀ x, x < K4pendant.n → IsCoreness K4pendant x (D.getD x 0)) ∧
      (∀ x y, x < K4pendant.n → y < K4pendant.n → e.uf.getD x 0 = e.uf.getD y 0 →
        D.getD x 0 = D.getD y 0) ∧
      (∀ x, x < K4pendant.n → e.links.getD x UINT_E_MAX ≠ UINT_E_MAX →
        e.links.getD x UINT_E_MAX < K4pendant.n ∧
        D.getD (e.links.getD x UINT_E_MAX) 0 < D.getD x 0) :=
  (EfficientConnectWhilePeeling_link_keeps_invariant K4pendant K4pendant_wellFormed
    K4pendant_symmetric (by decide)).2.2

/-! ### Union-find arrays and generated equivalences -/

/-- The generated equivalence grows with the generating relation. -/
theorem eqvGen_of_le {R S : Nat → Nat → Prop}
    (h : ∀ a b, R a b → Relation.EqvGen S a b) (a b : Nat) (hab : Relation.EqvGen R a b) :
    Relation.EqvGen S a b := by
  induction hab with
  | rel x y hxy => exact h x y hxy
  | refl x => exact Relation.EqvGen.refl x
  | symm x y _ ih => exact Relation.EqvGen.symm _ _ ih
  | trans x y z _ _ ih1 ih2 => exact Relation.EqvGen.trans _ _ _ ih1 ih2

/-- Two relations that generate each other generate the same equivalence. -/
theorem eqvGen_congr {R S : Nat → Nat → Prop}
    (h1 : ∀ a b, R a b → Relation.EqvGen S a b) (h2 : ∀ a b, S a b → Relation.EqvGen R a b)
    (a b : Nat) : Relation.EqvGen R a b ↔ Relation.EqvGen S a b :=
  ⟨eqvGen_of_le h1 a b, eqvGen_of_le h2 a b⟩

/-- Two vertices have one root exactly when they are equivalent. -/
theorem UFRep.iff {n : Nat} {R : Nat → Nat → Prop} {uf : List Nat} (h : UFRep n R uf)
    (a b : Nat) (ha : a < n) (hb : b < n) :
    uf.getD a 0 = uf.getD b 0 ↔ Relation.EqvGen R a b := by
  constructor
  · intro hab
    have h1 := (h.2.1 a ha).2
    have h2 := (h.2.1 b hb).2
    rw [hab] at h1
    exact Relation.EqvGen.trans _ _ _ h1 (Relation.EqvGen.symm _ _ h2)
  · exact h.2.2 a b ha hb

/-- A union-find array represents every relation that generates the same equivalence. -/
theorem UFRep.congr {n : Nat} {R S : Nat → Nat → Prop} {uf : List Nat} (h : UFRep n R uf)
    (hRS : ∀ a b, Relation.EqvGen R a b ↔ Relation.EqvGen S a b) : UFRep n S uf :=
  ⟨h.1, fun a ha => ⟨(h.2.1 a ha).1, (hRS _ _).1 (h.2.1 a ha).2⟩,
    fun a b ha hb hab => h.2.2 a b ha hb ((hRS _ _).2 hab)⟩

/-- The identity array represents the equivalence generated by a relation without pairs of
distinct vertices. -/
theorem UFRep_range (n : Nat) (R : Nat → Nat → Prop) (hR : ∀ a b, R a b → a = b) :
    UFRep n R (List.range n) := by
  have hid : ∀ a, a < n → (List.range n).getD a 0 = a := by
    intro a ha
    rw [List.getD_eq_getElem?_getD, List.getElem?_range ha]
    rfl
  have heq : ∀ a b, Relation.EqvGen R a b → a = b := by
    intro a b hab
    induction hab with
    | rel x y hxy => exact hR x y hxy
    | refl x => rfl
    | symm x y _ ih => exact ih.symm
    | trans x y z _ _ ih1 ih2 => exact ih1.trans ih2
  refine ⟨List.length_range n, fun a ha => ?_, fun a b ha hb hab => ?_⟩
  · rw [hid a ha]
    exact ⟨ha, Relation.EqvGen.refl a⟩
  · rw [heq a b hab]

/-- After a sequence of unions the array represents the relation extended by the united
pairs. -/
theorem UFRep_foldl (n : Nat) (R : Nat → Nat → Prop) (hR : ∀ a b, R a b → a < n ∧ b < n)
    (pairs : List (Nat × Nat)) (hp : ∀ e ∈ pairs, e.1 < n ∧ e.2 < n) (uf : List Nat)
    (h : UFRep n R uf) :
    UFRep n (fun a b => R a b ∨ (a, b) ∈ pairs)
      (pairs.foldl (fun p e => unite_impl e.1 e.2 p) uf) := by
  obtain ⟨hlen, hsound, hcomp⟩ := h
  have hsound2 := foldl_unite_impl_sound (fun a b => R a b ∨ (a, b) ∈ pairs) pairs uf
    (fun e he => ⟨by rw [hlen]; exact (hp e he).1, by rw [hlen]; exact (hp e he).2,
      Or.inr he⟩)
    (fun a ha => by
      rw [hlen] at ha ⊢
      exact ⟨(hsound a ha).1,
        eqvGen_of_le (fun x y hxy => Relation.EqvGen.rel _ _ (Or.inl hxy)) _ _ (hsound a ha).2⟩)
  have key : ∀ x y, Relation.EqvGen (fun a b => R a b ∨ (a, b) ∈ pairs) x y →
      (x < n ↔ y < n) ∧ (x < n →
        (pairs.foldl (fun p e => unite_impl e.1 e.2 p) uf).getD x 0 =
          (pairs.foldl (fun p e => unite_impl e.1 e.2 p) uf).getD y 0) := by
    intro x y hxy
    induction hxy with
    | rel x y hxy =>
      have hlt : x < n ∧ y < n := by
        rcases hxy with h1 | h1
        · exact hR x y h1
        · exact hp _ h1
      refine ⟨⟨fun _ => hlt.2, fun _ => hlt.1⟩, fun _ => ?_⟩
      have := foldl_unite_impl_eq pairs uf
        (fun e he => ⟨by rw [hlen]; exact (hp e he).1, by rw [hlen]; exact (hp e he).2⟩) x y
        (by rw [hlen]; exact hlt.1) (by rw [hlen]; exact hlt.2)
        (by
          rcases hxy with h1 | h1
          · left
            exact hcomp x y hlt.1 hlt.2 (Relation.EqvGen.rel _ _ h1)
          · right; exact h1)
      exact this
    | refl x => exact ⟨Iff.rfl, fun _ => rfl⟩
    | symm x y _ ih => exact ⟨ih.1.symm, fun hy => (ih.2 (ih.1.2 hy)).symm⟩
    | trans x y z _ _ ih1 ih2 =>
      exact ⟨ih1.1.trans ih2.1, fun hx => (ih1.2 hx).trans (ih2.2 (ih1.1.1 hx))⟩
  refine ⟨by rw [foldl_unite_impl_length, hlen], fun a ha => ?_, fun a b ha _ hab =>
    (key a b hab).2 ha⟩
  have := hsound2 a (by rw [hlen]; exact ha)
  rw [hlen] at this
  exact this

/-- Vertices with one root keep one root through a sequence of unions. -/
theorem foldl_unite_impl_mono (pairs : List (Nat × Nat)) (uf : List Nat) (a b : Nat)
    (ha : a < uf.length) (hb : b < uf.length) (h : uf.getD a 0 = uf.getD b 0) :
    (pairs.foldl (fun p e => unite_impl e.1 e.2 p) uf).getD a 0 =
      (pairs.foldl (fun p e => unite_impl e.1 e.2 p) uf).getD b 0 := by
  induction pairs generalizing uf with
  | nil => exact h
  | cons e es ih =>
    rw [List.foldl_cons]
    have hl := unite_impl_length e.1 e.2 uf
    apply ih
    · rw [hl]; exact ha
    · rw [hl]; exact hb
    · have h1 := find_compress_unite_impl e.1 e.2 uf a ha
      have h2 := find_compress_unite_impl e.1 e.2 uf b hb
      unfold find_compress at h1 h2
      rw [h1, h2, h]

/-! ### The inner loop of a tree level -/

/-- The inner loop of a tree level, for the vertices `ls`, each visited once: the previous
parent of an active vertex becomes its new parent, the tree slot of its old previous parent
holds its new parent, and every other slot is kept; here active vertices with one previous
parent have one new parent. -/
theorem foldl_thread_spec (n L pmp : Nat) (act : Nat → Bool) (par : Nat → Nat)
    (step : TreeState → Nat → TreeState)
    (hstep : ∀ (t : TreeState) (l : Nat), t.prev_max_parent = pmp →
      step t l = if act l = true then thread_parent (par l) t l else t)
    (ls : List Nat) (hnd : ls.Nodup) (hlt : ∀ l ∈ ls, l < n)
    (t : TreeState) (hpmp : t.prev_max_parent = pmp) (hpp : t.prev_parent.length = n)
    (hT : t.connectivity_tree.length = L)
    (hin : ∀ l ∈ ls, act l = true → t.prev_parent.getD l 0 < L)
    (hcons : ∀ l ∈ ls, ∀ l2 ∈ ls, act l = true → act l2 = true →
      t.prev_parent.getD l 0 = t.prev_parent.getD l2 0 → par l = par l2) :
    (ls.foldl step t).prev_max_parent = pmp ∧
    (ls.foldl step t).prev_parent.length = n ∧
    (ls.foldl step t).connectivity_tree.length = L ∧
    (∀ l, (ls.foldl step t).prev_parent.getD l 0 =
      if l ∈ ls ∧ act l = true then par l else t.prev_parent.getD l 0) ∧
    (∀ l ∈ ls, act l = true →
      ∀ d, (ls.foldl step t).connectivity_tree.getD (t.prev_parent.getD l 0) d = par l) ∧
    (∀ j, (∀ l ∈ ls, act l = true → t.prev_parent.getD l 0 ≠ j) →
      ∀ d, (ls.foldl step t).connectivity_tree.getD j d = t.connectivity_tree.getD j d) := by
  induction ls generalizing t with
  | nil =>
    refine ⟨hpmp, hpp, hT, fun l => by simp, fun l hl => absurd hl (List.not_mem_nil _),
      fun j _ d => rfl⟩
  | cons l rest ih =>
    rw [List.foldl_cons]
    rw [List.nodup_cons] at hnd
    have hln : l < n := hlt l (List.mem_cons_self _ _)
    by_cases hact : act l = true
    · -- the head is threaded
      have hs : step t l = thread_parent (par l) t l := by rw [hstep t l hpmp, if_pos hact]
      have hlL : t.prev_parent.getD l 0 < L := hin l (List.mem_cons_self _ _) hact
      have hread : ∀ d, (t.connectivity_tree.set (t.prev_parent.getD l 0) (par l)).getD
          (t.prev_parent.getD l 0) d = par l := by
        intro d
        rw [getD_set _ _ _ _ _ (by rw [hT]; exact hlL), if_pos rfl]
      have hpp1 : ∀ x, (thread_parent (par l) t l).prev_parent.getD x 0 =
          if x = l then par l else t.prev_parent.getD x 0 := by
        intro x
        change (t.prev_parent.set l _).getD x 0 = _
        rw [getD_set _ _ _ _ _ (by rw [hpp]; exact hln), hread]
      have hT1 : ∀ j d, (thread_parent (par l) t l).connectivity_tree.getD j d =
          if j = t.prev_parent.getD l 0 then par l else t.connectivity_tree.getD j d := by
        intro j d
        change (t.connectivity_tree.set _ _).getD j d = _
        rw [getD_set _ _ _ _ _ (by rw [hT]; exact hlL)]
      have hrest_pp : ∀ x ∈ rest, (thread_parent (par l) t l).prev_parent.getD x 0 =
          t.prev_parent.getD x 0 := by
        intro x hx
        rw [hpp1, if_neg]
        intro h
        subst h
        exact hnd.1 hx
      obtain ⟨i1, i2, i3, i4, i5, i6⟩ := ih hnd.2
        (fun x hx => hlt x (List.mem_cons_of_mem _ hx)) (thread_parent (par l) t l)
        (by rw [← hpmp]; rfl) (by simp [thread_parent, hpp]) (by simp [thread_parent, hT])
        (fun x hx hax => by
          rw [hrest_pp x hx]
          exact hin x (List.mem_cons_of_mem _ hx) hax)
        (fun x hx y hy hax hay hxy => by
          rw [hrest_pp x hx, hrest_pp y hy] at hxy
          exact hcons x (List.mem_cons_of_mem _ hx) y (List.mem_cons_of_mem _ hy) hax hay hxy)
      rw [hs]
      refine ⟨i1, i2, i3, fun x => ?_, fun x hx hax d => ?_, fun j hj d => ?_⟩
      · rw [i4 x, hpp1]
        by_cases hxl : x = l
        · subst hxl
          simp [hnd.1, hact]
        · simp only [List.mem_cons, hxl, false_or, if_false]
      · rcases List.mem_cons.1 hx with hxl | hxr
        · subst hxl
          by_cases hex : ∃ y ∈ rest, act y = true ∧
              t.prev_parent.getD y 0 = t.prev_parent.getD x 0
          · obtain ⟨y, hy, hay, hyx⟩ := hex
            have := i5 y hy hay d
            rw [hrest_pp y hy, hyx] at this
            rw [this]
            exact hcons y (List.mem_cons_of_mem _ hy) x (List.mem_cons_self _ _) hay hax hyx
          · rw [i6 _ (fun y hy hay hyx => hex ⟨y, hy, hay, by
              rw [hrest_pp y hy] at hyx; exact hyx⟩) d, hT1, if_pos rfl]
        · have := i5 x hxr hax d
          rw [hrest_pp x hxr] at this
          exact this
      · rw [i6 j (fun y hy hay => by
          rw [hrest_pp y hy]
          exact hj y (List.mem_cons_of_mem _ hy) hay) d, hT1, if_neg]
        exact fun h => hj l (List.mem_cons_self _ _) hact h.symm
    · -- the head is skipped
      have hs : step t l = t := by rw [hstep t l hpmp, if_neg hact]
      obtain ⟨i1, i2, i3, i4, i5, i6⟩ := ih hnd.2
        (fun x hx => hlt x (List.mem_cons_of_mem _ hx)) t hpmp hpp hT
        (fun x hx hax => hin x (List.mem_cons_of_mem _ hx) hax)
        (fun x hx y hy hax hay hxy =>
          hcons x (List.mem_cons_of_mem _ hx) y (List.mem_cons_of_mem _ hy) hax hay hxy)
      rw [hs]
      refine ⟨i1, i2, i3, fun x => ?_, fun x hx hax d => ?_, fun j hj d => ?_⟩
      · rw [i4 x]
        by_cases hxl : x = l
        · subst hxl
          simp [hnd.1, hact]
        · simp only [List.mem_cons, hxl, false_or]
      · rcases List.mem_cons.1 hx with hxl | hxr
        · subst hxl
          exact absurd hax hact
        · exact i5 x hxr hax d
      · exact i6 j (fun y hy hay => hj y (List.mem_cons_of_mem _ hy) hay) d

/-! ### The buckets of a sorted sequence -/

/-- Along a sequence of keys that never increase, the indices before a run carry larger
keys, the indices of the run carry the key of its first index, and the indices after the run
carry smaller keys. -/
theorem run_keys_anti (k : Nat → Nat) (n s e : Nat)
    (hanti : ∀ i j, i ≤ j → j < n → k j ≤ k i)
    (hse : s < e) (hen : e ≤ n)
    (hs : s = 0 ∨ k s ≠ k (s - 1))
    (hmid : ∀ x, s < x → x < e → k x = k (x - 1))
    (hend : e < n → k e ≠ k (e - 1)) :
    ∀ x, x < n → (x < s → k s < k x) ∧ (s ≤ x → x < e → k x = k s) ∧ (e ≤ x → k x < k s) := by
  have hin : ∀ x, s ≤ x → x < e → k x = k s := by
    intro x hsx
    induction x, hsx using Nat.le_induction with
    | base => intro _; rfl
    | succ x hx ih =>
      intro hxe
      have h1 := hmid (x + 1) (by omega) hxe
      simp only [Nat.add_sub_cancel] at h1
      rw [h1]
      exact ih (by omega)
  intro x hx
  refine ⟨fun h1 => ?_, hin x, fun h2 => ?_⟩
  · have hs0 : s ≠ 0 := by omega
    have hne : k s ≠ k (s - 1) := by
      rcases hs with h | h
      · exact absurd h hs0
      · exact h
    have hle := hanti (s - 1) s (by omega) (by omega)
    have hle2 := hanti x (s - 1) (by omega) (by omega)
    omega
  · have hen' : e < n := by omega
    have hne := hend hen'
    have heq := hin (e - 1) (by omega) (by omega)
    have hle := hanti (e - 1) e (by omega) hen'
    have hle2 := hanti e x h2 hx
    omega

/-- The buckets of the vertices sorted by decreasing key: the positions before the bucket
`i` carry larger keys than its first position, the positions of the bucket carry the same
key, and the later positions carry smaller keys. -/
theorem bucket_keys (key : Nat → Nat) (n : Nat) (sorted_vert : List Nat)
    (hlen : sorted_vert.length = n)
    (hsorted : sorted_vert.Pairwise (fun a b => key b ≤ key a)) (i : Nat)
    (hi : i + 1 < (GetBoundaryIndices n (fun x y =>
      decide (key (sorted_vert.getD x 0) = key (sorted_vert.getD y 0)))).length) :
    ∀ pos, pos < n →
      (pos < (GetBoundaryIndices n (fun x y =>
          decide (key (sorted_vert.getD x 0) = key (sorted_vert.getD y 0)))).getD i 0 →
        key (sorted_vert.getD ((GetBoundaryIndices n (fun x y =>
          decide (key (sorted_vert.getD x 0) = key (sorted_vert.getD y 0)))).getD i 0) 0) <
          key (sorted_vert.getD pos 0)) ∧
      ((GetBoundaryIndices n (fun x y =>
          decide (key (sorted_vert.getD x 0) = key (sorted_vert.getD y 0)))).getD i 0 ≤ pos →
        pos < (GetBoundaryIndices n (fun x y =>
          decide (key (sorted_vert.getD x 0) = key (sorted_vert.getD y 0)))).getD (i + 1) 0 →
        key (sorted_vert.getD pos 0) =
          key (sorted_vert.getD ((GetBoundaryIndices n (fun x y =>
            decide (key (sorted_vert.getD x 0) = key (sorted_vert.getD y 0)))).getD i 0) 0)) ∧
      ((GetBoundaryIndices n (fun x y =>
          decide (key (sorted_vert.getD x 0) = key (sorted_vert.getD y 0)))).getD (i + 1) 0 ≤
          pos →
        key (sorted_vert.getD pos 0) <
          key (sorted_vert.getD ((GetBoundaryIndices n (fun x y =>
            decide (key (sorted_vert.getD x 0) = key (sorted_vert.getD y 0)))).getD i 0) 0)) := by
  obtain ⟨h1, h2, h3, h4, h5⟩ := GetBoundaryIndices_consecutive n (fun x y =>
    decide (key (sorted_vert.getD x 0) = key (sorted_vert.getD y 0))) i hi
  have hanti : ∀ a b, a ≤ b → b < n →
      key (sorted_vert.getD b 0) ≤ key (sorted_vert.getD a 0) := by
    intro a b hab hb
    rcases Nat.eq_or_lt_of_le hab with h | h
    · rw [h]
    · have := List.pairwise_iff_getElem.1 hsorted a b (by omega) (by omega) h
      rw [List.getD_eq_getElem?_getD, List.getD_eq_getElem?_getD,
        List.getElem?_eq_getElem (by omega), List.getElem?_eq_getElem (by omega)]
      exact this
  exact run_keys_anti (fun p => key (sorted_vert.getD p 0)) n _ _ hanti h1 h2
    (by
      rcases h3 with h | h
      · exact Or.inl h
      · right
        simpa using h)
    (fun x hx1 hx2 => by simpa using (h4 x hx1 hx2).2)
    (fun hlt => by simpa using h5 hlt)

/-- The count of the marked roots below a marked root is smaller than the count below every
larger index. -/
theorem map_parents_strict (n : Nat) (cores : List Nat) (fcc : Nat) (uf : List Nat)
    (p q : Nat) (hpq : p < q) (hp : map_parents_mark n cores fcc uf p = true) :
    map_parents n cores fcc uf p < map_parents n cores fcc uf q := by
  have h1 : map_parents n cores fcc uf (p + 1) = map_parents n cores fcc uf p + 1 := by
    unfold map_parents
    rw [List.range_succ, List.filter_append, List.length_append,
      List.filter_cons_of_pos hp]
    rfl
  have h2 := map_parents_mono n cores fcc uf (p + 1) q (by omega)
  omega

/-- Two marked roots with one count are equal. -/
theorem map_parents_inj (n : Nat) (cores : List Nat) (fcc : Nat) (uf : List Nat)
    (p q : Nat) (hp : map_parents_mark n cores fcc uf p = true)
    (hq : map_parents_mark n cores fcc uf q = true)
    (h : map_parents n cores fcc uf p = map_parents n cores fcc uf q) : p = q := by
  rcases Nat.lt_trichotomy p q with h1 | h1 | h1
  · have := map_parents_strict n cores fcc uf p q h1 hp
    omega
  · exact h1
  · have := map_parents_strict n cores fcc uf q p h1 hq
    omega

/-- The root of an active vertex is marked. -/
theorem map_parents_mark_of_active (n : Nat) (cores : List Nat) (fcc : Nat) (uf : List Nat)
    (l : Nat) (hl : l < n) (hact : posthoc_active cores fcc l = true) :
    map_parents_mark n cores fcc uf (uf.getD l 0) = true := by
  unfold map_parents_mark
  rw [List.any_eq_true]
  exact ⟨l, List.mem_range.2 hl, by simp [hact]⟩

/-! ### The buckets of the post-hoc variant -/

/-- A fold over a concatenation of lists is the fold of the folds. -/
theorem foldl_flatMap_eq {α β γ : Type} (f : α → List β) (g : γ → β → γ) (l : List α)
    (a : γ) : (l.flatMap f).foldl g a = l.foldl (fun acc x => (f x).foldl g acc) a := by
  induction l generalizing a with
  | nil => rfl
  | cons x xs ih => simp [List.flatMap_cons, List.foldl_append, ih]

/-- The buckets of the vertices sorted by decreasing core number: consecutive boundaries
bound a bucket of vertices with one core number; later buckets have smaller core numbers;
and every vertex lies in a bucket. -/
theorem bucket_facts (cores sv vb : List Nat) (n : Nat) (hperm : sv.Perm (List.range n))
    (hsorted : sv.Pairwise (fun a b => cores.getD b 0 ≤ cores.getD a 0))
    (hvb : vb = GetBoundaryIndices n (fun x y =>
      decide (cores.getD (sv.getD x 0) 0 = cores.getD (sv.getD y 0) 0))) :
    (∀ i, i + 1 < vb.length → vb.getD i 0 < vb.getD (i + 1) 0 ∧ vb.getD (i + 1) 0 ≤ n) ∧
    (∀ i, i + 1 < vb.length → ∀ j, j < vb.getD (i + 1) 0 - vb.getD i 0 →
      sv.getD (vb.getD i 0 + j) 0 < n ∧
      cores.getD (sv.getD (vb.getD i 0 + j) 0) 0 = cores.getD (sv.getD (vb.getD i 0) 0) 0) ∧
    (∀ i j, i < j → j + 1 < vb.length →
      cores.getD (sv.getD (vb.getD j 0) 0) 0 < cores.getD (sv.getD (vb.getD i 0) 0) 0) ∧
    (∀ v, v < n → ∃ i, i + 1 < vb.length ∧
      cores.getD v 0 = cores.getD (sv.getD (vb.getD i 0) 0) 0 ∧
      ∃ j, j < vb.getD (i + 1) 0 - vb.getD i 0 ∧ sv.getD (vb.getD i 0 + j) 0 = v) := by
  have hlen : sv.length = n := by rw [hperm.length_eq, List.length_range]
  have hcons : ∀ i, i + 1 < vb.length →
      vb.getD i 0 < vb.getD (i + 1) 0 ∧ vb.getD (i + 1) 0 ≤ n := by
    intro i hi
    rw [hvb] at hi ⊢
    have := GetBoundaryIndices_consecutive n _ i hi
    exact ⟨this.1, this.2.1⟩
  have hkeys : ∀ i, i + 1 < vb.length → ∀ pos, pos < n →
      (pos < vb.getD i 0 →
        cores.getD (sv.getD (vb.getD i 0) 0) 0 < cores.getD (sv.getD pos 0) 0) ∧
      (vb.getD i 0 ≤ pos → pos < vb.getD (i + 1) 0 →
        cores.getD (sv.getD pos 0) 0 = cores.getD (sv.getD (vb.getD i 0) 0) 0) ∧
      (vb.getD (i + 1) 0 ≤ pos →
        cores.getD (sv.getD pos 0) 0 < cores.getD (sv.getD (vb.getD i 0) 0) 0) := by
    intro i hi
    rw [hvb] at hi ⊢
    have h := bucket_keys (fun v => cores.getD v 0) n sv hlen hsorted i hi
    exact h
  have hmono : ∀ i j, i ≤ j → j < vb.length → vb.getD i 0 ≤ vb.getD j 0 := by
    intro i j hij hj
    rcases Nat.eq_or_lt_of_le hij with h | h
    · rw [h]
    · have hp : vb.Pairwise (· < ·) := by rw [hvb]; exact GetBoundaryIndices_pairwise _ _
      have := List.pairwise_iff_getElem.1 hp i j (by omega) hj h
      rw [List.getD_eq_getElem _ _ (by omega), List.getD_eq_getElem _ _ hj]
      omega
  refine ⟨hcons, fun i hi j hj => ?_, fun i j hij hj => ?_, fun v hv => ?_⟩
  · have h1 := hcons i hi
    have hpos : vb.getD i 0 + j < n := by omega
    exact ⟨getD_perm_range_lt n sv hperm _ hpos,
      (hkeys i (by omega) _ hpos).2.1 (by omega) (by omega)⟩
  · have h1 := hcons j hj
    have h2 := hmono (i + 1) j (by omega) (by omega)
    exact (hkeys i (by omega) (vb.getD j 0) (by omega)).2.2 h2
  · have hmem : v ∈ sv := hperm.mem_iff.2 (List.mem_range.2 hv)
    obtain ⟨pos, hpos, hget⟩ := List.getElem_of_mem hmem
    have hposn : pos < n := by omega
    obtain ⟨i, hi, hi1, hi2⟩ := GetBoundaryIndices_cover n (fun x y =>
      decide (cores.getD (sv.getD x 0) 0 = cores.getD (sv.getD y 0) 0)) pos hposn
    rw [← hvb] at hi hi1 hi2
    have hv2 : sv.getD pos 0 = v := by
      rw [List.getD_eq_getElem _ _ hpos, hget]
    refine ⟨i, hi, ?_, pos - vb.getD i 0, by omega, ?_⟩
    · rw [← hv2]
      exact (hkeys i hi pos hposn).2.1 hi1 hi2
    · rw [show vb.getD i 0 + (pos - vb.getD i 0) = pos by omega]
      exact hv2

/-! ### The levels of the post-hoc variant -/

/-- The state after one more iteration. -/
theorem posthoc_state_succ (sort : (Nat → Nat → Bool) → List Nat → List Nat) (G : Graph)
    (cores : List Nat) (i : Nat) :
    posthoc_state sort G cores (i + 1) =
      posthoc_level G cores (posthoc_sorted_vert sort G cores)
        (posthoc_vert_buckets sort G cores) (posthoc_state sort G cores i) i := by
  unfold posthoc_state
  rw [List.range_succ, List.foldl_append]
  rfl

/-- The tree returned by `construct_nd_connectivity` is the tree of the state after the last
iteration. -/
theorem construct_nd_connectivity_eq (sort : (Nat → Nat → Bool) → List Nat → List Nat)
    (G : Graph) (cores : List Nat) :
    construct_nd_connectivity sort G cores =
      (posthoc_state sort G cores
        ((posthoc_vert_buckets sort G cores).length - 1)).tree.connectivity_tree := rfl

/-- The number of vertices is below the sentinel. -/
theorem PostHocCtx.n_lt {sort : (Nat → Nat → Bool) → List Nat → List Nat} {G : Graph}
    {cores : List Nat} (h : PostHocCtx sort G cores) : G.n < UINT_E_MAX := by
  have hM : UINT_E_MAX = 4294967295 := rfl
  have := h.size
  rcases Nat.eq_zero_or_pos G.n with h0 | hpos
  · omega
  · have := Nat.mul_le_mul_right G.n hpos
    omega

/-- The buckets of the post-hoc variant. -/
theorem PostHocCtx.buckets {sort : (Nat → Nat → Bool) → List Nat → List Nat} {G : Graph}
    {cores : List Nat} (h : PostHocCtx sort G cores) :
    (posthoc_vert_buckets sort G cores).length ≤ G.n + 1 ∧
    (∀ i, i + 1 < (posthoc_vert_buckets sort G cores).length →
      (posthoc_vert_buckets sort G cores).getD i 0 <
        (posthoc_vert_buckets sort G cores).getD (i + 1) 0 ∧
      (posthoc_vert_buckets sort G cores).getD (i + 1) 0 ≤ G.n) ∧
    (∀ i, i + 1 < (posthoc_vert_buckets sort G cores).length → ∀ j,
      j < (posthoc_vert_buckets sort G cores).getD (i + 1) 0 -
        (posthoc_vert_buckets sort G cores).getD i 0 →
      (posthoc_sorted_vert sort G cores).getD
        ((posthoc_vert_buckets sort G cores).getD i 0 + j) 0 < G.n ∧
      cores.getD ((posthoc_sorted_vert sort G cores).getD
        ((posthoc_vert_buckets sort G cores).getD i 0 + j) 0) 0 =
        first_current_core sort G cores i) ∧
    (∀ i j, i < j → j + 1 < (posthoc_vert_buckets sort G cores).length →
      first_current_core sort G cores j < first_current_core sort G cores i) ∧
    (∀ v, v < G.n → ∃ i, i + 1 < (posthoc_vert_buckets sort G cores).length ∧
      cores.getD v 0 = first_current_core sort G cores i ∧
      ∃ j, j < (posthoc_vert_buckets sort G cores).getD (i + 1) 0 -
          (posthoc_vert_buckets sort G cores).getD i 0 ∧
        (posthoc_sorted_vert sort G cores).getD
          ((posthoc_vert_buckets sort G cores).getD i 0 + j) 0 = v) := by
  have hvb : posthoc_vert_buckets sort G cores = GetBoundaryIndices G.n (fun x y =>
      decide (cores.getD ((posthoc_sorted_vert sort G cores).getD x 0) 0 =
        cores.getD ((posthoc_sorted_vert sort G cores).getD y 0) 0)) := by
    unfold posthoc_vert_buckets
    exact kcore_GetBoundaryIndices_eq _ _ h.n_lt
  obtain ⟨h1, h2, h3, h4⟩ := bucket_facts cores (posthoc_sorted_vert sort G cores)
    (posthoc_vert_buckets sort G cores) G.n h.perm h.sorted hvb
  refine ⟨?_, h1, h2, h3, h4⟩
  rw [hvb]
  exact GetBoundaryIndices_length_le _ _

/-- A vertex with the core number of a bucket lies in the bucket. -/
theorem PostHocCtx.mem_bucket {sort : (Nat → Nat → Bool) → List Nat → List Nat} {G : Graph}
    {cores : List Nat} (h : PostHocCtx sort G cores) (i : Nat)
    (hi : i + 1 < (posthoc_vert_buckets sort G cores).length) (v : Nat) (hv : v < G.n)
    (heq : cores.getD v 0 = first_current_core sort G cores i) :
    ∃ j, j < (posthoc_vert_buckets sort G cores).getD (i + 1) 0 -
        (posthoc_vert_buckets sort G cores).getD i 0 ∧
      (posthoc_sorted_vert sort G cores).getD
        ((posthoc_vert_buckets sort G cores).getD i 0 + j) 0 = v := by
  obtain ⟨-, -, -, hstrict, hmem⟩ := h.buckets
  obtain ⟨i2, hi2, hc2, j, hj, hjv⟩ := hmem v hv
  have : i2 = i := by
    rcases Nat.lt_trichotomy i2 i with h1 | h1 | h1
    · have := hstrict i2 i h1 hi
      omega
    · exact h1
    · have := hstrict i i2 h1 hi2
      omega
  subst this
  exact ⟨j, hj, hjv⟩

/-- A vertex with a larger core number than a bucket has the core number of an earlier
bucket. -/
theorem PostHocCtx.earlier_bucket {sort : (Nat → Nat → Bool) → List Nat → List Nat}
    {G : Graph} {cores : List Nat} (h : PostHocCtx sort G cores) (i : Nat)
    (v : Nat) (hv : v < G.n)
    (hgt : first_current_core sort G cores i < cores.getD v 0) :
    ∃ i2, i2 < i ∧ cores.getD v 0 = first_current_core sort G cores i2 := by
  obtain ⟨-, -, -, hstrict, hmem⟩ := h.buckets
  obtain ⟨i2, hi2, hc2, -⟩ := hmem v hv
  refine ⟨i2, ?_, hc2⟩
  by_contra hcon
  rcases Nat.eq_or_lt_of_le (not_lt.1 hcon) with h1 | h1
  · subst h1; omega
  · have := hstrict i i2 h1 hi2
    omega

/-- No core number lies strictly between the core numbers of two consecutive buckets. -/
theorem PostHocCtx.next_bucket {sort : (Nat → Nat → Bool) → List Nat → List Nat}
    {G : Graph} {cores : List Nat} (h : PostHocCtx sort G cores) (i : Nat)
    (hi : i + 2 < (posthoc_vert_buckets sort G cores).length) (v : Nat) (hv : v < G.n) :
    first_current_core sort G cores (i + 1) < cores.getD v 0 ↔
      first_current_core sort G cores i ≤ cores.getD v 0 := by
  obtain ⟨-, -, -, hstrict, -⟩ := h.buckets
  constructor
  · intro hgt
    obtain ⟨i2, hi2, hc2⟩ := h.earlier_bucket (i + 1) v hv hgt
    rw [hc2]
    rcases Nat.eq_or_lt_of_le (Nat.lt_succ_iff.1 hi2) with h1 | h1
    · rw [h1]
    · exact le_of_lt (hstrict i2 i h1 (by omega))
  · intro hge
    have := hstrict i (i + 1) (by omega) hi
    omega

/-- The unions for one vertex of a bucket are the unions of the pairs of the vertex and its
neighbours that are not inactive. -/
theorem posthoc_unite_eq (G : Graph) (cores : List Nat) (fcc : Nat) (uf : List Nat) (x : Nat) :
    posthoc_unite G cores fcc uf x =
      (((G.out_neighbors x).filter (fun e => decide (¬ (cores.getD e.1 0 < fcc)))).map
        (fun e => (x, e.1))).foldl (fun p e => unite_impl e.1 e.2 p) uf := by
  unfold posthoc_unite
  rw [foldl_ite_eq_foldl_filter (fun e : Nat × ℚ => ¬ (cores.getD e.1 0 < fcc))
    (fun uf e => unite_impl x e.1 uf), List.foldl_map]

/-- The union-find array after the iteration `i`: the unions of the pairs of the bucket, when
its core number is neither the sentinel nor `0`. -/
theorem posthoc_state_uf (sort : (Nat → Nat → Bool) → List Nat → List Nat) (G : Graph)
    (cores : List Nat) (i : Nat) :
    (posthoc_state sort G cores (i + 1)).uf =
      if first_current_core sort G cores i ≠ UINT_E_MAX ∧
          first_current_core sort G cores i ≠ 0 then
        (posthoc_pairs sort G cores i).foldl (fun p e => unite_impl e.1 e.2 p)
          (posthoc_state sort G cores i).uf
      else (posthoc_state sort G cores i).uf := by
  rw [posthoc_state_succ]
  unfold posthoc_level first_current_core
  dsimp only
  split_ifs with hc
  · unfold posthoc_pairs first_current_core
    rw [foldl_flatMap_eq]
    congr 1
    funext uf j
    exact posthoc_unite_eq G cores _ uf _
  · rfl

/-- The test of the tree loops on a vertex is the comparison of its core number with the
core number of the bucket. -/
theorem posthoc_active_iff (cores : List Nat) (fcc l : Nat)
    (hl : cores.getD l 0 < UINT_E_MAX) :
    posthoc_active cores fcc l = true ↔ fcc ≤ cores.getD l 0 := by
  unfold posthoc_active
  simp only [Bool.and_eq_true, decide_eq_true_eq, ge_iff_le]
  constructor
  · exact fun h => h.2
  · exact fun h => ⟨by omega, h⟩

/-- In a symmetric graph every stored edge is stored at its other endpoint. -/
theorem Graph.Symmetric.mem_swap {G : Graph} (h : G.Symmetric) (a b : Nat) (w : ℚ)
    (he : (a, b, w) ∈ G.edges) : (b, a, w) ∈ G.edges := by
  have h1 : swap_edge (a, b, w) ∈ G.edges.map swap_edge := List.mem_map.2 ⟨_, he, rfl⟩
  exact h.edges_swap_perm.mem_iff.1 h1

/-- The pairs united in an iteration join vertices of the bucket with neighbours of core
number at least the core number of the bucket. -/
theorem mem_posthoc_pairs {sort : (Nat → Nat → Bool) → List Nat → List Nat} {G : Graph}
    {cores : List Nat} (h : PostHocCtx sort G cores) (i : Nat)
    (hi : i + 1 < (posthoc_vert_buckets sort G cores).length) (a b : Nat) :
    (a, b) ∈ posthoc_pairs sort G cores i ↔
      (∃ w, (a, b, w) ∈ G.edges) ∧ cores.getD a 0 = first_current_core sort G cores i ∧
        first_current_core sort G cores i ≤ cores.getD b 0 := by
  obtain ⟨-, -, hrun, -, -⟩ := h.buckets
  unfold posthoc_pairs
  simp only [List.mem_flatMap, List.mem_range, List.mem_map, List.mem_filter,
    decide_eq_true_eq, not_lt, Prod.mk.injEq]
  constructor
  · rintro ⟨j, hj, e, ⟨he, hge⟩, rfl, rfl⟩
    exact ⟨⟨e.2, (G.mem_edges _ _ _).2 he⟩, (hrun i hi j hj).2, hge⟩
  · rintro ⟨⟨w, hw⟩, ha, hb⟩
    have han : a < G.n := G.fst_lt_of_mem_edges _ hw
    obtain ⟨j, hj, hja⟩ := h.mem_bucket i hi a han ha
    refine ⟨j, hj, (b, w), ⟨?_, hb⟩, hja, rfl⟩
    rw [hja]
    exact (G.mem_edges _ _ _).1 hw

/-- The iteration `i` of the loop over the buckets of `construct_nd_connectivity`, from its
invariant. -/
theorem posthoc_level_step {sort : (Nat → Nat → Bool) → List Nat → List Nat} {G : Graph}
    {cores : List Nat} (h : PostHocCtx sort G cores) (i : Nat)
    (hi : i + 1 < (posthoc_vert_buckets sort G cores).length)
    (hinv : PostHocInv sort G cores i) : PostHocLevelSpec sort G cores i := by
  have hM : UINT_E_MAX = 4294967295 := rfl
  have hMod : UINT_E_MOD = 4294967296 := rfl
  obtain ⟨hvblen, hbnd, hrun, hstrict, hmem⟩ := h.buckets
  have hin : i + 1 ≤ G.n := by omega
  have hpmpmax : (posthoc_state sort G cores i).tree.prev_max_parent + G.n ≤ UINT_E_MAX := by
    have h1 := hinv.pmp_le
    have h2 := h.size
    have h3 : (i + 1) * G.n ≤ G.n * G.n := Nat.mul_le_mul_right G.n hin
    have h4 : (i + 1) * G.n = i * G.n + G.n := Nat.succ_mul i G.n
    omega
  have hsucc := posthoc_state_succ sort G cores i
  obtain ⟨hufb, hlev, hpmple⟩ := posthoc_level_inv G cores (posthoc_sorted_vert sort G cores)
    (posthoc_vert_buckets sort G cores) (posthoc_state sort G cores i) i hinv.uf_bound
    hinv.levelInv hpmpmax
  rw [← hsucc] at hufb hlev hpmple
  -- the core number of the bucket
  have hc_vertex : ∃ x, x < G.n ∧ cores.getD x 0 = first_current_core sort G cores i := by
    have := hrun i hi 0 (by have := hbnd i hi; omega)
    exact ⟨_, this.1, this.2⟩
  have hcM : first_current_core sort G cores i ≠ UINT_E_MAX := by
    obtain ⟨x, hx, hxc⟩ := hc_vertex
    have := h.cores_lt x hx
    omega
  have hact : ∀ l, l < G.n →
      (posthoc_active cores (first_current_core sort G cores i) l = true ↔
        first_current_core sort G cores i ≤ cores.getD l 0) :=
    fun l hl => posthoc_active_iff cores _ l (h.cores_lt l hl)
  -- the union-find array
  have hufeq := posthoc_state_uf sort G cores i
  have hpairs_lt : ∀ e ∈ posthoc_pairs sort G cores i, e.1 < G.n ∧ e.2 < G.n := by
    rintro ⟨a, b⟩ he
    obtain ⟨⟨w, hw⟩, -, -⟩ := (mem_posthoc_pairs h i hi a b).1 he
    exact ⟨G.fst_lt_of_mem_edges _ hw, h.wf _ hw⟩
  have hind_lt : ∀ c a b, induced_edge G cores c a b → a < G.n ∧ b < G.n := by
    rintro c a b ⟨⟨w, hw⟩, -, -⟩
    exact ⟨G.fst_lt_of_mem_edges _ hw, h.wf _ hw⟩
  have huflen0 : (posthoc_state sort G cores i).uf.length = G.n := hinv.uf_rep.1
  have huflen : (posthoc_state sort G cores (i + 1)).uf.length = G.n := by
    rw [hufeq]
    split_ifs
    · rw [foldl_unite_impl_length, huflen0]
    · exact huflen0
  have hufmono : ∀ a b, a < G.n → b < G.n →
      (posthoc_state sort G cores i).uf.getD a 0 =
        (posthoc_state sort G cores i).uf.getD b 0 →
      (posthoc_state sort G cores (i + 1)).uf.getD a 0 =
        (posthoc_state sort G cores (i + 1)).uf.getD b 0 := by
    intro a b ha hb hab
    rw [hufeq]
    split_ifs
    · exact foldl_unite_impl_mono _ _ a b (by rw [huflen0]; exact ha)
        (by rw [huflen0]; exact hb) hab
    · exact hab
  have hufrep : first_current_core sort G cores i ≠ 0 →
      UFRep G.n (induced_edge G cores (first_current_core sort G cores i))
        (posthoc_state sort G cores (i + 1)).uf := by
    intro hc0
    rw [hufeq, if_pos ⟨hcM, hc0⟩]
    have hrep := UFRep_foldl G.n _ (hind_lt _) (posthoc_pairs sort G cores i) hpairs_lt
      _ hinv.uf_rep
    apply hrep.congr
    apply eqvGen_congr
    · rintro a b (hab | hab)
      · exact Relation.EqvGen.rel _ _ ⟨hab.1, by have := hab.2.1; omega, by
          have := hab.2.2; omega⟩
      · obtain ⟨hw, h1, h2⟩ := (mem_posthoc_pairs h i hi a b).1 hab
        exact Relation.EqvGen.rel _ _ ⟨hw, by omega, h2⟩
    · rintro a b ⟨⟨w, hw⟩, h1, h2⟩
      by_cases ha : cores.getD a 0 = first_current_core sort G cores i
      · exact Relation.EqvGen.rel _ _
          (Or.inr ((mem_posthoc_pairs h i hi a b).2 ⟨⟨w, hw⟩, ha, h2⟩))
      · by_cases hb : cores.getD b 0 = first_current_core sort G cores i
        · exact Relation.EqvGen.symm _ _ (Relation.EqvGen.rel _ _
            (Or.inr ((mem_posthoc_pairs h i hi b a).2
              ⟨⟨w, h.sym.mem_swap a b w hw⟩, hb, h1⟩)))
        · exact Relation.EqvGen.rel _ _ (Or.inl ⟨⟨w, hw⟩, by omega, by omega⟩)
  have hufget : ∀ l, l < G.n → (posthoc_state sort G cores (i + 1)).uf.getD l 0 < G.n :=
    fun l hl => getD_lt_of_bound _ G.n l (by omega) hufb
  -- the tree
  obtain ⟨hppn, hTle, hpplt, hTinc⟩ := hinv.levelInv
  have htree : (posthoc_state sort G cores (i + 1)).tree =
      { (List.range G.n).foldl
          (fun t l =>
            if posthoc_active cores (first_current_core sort G cores i) l then
              thread_parent
                (((posthoc_state sort G cores i).tree.prev_max_parent +
                  map_parents G.n cores (first_current_core sort G cores i)
                    (posthoc_state sort G cores (i + 1)).uf
                    ((posthoc_state sort G cores (i + 1)).uf.getD l 0)) % UINT_E_MOD) t l
            else t)
          { (posthoc_state sort G cores i).tree with
            connectivity_tree :=
              resize (posthoc_state sort G cores i).tree.connectivity_tree
                (posthoc_state sort G cores i).tree.prev_max_parent UINT_E_MAX }
        with prev_max_parent :=
          ((posthoc_state sort G cores i).tree.prev_max_parent +
            map_parents G.n cores (first_current_core sort G cores i)
              (posthoc_state sort G cores (i + 1)).uf G.n) % UINT_E_MOD } := by
    rw [hsucc]
    rfl
  have hrank_le : ∀ p, map_parents G.n cores (first_current_core sort G cores i)
      (posthoc_state sort G cores (i + 1)).uf p ≤ p := map_parents_le _ _ _ _
  have hpar : ∀ l, l < G.n →
      ((posthoc_state sort G cores i).tree.prev_max_parent +
        map_parents G.n cores (first_current_core sort G cores i)
          (posthoc_state sort G cores (i + 1)).uf
          ((posthoc_state sort G cores (i + 1)).uf.getD l 0)) % UINT_E_MOD =
      (posthoc_state sort G cores i).tree.prev_max_parent +
        map_parents G.n cores (first_current_core sort G cores i)
          (posthoc_state sort G cores (i + 1)).uf
          ((posthoc_state sort G cores (i + 1)).uf.getD l 0) := by
    intro l hl
    have h1 := hrank_le ((posthoc_state sort G cores (i + 1)).uf.getD l 0)
    have h2 := hufget l hl
    exact Nat.mod_eq_of_lt (by omega)
  have hcons_uf : ∀ l l2, l < G.n → l2 < G.n →
      first_current_core sort G cores i ≤ cores.getD l 0 →
      first_current_core sort G cores i ≤ cores.getD l2 0 →
      (posthoc_state sort G cores i).tree.prev_parent.getD l 0 =
        (posthoc_state sort G cores i).tree.prev_parent.getD l2 0 →
      (posthoc_state sort G cores (i + 1)).uf.getD l 0 =
        (posthoc_state sort G cores (i + 1)).uf.getD l2 0 := by
    intro l l2 hl hl2 ha ha2 hpp
    by_cases h1 : first_current_core sort G cores i < cores.getD l 0
    · by_cases h2 : first_current_core sort G cores i < cores.getD l2 0
      · exact hufmono l l2 hl hl2 ((hinv.node_eq l l2 hl hl2 h1 h2).1 hpp)
      · have e2 := hinv.new_eq l2 hl2 (by omega)
        have g1 := hinv.old_ge l hl h1
        omega
    · have e1 := hinv.new_eq l hl (by omega)
      by_cases h2 : first_current_core sort G cores i < cores.getD l2 0
      · have g2 := hinv.old_ge l2 hl2 h2
        omega
      · have e2 := hinv.new_eq l2 hl2 (by omega)
        have : l = l2 := by omega
        rw [this]
  obtain ⟨f1, f2, f3, f4, f5, f6⟩ := foldl_thread_spec G.n
    (posthoc_state sort G cores i).tree.prev_max_parent
    (posthoc_state sort G cores i).tree.prev_max_parent
    (posthoc_active cores (first_current_core sort G cores i))
    (fun l => ((posthoc_state sort G cores i).tree.prev_max_parent +
      map_parents G.n cores (first_current_core sort G cores i)
        (posthoc_state sort G cores (i + 1)).uf
        ((posthoc_state sort G cores (i + 1)).uf.getD l 0)) % UINT_E_MOD)
    (fun t l =>
      if posthoc_active cores (first_current_core sort G cores i) l then
        thread_parent
          (((posthoc_state sort G cores i).tree.prev_max_parent +
            map_parents G.n cores (first_current_core sort G cores i)
              (posthoc_state sort G cores (i + 1)).uf
              ((posthoc_state sort G cores (i + 1)).uf.getD l 0)) % UINT_E_MOD) t l
      else t)
    (fun t l _ => rfl) (List.range G.n) (List.nodup_range G.n)
    (fun l hl => List.mem_range.1 hl)
    { (posthoc_state sort G cores i).tree with
      connectivity_tree :=
        resize (posthoc_state sort G cores i).tree.connectivity_tree
          (posthoc_state sort G cores i).tree.prev_max_parent UINT_E_MAX }
    rfl hppn (resize_length _ _ _)
    (fun l hl _ => hpplt l (List.mem_range.1 hl))
    (fun l hl l2 hl2 ha ha2 hpp => by
      have hl' := List.mem_range.1 hl
      have hl2' := List.mem_range.1 hl2
      have := hcons_uf l l2 hl' hl2' ((hact l hl').1 ha) ((hact l2 hl2').1 ha2) hpp
      simp only [this])
  have hpmp_eq : (posthoc_state sort G cores (i + 1)).tree.prev_max_parent =
      (posthoc_state sort G cores i).tree.prev_max_parent +
        map_parents G.n cores (first_current_core sort G cores i)
          (posthoc_state sort G cores (i + 1)).uf G.n := by
    rw [htree]
    have h1 := hrank_le G.n
    exact Nat.mod_eq_of_lt (by omega)
  have hpp_eq : ∀ l, l < G.n →
      (posthoc_state sort G cores (i + 1)).tree.prev_parent.getD l 0 =
        if first_current_core sort G cores i ≤ cores.getD l 0 then
          (posthoc_state sort G cores i).tree.prev_max_parent +
            map_parents G.n cores (first_current_core sort G cores i)
              (posthoc_state sort G cores (i + 1)).uf
              ((posthoc_state sort G cores (i + 1)).uf.getD l 0)
        else (posthoc_state sort G cores i).tree.prev_parent.getD l 0 := by
    intro l hl
    rw [htree]
    have := f4 l
    by_cases ha : first_current_core sort G cores i ≤ cores.getD l 0
    · rw [if_pos ha]
      rw [if_pos ⟨List.mem_range.2 hl, (hact l hl).2 ha⟩, hpar l hl] at this
      exact this
    · rw [if_neg ha]
      rw [if_neg (fun hh => ha ((hact l hl).1 hh.2))] at this
      exact this
  have hT_eq : ∀ j d, (posthoc_state sort G cores (i + 1)).tree.connectivity_tree.getD j d =
      ((List.range G.n).foldl
          (fun t l =>
            if posthoc_active cores (first_current_core sort G cores i) l then
              thread_parent
                (((posthoc_state sort G cores i).tree.prev_max_parent +
                  map_parents G.n cores (first_current_core sort G cores i)
                    (posthoc_state sort G cores (i + 1)).uf
                    ((posthoc_state sort G cores (i + 1)).uf.getD l 0)) % UINT_E_MOD) t l
            else t)
          { (posthoc_state sort G cores i).tree with
            connectivity_tree :=
              resize (posthoc_state sort G cores i).tree.connectivity_tree
                (posthoc_state sort G cores i).tree.prev_max_parent UINT_E_MAX
          }).connectivity_tree.getD j d := by
    intro j d
    rw [htree]
  have hmark : ∀ l, l < G.n → first_current_core sort G cores i ≤ cores.getD l 0 →
      map_parents_mark G.n cores (first_current_core sort G cores i)
        (posthoc_state sort G cores (i + 1)).uf
        ((posthoc_state sort G cores (i + 1)).uf.getD l 0) = true :=
    fun l hl ha => map_parents_mark_of_active _ _ _ _ l hl ((hact l hl).2 ha)
  refine
    { uf_bound := hufb
      uf_rep := hufrep
      uf_length := huflen
      uf_mono := hufmono
      levelInv := hlev
      pmp_ge := hinv.pmp_ge
      pmp_mono := by rw [hpmp_eq]; omega
      pmp_le := by
        have := hinv.pmp_le
        have h4 : (i + 1) * G.n = i * G.n + G.n := Nat.succ_mul i G.n
        omega
      tree_length := by
        rw [htree]
        exact f3
      tree_length_le := hTle
      node_active := ?_
      node_inactive := ?_
      node_eq := ?_
      prev_lt := fun l hl _ => hpplt l hl
      prev_old := hinv.old_ge
      prev_new := hinv.new_eq
      tie := ?_
      frame := ?_ }
  · intro l hl ha
    rw [hpp_eq l hl, if_pos ha, hpmp_eq]
    have := map_parents_lt G.n cores (first_current_core sort G cores i)
      (posthoc_state sort G cores (i + 1)).uf l hl ((hact l hl).2 ha) (hufget l hl)
    omega
  · intro l hl hlt
    rw [hpp_eq l hl, if_neg (by omega)]
    exact hinv.new_eq l hl (by omega)
  · intro l l2 hl hl2 ha ha2
    rw [hpp_eq l hl, hpp_eq l2 hl2, if_pos ha, if_pos ha2]
    constructor
    · intro heq
      exact map_parents_inj _ _ _ _ _ _ (hmark l hl ha) (hmark l2 hl2 ha2) (by omega)
    · intro heq
      rw [heq]
  · intro l hl ha d
    rw [hT_eq, f5 l (List.mem_range.2 hl) ((hact l hl).2 ha) d, hpp_eq l hl, if_pos ha,
      hpar l hl]
  · intro j hj hne d
    rw [hT_eq, f6 j (fun l hl ha => hne l (List.mem_range.1 hl)
      ((hact l (List.mem_range.1 hl)).1 ha)) d]
    change (resize _ _ _).getD j d = _
    rw [resize_getD _ _ _ _ _ hTle (by omega), if_pos hj]

/-- The invariant of the loop over the buckets holds at the start of the first iteration. -/
theorem posthoc_inv_zero {sort : (Nat → Nat → Bool) → List Nat → List Nat} {G : Graph}
    {cores : List Nat} (h : PostHocCtx sort G cores) :
    PostHocInv sort G cores 0 := by
  obtain ⟨-, -, -, hstrict, hmem⟩ := h.buckets
  have hmax : ∀ l, l < G.n → cores.getD l 0 ≤ first_current_core sort G cores 0 := by
    intro l hl
    obtain ⟨i2, hi2, hc2, -⟩ := hmem l hl
    rw [hc2]
    rcases Nat.eq_zero_or_pos i2 with h0 | hpos
    · rw [h0]
    · exact le_of_lt (hstrict 0 i2 hpos hi2)
  have hid : ∀ l, l < G.n → (List.range G.n).getD l 0 = l := by
    intro l hl
    rw [List.getD_eq_getElem?_getD, List.getElem?_range hl]
    rfl
  have hM : UINT_E_MAX = 4294967295 := rfl
  have hn := h.n_lt
  refine
    { uf_bound := fun p hp => List.mem_range.1 hp
      uf_rep := ?_
      levelInv := levelInv_start G.n (by omega)
      pmp_ge := le_refl _
      pmp_le := by
        change G.n ≤ G.n + 0 * G.n
        omega
      old_ge := fun l hl hlt => by have := hmax l hl; omega
      new_eq := fun l hl _ => hid l hl
      node_eq := fun l l2 hl _ hlt => by have := hmax l hl; omega }
  apply UFRep_range
  rintro a b ⟨⟨w, hw⟩, h1, -⟩
  have := hmax a (G.fst_lt_of_mem_edges _ hw)
  omega

/-- The invariant of the loop over the buckets holds at the start of the next iteration. -/
theorem posthoc_inv_succ {sort : (Nat → Nat → Bool) → List Nat → List Nat} {G : Graph}
    {cores : List Nat} (h : PostHocCtx sort G cores) (i : Nat)
    (hi : i + 2 < (posthoc_vert_buckets sort G cores).length)
    (hspec : PostHocLevelSpec sort G cores i) :
    PostHocInv sort G cores (i + 1) := by
  obtain ⟨-, -, -, hstrict, -⟩ := h.buckets
  have hlt := hstrict i (i + 1) (by omega) hi
  have hind_lt : ∀ c a b, induced_edge G cores c a b → a < G.n ∧ b < G.n := by
    rintro c a b ⟨⟨w, hw⟩, -, -⟩
    exact ⟨G.fst_lt_of_mem_edges _ hw, h.wf _ hw⟩
  refine
    { uf_bound := hspec.uf_bound
      uf_rep := ?_
      levelInv := hspec.levelInv
      pmp_ge := le_trans hspec.pmp_ge hspec.pmp_mono
      pmp_le := hspec.pmp_le
      old_ge := fun l hl hgt =>
        le_trans hspec.pmp_ge (hspec.node_active l hl ((h.next_bucket i hi l hl).1 hgt)).1
      new_eq := fun l hl hle => hspec.node_inactive l hl (by omega)
      node_eq := fun l l2 hl hl2 h1 h2 =>
        hspec.node_eq l l2 hl hl2 ((h.next_bucket i hi l hl).1 h1)
          ((h.next_bucket i hi l2 hl2).1 h2) }
  apply (hspec.uf_rep (by omega)).congr
  apply eqvGen_congr
  · rintro a b ⟨hw, h1, h2⟩
    obtain ⟨ha, hb⟩ := hind_lt _ a b ⟨hw, h1, h2⟩
    exact Relation.EqvGen.rel _ _ ⟨hw, (h.next_bucket i hi a ha).2 h1,
      (h.next_bucket i hi b hb).2 h2⟩
  · rintro a b ⟨hw, h1, h2⟩
    obtain ⟨ha, hb⟩ := hind_lt _ a b ⟨hw, h1, h2⟩
    exact Relation.EqvGen.rel _ _ ⟨hw, (h.next_bucket i hi a ha).1 h1,
      (h.next_bucket i hi b hb).1 h2⟩

/-- The invariant of the loop over the buckets holds at the start of every iteration, and
every iteration does what `PostHocLevelSpec` says. -/
theorem posthoc_levels {sort : (Nat → Nat → Bool) → List Nat → List Nat} {G : Graph}
    {cores : List Nat} (h : PostHocCtx sort G cores) (i : Nat)
    (hi : i + 1 < (posthoc_vert_buckets sort G cores).length) :
    PostHocInv sort G cores i ∧ PostHocLevelSpec sort G cores i := by
  induction i with
  | zero =>
    have := posthoc_inv_zero h
    exact ⟨this, posthoc_level_step h 0 hi this⟩
  | succ i ih =>
    obtain ⟨h1, h2⟩ := ih (by omega)
    have := posthoc_inv_succ h i hi h2
    exact ⟨this, posthoc_level_step h (i + 1) hi this⟩

/-- The value of `prev_max_parent` grows along the iterations. -/
theorem posthoc_pmp_mono {sort : (Nat → Nat → Bool) → List Nat → List Nat} {G : Graph}
    {cores : List Nat} (h : PostHocCtx sort G cores) (k m : Nat) (hkm : k ≤ m)
    (hm : m < (posthoc_vert_buckets sort G cores).length) :
    (posthoc_state sort G cores k).tree.prev_max_parent ≤
      (posthoc_state sort G cores m).tree.prev_max_parent := by
  induction m with
  | zero =>
    have : k = 0 := by omega
    rw [this]
  | succ m ih =>
    rcases Nat.eq_or_lt_of_le hkm with h1 | h1
    · rw [h1]
    · exact le_trans (ih (by omega) (by omega)) (posthoc_levels h m hm).2.pmp_mono

/-- The tree slot written for a vertex in the iteration `k` keeps its value through the later
iterations. -/
theorem posthoc_tie {sort : (Nat → Nat → Bool) → List Nat → List Nat} {G : Graph}
    {cores : List Nat} (h : PostHocCtx sort G cores) (k : Nat)
    (hk : k + 1 < (posthoc_vert_buckets sort G cores).length) (l : Nat) (hl : l < G.n)
    (hact : first_current_core sort G cores k ≤ cores.getD l 0) (m : Nat) (hkm : k + 1 ≤ m)
    (hm : m < (posthoc_vert_buckets sort G cores).length) (d : Nat) :
    (posthoc_state sort G cores m).tree.connectivity_tree.getD
      ((posthoc_state sort G cores k).tree.prev_parent.getD l 0) d =
      (posthoc_state sort G cores (k + 1)).tree.prev_parent.getD l 0 := by
  obtain ⟨-, -, -, hstrict, -⟩ := h.buckets
  have hspeck := (posthoc_levels h k hk).2
  induction m with
  | zero => omega
  | succ m ih =>
    rcases Nat.eq_or_lt_of_le hkm with h1 | h1
    · have : m = k := by omega
      subst this
      exact hspeck.tie l hl hact d
    · have hspecm := (posthoc_levels h m hm).2
      have hspecm1 := (posthoc_levels h (m - 1) (by omega)).2
      have hm1 : m - 1 + 1 = m := by omega
      have hlen : (posthoc_state sort G cores m).tree.connectivity_tree.length =
          (posthoc_state sort G cores (m - 1)).tree.prev_max_parent := by
        have := hspecm1.tree_length
        rw [hm1] at this
        exact this
      have hj := hspeck.prev_lt l hl hact
      have hpm := posthoc_pmp_mono h k (m - 1) (by omega) (by omega)
      rw [hspecm.frame _ (by rw [hlen]; omega) ?_ d]
      · exact ih (by omega) (by omega)
      · intro l2 hl2 hact2 heq
        by_cases hold : first_current_core sort G cores m < cores.getD l2 0
        · have hact1 : first_current_core sort G cores (m - 1) ≤ cores.getD l2 0 := by
            have := (h.next_bucket (m - 1) (by omega) l2 hl2).1 (by rw [hm1]; exact hold)
            exact this
          have := (hspecm1.node_active l2 hl2 hact1).1
          rw [hm1] at this
          omega
        · have hnew := hspecm.prev_new l2 hl2 (by omega)
          by_cases holdk : first_current_core sort G cores k < cores.getD l 0
          · have := hspeck.prev_old l hl holdk
            omega
          · have hnewk := hspeck.prev_new l hl (by omega)
            have hlk : cores.getD l 0 = first_current_core sort G cores k := by omega
            have hl2m : cores.getD l2 0 = first_current_core sort G cores m := by omega
            have hll : l = l2 := by omega
            have := hstrict k m (by omega) hm
            rw [hll] at hlk
            omega

/-- The sequential sort orders the vertices by decreasing key. -/
theorem sortWith_sorted_desc (key : Nat → Nat) (l : List Nat) :
    (sortWith (fun p q => decide (key p > key q)) l).Pairwise
      (fun a b => key b ≤ key a) := by
  unfold sortWith
  have h := @List.sorted_insertionSort Nat
    (fun a b => (fun p q => decide (key p > key q)) b a = false) _
    ⟨fun a b => by
      simp only [decide_eq_false_iff_not, not_lt, gt_iff_lt]
      exact le_total _ _⟩
    ⟨fun a b c hab hbc => by
      simp only [decide_eq_false_iff_not, not_lt, gt_iff_lt] at hab hbc ⊢
      exact le_trans hbc hab⟩ l
  refine List.Pairwise.imp ?_ h
  intro a b hab
  simpa using hab

/-- The assumptions of the post-hoc variant, from a sort that rearranges by decreasing
key. -/
theorem PostHocCtx.of_sort (sort : (Nat → Nat → Bool) → List Nat → List Nat)
    (hsort : ∀ (key : Nat → Nat) (l : List Nat),
      (sort (fun p q => decide (key p > key q)) l).Perm l ∧
      (sort (fun p q => decide (key p > key q)) l).Pairwise (fun a b => key b ≤ key a))
    (G : Graph) (hwf : G.WellFormed) (hsym : G.Symmetric)
    (hsize : G.n + G.n * G.n ≤ UINT_E_MAX) (cores : List Nat)
    (hcores : ∀ v, v < G.n → cores.getD v 0 < UINT_E_MAX) : PostHocCtx sort G cores :=
  { wf := hwf
    sym := hsym
    size := hsize
    cores_lt := hcores
    perm := (hsort (fun v => cores.getD v 0) (List.range G.n)).1
    sorted := (hsort (fun v => cores.getD v 0) (List.range G.n)).2 }

/-- The object `connect_while_peeling` after one iteration of the loop of `KCore`: the calls
of `link` for the pairs of the round, after the call of `init` if there is one. -/
theorem KCore_round_connect {σ : Type} (ops : ConnectWhilePeelingOps σ) (G : Graph)
    (ih : Bool) (s : KCoreState σ) :
    (KCore_round ops G ih s).connect_while_peeling =
      (round_pairs G s.D (next_bucket_identifiers s.D s.b) (next_bucket_id s.D s.b)).foldl
        (fun c e => ops.link e.1 e.2 (cores_func s.D (next_bucket_id s.D s.b) G.n) c)
        (if ih = true ∧ s.prev_bkt ≠ next_bucket_id s.D s.b ∧ next_bucket_id s.D s.b ≠ 0
          then ops.init (next_bucket_id s.D s.b) s.connect_while_peeling
          else s.connect_while_peeling) := by
  unfold KCore_round round_pairs
  dsimp only
  rw [foldl_flatMap_eq]
  congr 1
  funext c u
  unfold link_func
  rw [foldl_ite_eq_foldl_filter (fun e : Nat × ℚ => u ≠ e.1 ∧ s.D.getD e.1 0 ≤
      next_bucket_id s.D s.b)
    (fun c e => ops.link u e.1 (cores_func s.D (next_bucket_id s.D s.b) G.n) c),
    List.foldl_map]

/-- The pairs of a round join an active vertex with a different neighbour that is finished
after the round. -/
theorem mem_round_pairs (G : Graph) (D : List Nat) (active : List Nat) (k a b : Nat) :
    (a, b) ∈ round_pairs G D active k ↔
      a ∈ active ∧ (∃ w, (b, w) ∈ G.out_neighbors a) ∧ a ≠ b ∧ D.getD b 0 ≤ k := by
  unfold round_pairs
  simp only [List.mem_flatMap, List.mem_map, List.mem_filter, decide_eq_true_eq,
    Prod.mk.injEq]
  constructor
  · rintro ⟨u, hu, e, ⟨he, hne, hle⟩, rfl, rfl⟩
    exact ⟨hu, ⟨e.2, he⟩, hne, hle⟩
  · rintro ⟨ha, ⟨w, hw⟩, hne, hle⟩
    exact ⟨a, ha, (b, w), ⟨hw, hne, hle⟩, rfl, rfl⟩

/-- The walk along the parents starts at its start index. -/
theorem parent_walk_head (T : List Nat) (fuel j : Nat) (p : List Nat)
    (h : parent_walk T fuel j = some p) : ∃ q, p = j :: q := by
  cases fuel with
  | zero => simp [parent_walk] at h
  | succ fuel =>
    rw [parent_walk] at h
    split_ifs at h with hc
    · cases hq : parent_walk T fuel (T.getD j UINT_E_MAX) with
      | none => rw [hq] at h; simp at h
      | some q =>
        rw [hq] at h
        simp only [Option.map_some', Option.some.injEq] at h
        exact ⟨q, h.symm⟩
    · simp only [Option.some.injEq] at h
      exact ⟨[], h.symm⟩

/-- The indices that the walk along the parents visits after its start are the indices
reached from the start by one or more parent steps. -/
theorem mem_tail_parent_walk (T : List Nat) (fuel j : Nat) (p : List Nat)
    (h : parent_walk T fuel j = some p) (a : Nat) :
    a ∈ p.tail ↔ Relation.TransGen (parent_step T) j a := by
  induction fuel generalizing j p with
  | zero => simp [parent_walk] at h
  | succ fuel ih =>
    rw [parent_walk] at h
    split_ifs at h with hc
    · cases hq : parent_walk T fuel (T.getD j UINT_E_MAX) with
      | none => rw [hq] at h; simp at h
      | some q =>
        rw [hq] at h
        simp only [Option.map_some', Option.some.injEq] at h
        obtain ⟨q2, hq2⟩ := parent_walk_head T fuel _ q hq
        have hih := ih _ q hq
        rw [← h, List.tail_cons]
        have hstep : parent_step T j (T.getD j UINT_E_MAX) := ⟨hc.1, rfl, hc.2⟩
        constructor
        · intro ha
          rw [hq2, List.mem_cons] at ha
          rcases ha with rfl | ha
          · exact Relation.TransGen.single hstep
          · refine Relation.TransGen.head hstep (hih.1 ?_)
            rw [hq2, List.tail_cons]
            exact ha
        · intro ha
          rcases Relation.TransGen.head'_iff.1 ha with ⟨b, hb, hrest⟩
          have hbe : b = T.getD j UINT_E_MAX := hb.2.1.symm
          subst hbe
          rcases Relation.reflTransGen_iff_eq_or_transGen.1 hrest with heq | htr
          · rw [heq, hq2]
            exact List.mem_cons_self _ _
          · have := hih.2 htr
            rw [hq2, List.tail_cons] at this
            rw [hq2]
            exact List.mem_cons_of_mem _ this
    · simp only [Option.some.injEq] at h
      rw [← h, List.tail_cons]
      constructor
      · intro ha
        simp at ha
      · intro ha
        rcases Relation.TransGen.head'_iff.1 ha with ⟨b, hb, -⟩
        exact absurd ⟨hb.1, by rw [hb.2.1]; exact hb.2.2⟩ hc

/-- The ancestors of an index whose walk along the parents stops. -/
theorem mem_ancestors_iff (T : List Nat) (u : Nat)
    (h : ∃ p, parent_walk T (T.length + 1) u = some p) (a : Nat) :
    a ∈ ancestors T u ↔ Relation.TransGen (parent_step T) u a := by
  obtain ⟨p, hp⟩ := h
  unfold ancestors
  rw [hp]
  exact mem_tail_parent_walk T _ u p hp a

/-- An index has at most one parent. -/
theorem parent_step_unique (T : List Nat) : Relator.RightUnique (parent_step T) := by
  intro x y z hy hz
  rw [← hy.2.1, ← hz.2.1]

/-- Two ancestors of one index are equal or one is an ancestor of the other. -/
theorem ancestors_total (T : List Nat) (x a b : Nat)
    (ha : Relation.TransGen (parent_step T) x a) (hb : Relation.TransGen (parent_step T) x b) :
    a = b ∨ Relation.TransGen (parent_step T) a b ∨ Relation.TransGen (parent_step T) b a := by
  rcases Relation.ReflTransGen.total_of_right_unique (parent_step_unique T)
    ha.to_reflTransGen hb.to_reflTransGen with h | h
  · rcases Relation.reflTransGen_iff_eq_or_transGen.1 h with h1 | h1
    · exact Or.inl h1.symm
    · exact Or.inr (Or.inl h1)
  · rcases Relation.reflTransGen_iff_eq_or_transGen.1 h with h1 | h1
    · exact Or.inl h1
    · exact Or.inr (Or.inr h1)

/-- A path in the component of `u` is a path among the vertices of the component: when every
vertex joined with `u` has the property `Q`, the vertices joined with `u` are joined by the
edges between vertices with the property `Q`. -/
theorem eqvGen_restrict {R : Nat → Nat → Prop} (Q : Nat → Prop) (u : Nat)
    (hQ : ∀ w, Relation.EqvGen R u w → Q w) (x y : Nat) (hxy : Relation.EqvGen R x y)
    (hx : Relation.EqvGen R u x) :
    Relation.EqvGen (fun a b => R a b ∧ Q a ∧ Q b) x y := by
  induction hxy with
  | rel a b hab =>
    exact Relation.EqvGen.rel _ _ ⟨hab, hQ a hx,
      hQ b (Relation.EqvGen.trans _ _ _ hx (Relation.EqvGen.rel _ _ hab))⟩
  | refl a => exact Relation.EqvGen.refl _
  | symm a b hab ih =>
    exact Relation.EqvGen.symm _ _
      (ih (Relation.EqvGen.trans _ _ _ hx (Relation.EqvGen.symm _ _ hab)))
  | trans a b c hab _ ih1 ih2 =>
    exact Relation.EqvGen.trans _ _ _ (ih1 hx)
      (ih2 (Relation.EqvGen.trans _ _ _ hx hab))

/-- Two vertices joined by a path are equal or both ends of an edge. -/
theorem eqvGen_endpoints {R : Nat → Nat → Prop} (x y : Nat) (h : Relation.EqvGen R x y) :
    x = y ∨ ((∃ z, R x z ∨ R z x) ∧ (∃ z, R y z ∨ R z y)) := by
  induction h with
  | rel a b hab => exact Or.inr ⟨⟨b, Or.inl hab⟩, ⟨a, Or.inr hab⟩⟩
  | refl a => exact Or.inl rfl
  | symm a b _ ih =>
    rcases ih with h | ⟨h1, h2⟩
    · exact Or.inl h.symm
    · exact Or.inr ⟨h2, h1⟩
  | trans a b c _ _ ih1 ih2 =>
    rcases ih1 with h | ⟨h1, h2⟩
    · rw [h]; exact ih2
    · rcases ih2 with h | ⟨h3, h4⟩
      · rw [← h]; exact Or.inr ⟨h1, h2⟩
      · exact Or.inr ⟨h1, h4⟩

/-- The ends of an edge of the induced subgraph are vertices. -/
theorem induced_edge_lt (G : Graph) (hwf : G.WellFormed) (cores : List Nat) (c a b : Nat)
    (h : induced_edge G cores c a b) : a < G.n ∧ b < G.n := by
  obtain ⟨⟨w, hw⟩, -, -⟩ := h
  have h1 := (G.mem_edges a b w).1 hw
  exact ⟨G.lt_n_of_mem_out_neighbors a (b, w) h1, hwf.out_neighbors_lt a (b, w) h1⟩

/-- The length of the tree of the post-hoc variant is the value of `prev_max_parent` at the
start of the last iteration. -/
theorem posthoc_tree_length_eq {sort : (Nat → Nat → Bool) → List Nat → List Nat} {G : Graph}
    {cores : List Nat} (h : PostHocCtx sort G cores)
    (hB : 2 ≤ (posthoc_vert_buckets sort G cores).length) :
    (construct_nd_connectivity sort G cores).length =
      (posthoc_state sort G cores
        ((posthoc_vert_buckets sort G cores).length - 2)).tree.prev_max_parent := by
  have hlast := (posthoc_levels h ((posthoc_vert_buckets sort G cores).length - 2)
    (by omega)).2
  have hB2 : (posthoc_vert_buckets sort G cores).length - 2 + 1 =
      (posthoc_vert_buckets sort G cores).length - 1 := by omega
  rw [construct_nd_connectivity_eq, ← hB2]
  exact hlast.tree_length

/-- The parent step of the post-hoc tree for a vertex at a level: the slot of its previous
parent holds its node of the level. -/
theorem posthoc_parent_step {sort : (Nat → Nat → Bool) → List Nat → List Nat} {G : Graph}
    {cores : List Nat} (h : PostHocCtx sort G cores) (i : Nat)
    (hi : i + 1 < (posthoc_vert_buckets sort G cores).length) (u : Nat) (hu : u < G.n)
    (hact : first_current_core sort G cores i ≤ cores.getD u 0) :
    parent_step (construct_nd_connectivity sort G cores)
      ((posthoc_state sort G cores i).tree.prev_parent.getD u 0)
      ((posthoc_state sort G cores (i + 1)).tree.prev_parent.getD u 0) := by
  have hM : UINT_E_MAX = 4294967295 := rfl
  have hspec := (posthoc_levels h i hi).2
  have hlen := posthoc_tree_length_eq h (by omega)
  have hpm := posthoc_pmp_mono h i ((posthoc_vert_buckets sort G cores).length - 2)
    (by omega) (by omega)
  have hprev := hspec.prev_lt u hu hact
  refine ⟨by rw [hlen]; omega, ?_, ?_⟩
  · rw [construct_nd_connectivity_eq]
    exact posthoc_tie h i hi u hu hact _ (by omega) (by omega) UINT_E_MAX
  · have h1 := (hspec.node_active u hu hact).2
    have h2 := hspec.pmp_le
    have h3 := h.buckets.1
    have h4 := h.size
    have h5 : (i + 1) * G.n ≤ G.n * G.n := Nat.mul_le_mul_right G.n (by omega)
    omega

/-- The node of a vertex at a level of the post-hoc tree is an ancestor of the vertex. -/
theorem posthoc_node_ancestor {sort : (Nat → Nat → Bool) → List Nat → List Nat} {G : Graph}
    {cores : List Nat} (h : PostHocCtx sort G cores) (u : Nat) (hu : u < G.n) (i : Nat)
    (hi : i + 1 < (posthoc_vert_buckets sort G cores).length)
    (hact : first_current_core sort G cores i ≤ cores.getD u 0) :
    Relation.TransGen (parent_step (construct_nd_connectivity sort G cores)) u
      ((posthoc_state sort G cores (i + 1)).tree.prev_parent.getD u 0) := by
  induction i with
  | zero =>
    have hstep := posthoc_parent_step h 0 hi u hu hact
    have hnew : cores.getD u 0 ≤ first_current_core sort G cores 0 := by
      by_contra hcon
      obtain ⟨i2, hi2, -⟩ := h.earlier_bucket 0 u hu (by omega)
      omega
    rw [(posthoc_levels h 0 hi).2.prev_new u hu hnew] at hstep
    exact Relation.TransGen.single hstep
  | succ i ih =>
    have hstep := posthoc_parent_step h (i + 1) hi u hu hact
    by_cases hnew : cores.getD u 0 ≤ first_current_core sort G cores (i + 1)
    · rw [(posthoc_levels h (i + 1) hi).2.prev_new u hu hnew] at hstep
      exact Relation.TransGen.single hstep
    · have hact1 := (h.next_bucket i (by omega) u hu).1 (by omega)
      exact Relation.TransGen.tail (ih (by omega) hact1) hstep

/-- An ancestor of a vertex in the post-hoc tree is the node of the vertex at a level. -/
theorem posthoc_ancestor_node {sort : (Nat → Nat → Bool) → List Nat → List Nat} {G : Graph}
    {cores : List Nat} (h : PostHocCtx sort G cores) (u : Nat) (hu : u < G.n) (a : Nat)
    (ha : Relation.TransGen (parent_step (construct_nd_connectivity sort G cores)) u a) :
    ∃ i, i + 1 < (posthoc_vert_buckets sort G cores).length ∧
      first_current_core sort G cores i ≤ cores.getD u 0 ∧
      a = (posthoc_state sort G cores (i + 1)).tree.prev_parent.getD u 0 := by
  obtain ⟨-, -, -, hstrict, hmem⟩ := h.buckets
  induction ha with
  | single hstep =>
    obtain ⟨i, hi, hc, -⟩ := hmem u hu
    have hstep2 := posthoc_parent_step h i hi u hu (by omega)
    rw [(posthoc_levels h i hi).2.prev_new u hu (by omega)] at hstep2
    exact ⟨i, hi, by omega, parent_step_unique _ hstep hstep2⟩
  | tail _ hstep ih =>
    obtain ⟨i, hi, hact, hb⟩ := ih
    have hlen := posthoc_tree_length_eq h (by omega)
    have hnode := ((posthoc_levels h i hi).2.node_active u hu hact).1
    have hi2 : i + 2 < (posthoc_vert_buckets sort G cores).length := by
      by_contra hcon
      have : i = (posthoc_vert_buckets sort G cores).length - 2 := by omega
      have hlt := hstep.1
      rw [hlen, hb, ← this] at hlt
      omega
    have hlt := hstrict i (i + 1) (by omega) hi2
    have hstep2 := posthoc_parent_step h (i + 1) hi2 u hu (by omega)
    rw [← hb] at hstep2
    exact ⟨i + 1, hi2, by omega, parent_step_unique _ hstep hstep2⟩

/-- Nodes of different levels of the post-hoc tree are different. -/
theorem posthoc_node_level {sort : (Nat → Nat → Bool) → List Nat → List Nat} {G : Graph}
    {cores : List Nat} (h : PostHocCtx sort G cores) (u w : Nat) (hu : u < G.n) (hw : w < G.n)
    (i j : Nat) (hi : i + 1 < (posthoc_vert_buckets sort G cores).length)
    (hj : j + 1 < (posthoc_vert_buckets sort G cores).length)
    (hau : first_current_core sort G cores i ≤ cores.getD u 0)
    (haw : first_current_core sort G cores j ≤ cores.getD w 0)
    (heq : (posthoc_state sort G cores (i + 1)).tree.prev_parent.getD u 0 =
      (posthoc_state sort G cores (j + 1)).tree.prev_parent.getD w 0) : i = j := by
  have h1 := (posthoc_levels h i hi).2.node_active u hu hau
  have h2 := (posthoc_levels h j hj).2.node_active w hw haw
  rcases Nat.lt_trichotomy i j with hlt | heq2 | hlt
  · have := posthoc_pmp_mono h (i + 1) j (by omega) (by omega)
    omega
  · exact heq2
  · have := posthoc_pmp_mono h (j + 1) i (by omega) (by omega)
    omega

/-- The union-find array after an iteration of the post-hoc variant represents the
connectivity among the vertices of core number at least the core number of the bucket, or at
least `1` for the bucket of the core number `0`, which makes no union. -/
theorem posthoc_uf_rep {sort : (Nat → Nat → Bool) → List Nat → List Nat} {G : Graph}
    {cores : List Nat} (h : PostHocCtx sort G cores) (i : Nat)
    (hi : i + 1 < (posthoc_vert_buckets sort G cores).length) :
    UFRep G.n (induced_edge G cores (max (first_current_core sort G cores i) 1))
      (posthoc_state sort G cores (i + 1)).uf := by
  obtain ⟨hinv, hspec⟩ := posthoc_levels h i hi
  by_cases h0 : first_current_core sort G cores i = 0
  · rw [posthoc_state_uf, if_neg (by rw [h0]; simp), h0]
    have := hinv.uf_rep
    rw [h0] at this
    exact this
  · rw [max_eq_left (by omega)]
    exact hspec.uf_rep h0

/-- The smallest core number that is at least `c` is the core number of a bucket. -/
theorem posthoc_level_of {sort : (Nat → Nat → Bool) → List Nat → List Nat} {G : Graph}
    {cores : List Nat} (h : PostHocCtx sort G cores) (c u : Nat) (hu : u < G.n)
    (hc : c ≤ cores.getD u 0) :
    ∃ i, i + 1 < (posthoc_vert_buckets sort G cores).length ∧
      c ≤ first_current_core sort G cores i ∧
      ∀ x, x < G.n → c ≤ cores.getD x 0 → first_current_core sort G cores i ≤ cores.getD x 0 := by
  classical
  obtain ⟨-, -, -, -, hmem⟩ := h.buckets
  have hex : ∃ m, ∃ x, x < G.n ∧ c ≤ cores.getD x 0 ∧ cores.getD x 0 = m :=
    ⟨_, u, hu, hc, rfl⟩
  obtain ⟨x0, hx0, hcx0, hm⟩ := Nat.find_spec hex
  obtain ⟨i, hi, hci, -⟩ := hmem x0 hx0
  refine ⟨i, hi, by omega, fun x hx hcx => ?_⟩
  have := Nat.find_min' hex ⟨x, hx, hcx, rfl⟩
  omega

/-- In the post-hoc tree two vertices of core number at least `c > 0` have a common ancestor
above vertices of core number at least `c` only exactly when a path of edges between vertices
of core number at least `c` joins them. -/
theorem posthoc_common_ancestor_iff {sort : (Nat → Nat → Bool) → List Nat → List Nat}
    {G : Graph} {cores : List Nat} (h : PostHocCtx sort G cores) (c : Nat) (hc : 0 < c)
    (u v : Nat) (hu : u < G.n) (hv : v < G.n) (hcu : c ≤ cores.getD u 0)
    (hcv : c ≤ cores.getD v 0) :
    common_ancestor_at (construct_nd_connectivity sort G cores) cores G.n c u v ↔
      Relation.EqvGen (induced_edge G cores c) u v := by
  have hwalk : ∀ x, ∃ p, parent_walk (construct_nd_connectivity sort G cores)
      ((construct_nd_connectivity sort G cores).length + 1) x = some p := by
    intro x
    obtain ⟨p, hp, -⟩ := parent_walk_increasing _
      (fun j hj => construct_nd_connectivity_increasing sort G cores h.size j hj) x
    exact ⟨p, hp⟩
  unfold common_ancestor_at
  simp only [mem_ancestors_iff _ _ (hwalk _)]
  constructor
  · rintro ⟨a, hau, hav, hleaf⟩
    obtain ⟨i, hi, hiu, hai⟩ := posthoc_ancestor_node h u hu a hau
    obtain ⟨j, hj, hjv, haj⟩ := posthoc_ancestor_node h v hv a hav
    have hij : i = j := posthoc_node_level h u v hu hv i j hi hj hiu hjv (by rw [← hai, ← haj])
    subst hij
    have hspec := (posthoc_levels h i hi).2
    have hrep := posthoc_uf_rep h i hi
    have huv : Relation.EqvGen
        (induced_edge G cores (max (first_current_core sort G cores i) 1)) u v := by
      rw [← hrep.iff u v hu hv, ← hspec.node_eq u v hu hv hiu hjv, ← hai, ← haj]
    have hcomp : ∀ w, Relation.EqvGen
        (induced_edge G cores (max (first_current_core sort G cores i) 1)) u w →
        c ≤ cores.getD w 0 := by
      intro w huw
      have hwn : w < G.n ∧ first_current_core sort G cores i ≤ cores.getD w 0 := by
        rcases eqvGen_endpoints u w huw with heq | ⟨-, z, hz | hz⟩
        · rw [← heq]; exact ⟨hu, hiu⟩
        · exact ⟨(induced_edge_lt G h.wf cores _ w z hz).1,
            le_trans (le_max_left _ _) hz.2.1⟩
        · exact ⟨(induced_edge_lt G h.wf cores _ z w hz).2,
            le_trans (le_max_left _ _) hz.2.2⟩
      apply hleaf w hwn.1
      have hnode := (hspec.node_eq u w hu hwn.1 hiu hwn.2).2
        ((hrep.iff u w hu hwn.1).2 huw)
      rw [hai, hnode]
      exact posthoc_node_ancestor h w hwn.1 i hi hwn.2
    have hres := eqvGen_restrict (fun w => c ≤ cores.getD w 0) u hcomp u v huv
      (Relation.EqvGen.refl u)
    refine eqvGen_of_le ?_ u v hres
    rintro x y ⟨⟨he, -, -⟩, hx, hy⟩
    exact Relation.EqvGen.rel _ _ ⟨he, hx, hy⟩
  · intro huv
    obtain ⟨i, hi, hci, hmin⟩ := posthoc_level_of h c u hu hcu
    have hspec := (posthoc_levels h i hi).2
    have hrep := posthoc_uf_rep h i hi
    rw [max_eq_left (by omega)] at hrep
    have hiu := hmin u hu hcu
    have hiv := hmin v hv hcv
    have huv2 : Relation.EqvGen (induced_edge G cores (first_current_core sort G cores i))
        u v := by
      refine eqvGen_of_le ?_ u v huv
      rintro x y hxy
      obtain ⟨hx, hy⟩ := induced_edge_lt G h.wf cores c x y hxy
      exact Relation.EqvGen.rel _ _ ⟨hxy.1, hmin x hx hxy.2.1, hmin y hy hxy.2.2⟩
    have hnode := (hspec.node_eq u v hu hv hiu hiv).2 ((hrep.iff u v hu hv).2 huv2)
    refine ⟨_, posthoc_node_ancestor h u hu i hi hiu, ?_, ?_⟩
    · rw [hnode]
      exact posthoc_node_ancestor h v hv i hi hiv
    · intro w hw haw
      obtain ⟨j, hj, hjw, hwj⟩ := posthoc_ancestor_node h w hw _ haw
      have hij : i = j := posthoc_node_level h u w hu hw i j hi hj hiu hjw hwj
      subst hij
      omega

/-- The root of a vertex has the core number of the vertex. -/
theorem EfficientInv.cores_root {n : Nat} {cores : Nat → Nat} {P : Nat → Prop}
    {s : EfficientConnectWhilePeeling} (hinv : EfficientInv n cores P s) (a : Nat)
    (ha : a < n) : cores (s.uf.getD a 0) = cores a := by
  by_cases hP : P a
  · exact hinv.root_cores a ha hP
  · rw [(hinv.unpeeled a ha hP).1]

/-- A vertex with a link is peeled. -/
theorem EfficientInv.peeled_of_link {n : Nat} {cores : Nat → Nat} {P : Nat → Prop}
    {s : EfficientConnectWhilePeeling} (hinv : EfficientInv n cores P s) (a : Nat)
    (ha : a < n) (hl : s.links.getD a UINT_E_MAX ≠ UINT_E_MAX) : P a := by
  by_contra hP
  exact hl (hinv.unpeeled a ha hP).2

/-- The ends of an edge of the structure are peeled vertices. -/
theorem struct_edge_peeled {n : Nat} {cores : Nat → Nat} {P : Nat → Prop}
    {s : EfficientConnectWhilePeeling} (hinv : EfficientInv n cores P s) (t x y : Nat)
    (h : struct_edge cores s t x y) : x < n ∧ y < n ∧ P x ∧ P y := by
  obtain ⟨hx, hne, -, -, hor⟩ := h
  rw [hinv.length_uf] at hx
  rcases hor with h1 | ⟨h1, h2, h3⟩
  · have hP : P x := by
      by_contra hP
      exact hne ((hinv.unpeeled x hx hP).1.symm.trans h1)
    rw [← h1]
    exact ⟨hx, hinv.root_lt x hx, hP, hinv.root_peeled x hx hP⟩
  · have hl : s.links.getD x UINT_E_MAX ≠ UINT_E_MAX := by rw [h2]; exact h3
    obtain ⟨h4, h5, -⟩ := hinv.link x hx hl
    rw [← h2]
    exact ⟨hx, h4, hinv.peeled_of_link x hx hl, h5⟩

/-- The edges of the structure depend on the core numbers of the peeled vertices only. -/
theorem struct_edge_congr {n : Nat} {c c2 : Nat → Nat} {P : Nat → Prop}
    {s : EfficientConnectWhilePeeling} (hinv : EfficientInv n c P s)
    (h : ∀ a, a < n → P a → c a = c2 a) (t x y : Nat) :
    struct_edge c s t x y ↔ struct_edge c2 s t x y := by
  constructor
  · intro hxy
    obtain ⟨hx, hy, hPx, hPy⟩ := struct_edge_peeled hinv t x y hxy
    obtain ⟨h1, h2, h3, h4, h5⟩ := hxy
    exact ⟨h1, h2, by rw [← h x hx hPx]; exact h3, by rw [← h y hy hPy]; exact h4, h5⟩
  · intro hxy
    have hinv2 := EfficientInv_congr n c c2 P s h hinv
    obtain ⟨hx, hy, hPx, hPy⟩ := struct_edge_peeled hinv2 t x y hxy
    obtain ⟨h1, h2, h3, h4, h5⟩ := hxy
    exact ⟨h1, h2, by rw [h x hx hPx]; exact h3, by rw [h y hy hPy]; exact h4, h5⟩

/-- An edge of the structure at a threshold is an edge at every smaller threshold. -/
theorem struct_edge_mono (cores : Nat → Nat) (s : EfficientConnectWhilePeeling) (t t2 : Nat)
    (ht : t2 ≤ t) (x y : Nat) (h : struct_edge cores s t x y) : struct_edge cores s t2 x y :=
  ⟨h.1, h.2.1, le_trans ht h.2.2.1, le_trans ht h.2.2.2.1, h.2.2.2.2⟩

/-- A vertex is joined with its root. -/
theorem struct_root {n : Nat} {cores : Nat → Nat} {P : Nat → Prop}
    {s : EfficientConnectWhilePeeling} (hinv : EfficientInv n cores P s) (t x : Nat)
    (hx : x < n) (ht : t ≤ cores x) :
    Relation.EqvGen (struct_edge cores s t) x (s.uf.getD x 0) := by
  by_cases h : x = s.uf.getD x 0
  · rw [← h]
    exact Relation.EqvGen.refl _
  · exact Relation.EqvGen.rel _ _ ⟨by rw [hinv.length_uf]; exact hx, h, ht,
      by rw [hinv.cores_root x hx]; exact ht, Or.inl rfl⟩

/-- A root is joined with its link at the thresholds up to the core number of the link. -/
theorem struct_link {n : Nat} {cores : Nat → Nat} {P : Nat → Prop}
    {s : EfficientConnectWhilePeeling} (hinv : EfficientInv n cores P s) (t r : Nat)
    (hr : r < n) (hroot : s.uf.getD r 0 = r)
    (hl : s.links.getD r UINT_E_MAX ≠ UINT_E_MAX)
    (ht : t ≤ cores (s.links.getD r UINT_E_MAX)) :
    struct_edge cores s t r (s.links.getD r UINT_E_MAX) := by
  obtain ⟨h1, h2, h3⟩ := hinv.link r hr hl
  refine ⟨by rw [hinv.length_uf]; exact hr, ?_, by omega, ht, Or.inr ⟨hroot, rfl, hl⟩⟩
  intro h
  rw [← h] at h3
  omega

/-- The edges of the structure after the union of two roots of one core number are paths of
the structure before the union with the pair of the roots added. -/
theorem struct_edge_unite_le {n : Nat} {cores : Nat → Nat} {P : Nat → Prop}
    {s : EfficientConnectWhilePeeling} (hinv : EfficientInv n cores P s) (a b : Nat)
    (ha : a < n) (hPa : P a) (hPb : P b)
    (hra : s.uf.getD a 0 = a) (hrb : s.uf.getD b 0 = b) (hc : cores a = cores b)
    (t x y : Nat) (h : struct_edge cores ⟨unite_impl a b s.uf, s.links⟩ t x y) :
    Relation.EqvGen (fun x y => struct_edge cores s t x y ∨
      (t ≤ cores a ∧ t ≤ cores b ∧ x = a ∧ y = b)) x y := by
  obtain ⟨hinv1, hget⟩ := EfficientInv_unite n cores P s hinv a b ha hPa hPb hra hrb hc
  obtain ⟨hx, hne, hcx, hcy, hor⟩ := h
  have hxn : x < n := by
    rw [← hinv1.length_uf]
    exact hx
  have hxl : x < s.uf.length := by rw [hinv.length_uf]; exact hxn
  change (unite_impl a b s.uf).getD x 0 = y ∨
    ((unite_impl a b s.uf).getD x 0 = x ∧ s.links.getD x UINT_E_MAX = y ∧
      y ≠ UINT_E_MAX) at hor
  rw [hget x hxn] at hor
  have hcr := hinv.cores_root x hxn
  by_cases hmax : s.uf.getD x 0 = max a b
  · rw [if_pos hmax] at hor
    have hcm : cores (max a b) = cores x := by rw [← hmax]; exact hcr
    have hca : t ≤ cores a := by
      rcases max_choice a b with h | h <;> rw [h] at hcm <;> omega
    have hpair : Relation.EqvGen (fun x y => struct_edge cores s t x y ∨
        (t ≤ cores a ∧ t ≤ cores b ∧ x = a ∧ y = b)) (max a b) (min a b) := by
      rcases le_total a b with h | h
      · rw [max_eq_right h, min_eq_left h]
        exact Relation.EqvGen.symm _ _
          (Relation.EqvGen.rel _ _ (Or.inr ⟨hca, by omega, rfl, rfl⟩))
      · rw [max_eq_left h, min_eq_right h]
        exact Relation.EqvGen.rel _ _ (Or.inr ⟨hca, by omega, rfl, rfl⟩)
    rcases hor with h1 | ⟨h1, h2, h3⟩
    · rw [← h1]
      refine Relation.EqvGen.trans _ _ _ ?_ hpair
      by_cases hxm : x = max a b
      · rw [← hxm]
        exact Relation.EqvGen.refl _
      · exact Relation.EqvGen.rel _ _ (Or.inl ⟨hxl, hxm, hcx, by omega, Or.inl hmax⟩)
    · have hroot : s.uf.getD x 0 = x := by
        rw [hmax, ← h1]
        have hmin : s.uf.getD (min a b) 0 = min a b := by
          rcases min_choice a b with h | h <;> rw [h] <;> assumption
        rw [← h1] at hmax
        rw [hmin] at hmax
        exact hmax.symm
      exact Relation.EqvGen.rel _ _ (Or.inl ⟨hxl, hne, hcx, hcy, Or.inr ⟨hroot, h2, h3⟩⟩)
  · rw [if_neg hmax] at hor
    exact Relation.EqvGen.rel _ _ (Or.inl ⟨hxl, hne, hcx, hcy, hor⟩)

/-- After the union of two roots of one core number the larger root is joined with the
smaller one. -/
theorem struct_unite_pair {n : Nat} {cores : Nat → Nat} {P : Nat → Prop}
    {s : EfficientConnectWhilePeeling} (hinv : EfficientInv n cores P s) (a b : Nat)
    (ha : a < n) (hb : b < n) (hPa : P a) (hPb : P b)
    (hra : s.uf.getD a 0 = a) (hrb : s.uf.getD b 0 = b) (hc : cores a = cores b)
    (t : Nat) (ht : t ≤ cores a) :
    Relation.EqvGen (struct_edge cores ⟨unite_impl a b s.uf, s.links⟩ t) (max a b) (min a b) ∧
    Relation.EqvGen (struct_edge cores ⟨unite_impl a b s.uf, s.links⟩ t) a b := by
  obtain ⟨hinv1, hget⟩ := EfficientInv_unite n cores P s hinv a b ha hPa hPb hra hrb hc
  have hmn : max a b < n := by
    rcases max_choice a b with h | h <;> rw [h] <;> assumption
  have hmr : s.uf.getD (max a b) 0 = max a b := by
    rcases max_choice a b with h | h <;> rw [h] <;> assumption
  have hcm : cores (max a b) = cores a := by
    rcases max_choice a b with h | h <;> rw [h]
    exact hc.symm
  have hcp : cores (min a b) = cores a := by
    rcases min_choice a b with h | h <;> rw [h]
    exact hc.symm
  have h1 : Relation.EqvGen (struct_edge cores ⟨unite_impl a b s.uf, s.links⟩ t)
      (max a b) (min a b) := by
    by_cases hmm : max a b = min a b
    · rw [hmm]
      exact Relation.EqvGen.refl _
    · refine Relation.EqvGen.rel _ _ ⟨?_, hmm, by omega, by omega, Or.inl ?_⟩
      · change max a b < (unite_impl a b s.uf).length
        rw [hinv1.length_uf]
        exact hmn
      · change (unite_impl a b s.uf).getD (max a b) 0 = min a b
        rw [hget _ hmn, if_pos hmr]
  refine ⟨h1, ?_⟩
  rcases le_total a b with h | h
  · rw [max_eq_right h, min_eq_left h] at h1
    exact Relation.EqvGen.symm _ _ h1
  · rw [max_eq_left h, min_eq_right h] at h1
    exact h1

/-- An edge of the structure before the union of two roots of one core number is a path of
the structure after the union, unless it is the link of the larger root. -/
theorem struct_edge_le_unite {n : Nat} {cores : Nat → Nat} {P : Nat → Prop}
    {s : EfficientConnectWhilePeeling} (hinv : EfficientInv n cores P s) (a b : Nat)
    (ha : a < n) (hb : b < n) (hPa : P a) (hPb : P b)
    (hra : s.uf.getD a 0 = a) (hrb : s.uf.getD b 0 = b) (hc : cores a = cores b)
    (t x y : Nat) (h : struct_edge cores s t x y) :
    Relation.EqvGen (struct_edge cores ⟨unite_impl a b s.uf, s.links⟩ t) x y ∨
      (a ≠ b ∧ x = max a b ∧ s.links.getD x UINT_E_MAX = y ∧ y ≠ UINT_E_MAX) := by
  obtain ⟨hinv1, hget⟩ := EfficientInv_unite n cores P s hinv a b ha hPa hPb hra hrb hc
  obtain ⟨hx, hne, hcx, hcy, hor⟩ := h
  have hxn : x < n := by
    rw [← hinv.length_uf]
    exact hx
  have hxl : x < (unite_impl a b s.uf).length := by rw [hinv1.length_uf]; exact hxn
  have hmin : s.uf.getD (min a b) 0 = min a b := by
    rcases min_choice a b with h | h <;> rw [h] <;> assumption
  rcases hor with h1 | ⟨h1, h2, h3⟩
  · left
    by_cases hmax : y = max a b
    · have hca : t ≤ cores a := by
        rcases max_choice a b with h | h <;> rw [h] at hmax <;> rw [hmax] at hcy <;> omega
      have hpair := (struct_unite_pair hinv a b ha hb hPa hPb hra hrb hc t hca).1
      rw [hmax]
      refine Relation.EqvGen.trans _ _ _ ?_ (Relation.EqvGen.symm _ _ hpair)
      have hxm : x ≠ min a b := by
        intro hxm
        rw [hxm, hmin] at h1
        exact hne (hxm.trans h1)
      have hcp : cores (min a b) = cores a := by
        rcases min_choice a b with h | h <;> rw [h]
        exact hc.symm
      refine Relation.EqvGen.rel _ _ ⟨hxl, hxm, hcx, by omega, Or.inl ?_⟩
      change (unite_impl a b s.uf).getD x 0 = min a b
      rw [hget x hxn, if_pos (h1.trans hmax)]
    · refine Relation.EqvGen.rel _ _ ⟨hxl, hne, hcx, hcy, Or.inl ?_⟩
      change (unite_impl a b s.uf).getD x 0 = y
      rw [hget x hxn, if_neg (by rw [h1]; exact hmax)]
      exact h1
  · by_cases hlost : a ≠ b ∧ x = max a b
    · exact Or.inr ⟨hlost.1, hlost.2, h2, h3⟩
    · left
      refine Relation.EqvGen.rel _ _ ⟨hxl, hne, hcx, hcy, Or.inr ⟨?_, h2, h3⟩⟩
      change (unite_impl a b s.uf).getD x 0 = x
      rw [hget x hxn, h1]
      by_cases hxm : x = max a b
      · rw [if_pos hxm]
        have hab : a = b := by
          by_contra hab
          exact hlost ⟨hab, hxm⟩
        rw [hxm, hab, max_self, min_self]
      · rw [if_neg hxm]

/-- A path of the structure is a path of the structure with a pair added. -/
theorem struct_edge_with_lift (cores : Nat → Nat) (s : EfficientConnectWhilePeeling)
    (t a b x y : Nat) (h : Relation.EqvGen (struct_edge cores s t) x y) :
    Relation.EqvGen (struct_edge_with cores s t a b) x y :=
  eqvGen_of_le (fun _ _ hxy => Relation.EqvGen.rel _ _ (Or.inl hxy)) x y h

/-- The added pair joins its two vertices. -/
theorem struct_edge_with_pair (cores : Nat → Nat) (s : EfficientConnectWhilePeeling)
    (t a b : Nat) (ha : t ≤ cores a) (hb : t ≤ cores b) :
    Relation.EqvGen (struct_edge_with cores s t a b) a b :=
  Relation.EqvGen.rel _ _ (Or.inr ⟨ha, hb, rfl, rfl⟩)

/-- Adding a pair joins the same vertices as adding the pair of the roots. -/
theorem struct_edge_with_roots {n : Nat} {cores : Nat → Nat} {P : Nat → Prop}
    {s : EfficientConnectWhilePeeling} (hinv : EfficientInv n cores P s) (a b : Nat)
    (ha : a < n) (hb : b < n) (t x y : Nat) :
    Relation.EqvGen (struct_edge_with cores s t (s.uf.getD a 0) (s.uf.getD b 0)) x y ↔
      Relation.EqvGen (struct_edge_with cores s t a b) x y := by
  have hca := hinv.cores_root a ha
  have hcb := hinv.cores_root b hb
  apply eqvGen_congr
  · rintro u v (h | ⟨h1, h2, rfl, rfl⟩)
    · exact Relation.EqvGen.rel _ _ (Or.inl h)
    · rw [hca] at h1
      rw [hcb] at h2
      exact Relation.EqvGen.trans _ _ _
        (Relation.EqvGen.symm _ _ (struct_edge_with_lift cores s t a b _ _
          (struct_root hinv t a ha h1)))
        (Relation.EqvGen.trans _ _ _ (struct_edge_with_pair cores s t a b h1 h2)
          (struct_edge_with_lift cores s t a b _ _ (struct_root hinv t b hb h2)))
  · rintro u v (h | ⟨h1, h2, rfl, rfl⟩)
    · exact Relation.EqvGen.rel _ _ (Or.inl h)
    · exact Relation.EqvGen.trans _ _ _
        (struct_edge_with_lift cores s t _ _ _ _ (struct_root hinv t u ha h1))
        (Relation.EqvGen.trans _ _ _
          (struct_edge_with_pair cores s t _ _ (by rw [hca]; exact h1) (by rw [hcb]; exact h2))
          (Relation.EqvGen.symm _ _
            (struct_edge_with_lift cores s t _ _ _ _ (struct_root hinv t v hb h2))))

/-- Adding a pair joins the same vertices as adding the reversed pair. -/
theorem struct_edge_with_swap (cores : Nat → Nat) (s : EfficientConnectWhilePeeling)
    (t a b x y : Nat) :
    Relation.EqvGen (struct_edge_with cores s t b a) x y ↔
      Relation.EqvGen (struct_edge_with cores s t a b) x y := by
  apply eqvGen_congr
  · rintro u v (h | ⟨h1, h2, rfl, rfl⟩)
    · exact Relation.EqvGen.rel _ _ (Or.inl h)
    · exact Relation.EqvGen.symm _ _ (struct_edge_with_pair cores s t _ _ h2 h1)
  · rintro u v (h | ⟨h1, h2, rfl, rfl⟩)
    · exact Relation.EqvGen.rel _ _ (Or.inl h)
    · exact Relation.EqvGen.symm _ _ (struct_edge_with_pair cores s t _ _ h2 h1)

/-- The edges of the structure after a link is stored at the root `b`: the edges before and
the new link. -/
theorem struct_edge_set_link_le {n : Nat} {cores : Nat → Nat} {P : Nat → Prop}
    {s : EfficientConnectWhilePeeling} (hinv : EfficientInv n cores P s) (a b : Nat)
    (hb : b < n) (t x y : Nat) (h : struct_edge cores ⟨s.uf, s.links.set b a⟩ t x y) :
    struct_edge cores s t x y ∨ (x = b ∧ y = a) := by
  obtain ⟨hx, hne, hcx, hcy, hor⟩ := h
  rcases hor with h1 | ⟨h1, h2, h3⟩
  · exact Or.inl ⟨hx, hne, hcx, hcy, Or.inl h1⟩
  · change (s.links.set b a).getD x UINT_E_MAX = y at h2
    rw [getD_set _ _ _ _ _ (by rw [hinv.length_links]; exact hb)] at h2
    by_cases hxb : x = b
    · rw [if_pos hxb] at h2
      exact Or.inr ⟨hxb, h2.symm⟩
    · rw [if_neg hxb] at h2
      exact Or.inl ⟨hx, hne, hcx, hcy, Or.inr ⟨h1, h2, h3⟩⟩

/-- An edge of the structure is an edge after a link is stored at the root `b`, unless it is
the old link of `b`. -/
theorem struct_edge_le_set_link {n : Nat} {cores : Nat → Nat} {P : Nat → Prop}
    {s : EfficientConnectWhilePeeling} (hinv : EfficientInv n cores P s) (a b : Nat)
    (hb : b < n) (t x y : Nat) (h : struct_edge cores s t x y) :
    struct_edge cores ⟨s.uf, s.links.set b a⟩ t x y ∨
      (x = b ∧ s.links.getD b UINT_E_MAX = y ∧ y ≠ UINT_E_MAX) := by
  obtain ⟨hx, hne, hcx, hcy, hor⟩ := h
  rcases hor with h1 | ⟨h1, h2, h3⟩
  · exact Or.inl ⟨hx, hne, hcx, hcy, Or.inl h1⟩
  · by_cases hxb : x = b
    · rw [hxb] at h2
      exact Or.inr ⟨hxb, h2, h3⟩
    · refine Or.inl ⟨hx, hne, hcx, hcy, Or.inr ⟨h1, ?_, h3⟩⟩
      change (s.links.set b a).getD x UINT_E_MAX = y
      rw [getD_set _ _ _ _ _ (by rw [hinv.length_links]; exact hb), if_neg hxb]
      exact h2

/-- The link stored at the root `b` is an edge of the structure. -/
theorem struct_edge_new_link {n : Nat} {cores : Nat → Nat} {P : Nat → Prop}
    {s : EfficientConnectWhilePeeling} (hinv : EfficientInv n cores P s) (hn : n ≤ UINT_E_MAX)
    (a b : Nat) (ha : a < n) (hb : b < n) (hrb : s.uf.getD b 0 = b)
    (hc : cores a < cores b) (t : Nat) (ht : t ≤ cores a) :
    struct_edge cores ⟨s.uf, s.links.set b a⟩ t b a := by
  refine ⟨by rw [hinv.length_uf]; exact hb, ?_, by omega, ht, Or.inr ⟨hrb, ?_, by omega⟩⟩
  · intro h
    rw [h] at hc
    omega
  · change (s.links.set b a).getD b UINT_E_MAX = a
    rw [getD_set _ _ _ _ _ (by rw [hinv.length_links]; exact hb), if_pos rfl]

/-- The method `EfficientConnectWhilePeeling::link` on two peeled vertices `a` and `b`
returns, keeps the invariant, and adds the pair `(a, b)` to the connectivity of the structure:
at every threshold `t`, the vertices joined by the structure afterwards are the vertices
joined by the structure before and the pair `(a, b)`, the pair counting when both have core
number at least `t`. -/
theorem EfficientConnectWhilePeeling_link_spec (n : Nat) (cores : Nat → Nat) (P : Nat → Prop)
    (hn : n ≤ UINT_E_MAX)
    (fuel : Nat) (a b : Nat) (s : EfficientConnectWhilePeeling)
    (hinv : EfficientInv n cores P s) (ha : a < n) (hb : b < n) (hPa : P a) (hPb : P b)
    (hfuel : link_measure cores a b < fuel) :
    ∃ s2, EfficientConnectWhilePeeling.link cores fuel a b s = some s2 ∧
      EfficientInv n cores P s2 ∧
      ∀ t x y, Relation.EqvGen (struct_edge cores s2 t) x y ↔
        Relation.EqvGen (struct_edge_with cores s t a b) x y := by
  induction fuel generalizing a b s with
  | zero => exact absurd hfuel (Nat.not_lt_zero _)
  | succ fuel ih =>
    obtain ⟨a2, ha2⟩ : ∃ a2, find_compress a s.uf = a2 := ⟨_, rfl⟩
    obtain ⟨b2, hb2⟩ : ∃ b2, find_compress b s.uf = b2 := ⟨_, rfl⟩
    have ha2n : a2 < n := by rw [← ha2]; exact hinv.root_lt a ha
    have hb2n : b2 < n := by rw [← hb2]; exact hinv.root_lt b hb
    have hPa2 : P a2 := by rw [← ha2]; exact hinv.root_peeled a ha hPa
    have hPb2 : P b2 := by rw [← hb2]; exact hinv.root_peeled b hb hPb
    have hca : cores a2 = cores a := by rw [← ha2]; exact hinv.root_cores a ha hPa
    have hcb : cores b2 = cores b := by rw [← hb2]; exact hinv.root_cores b hb hPb
    have hra : s.uf.getD a2 0 = a2 := by rw [← ha2]; exact hinv.root_root a ha
    have hrb : s.uf.getD b2 0 = b2 := by rw [← hb2]; exact hinv.root_root b hb
    have hfa : find_compress a2 s.uf = a2 := hra
    have hfb : find_compress b2 s.uf = b2 := hrb
    -- it suffices to add the pair of the roots
    suffices hsuff : ∃ s2, EfficientConnectWhilePeeling.link cores (fuel + 1) a b s = some s2 ∧
        EfficientInv n cores P s2 ∧
        ∀ t x y, Relation.EqvGen (struct_edge cores s2 t) x y ↔
          Relation.EqvGen (struct_edge_with cores s t a2 b2) x y by
      obtain ⟨s2, h1, h2, h3⟩ := hsuff
      refine ⟨s2, h1, h2, fun t x y => ?_⟩
      rw [h3 t x y, ← struct_edge_with_roots hinv a b ha hb t x y]
      change _ ↔ Relation.EqvGen (struct_edge_with cores s t (find_compress a s.uf)
        (find_compress b s.uf)) x y
      rw [ha2, hb2]
    rw [EfficientConnectWhilePeeling.link]
    simp only [ha2, hb2, hfa, hfb]
    unfold link_measure at hfuel
    rw [← hca, ← hcb] at hfuel
    by_cases heq : cores a2 = cores b2
    · -- equal core numbers
      rw [if_pos heq]
      rw [if_pos heq, heq, max_self] at hfuel
      obtain ⟨hinv1, hget⟩ := EfficientInv_unite n cores P s hinv a2 b2 ha2n hPa2 hPb2 hra hrb heq
      obtain ⟨p, hp⟩ : ∃ p, find_compress a2 (unite_impl a2 b2 s.uf) = p := ⟨_, rfl⟩
      have hpmin : p = min a2 b2 := by
        rw [← hp]
        change (unite_impl a2 b2 s.uf).getD a2 0 = min a2 b2
        rw [hget a2 ha2n, hra]
        split_ifs with h
        · rfl
        · rcases le_total a2 b2 with h2 | h2
          · rw [min_eq_left h2]
          · rw [max_eq_left h2] at h
            exact absurd rfl h
      have hpn : p < n := by rw [← hp]; exact hinv1.root_lt a2 ha2n
      have hPp : P p := by rw [← hp]; exact hinv1.root_peeled a2 ha2n hPa2
      have hcp : cores p = cores a2 := by rw [← hp]; exact hinv1.root_cores a2 ha2n hPa2
      simp only [hp]
      -- the nested call for the root `m` that is not the root any more
      have hnested : ∀ m, (m = a2 ∨ m = b2) → m = max a2 b2 → a2 ≠ b2 →
          s.links.getD m UINT_E_MAX ≠ UINT_E_MAX →
          ∃ s2, EfficientConnectWhilePeeling.link cores fuel (s.links.getD m UINT_E_MAX) p
              ⟨unite_impl a2 b2 s.uf, s.links⟩ = some s2 ∧
            EfficientInv n cores P s2 ∧
            ∀ t x y, Relation.EqvGen (struct_edge cores s2 t) x y ↔
              Relation.EqvGen (struct_edge_with cores s t a2 b2) x y := by
        intro m hm hmax hne hl
        have hmn : m < n := by rcases hm with h | h <;> rw [h] <;> assumption
        have hmr : s.uf.getD m 0 = m := by rcases hm with h | h <;> rw [h] <;> assumption
        have hcm : cores m = cores a2 := by
          rcases hm with h | h <;> rw [h]
          exact heq.symm
        obtain ⟨hl1, hl2, hl3⟩ := hinv.link m hmn hl
        obtain ⟨s2, hs2, hinv2, hspec2⟩ := ih _ _ _ hinv1 hl1 hpn hl2 hPp (by
          unfold link_measure
          have hne : cores (s.links.getD m UINT_E_MAX) ≠ cores p := by omega
          have hlt : cores (s.links.getD m UINT_E_MAX) < cores p := by omega
          rw [if_neg hne, if_pos hlt, max_eq_right (le_of_lt hlt)]
          omega)
        refine ⟨s2, hs2, hinv2, fun t x y => ?_⟩
        rw [hspec2 t x y]
        have hmp : ∀ t, t ≤ cores a2 →
            Relation.EqvGen (struct_edge_with cores s t a2 b2) m p := by
          intro t ht
          rw [hmax, hpmin]
          rcases le_total a2 b2 with h | h
          · rw [max_eq_right h, min_eq_left h]
            exact Relation.EqvGen.symm _ _
              (struct_edge_with_pair cores s t a2 b2 ht (by omega))
          · rw [max_eq_left h, min_eq_right h]
            exact struct_edge_with_pair cores s t a2 b2 ht (by omega)
        apply eqvGen_congr
        · rintro u v (h | ⟨h1, h2, hu, hv⟩)
          · exact struct_edge_unite_le hinv a2 b2 ha2n hPa2 hPb2 hra hrb heq t u v h
          · rw [hu, hv]
            exact Relation.EqvGen.trans _ _ _
              (Relation.EqvGen.symm _ _ (Relation.EqvGen.rel _ _
                (Or.inl (struct_link hinv t m hmn hmr hl h1))))
              (hmp t (by omega))
        · rintro u v (h | ⟨h1, h2, hu, hv⟩)
          · rcases struct_edge_le_unite hinv a2 b2 ha2n hb2n hPa2 hPb2 hra hrb heq t u v h
              with h3 | ⟨-, h4, h5, h6⟩
            · exact struct_edge_with_lift cores _ t _ _ u v h3
            · have hum : u = m := by rw [h4, hmax]
              rw [hum] at h5
              have hcu := h.2.2.1
              have hcv := h.2.2.2.1
              rw [hum] at hcu
              rw [← h5] at hcv
              rw [hum, ← h5]
              have hpair := (struct_unite_pair hinv a2 b2 ha2n hb2n hPa2 hPb2 hra hrb heq t
                (by omega)).1
              rw [← hmax, ← hpmin] at hpair
              exact Relation.EqvGen.trans _ _ _
                (struct_edge_with_lift cores _ t _ _ _ _ hpair)
                (Relation.EqvGen.symm _ _
                  (struct_edge_with_pair cores _ t _ _ hcv (by omega)))
          · rw [hu, hv]
            exact struct_edge_with_lift cores _ t _ _ _ _
              (struct_unite_pair hinv a2 b2 ha2n hb2n hPa2 hPb2 hra hrb heq t h1).2
      -- no nested call
      have hplain : (∀ m, (m = a2 ∨ m = b2) → m = max a2 b2 → a2 ≠ b2 →
          s.links.getD m UINT_E_MAX = UINT_E_MAX) →
          ∀ t x y, Relation.EqvGen
              (struct_edge cores ⟨unite_impl a2 b2 s.uf, s.links⟩ t) x y ↔
            Relation.EqvGen (struct_edge_with cores s t a2 b2) x y := by
        intro hno t x y
        apply eqvGen_congr
        · intro u v h
          exact struct_edge_unite_le hinv a2 b2 ha2n hPa2 hPb2 hra hrb heq t u v h
        · rintro u v (h | ⟨h1, h2, hu, hv⟩)
          · rcases struct_edge_le_unite hinv a2 b2 ha2n hb2n hPa2 hPb2 hra hrb heq t u v h
              with h3 | ⟨h3, h4, h5, h6⟩
            · exact h3
            · exfalso
              have := hno u (by
                rcases max_choice a2 b2 with h | h <;> rw [h] at h4
                · exact Or.inl h4
                · exact Or.inr h4) h4 h3
              rw [this] at h5
              exact h6 h5.symm
          · rw [hu, hv]
            exact (struct_unite_pair hinv a2 b2 ha2n hb2n hPa2 hPb2 hra hrb heq t h1).2
      by_cases h1 : s.links.getD a2 UINT_E_MAX ≠ UINT_E_MAX ∧ p ≠ a2
      · rw [if_pos h1]
        have hlt : b2 < a2 := by
          have := h1.2
          rw [hpmin] at this
          rcases le_total a2 b2 with h | h
          · rw [min_eq_left h] at this
            exact absurd rfl this
          · rcases Nat.eq_or_lt_of_le h with h2 | h2
            · rw [h2, min_self] at this
              exact absurd rfl this
            · exact h2
        obtain ⟨s2, hs2, hinv2, hspec2⟩ := hnested a2 (Or.inl rfl)
          (by rw [max_eq_left (le_of_lt hlt)]) (by omega) h1.1
        rw [hs2, Option.some_bind]
        have hpb : p = b2 := by rw [hpmin, min_eq_right (le_of_lt hlt)]
        rw [if_neg (fun h => h.2 hpb)]
        exact ⟨s2, rfl, hinv2, hspec2⟩
      · rw [if_neg h1, Option.some_bind]
        by_cases h2 : s.links.getD b2 UINT_E_MAX ≠ UINT_E_MAX ∧ p ≠ b2
        · rw [if_pos h2]
          have hlt : a2 < b2 := by
            have := h2.2
            rw [hpmin] at this
            rcases le_total a2 b2 with h | h
            · rcases Nat.eq_or_lt_of_le h with h3 | h3
              · rw [h3, min_self] at this
                exact absurd rfl this
              · exact h3
            · rw [min_eq_right h] at this
              exact absurd rfl this
          exact hnested b2 (Or.inr rfl) (by rw [max_eq_right (le_of_lt hlt)]) (by omega) h2.1
        · rw [if_neg h2]
          refine ⟨_, rfl, hinv1, hplain ?_⟩
          intro m hm hmax hne
          by_contra hl
          rcases hm with hm | hm
          · apply h1
            rw [← hm]
            refine ⟨hl, ?_⟩
            rw [hpmin, hmax]
            intro h
            have := min_le_max (a := a2) (b := b2)
            rcases le_total a2 b2 with h3 | h3
            · rw [min_eq_left h3, max_eq_right h3] at h
              exact hne h
            · rw [min_eq_right h3, max_eq_left h3] at h
              exact hne h.symm
          · apply h2
            rw [← hm]
            refine ⟨hl, ?_⟩
            rw [hpmin, hmax]
            intro h
            rcases le_total a2 b2 with h3 | h3
            · rw [min_eq_left h3, max_eq_right h3] at h
              exact hne h
            · rw [min_eq_right h3, max_eq_left h3] at h
              exact hne h.symm
    · rw [if_neg heq]
      rw [if_neg heq] at hfuel
      by_cases hlt : cores a2 < cores b2
      · -- the first argument has the smaller core number
        rw [if_pos hlt]
        rw [if_pos hlt, max_eq_right (le_of_lt hlt)] at hfuel
        have hinv1 := EfficientInv_set_link n cores P s hinv a2 b2 ha2n hb2n hPa2 hPb2 hlt
        by_cases hc : s.links.getD b2 UINT_E_MAX = UINT_E_MAX
        · rw [if_pos hc]
          refine ⟨_, rfl, hinv1, fun t x y => ?_⟩
          apply eqvGen_congr
          · intro u v h
            rcases struct_edge_set_link_le hinv a2 b2 hb2n t u v h with h1 | ⟨h1, h2⟩
            · exact Relation.EqvGen.rel _ _ (Or.inl h1)
            · have hcu := h.2.2.1
              have hcv := h.2.2.2.1
              rw [h1] at hcu
              rw [h2] at hcv
              rw [h1, h2]
              exact Relation.EqvGen.symm _ _ (struct_edge_with_pair cores s t a2 b2 hcv hcu)
          · rintro u v (h | ⟨h1, h2, hu, hv⟩)
            · rcases struct_edge_le_set_link hinv a2 b2 hb2n t u v h with h3 | ⟨-, h4, h5⟩
              · exact Relation.EqvGen.rel _ _ h3
              · rw [hc] at h4
                exact absurd h4.symm h5
            · rw [hu, hv]
              exact Relation.EqvGen.symm _ _ (Relation.EqvGen.rel _ _
                (struct_edge_new_link hinv hn a2 b2 ha2n hb2n hrb hlt t h1))
        · rw [if_neg hc]
          obtain ⟨hl1, hl2, hl3⟩ := hinv.link b2 hb2n hc
          have hmeasure : link_measure cores a2 (s.links.getD b2 UINT_E_MAX) < fuel := by
            unfold link_measure
            have hmax : max (cores a2) (cores (s.links.getD b2 UINT_E_MAX)) < cores b2 :=
              max_lt hlt hl3
            split_ifs <;> omega
          by_cases hca2 : cores (s.links.getD b2 UINT_E_MAX) < cores a2
          · rw [if_pos hca2]
            have hnot : ¬ (b2 ≠ b2) := fun h => h rfl
            rw [if_neg hnot, Option.some_bind]
            obtain ⟨s2, hs2, hinv2, hspec2⟩ := ih _ _ _ hinv1 ha2n hl1 hPa2 hl2 hmeasure
            refine ⟨s2, hs2, hinv2, fun t x y => ?_⟩
            rw [hspec2 t x y]
            apply eqvGen_congr
            · rintro u v (h | ⟨h1, h2, hu, hv⟩)
              · rcases struct_edge_set_link_le hinv a2 b2 hb2n t u v h with h1 | ⟨h1, h2⟩
                · exact Relation.EqvGen.rel _ _ (Or.inl h1)
                · have hcu := h.2.2.1
                  have hcv := h.2.2.2.1
                  rw [h1] at hcu
                  rw [h2] at hcv
                  rw [h1, h2]
                  exact Relation.EqvGen.symm _ _
                    (struct_edge_with_pair cores s t a2 b2 hcv hcu)
              · rw [hu, hv]
                exact Relation.EqvGen.trans _ _ _
                  (struct_edge_with_pair cores s t a2 b2 h1 (by omega))
                  (Relation.EqvGen.rel _ _ (Or.inl (struct_link hinv t b2 hb2n hrb hc h2)))
            · rintro u v (h | ⟨h1, h2, hu, hv⟩)
              · rcases struct_edge_le_set_link hinv a2 b2 hb2n t u v h with h3 | ⟨h3, h4, h5⟩
                · exact Relation.EqvGen.rel _ _ (Or.inl h3)
                · have hcv := h.2.2.2.1
                  rw [← h4] at hcv
                  rw [h3, ← h4]
                  exact Relation.EqvGen.trans _ _ _
                    (Relation.EqvGen.rel _ _ (Or.inl
                      (struct_edge_new_link hinv hn a2 b2 ha2n hb2n hrb hlt t (by omega))))
                    (struct_edge_with_pair cores _ t a2 _ (by omega) hcv)
              · rw [hu, hv]
                exact Relation.EqvGen.symm _ _ (Relation.EqvGen.rel _ _ (Or.inl
                  (struct_edge_new_link hinv hn a2 b2 ha2n hb2n hrb hlt t h1)))
          · rw [if_neg hca2]
            obtain ⟨s2, hs2, hinv2, hspec2⟩ := ih _ _ _ hinv ha2n hl1 hPa2 hl2 hmeasure
            refine ⟨s2, hs2, hinv2, fun t x y => ?_⟩
            rw [hspec2 t x y]
            apply eqvGen_congr
            · rintro u v (h | ⟨h1, h2, hu, hv⟩)
              · exact Relation.EqvGen.rel _ _ (Or.inl h)
              · rw [hu, hv]
                exact Relation.EqvGen.trans _ _ _
                  (struct_edge_with_pair cores s t a2 b2 h1 (by omega))
                  (Relation.EqvGen.rel _ _ (Or.inl (struct_link hinv t b2 hb2n hrb hc h2)))
            · rintro u v (h | ⟨h1, h2, hu, hv⟩)
              · exact Relation.EqvGen.rel _ _ (Or.inl h)
              · rw [hu, hv]
                exact Relation.EqvGen.trans _ _ _
                  (struct_edge_with_pair cores s t a2 _ h1 (by omega))
                  (Relation.EqvGen.symm _ _ (Relation.EqvGen.rel _ _ (Or.inl
                    (struct_link hinv t b2 hb2n hrb hc (by omega)))))
      · -- the first argument has the larger core number
        rw [if_neg hlt]
        rw [if_neg hlt] at hfuel
        obtain ⟨s2, hs2, hinv2, hspec2⟩ := ih _ _ _ hinv hb2n ha2n hPb2 hPa2 (by
          unfold link_measure
          have hne : cores b2 ≠ cores a2 := fun h => heq h.symm
          have hlt2 : cores b2 < cores a2 := by omega
          rw [if_neg hne, if_pos hlt2, max_eq_right (le_of_lt hlt2)]
          rw [max_eq_left (le_of_lt hlt2)] at hfuel
          omega)
        refine ⟨s2, hs2, hinv2, fun t x y => ?_⟩
        rw [hspec2 t x y]
        exact struct_edge_with_swap cores s t a2 b2 x y

/-- The calls of `link` for a list of pairs of peeled vertices return, keep the invariant and
add the pairs to the connectivity of the structure at every threshold. -/
theorem foldl_link_spec (n : Nat) (cores : Nat → Nat) (P : Nat → Prop) (hn : n ≤ UINT_E_MAX)
    (fuel : Nat) (ps : List (Nat × Nat))
    (hps : ∀ p ∈ ps, p.1 < n ∧ p.2 < n ∧ P p.1 ∧ P p.2 ∧ link_measure cores p.1 p.2 < fuel)
    (e0 : EfficientConnectWhilePeeling) (hinv : EfficientInv n cores P e0) :
    ∃ e, ps.foldl (fun c p => (efficientOps fuel).link p.1 p.2 cores c) (some e0) = some e ∧
      EfficientInv n cores P e ∧
      ∀ t x y, Relation.EqvGen (struct_edge cores e t) x y ↔
        Relation.EqvGen (fun x y => struct_edge cores e0 t x y ∨
          ∃ p ∈ ps, t ≤ cores p.1 ∧ t ≤ cores p.2 ∧ x = p.1 ∧ y = p.2) x y := by
  induction ps generalizing e0 with
  | nil =>
    refine ⟨e0, rfl, hinv, fun t x y => ?_⟩
    apply eqvGen_congr
    · intro a b h
      exact Relation.EqvGen.rel _ _ (Or.inl h)
    · rintro a b (h | ⟨p, hp, -⟩)
      · exact Relation.EqvGen.rel _ _ h
      · exact absurd hp (List.not_mem_nil _)
  | cons p ps ih =>
    obtain ⟨h1, h2, h3, h4, h5⟩ := hps p (List.mem_cons_self _ _)
    obtain ⟨e1, he1, hinv1, hspec1⟩ := EfficientConnectWhilePeeling_link_spec n cores P hn fuel
      p.1 p.2 e0 hinv h1 h2 h3 h4 h5
    obtain ⟨e, he, hinve, hspec⟩ := ih (fun q hq => hps q (List.mem_cons_of_mem _ hq)) e1 hinv1
    refine ⟨e, ?_, hinve, fun t x y => ?_⟩
    · rw [List.foldl_cons]
      have : (efficientOps fuel).link p.1 p.2 cores (some e0) = some e1 := he1
      rw [this]
      exact he
    · rw [hspec t x y]
      apply eqvGen_congr
      · rintro a b (h | ⟨q, hq, hq1, hq2, ha, hb⟩)
        · have := (hspec1 t a b).1 (Relation.EqvGen.rel _ _ h)
          refine eqvGen_of_le ?_ a b this
          rintro u v (h | ⟨hu1, hu2, hu, hv⟩)
          · exact Relation.EqvGen.rel _ _ (Or.inl h)
          · exact Relation.EqvGen.rel _ _
              (Or.inr ⟨p, List.mem_cons_self _ _, hu1, hu2, hu, hv⟩)
        · exact Relation.EqvGen.rel _ _
            (Or.inr ⟨q, List.mem_cons_of_mem _ hq, hq1, hq2, ha, hb⟩)
      · rintro a b (h | ⟨q, hq, hq1, hq2, ha, hb⟩)
        · have := (hspec1 t a b).2 (Relation.EqvGen.rel _ _ (Or.inl h))
          exact eqvGen_of_le (fun u v huv => Relation.EqvGen.rel _ _ (Or.inl huv)) a b this
        · rcases List.mem_cons.1 hq with hqp | hqp
          · have := (hspec1 t a b).2 (Relation.EqvGen.rel _ _
              (Or.inr ⟨by rw [← hqp]; exact hq1, by rw [← hqp]; exact hq2,
                by rw [← hqp]; exact ha, by rw [← hqp]; exact hb⟩))
            exact eqvGen_of_le (fun u v huv => Relation.EqvGen.rel _ _ (Or.inl huv)) a b this
          · exact Relation.EqvGen.rel _ _ (Or.inr ⟨q, hqp, hq1, hq2, ha, hb⟩)

/-- One iteration of the loop of `KCore` with the hooks of the efficient inline variant keeps
the invariant `EfficientRep`: the pairs linked in the iteration are the edges between a vertex
finished in the iteration and a finished vertex. -/
theorem KCore_round_efficient_rep (G : Graph) (hwf : G.WellFormed) (hsym : G.Symmetric)
    (hn : G.n ≤ UINT_E_MAX) (ih : Bool)
    (s : KCoreState (Option EfficientConnectWhilePeeling)) (hinv : KCoreInv G s)
    (hne : s.b ≠ []) (hj : EfficientRep G s) :
    EfficientRep G (KCore_round (efficientOps (link_fuel G)) G ih s) := by
  obtain ⟨e0, he0, hinv0, hrep0⟩ := hj
  have hconn := KCore_round_connect (efficientOps (link_fuel G)) G ih s
  have hinit : (if ih = true ∧ s.prev_bkt ≠ next_bucket_id s.D s.b ∧
      next_bucket_id s.D s.b ≠ 0
      then (efficientOps (link_fuel G)).init (next_bucket_id s.D s.b) s.connect_while_peeling
      else s.connect_while_peeling) = some e0 := by
    split_ifs
    · exact he0
    · exact he0
  rw [hinit] at hconn
  have hdone := KCore_round_done (efficientOps (link_fuel G)) G ih s hinv hne
  obtain ⟨v0, hv0, hk0⟩ := next_bucket_id_mem s.D s.b hne
  have hv0n : v0 < G.n := lt_of_mem_b G.n s.b hinv.b_eq v0 hv0
  have hk_le : next_bucket_id s.D s.b ≤ G.edges.length := by
    rw [hk0]
    exact le_trans (KCoreInv_D_le G s hinv v0 hv0n) (out_neighbors_length_le_edges G v0)
  have hmemA : ∀ v, v ∈ next_bucket_identifiers s.D s.b ↔
      v ∈ s.b ∧ s.D.getD v 0 = next_bucket_id s.D s.b := mem_next_bucket_identifiers s.D s.b
  have hDle : ∀ v, v < G.n → v ∉ (KCore_round (efficientOps (link_fuel G)) G ih s).b →
      s.D.getD v 0 ≤ next_bucket_id s.D s.b := fun v hv hvb => ((hdone v hv).1).1 hvb
  have hDeq : ∀ v, v < G.n → v ∉ (KCore_round (efficientOps (link_fuel G)) G ih s).b →
      (KCore_round (efficientOps (link_fuel G)) G ih s).D.getD v 0 = s.D.getD v 0 :=
    fun v hv hvb => (hdone v hv).2.1 hvb
  have hcf : ∀ a, a < G.n → a ∉ (KCore_round (efficientOps (link_fuel G)) G ih s).b →
      cores_func s.D (next_bucket_id s.D s.b) G.n a = s.D.getD a 0 :=
    fun a ha hPa => cores_func_of_le s.D _ G.n a (hDle a ha hPa)
  -- the invariant for the peeled vertices of this iteration and the lambda `cores_func`
  have hstart : EfficientInv G.n (cores_func s.D (next_bucket_id s.D s.b) G.n)
      (fun a => a ∉ (KCore_round (efficientOps (link_fuel G)) G ih s).b) e0 := by
    apply EfficientInv_congr G.n (fun a => s.D.getD a 0)
    · intro a ha hPa
      exact (hcf a ha hPa).symm
    · exact EfficientInv_mono G.n _ (fun a => a ∉ s.b) _ e0
        (fun a ha hPa => (hdone a ha).2.2 hPa) hinv0
  have hcores_le : ∀ a, a < G.n → a ∉ (KCore_round (efficientOps (link_fuel G)) G ih s).b →
      cores_func s.D (next_bucket_id s.D s.b) G.n a ≤ G.edges.length := by
    intro a ha hPa
    rw [hcf a ha hPa]
    exact le_trans (hDle a ha hPa) hk_le
  have hpairs : ∀ p ∈ round_pairs G s.D (next_bucket_identifiers s.D s.b)
      (next_bucket_id s.D s.b),
      p.1 < G.n ∧ p.2 < G.n ∧ p.1 ∉ (KCore_round (efficientOps (link_fuel G)) G ih s).b ∧
        p.2 ∉ (KCore_round (efficientOps (link_fuel G)) G ih s).b ∧
        link_measure (cores_func s.D (next_bucket_id s.D s.b) G.n) p.1 p.2 < link_fuel G := by
    rintro ⟨a, b⟩ hp
    obtain ⟨haA, ⟨w, hw⟩, -, hle⟩ := (mem_round_pairs _ _ _ _ a b).1 hp
    have han : a < G.n := G.lt_n_of_mem_out_neighbors a _ hw
    have hbn : b < G.n := hwf.out_neighbors_lt a _ hw
    obtain ⟨-, hak⟩ := (hmemA a).1 haA
    have ha2 : a ∉ (KCore_round (efficientOps (link_fuel G)) G ih s).b :=
      ((hdone a han).1).2 (by omega)
    have hb2 : b ∉ (KCore_round (efficientOps (link_fuel G)) G ih s).b :=
      ((hdone b hbn).1).2 hle
    refine ⟨han, hbn, ha2, hb2, ?_⟩
    have h1 := hcores_le a han ha2
    have h2 := hcores_le b hbn hb2
    have h3 : max (cores_func s.D (next_bucket_id s.D s.b) G.n a)
        (cores_func s.D (next_bucket_id s.D s.b) G.n b) ≤ G.edges.length := max_le h1 h2
    unfold link_measure link_fuel
    dsimp only
    split_ifs <;> omega
  obtain ⟨e, he, hinve, hspec⟩ := foldl_link_spec G.n
    (cores_func s.D (next_bucket_id s.D s.b) G.n)
    (fun a => a ∉ (KCore_round (efficientOps (link_fuel G)) G ih s).b) hn (link_fuel G)
    _ hpairs e0 hstart
  rw [← hconn] at he
  have hinv2 : EfficientInv G.n
      (fun a => (KCore_round (efficientOps (link_fuel G)) G ih s).D.getD a 0)
      (fun a => a ∉ (KCore_round (efficientOps (link_fuel G)) G ih s).b) e := by
    apply EfficientInv_congr G.n (cores_func s.D (next_bucket_id s.D s.b) G.n)
    · intro a ha hPa
      rw [hcf a ha hPa]
      exact (hDeq a ha hPa).symm
    · exact hinve
  refine ⟨e, he, hinv2, fun t x y => ?_⟩
  have hcongr : ∀ u v, struct_edge
      (fun a => (KCore_round (efficientOps (link_fuel G)) G ih s).D.getD a 0) e t u v ↔
      struct_edge (cores_func s.D (next_bucket_id s.D s.b) G.n) e t u v :=
    fun u v => struct_edge_congr hinv2 (fun a ha hPa => by
      rw [hcf a ha hPa]
      exact hDeq a ha hPa) t u v
  have hcongr0 : ∀ u v, struct_edge (cores_func s.D (next_bucket_id s.D s.b) G.n) e0 t u v ↔
      struct_edge (fun a => s.D.getD a 0) e0 t u v :=
    fun u v => struct_edge_congr hstart (fun a ha hPa => hcf a ha hPa) t u v
  rw [eqvGen_congr (fun u v h => Relation.EqvGen.rel _ _ ((hcongr u v).1 h))
    (fun u v h => Relation.EqvGen.rel _ _ ((hcongr u v).2 h)) x y, hspec t x y]
  apply eqvGen_congr
  · rintro a b (hab | ⟨p, hp, hp1, hp2, ha, hb⟩)
    · have := (hrep0 t a b).1 (Relation.EqvGen.rel _ _ ((hcongr0 a b).1 hab))
      refine eqvGen_of_le ?_ a b this
      rintro u v ⟨⟨w, hw⟩, hu, hv, hcu, hcv⟩
      have hun : u < G.n := G.fst_lt_of_mem_edges _ hw
      have hvn : v < G.n := hwf _ hw
      have hu2 := (hdone u hun).2.2 hu
      have hv2 := (hdone v hvn).2.2 hv
      exact Relation.EqvGen.rel _ _ ⟨⟨w, hw⟩, hu2, hv2, by rw [hDeq u hun hu2]; exact hcu,
        by rw [hDeq v hvn hv2]; exact hcv⟩
    · obtain ⟨hpa, hpb, hPa, hPb, -⟩ := hpairs p hp
      obtain ⟨-, ⟨w, hw⟩, -, -⟩ := (mem_round_pairs _ _ _ _ p.1 p.2).1 hp
      rw [hcf _ hpa hPa] at hp1
      rw [hcf _ hpb hPb] at hp2
      rw [ha, hb]
      exact Relation.EqvGen.rel _ _ ⟨⟨w, (G.mem_edges p.1 p.2 w).2 hw⟩, hPa, hPb,
        by rw [hDeq _ hpa hPa]; exact hp1, by rw [hDeq _ hpb hPb]; exact hp2⟩
  · rintro a b ⟨⟨w, hw⟩, ha2, hb2, hca, hcb⟩
    have han : a < G.n := G.fst_lt_of_mem_edges _ hw
    have hbn : b < G.n := hwf _ hw
    rw [hDeq a han ha2] at hca
    rw [hDeq b hbn hb2] at hcb
    have hak := hDle a han ha2
    have hbk := hDle b hbn hb2
    by_cases hab : a = b
    · rw [hab]
      exact Relation.EqvGen.refl _
    · by_cases has : a ∈ s.b
      · have h1 := next_bucket_id_le s.D s.b a has
        refine Relation.EqvGen.rel _ _ (Or.inr ⟨(a, b), ?_, ?_, ?_, rfl, rfl⟩)
        · exact (mem_round_pairs _ _ _ _ a b).2
            ⟨(hmemA a).2 ⟨has, by omega⟩, ⟨w, (G.mem_edges a b w).1 hw⟩, hab, hbk⟩
        · rw [hcf a han ha2]; exact hca
        · rw [hcf b hbn hb2]; exact hcb
      · by_cases hbs : b ∈ s.b
        · have h1 := next_bucket_id_le s.D s.b b hbs
          refine Relation.EqvGen.symm _ _
            (Relation.EqvGen.rel _ _ (Or.inr ⟨(b, a), ?_, ?_, ?_, rfl, rfl⟩))
          · exact (mem_round_pairs _ _ _ _ b a).2
              ⟨(hmemA b).2 ⟨hbs, by omega⟩,
                ⟨w, (G.mem_edges b a w).1 (hsym.mem_swap a b w hw)⟩,
                fun h => hab h.symm, hak⟩
          · rw [hcf b hbn hb2]; exact hcb
          · rw [hcf a han ha2]; exact hca
        · have := (hrep0 t a b).2
            (Relation.EqvGen.rel _ _ ⟨⟨w, hw⟩, has, hbs, hca, hcb⟩)
          exact eqvGen_of_le (fun u v huv =>
            Relation.EqvGen.rel _ _ (Or.inl ((hcongr0 u v).2 huv))) a b this

/-- The invariant `EfficientRep` holds at the start of the loop of `KCore`. -/
theorem EfficientRep_start (G : Graph) :
    EfficientRep G ⟨(List.range G.n).map (fun i => (G.out_neighbors i).length),
      List.range G.n, 0, 0, some (EfficientConnectWhilePeeling.mk_n G.n)⟩ := by
  refine ⟨_, rfl, EfficientInv_start G.n _, fun t x y => ?_⟩
  apply eqvGen_congr
  · rintro a b ⟨ha, hne, -, -, hor⟩
    exfalso
    change a < (List.range G.n).length at ha
    rw [List.length_range] at ha
    have hid : (List.range G.n).getD a 0 = a := by
      rw [List.getD_eq_getElem?_getD, List.getElem?_range ha]
      rfl
    rcases hor with h | ⟨-, h1, h2⟩
    · change (List.range G.n).getD a 0 = b at h
      rw [hid] at h
      exact hne h
    · change (List.replicate G.n UINT_E_MAX).getD a UINT_E_MAX = b at h1
      rw [List.getD_eq_getElem?_getD, List.getElem?_replicate, if_pos ha] at h1
      exact h2 h1.symm
  · rintro a b ⟨⟨w, hw⟩, ha, -⟩
    exact absurd (List.mem_range.2 (G.fst_lt_of_mem_edges _ hw)) ha

/-- The run of `KCore` with the hooks of the efficient inline variant returns an
`EfficientConnectWhilePeeling` object that keeps its invariant for the returned array `D` and
whose structure, at every threshold `t`, joins two vertices exactly when a path of edges
between vertices of `D` at least `t` joins them. -/
theorem KCore_efficient_returns (G : Graph) (hwf : G.WellFormed) (hsym : G.Symmetric)
    (hdeg : ∀ v, v < G.n → (G.out_neighbors v).length < UINT_E_MOD)
    (hn : G.n ≤ UINT_E_MAX) :
    ∃ (s : KCoreState (Option EfficientConnectWhilePeeling))
      (e : EfficientConnectWhilePeeling),
      KCore (efficientOps (link_fuel G)) G (some (EfficientConnectWhilePeeling.mk_n G.n))
        true = some (s.D, some e) ∧
      KCoreInv G s ∧ s.b = [] ∧
      EfficientInv G.n (fun a => s.D.getD a 0) (fun _ => True) e ∧
      ∀ t x y, Relation.EqvGen (struct_edge (fun a => s.D.getD a 0) e t) x y ↔
        Relation.EqvGen (induced_edge G s.D t) x y := by
  obtain ⟨s, hK, hinv, hb, e, he, hE, hrep⟩ := KCore_returns_with (efficientOps (link_fuel G))
    G hwf hsym hdeg (some (EfficientConnectWhilePeeling.mk_n G.n)) true (EfficientRep G)
    (fun s hinv hne hj => KCore_round_efficient_rep G hwf hsym hn true s hinv hne hj)
    (EfficientRep_start G)
  refine ⟨s, e, by rw [hK, he], hinv, hb,
    EfficientInv_mono G.n _ _ _ e (fun _ _ _ => trivial) hE, fun t x y => ?_⟩
  rw [hrep t x y, hb]
  apply eqvGen_congr
  · rintro a b ⟨hw, -, -, hca, hcb⟩
    exact Relation.EqvGen.rel _ _ ⟨hw, hca, hcb⟩
  · rintro a b ⟨hw, hca, hcb⟩
    exact Relation.EqvGen.rel _ _ ⟨hw, List.not_mem_nil _, List.not_mem_nil _, hca, hcb⟩

/-- The sequential sort orders the vertices by increasing key. -/
theorem sortWith_sorted_asc (key : Nat → Nat) (l : List Nat) :
    (sortWith (fun p q => decide (key p < key q)) l).Pairwise
      (fun a b => key a ≤ key b) := by
  unfold sortWith
  have h := @List.sorted_insertionSort Nat
    (fun a b => (fun p q => decide (key p < key q)) b a = false) _
    ⟨fun a b => by
      simp only [decide_eq_false_iff_not, not_lt]
      exact le_total _ _⟩
    ⟨fun a b c hab hbc => by
      simp only [decide_eq_false_iff_not, not_lt] at hab hbc ⊢
      exact le_trans hab hbc⟩ l
  refine List.Pairwise.imp ?_ h
  intro a b hab
  simpa using hab

/-- The runs of a sequence sorted by increasing key have different keys. -/
theorem bucket_first_key_inj (key : Nat → Nat) (n : Nat) (sorted_vert : List Nat)
    (hlen : sorted_vert.length = n)
    (hsorted : sorted_vert.Pairwise (fun a b => key a ≤ key b)) (i j : Nat)
    (hi : i + 1 < (GetBoundaryIndices n (fun x y =>
      decide (key (sorted_vert.getD x 0) = key (sorted_vert.getD y 0)))).length)
    (hj : j + 1 < (GetBoundaryIndices n (fun x y =>
      decide (key (sorted_vert.getD x 0) = key (sorted_vert.getD y 0)))).length)
    (heq : key (sorted_vert.getD ((GetBoundaryIndices n (fun x y =>
        decide (key (sorted_vert.getD x 0) = key (sorted_vert.getD y 0)))).getD i 0) 0) =
      key (sorted_vert.getD ((GetBoundaryIndices n (fun x y =>
        decide (key (sorted_vert.getD x 0) = key (sorted_vert.getD y 0)))).getD j 0) 0)) :
    i = j := by
  obtain ⟨vb, hvb⟩ : ∃ vb, vb = GetBoundaryIndices n (fun x y =>
    decide (key (sorted_vert.getD x 0) = key (sorted_vert.getD y 0))) := ⟨_, rfl⟩
  rw [← hvb] at hi hj heq
  have hci := GetBoundaryIndices_consecutive n (fun x y =>
    decide (key (sorted_vert.getD x 0) = key (sorted_vert.getD y 0))) i (hvb ▸ hi)
  have hcj := GetBoundaryIndices_consecutive n (fun x y =>
    decide (key (sorted_vert.getD x 0) = key (sorted_vert.getD y 0))) j (hvb ▸ hj)
  rw [← hvb] at hci hcj
  obtain ⟨hi1, hi2, hi3, hi4, hi5⟩ := hci
  obtain ⟨hj1, hj2, -, -, -⟩ := hcj
  have hmono : ∀ a b, a ≤ b → b < n →
      key (sorted_vert.getD a 0) ≤ key (sorted_vert.getD b 0) := by
    intro a b hab hb
    rcases Nat.eq_or_lt_of_le hab with h | h
    · rw [h]
    · have := List.pairwise_iff_getElem.1 hsorted a b (by omega) (by omega) h
      rw [List.getD_eq_getElem _ _ (show a < sorted_vert.length by omega),
        List.getD_eq_getElem _ _ (show b < sorted_vert.length by omega)]
      exact this
  have hrun := run_keys (fun x => key (sorted_vert.getD x 0)) n (vb.getD i 0)
    (vb.getD (i + 1) 0) hmono hi1 hi2
    (by
      rcases hi3 with h | h
      · exact Or.inl h
      · right
        simpa using h)
    (by
      intro x hx1 hx2
      have := (hi4 x hx1 hx2).2
      simpa using this)
    (by
      intro h
      have := hi5 h
      simpa using this)
    (vb.getD j 0) (by omega)
  have hin := hrun.1 heq.symm
  have := GetBoundaryIndices_run_unique n (fun x y =>
    decide (key (sorted_vert.getD x 0) = key (sorted_vert.getD y 0))) (vb.getD j 0) i j
    (hvb ▸ hi) (hvb ▸ hj)
  rw [← hvb] at this
  exact this hin.1 hin.2 (le_refl _) hj1

/-- The last loop of the efficient variant: the slot of the node of a root holds the node of
the vertex that the root is linked to, when the loop has visited the root and the root has a
link, and is kept otherwise. -/
theorem stitch_link_exact (n L : Nat) (parents links T1 : List Nat)
    (hT1 : ∀ v, v < n → n ≤ T1.getD v 0 ∧ T1.getD v 0 < L)
    (hlinks : ∀ b, b < n → links.getD b UINT_E_MAX ≠ UINT_E_MAX →
      links.getD b UINT_E_MAX < n)
    (hinj : ∀ r r2, r < n → r2 < n → r = parents.getD r 0 → r2 = parents.getD r2 0 →
      T1.getD r 0 = T1.getD r2 0 → r = r2)
    (is : List Nat) (his : ∀ i ∈ is, i < n) (T : List Nat) (hlen : T.length = L)
    (hleaf : ∀ v, v < n → T.getD v 0 = T1.getD v 0) (r : Nat) (hr : r < n)
    (hroot : r = parents.getD r 0) :
    (is.foldl (stitch_link parents links) T).getD (T1.getD r 0) 0 =
      if r ∈ is ∧ links.getD r UINT_E_MAX ≠ UINT_E_MAX then
        T1.getD (links.getD r UINT_E_MAX) 0
      else T.getD (T1.getD r 0) 0 := by
  induction is generalizing T with
  | nil => simp
  | cons i is ih =>
    have hin := his i (List.mem_cons_self _ _)
    rw [List.foldl_cons]
    have hstep : (stitch_link parents links T i).length = L ∧
        (∀ v, v < n → (stitch_link parents links T i).getD v 0 = T1.getD v 0) ∧
        (stitch_link parents links T i).getD (T1.getD r 0) 0 =
          if r = i ∧ links.getD r UINT_E_MAX ≠ UINT_E_MAX then
            T1.getD (links.getD r UINT_E_MAX) 0
          else T.getD (T1.getD r 0) 0 := by
      unfold stitch_link
      by_cases hl : links.getD i UINT_E_MAX = UINT_E_MAX
      · rw [if_pos hl]
        refine ⟨hlen, hleaf, ?_⟩
        rw [if_neg]
        rintro ⟨h1, h2⟩
        rw [h1] at h2
        exact h2 hl
      · rw [if_neg hl]
        by_cases hri : i = parents.getD i 0
        · rw [if_pos hri]
          have hli := hlinks i hin hl
          have hTi : T.getD i 0 = T1.getD i 0 := hleaf i hin
          have hTl : T.getD (links.getD i UINT_E_MAX) 0 =
              T1.getD (links.getD i UINT_E_MAX) 0 := hleaf _ hli
          obtain ⟨h1, h2⟩ := hT1 i hin
          have hidx : T.getD i 0 < T.length := by
            rw [hTi, hlen]
            exact h2
          refine ⟨by rw [List.length_set, hlen], ?_, ?_⟩
          · intro v hv
            rw [getD_set _ _ _ _ _ hidx]
            have hne : v ≠ T.getD i 0 := by
              rw [hTi]
              omega
            rw [if_neg hne]
            exact hleaf v hv
          · rw [getD_set _ _ _ _ _ hidx, hTi, hTl]
            by_cases hrieq : r = i
            · rw [if_pos (by rw [hrieq]), if_pos ⟨hrieq, by rw [hrieq]; exact hl⟩, hrieq]
            · rw [if_neg (fun h => hrieq (hinj r i hr hin hroot hri h)),
                if_neg (fun h => hrieq h.1)]
        · rw [if_neg hri]
          refine ⟨hlen, hleaf, ?_⟩
          rw [if_neg]
          rintro ⟨h1, -⟩
          rw [h1] at hroot
          exact hri hroot
    obtain ⟨h1, h2, h3⟩ := hstep
    rw [ih (fun x hx => his x (List.mem_cons_of_mem _ hx)) _ h1 h2, h3]
    by_cases hl : links.getD r UINT_E_MAX ≠ UINT_E_MAX
    · by_cases hris : r ∈ is
      · rw [if_pos ⟨hris, hl⟩, if_pos ⟨List.mem_cons_of_mem _ hris, hl⟩]
      · rw [if_neg (fun h => hris h.1)]
        by_cases hri : r = i
        · rw [if_pos ⟨hri, hl⟩, if_pos ⟨by rw [hri]; exact List.mem_cons_self _ _, hl⟩]
        · rw [if_neg (fun h => hri h.1), if_neg]
          rintro ⟨h, -⟩
          rcases List.mem_cons.1 h with h | h
          · exact hri h
          · exact hris h
    · rw [if_neg (fun h => hl h.2), if_neg (fun h => hl h.2), if_neg (fun h => hl h.2)]

/-- The tree of the efficient inline variant, for an object that meets the invariant with
every vertex peeled and a sort by increasing key: the parent of a vertex is a node; two
vertices have one parent exactly when they have one root; the slot of the node of a root
holds the node of the vertex that the root is linked to, or `NONE` when it has no link; and
every node is the node of a root. -/
theorem efficient_tree_exact (sort : (Nat → Nat → Bool) → List Nat → List Nat)
    (hsort : ∀ (key : Nat → Nat) (l : List Nat),
      (sort (fun p q => decide (key p < key q)) l).Perm l ∧
      (sort (fun p q => decide (key p < key q)) l).Pairwise (fun a b => key a ≤ key b))
    (n : Nat) (cores : Nat → Nat)
    (e : EfficientConnectWhilePeeling) (hinv : EfficientInv n cores (fun _ => True) e)
    (hsize : n + n < UINT_E_MAX) :
    (∀ v, v < n →
      n ≤ (EfficientConnectWhilePeeling.construct_nd_connectivity_from_connect sort n e).getD
        v 0 ∧
      (EfficientConnectWhilePeeling.construct_nd_connectivity_from_connect sort n e).getD v 0 <
        (EfficientConnectWhilePeeling.construct_nd_connectivity_from_connect sort n e).length) ∧
    (EfficientConnectWhilePeeling.construct_nd_connectivity_from_connect sort n e).length ≤
      n + n ∧
    (∀ u v, u < n → v < n →
      ((EfficientConnectWhilePeeling.construct_nd_connectivity_from_connect sort n e).getD u 0 =
        (EfficientConnectWhilePeeling.construct_nd_connectivity_from_connect sort n e).getD
          v 0 ↔
      e.uf.getD u 0 = e.uf.getD v 0)) ∧
    (∀ r, r < n → e.uf.getD r 0 = r →
      (EfficientConnectWhilePeeling.construct_nd_connectivity_from_connect sort n e).getD
        ((EfficientConnectWhilePeeling.construct_nd_connectivity_from_connect sort n e).getD
          r 0) 0 =
        if e.links.getD r UINT_E_MAX ≠ UINT_E_MAX then
          (EfficientConnectWhilePeeling.construct_nd_connectivity_from_connect sort n e).getD
            (e.links.getD r UINT_E_MAX) 0
        else UINT_E_MAX) ∧
    (∀ j, n ≤ j →
      j < (EfficientConnectWhilePeeling.construct_nd_connectivity_from_connect sort n e).length →
      ∃ r, r < n ∧ e.uf.getD r 0 = r ∧
        (EfficientConnectWhilePeeling.construct_nd_connectivity_from_connect sort n e).getD
          r 0 = j) := by
  have hM : UINT_E_MOD = 4294967296 := rfl
  have hMx : UINT_E_MAX = 4294967295 := rfl
  obtain ⟨sv, hsv⟩ : ∃ sv, sv = sort (fun p q => decide (e.uf.getD p 0 < e.uf.getD q 0))
    (List.range n) := ⟨_, rfl⟩
  obtain ⟨vb, hvb⟩ : ∃ vb, vb = GetBoundaryIndices n (fun i j =>
    decide (e.uf.getD (sv.getD i 0) 0 = e.uf.getD (sv.getD j 0) 0)) := ⟨_, rfl⟩
  obtain ⟨T1, hT1def⟩ : ∃ T1, T1 = (List.range (vb.length - 1)).foldl (assign_bucket sv vb n)
    (List.replicate n UINT_E_MAX) := ⟨_, rfl⟩
  have hconstruct : EfficientConnectWhilePeeling.construct_nd_connectivity_from_connect sort n e
      = (List.range e.links.length).foldl (stitch_link e.uf e.links)
        (resize T1 ((n + (vb.length - 1)) % UINT_E_MOD) UINT_E_MAX) := by
    rw [hT1def, hvb, hsv, ← kcore_GetBoundaryIndices_eq _ _ (show n < UINT_E_MAX by omega)]
    rfl
  have hsorted := hsort (fun p => e.uf.getD p 0) (List.range n)
  have hpermsv : sv.Perm (List.range n) := by
    rw [hsv]
    exact hsorted.1
  have hsortedsv : sv.Pairwise (fun a b => e.uf.getD a 0 ≤ e.uf.getD b 0) := by
    rw [hsv]
    exact hsorted.2
  have hsvlen : sv.length = n := by rw [hpermsv.length_eq, List.length_range]
  have hBle : vb.length ≤ n + 1 := by
    rw [hvb]
    exact GetBoundaryIndices_length_le _ _
  have hL : (n + (vb.length - 1)) % UINT_E_MOD = n + (vb.length - 1) :=
    Nat.mod_eq_of_lt (by omega)
  have hT1len : T1.length = n := by
    rw [hT1def, foldl_assign_bucket_length, List.length_replicate]
  have hassign := assign_bucket_spec n e.uf sv vb hpermsv (by omega) hvb
  rw [← hT1def] at hassign
  have hT1 : ∀ v, v < n → n ≤ T1.getD v 0 ∧ T1.getD v 0 < n + (vb.length - 1) := by
    intro v hv
    obtain ⟨i, hi, h1, _⟩ := hassign v hv
    omega
  have hkeyinj : ∀ i j, i + 1 < vb.length → j + 1 < vb.length →
      e.uf.getD (sv.getD (vb.getD i 0) 0) 0 = e.uf.getD (sv.getD (vb.getD j 0) 0) 0 →
      i = j := by
    intro i j hi hj heq
    have := bucket_first_key_inj (fun p => e.uf.getD p 0) n sv hsvlen hsortedsv i j
    rw [← hvb] at this
    exact this hi hj heq
  have hT1eq : ∀ u v, u < n → v < n →
      (T1.getD u 0 = T1.getD v 0 ↔ e.uf.getD u 0 = e.uf.getD v 0) := by
    intro u v hu hv
    obtain ⟨i, hi, h1, h2⟩ := hassign u hu
    obtain ⟨i2, hi2, h3, h4⟩ := hassign v hv
    constructor
    · intro huv
      have hii : i = i2 := by omega
      rw [← hii] at h4
      rw [← h2, ← h4]
    · intro huv
      have hii : i = i2 := hkeyinj i i2 hi hi2 (by rw [h2, h4, huv])
      rw [h1, h3, hii]
  have hin : ∀ i ∈ List.range e.links.length, i < n := by
    intro i hi
    rw [← hinv.length_links]
    exact List.mem_range.1 hi
  have hres_len : (resize T1 ((n + (vb.length - 1)) % UINT_E_MOD) UINT_E_MAX).length =
      n + (vb.length - 1) := by rw [resize_length, hL]
  have hres_leaf : ∀ v, v < n →
      (resize T1 ((n + (vb.length - 1)) % UINT_E_MOD) UINT_E_MAX).getD v 0 = T1.getD v 0 := by
    intro v hv
    rw [hL, resize_getD _ _ _ _ _ (by omega) (by omega), if_pos (by omega)]
  have hres_node : ∀ j, n ≤ j → j < n + (vb.length - 1) →
      (resize T1 ((n + (vb.length - 1)) % UINT_E_MOD) UINT_E_MAX).getD j 0 = UINT_E_MAX := by
    intro j hj1 hj2
    rw [hL, resize_getD _ _ _ _ _ (by omega) hj2, if_neg (by omega)]
  have hstitch := stitch_link_spec n (n + (vb.length - 1)) e.uf e.links T1
    (resize T1 ((n + (vb.length - 1)) % UINT_E_MOD) UINT_E_MAX) hres_len hres_leaf hres_node
    hT1 (fun b hb hl => (hinv.link b hb hl).1) (List.range e.links.length) hin
  rw [← hconstruct] at hstitch
  obtain ⟨hlen, hleaf, -⟩ := hstitch
  refine ⟨?_, by rw [hlen]; omega, ?_, ?_, ?_⟩
  · intro v hv
    rw [hleaf v hv, hlen]
    exact hT1 v hv
  · intro u v hu hv
    rw [hleaf u hu, hleaf v hv]
    exact hT1eq u v hu hv
  · intro r hr hroot
    have hex := stitch_link_exact n (n + (vb.length - 1)) e.uf e.links T1 hT1
      (fun b hb hl => (hinv.link b hb hl).1)
      (by
        intro r r2 hr hr2 h1 h2 h3
        have := (hT1eq r r2 hr hr2).1 h3
        rw [← h1, ← h2] at this
        exact this)
      (List.range e.links.length) hin
      (resize T1 ((n + (vb.length - 1)) % UINT_E_MOD) UINT_E_MAX) hres_len hres_leaf r hr
      hroot.symm
    rw [← hconstruct] at hex
    rw [hleaf r hr, hex]
    have hmem : r ∈ List.range e.links.length := by
      rw [List.mem_range, hinv.length_links]
      exact hr
    by_cases hl : e.links.getD r UINT_E_MAX ≠ UINT_E_MAX
    · rw [if_pos ⟨hmem, hl⟩, if_pos hl, hleaf _ (hinv.link r hr hl).1]
    · rw [if_neg (fun h => hl h.2), if_neg hl]
      exact hres_node _ (hT1 r hr).1 (hT1 r hr).2
  · intro j hj1 hj2
    rw [hlen] at hj2
    have hi : j - n + 1 < vb.length := by omega
    have hc := GetBoundaryIndices_consecutive n (fun i j =>
      decide (e.uf.getD (sv.getD i 0) 0 = e.uf.getD (sv.getD j 0) 0)) (j - n) (hvb ▸ hi)
    rw [← hvb] at hc
    have hxn : sv.getD (vb.getD (j - n) 0) 0 < n :=
      getD_perm_range_lt n sv hpermsv _ (by omega)
    obtain ⟨i2, hi2, h1, h2⟩ := hassign _ hxn
    have hii : i2 = j - n := hkeyinj i2 (j - n) hi2 hi h2
    have hrn := hinv.root_lt _ hxn
    refine ⟨e.uf.getD (sv.getD (vb.getD (j - n) 0) 0) 0, hrn, hinv.root_root _ hxn, ?_⟩
    rw [hleaf _ hrn, (hT1eq _ _ hrn hxn).2 (hinv.root_root _ hxn), h1, hii]
    omega

/-- The parent step from a vertex of the efficient tree. -/
theorem EfficientTree.step_leaf {n : Nat} {e : EfficientConnectWhilePeeling} {T : List Nat}
    (h : EfficientTree n e T) (u : Nat) (hu : u < n) : parent_step T u (T.getD u 0) := by
  obtain ⟨h1, h2⟩ := h.leaf u hu
  have hs := h.size
  exact ⟨by omega, getD_default T u _ _ (by omega), by omega⟩

/-- The parent step from the node of a root with a link. -/
theorem EfficientTree.step_node {n : Nat} {cores : Nat → Nat} {P : Nat → Prop}
    {e : EfficientConnectWhilePeeling} {T : List Nat}
    (h : EfficientTree n e T) (hinv : EfficientInv n cores P e) (r : Nat) (hr : r < n)
    (hroot : e.uf.getD r 0 = r) (hl : e.links.getD r UINT_E_MAX ≠ UINT_E_MAX) :
    parent_step T (T.getD r 0) (T.getD (e.links.getD r UINT_E_MAX) 0) := by
  obtain ⟨h1, h2⟩ := h.leaf r hr
  obtain ⟨h3, h4⟩ := h.leaf _ (hinv.link r hr hl).1
  have hs := h.size
  refine ⟨h2, ?_, by omega⟩
  rw [getD_default T _ _ 0 h2, h.node r hr hroot, if_pos hl]

/-- A parent step from the node of a root leads to the node of its link. -/
theorem EfficientTree.step_node_inv {n : Nat} {e : EfficientConnectWhilePeeling}
    {T : List Nat} (h : EfficientTree n e T) (r : Nat) (hr : r < n)
    (hroot : e.uf.getD r 0 = r) (y : Nat) (hstep : parent_step T (T.getD r 0) y) :
    e.links.getD r UINT_E_MAX ≠ UINT_E_MAX ∧ y = T.getD (e.links.getD r UINT_E_MAX) 0 := by
  obtain ⟨h1, h2, h3⟩ := hstep
  rw [getD_default T _ _ 0 h1, h.node r hr hroot] at h2
  by_cases hl : e.links.getD r UINT_E_MAX ≠ UINT_E_MAX
  · rw [if_pos hl] at h2
    exact ⟨hl, h2.symm⟩
  · rw [if_neg hl] at h2
    exact absurd h2.symm h3

/-- An ancestor of a vertex in the efficient tree is the node of a root of core number at
most the core number of the vertex, and the structure joins the vertex with this root at the
threshold of the core number of the root. -/
theorem EfficientTree.ancestor_root {n : Nat} {cores : Nat → Nat} {P : Nat → Prop}
    {e : EfficientConnectWhilePeeling} {T : List Nat}
    (h : EfficientTree n e T) (hinv : EfficientInv n cores P e) (u : Nat) (hu : u < n)
    (a : Nat) (ha : Relation.TransGen (parent_step T) u a) :
    ∃ r, r < n ∧ e.uf.getD r 0 = r ∧ a = T.getD r 0 ∧ cores r ≤ cores u ∧
      Relation.EqvGen (struct_edge cores e (cores r)) u r := by
  induction ha with
  | single hstep =>
    have hrn := hinv.root_lt u hu
    have hrr := hinv.root_root u hu
    refine ⟨e.uf.getD u 0, hrn, hrr, ?_, le_of_eq (hinv.cores_root u hu), ?_⟩
    · rw [(h.same _ u hrn hu).2 hrr]
      exact parent_step_unique T hstep (h.step_leaf u hu)
    · exact struct_root hinv _ u hu (le_of_eq (hinv.cores_root u hu))
  | tail _ hstep ih =>
    obtain ⟨r, hr, hroot, hb, hcr, hur⟩ := ih
    rw [hb] at hstep
    obtain ⟨hl, hy⟩ := h.step_node_inv r hr hroot _ hstep
    obtain ⟨hl1, -, hl3⟩ := hinv.link r hr hl
    have hrn := hinv.root_lt _ hl1
    have hrr := hinv.root_root _ hl1
    have hcl := hinv.cores_root _ hl1
    refine ⟨e.uf.getD (e.links.getD r UINT_E_MAX) 0, hrn, hrr, ?_, by omega, ?_⟩
    · rw [(h.same _ _ hrn hl1).2 hrr]
      exact hy
    · refine Relation.EqvGen.trans _ _ _ ?_
        (Relation.EqvGen.trans _ _ _
          (Relation.EqvGen.rel _ _ (struct_link hinv _ r hr hroot hl (le_of_eq hcl)))
          (struct_root hinv _ _ hl1 (le_of_eq hcl)))
      exact eqvGen_of_le (fun x y hxy => Relation.EqvGen.rel _ _
        (struct_edge_mono cores e _ _ (by omega) x y hxy)) u r hur

/-- Two vertices that the structure joins at the threshold `c` are equal or have a common
ancestor in the efficient tree that is the node of a root of core number at least `c`. -/
theorem EfficientTree.joined_ancestor {n : Nat} {cores : Nat → Nat} {P : Nat → Prop}
    {e : EfficientConnectWhilePeeling} {T : List Nat}
    (h : EfficientTree n e T) (hinv : EfficientInv n cores P e) (c x y : Nat)
    (hxy : Relation.EqvGen (struct_edge cores e c) x y) :
    x = y ∨ ∃ a, Relation.TransGen (parent_step T) x a ∧
      Relation.TransGen (parent_step T) y a ∧
      ∃ r, r < n ∧ e.uf.getD r 0 = r ∧ a = T.getD r 0 ∧ c ≤ cores r := by
  induction hxy with
  | rel x y hedge =>
    right
    obtain ⟨hx, hy, -, -⟩ := struct_edge_peeled hinv c x y hedge
    obtain ⟨-, -, hcx, hcy, hor⟩ := hedge
    rcases hor with h1 | ⟨h1, h2, h3⟩
    · have hxy : T.getD x 0 = T.getD y 0 := by
        rw [h.same x y hx hy, ← h1, hinv.root_root x hx]
      refine ⟨T.getD x 0, Relation.TransGen.single (h.step_leaf x hx), ?_,
        e.uf.getD x 0, hinv.root_lt x hx, hinv.root_root x hx, ?_, ?_⟩
      · rw [hxy]
        exact Relation.TransGen.single (h.step_leaf y hy)
      · exact ((h.same _ x (hinv.root_lt x hx) hx).2 (hinv.root_root x hx)).symm
      · rw [hinv.cores_root x hx]
        exact hcx
    · have hl : e.links.getD x UINT_E_MAX ≠ UINT_E_MAX := by rw [h2]; exact h3
      have hstep := h.step_node hinv x hx h1 hl
      rw [h2] at hstep
      refine ⟨T.getD y 0, Relation.TransGen.tail
        (Relation.TransGen.single (h.step_leaf x hx)) hstep,
        Relation.TransGen.single (h.step_leaf y hy),
        e.uf.getD y 0, hinv.root_lt y hy, hinv.root_root y hy, ?_, ?_⟩
      · exact ((h.same _ y (hinv.root_lt y hy) hy).2 (hinv.root_root y hy)).symm
      · rw [hinv.cores_root y hy]
        exact hcy
  | refl x => exact Or.inl rfl
  | symm x y _ ih =>
    rcases ih with h1 | ⟨a, h1, h2, h3⟩
    · exact Or.inl h1.symm
    · exact Or.inr ⟨a, h2, h1, h3⟩
  | trans x y z _ _ ih1 ih2 =>
    rcases ih1 with h1 | ⟨a, ha1, ha2, ha3⟩
    · rw [h1]
      exact ih2
    · rcases ih2 with h2 | ⟨b, hb1, hb2, hb3⟩
      · rw [← h2]
        exact Or.inr ⟨a, ha1, ha2, ha3⟩
      · right
        rcases ancestors_total T y a b ha2 hb1 with hab | hab | hab
        · exact ⟨a, ha1, by rw [hab]; exact hb2, ha3⟩
        · exact ⟨b, Relation.TransGen.trans ha1 hab, hb2, hb3⟩
        · exact ⟨a, ha1, Relation.TransGen.trans hb2 hab, ha3⟩

/-- In a tree of the shape of the efficient inline variant two vertices of core number at
least `c` have a common ancestor above vertices of core number at least `c` only exactly when
the structure joins them at the threshold `c`. -/
theorem EfficientTree.common_ancestor_iff {n : Nat} {cores : Nat → Nat} {P : Nat → Prop}
    {e : EfficientConnectWhilePeeling} {T : List Nat}
    (h : EfficientTree n e T) (hinv : EfficientInv n cores P e) (c u v : Nat)
    (hu : u < n) (hv : v < n) (hcu : c ≤ cores u) :
    (∃ a, Relation.TransGen (parent_step T) u a ∧ Relation.TransGen (parent_step T) v a ∧
      ∀ w, w < n → Relation.TransGen (parent_step T) w a → c ≤ cores w) ↔
      Relation.EqvGen (struct_edge cores e c) u v := by
  constructor
  · rintro ⟨a, hau, hav, hleaf⟩
    obtain ⟨r, hr, hroot, har, -, hur⟩ := h.ancestor_root hinv u hu a hau
    obtain ⟨r2, hr2, hroot2, har2, -, hvr⟩ := h.ancestor_root hinv v hv a hav
    have hrr : r = r2 := by
      have := (h.same r r2 hr hr2).1 (by rw [← har, ← har2])
      rw [hroot, hroot2] at this
      exact this
    subst hrr
    have hcr : c ≤ cores r := hleaf r hr (by
      rw [har]
      exact Relation.TransGen.single (h.step_leaf r hr))
    have hmono : ∀ x y, Relation.EqvGen (struct_edge cores e (cores r)) x y →
        Relation.EqvGen (struct_edge cores e c) x y :=
      fun x y hxy => eqvGen_of_le (fun a b hab => Relation.EqvGen.rel _ _
        (struct_edge_mono cores e _ _ hcr a b hab)) x y hxy
    exact Relation.EqvGen.trans _ _ _ (hmono _ _ hur)
      (Relation.EqvGen.symm _ _ (hmono _ _ hvr))
  · intro huv
    have hgood : ∀ a, (∃ r, r < n ∧ e.uf.getD r 0 = r ∧ a = T.getD r 0 ∧ c ≤ cores r) →
        ∀ w, w < n → Relation.TransGen (parent_step T) w a → c ≤ cores w := by
      rintro a ⟨r, hr, hroot, har, hcr⟩ w hw hwa
      obtain ⟨r2, hr2, hroot2, har2, hcw, -⟩ := h.ancestor_root hinv w hw a hwa
      have hrr : r = r2 := by
        have := (h.same r r2 hr hr2).1 (by rw [← har, ← har2])
        rw [hroot, hroot2] at this
        exact this
      subst hrr
      omega
    rcases h.joined_ancestor hinv c u v huv with heq | ⟨a, h1, h2, h3⟩
    · subst heq
      refine ⟨T.getD u 0, Relation.TransGen.single (h.step_leaf u hu),
        Relation.TransGen.single (h.step_leaf u hu), hgood _ ?_⟩
      refine ⟨e.uf.getD u 0, hinv.root_lt u hu, hinv.root_root u hu, ?_, ?_⟩
      · exact ((h.same _ u (hinv.root_lt u hu) hu).2 (hinv.root_root u hu)).symm
      · rw [hinv.cores_root u hu]
        exact hcu
    · exact ⟨a, h1, h2, hgood a h3⟩

/-- The tree of the efficient inline variant has the shape `EfficientTree`. -/
theorem efficient_construct_tree (sort : (Nat → Nat → Bool) → List Nat → List Nat)
    (hsort : ∀ (key : Nat → Nat) (l : List Nat),
      (sort (fun p q => decide (key p < key q)) l).Perm l ∧
      (sort (fun p q => decide (key p < key q)) l).Pairwise (fun a b => key a ≤ key b))
    (n : Nat) (cores : Nat → Nat)
    (e : EfficientConnectWhilePeeling) (hinv : EfficientInv n cores (fun _ => True) e)
    (hsize : n + n < UINT_E_MAX) :
    EfficientTree n e
      (EfficientConnectWhilePeeling.construct_nd_connectivity_from_connect sort n e) := by
  obtain ⟨h1, h2, h3, h4, h5⟩ := efficient_tree_exact sort hsort n cores e hinv hsize
  exact ⟨h1, by omega, h3, h4, h5⟩

/-- In the tree of the efficient inline variant two vertices of core number at least `c` have
a common ancestor at the level `c` exactly when the structure joins them at the threshold
`c`. -/
theorem efficient_common_ancestor_iff (sort : (Nat → Nat → Bool) → List Nat → List Nat)
    (hsort : ∀ (key : Nat → Nat) (l : List Nat),
      (sort (fun p q => decide (key p < key q)) l).Perm l ∧
      (sort (fun p q => decide (key p < key q)) l).Pairwise (fun a b => key a ≤ key b))
    (n : Nat) (D : List Nat)
    (e : EfficientConnectWhilePeeling)
    (hinv : EfficientInv n (fun a => D.getD a 0) (fun _ => True) e)
    (hsize : n + n < UINT_E_MAX) (c u v : Nat) (hu : u < n) (hv : v < n)
    (hcu : c ≤ D.getD u 0) :
    common_ancestor_at
      (EfficientConnectWhilePeeling.construct_nd_connectivity_from_connect sort n e) D n c u v ↔
      Relation.EqvGen (struct_edge (fun a => D.getD a 0) e c) u v := by
  have htree := efficient_construct_tree sort hsort n _ e hinv hsize
  have hwalk : ∀ x, ∃ p, parent_walk
      (EfficientConnectWhilePeeling.construct_nd_connectivity_from_connect sort n e)
      ((EfficientConnectWhilePeeling.construct_nd_connectivity_from_connect sort n e).length + 1)
      x = some p := by
    intro x
    obtain ⟨p, hp, -⟩ := parent_walk_of_cores n _ (fun a => D.getD a 0) htree.leaf
      (by
        intro a b ha hb hab
        have := (htree.same a b ha hb).1 hab
        have h1 := hinv.cores_root a ha
        have h2 := hinv.cores_root b hb
        rw [this] at h1
        exact h1.symm.trans h2)
      (by
        intro j hj1 hj2
        obtain ⟨r, hr, hroot, hrj⟩ := htree.root j hj1 hj2
        have hnode := htree.node r hr hroot
        rw [hrj] at hnode
        by_cases hl : e.links.getD r UINT_E_MAX ≠ UINT_E_MAX
        · rw [if_pos hl] at hnode
          obtain ⟨hl1, -, hl3⟩ := hinv.link r hr hl
          exact Or.inr ⟨r, _, hr, hl1, hl3, hrj, hnode⟩
        · rw [if_neg hl] at hnode
          exact Or.inl hnode)
      x
    exact ⟨p, hp⟩
  unfold common_ancestor_at
  simp only [mem_ancestors_iff _ _ (hwalk _)]
  exact htree.common_ancestor_iff hinv c u v hu hv hcu

/-- Runs in which the calls of `link` do not overlap: for every symmetric graph whose
neighbour ids are vertices, whose degrees are below the sentinel and with
`n + n * n < 2 ^ 32`, and for every sort that orders by the key of its comparator, the tree
`Te` built by the efficient inline variant, with the calls of `link` run one at a time, and
the tree `Tp` built by the post-hoc variant induce the same partition of the vertices of
coreness at least `c`, for every `c > 0`: two such vertices have a common ancestor at the
level `c` (a node above both that is above vertices of coreness at least `c` only) in `Te`
exactly when they have one in `Tp`, and this is exactly when a path of edges between vertices
of coreness at least `c` joins them. The array `D` is the one returned by `KCore`, and `D[v]`
is the coreness of `v`. -/
theorem hierarchy_variants_same_partition
    (sort : (Nat → Nat → Bool) → List Nat → List Nat)
    (hdesc : ∀ (key : Nat → Nat) (l : List Nat),
      (sort (fun p q => decide (key p > key q)) l).Perm l ∧
      (sort (fun p q => decide (key p > key q)) l).Pairwise (fun a b => key b ≤ key a))
    (hasc : ∀ (key : Nat → Nat) (l : List Nat),
      (sort (fun p q => decide (key p < key q)) l).Perm l ∧
      (sort (fun p q => decide (key p < key q)) l).Pairwise (fun a b => key a ≤ key b))
    (G : Graph) (hwf : G.WellFormed) (hsym : G.Symmetric)
    (hdeg : ∀ v, v < G.n → (G.out_neighbors v).length < UINT_E_MAX)
    (hsize : G.n + G.n * G.n ≤ UINT_E_MAX) (inline_hierarchy : Bool) :
    ∃ D Tp Te, (KCore noConnectOps G () false).map Prod.fst = some D ∧
      (∀ v, v < G.n → IsCoreness G v (D.getD v 0)) ∧
      KCore_connect sort G false false = some Tp ∧
      KCore_connect sort G inline_hierarchy true = some Te ∧
      ∀ c, 0 < c → ∀ u v, u < G.n → v < G.n → c ≤ D.getD u 0 → c ≤ D.getD v 0 →
        (common_ancestor_at Te D G.n c u v ↔ common_ancestor_at Tp D G.n c u v) ∧
        (common_ancestor_at Tp D G.n c u v ↔ Relation.EqvGen (induced_edge G D c) u v) := by
  have hM : UINT_E_MAX = 4294967295 := rfl
  have hMod : UINT_E_MOD = 4294967296 := rfl
  have hnn : G.n ≤ G.n * G.n := Nat.le_mul_self G.n
  have hdeg2 : ∀ v, v < G.n → (G.out_neighbors v).length < UINT_E_MOD :=
    fun v hv => by have := hdeg v hv; omega
  -- the post-hoc variant
  obtain ⟨s, hK, hinv, hb⟩ := KCore_returns simpleOps G hwf hsym hdeg2 ⟨0, [], []⟩ false
  have hD : (KCore noConnectOps G () false).map Prod.fst = some s.D := by
    rw [KCore_D noConnectOps simpleOps G () ⟨0, [], []⟩ false false, hK]
    rfl
  have hTp : KCore_connect sort G false false =
      some (construct_nd_connectivity sort G s.D) := by
    unfold KCore_connect
    rw [if_neg (by decide), if_neg (by decide), hK]
    rfl
  have hcoreness : ∀ v, v < G.n → IsCoreness G v (s.D.getD v 0) := by
    intro x hx
    have hxb : x ∉ s.b := by rw [hb]; simp
    refine ⟨hinv.done_in x hx hxb, fun k2 hk2 => ?_⟩
    by_contra hcon
    exact hinv.done_out x hx hxb (InCore_mono G _ k2 x (by omega) hk2)
  have hcores : ∀ v, v < G.n → s.D.getD v 0 < UINT_E_MAX :=
    fun v hv => lt_of_le_of_lt (KCoreInv_D_le G s hinv v hv) (hdeg v hv)
  have hctx := PostHocCtx.of_sort sort hdesc G hwf hsym hsize s.D hcores
  -- the efficient inline variant
  obtain ⟨s2, e, hK2, -, -, hE, hrep⟩ := KCore_efficient_returns G hwf hsym hdeg2 (by omega)
  have hD2 : (KCore noConnectOps G () false).map Prod.fst = some s2.D := by
    rw [KCore_D noConnectOps (efficientOps (link_fuel G)) G ()
      (some (EfficientConnectWhilePeeling.mk_n G.n)) false true, hK2]
    rfl
  have hDD : s2.D = s.D := by
    rw [hD] at hD2
    exact (Option.some.inj hD2).symm
  rw [hDD] at hE hrep
  have hTe : KCore_connect sort G inline_hierarchy true =
      some (EfficientConnectWhilePeeling.construct_nd_connectivity_from_connect sort G.n e) := by
    unfold KCore_connect
    rw [if_pos rfl, hK2]
    rfl
  refine ⟨s.D, _, _, hD, hcoreness, hTp, hTe, fun c hc u v hu hv hcu hcv => ?_⟩
  have hP := posthoc_common_ancestor_iff hctx c hc u v hu hv hcu hcv
  have hEf := efficient_common_ancestor_iff sort hasc G.n s.D e hE (by omega) c u v hu hv hcu
  exact ⟨by rw [hEf, hrep c u v, hP], hP⟩

/-- The complete graph `K4` with the pendant edge `4 – 0` and calls of `link` that do not
overlap: the efficient inline variant returns the tree `[5, 5, 5, 5, 6, 6, NONE]` and the post-hoc variant the tree
`[5, 5, 5, 5, 6, 6]`; the vertices `0` and `3` have the common ancestor `5` at the level `3`
in both, and the vertices `0` and `4` have the common ancestor `6` at the level `1`. -/
theorem hierarchy_variants_same_partition_witness :
    K4pendant.WellFormed ∧ K4pendant.Symmetric ∧
    (∀ v, v < K4pendant.n → (K4pendant.out_neighbors v).length < UINT_E_MAX) ∧
    K4pendant.n + K4pendant.n * K4pendant.n ≤ UINT_E_MAX ∧
    KCore_connect sortWith K4pendant false true = some [5, 5, 5, 5, 6, 6, UINT_E_MAX] ∧
    KCore_connect sortWith K4pendant false false = some [5, 5, 5, 5, 6, 6] ∧
    ancestors [5, 5, 5, 5, 6, 6, UINT_E_MAX] 0 = [5, 6] ∧
    ancestors [5, 5, 5, 5, 6, 6, UINT_E_MAX] 4 = [6] ∧
    ancestors [5, 5, 5, 5, 6, 6] 0 = [5, 6] ∧
    ancestors [5, 5, 5, 5, 6, 6] 4 = [6] ∧
    ∃ D Tp Te, (KCore noConnectOps K4pendant () false).map Prod.fst = some D ∧
      (∀ v, v < K4pendant.n → IsCoreness K4pendant v (D.getD v 0)) ∧
      KCore_connect sortWith K4pendant false false = some Tp ∧
      KCore_connect sortWith K4pendant false true = some Te ∧
      ∀ c, 0 < c → ∀ u v, u < K4pendant.n → v < K4pendant.n → c ≤ D.getD u 0 →
        c ≤ D.getD v 0 →
        (common_ancestor_at Te D K4pendant.n c u v ↔
          common_ancestor_at Tp D K4pendant.n c u v) ∧
        (common_ancestor_at Tp D K4pendant.n c u v ↔
          Relation.EqvGen (induced_edge K4pendant D c) u v) :=
  ⟨K4pendant_wellFormed, K4pendant_symmetric, by decide, by decide, by decide!, by decide!,
   by decide!, by decide!, by decide!, by decide!,
   hierarchy_variants_same_partition sortWith
     (fun key l => ⟨sortWith_perm _ l, sortWith_sorted_desc key l⟩)
     (fun key l => ⟨sortWith_perm _ l, sortWith_sorted_asc key l⟩) K4pendant
     K4pendant_wellFormed K4pendant_symmetric (by decide) (by decide) false⟩

/-- The edges that `NearestNeighborLinkage` selects on the two disjoint pairs with the
threshold `0`. -/
theorem filtered_edges_twoPairs :
    filtered_edges twoPairs 0 =
      [(0, 1), (1, 0), (2, 3), (3, 2), (1, 0), (0, 1), (3, 2), (2, 3)] := by decide!

/-- On the two disjoint pairs a path of selected edges stays inside a pair. -/
theorem eqvGen_twoPairs (edges : List (Nat × Nat))
    (hperm : edges.Perm [(0, 1), (1, 0), (2, 3), (3, 2), (1, 0), (0, 1), (3, 2), (2, 3)])
    (u v : Nat)
    (h : Relation.EqvGen (fun a b => (a, b) ∈ edges) u v) :
    (u = 0 ∨ u = 1 ↔ v = 0 ∨ v = 1) ∧ (u = 2 ∨ u = 3 ↔ v = 2 ∨ v = 3) := by
  induction h with
  | rel a b hab =>
    have := hperm.mem_iff.1 hab
    simp only [List.mem_cons, Prod.mk.injEq, List.mem_singleton, List.not_mem_nil,
      or_false] at this
    omega
  | refl a => exact ⟨Iff.rfl, Iff.rfl⟩
  | symm a b _ ih => exact ⟨ih.1.symm, ih.2.symm⟩
  | trans a b c _ _ ih1 ih2 => exact ⟨ih1.1.trans ih2.1, ih1.2.trans ih2.2⟩

/-- Every labeling by representatives of the two disjoint pairs is `[a, a, b, b]` with `a`
a vertex of the first pair and `b` a vertex of the second. -/
theorem representative_labeling_twoPairs (edges : List (Nat × Nat))
    (hperm : edges.Perm [(0, 1), (1, 0), (2, 3), (3, 2), (1, 0), (0, 1), (3, 2), (2, 3)])
    (L : List Nat)
    (hL : IsRepresentativeLabeling 4 edges L) :
    ∃ a b, (a = 0 ∨ a = 1) ∧ (b = 2 ∨ b = 3) ∧ L = [a, a, b, b] := by
  obtain ⟨hlen, hrep, hiff⟩ := hL
  have h0 := (eqvGen_twoPairs edges hperm _ _ (hrep 0 (by decide)).2).1.1 (Or.inl rfl)
  have h2 := (eqvGen_twoPairs edges hperm _ _ (hrep 2 (by decide)).2).2.1 (Or.inl rfl)
  have h01 : L.getD 0 0 = L.getD 1 0 :=
    (hiff 0 1 (by decide) (by decide)).2
      (Relation.EqvGen.rel _ _ (hperm.mem_iff.2 (by simp)))
  have h23 : L.getD 2 0 = L.getD 3 0 :=
    (hiff 2 3 (by decide) (by decide)).2
      (Relation.EqvGen.rel _ _ (hperm.mem_iff.2 (by simp)))
  match L, hlen with
  | [x0, x1, x2, x3], _ =>
    have e0 : [x0, x1, x2, x3].getD 0 0 = x0 := rfl
    have e1 : [x0, x1, x2, x3].getD 1 0 = x1 := rfl
    have e2 : [x0, x1, x2, x3].getD 2 0 = x2 := rfl
    have e3 : [x0, x1, x2, x3].getD 3 0 = x3 := rfl
    rw [e0] at h0
    rw [e2] at h2
    rw [e0, e1] at h01
    rw [e2, e3] at h23
    exact ⟨x0, x2, h0, h2, by rw [← h01, ← h23]⟩

/-- The labeling `[0, 0, 2, 2]` is a labeling by representatives of the two disjoint pairs:
the contract can be met. -/
theorem twoPairs_representative_labeling :
    IsRepresentativeLabeling 4
      [(0, 1), (1, 0), (2, 3), (3, 2), (1, 0), (0, 1), (3, 2), (2, 3)] [0, 0, 2, 2] := by
  have e01 : Relation.EqvGen (fun a b => (a, b) ∈
      [(0, 1), (1, 0), (2, 3), (3, 2), (1, 0), (0, 1), (3, 2), (2, 3)]) 0 1 :=
    Relation.EqvGen.rel _ _ (by simp)
  have e23 : Relation.EqvGen (fun a b => (a, b) ∈
      [(0, 1), (1, 0), (2, 3), (3, 2), (1, 0), (0, 1), (3, 2), (2, 3)]) 2 3 :=
    Relation.EqvGen.rel _ _ (by simp)
  have hcl := eqvGen_twoPairs
    [(0, 1), (1, 0), (2, 3), (3, 2), (1, 0), (0, 1), (3, 2), (2, 3)] (List.Perm.refl _)
  refine ⟨rfl, ?_, ?_⟩
  · intro v hv
    have : v = 0 ∨ v = 1 ∨ v = 2 ∨ v = 3 := by omega
    rcases this with rfl | rfl | rfl | rfl
    · exact ⟨by decide, Relation.EqvGen.refl _⟩
    · exact ⟨by decide, Relation.EqvGen.symm _ _ e01⟩
    · exact ⟨by decide, Relation.EqvGen.refl _⟩
    · exact ⟨by decide, Relation.EqvGen.symm _ _ e23⟩
  · intro u v hu hv
    have hu' : u = 0 ∨ u = 1 ∨ u = 2 ∨ u = 3 := by omega
    have hv' : v = 0 ∨ v = 1 ∨ v = 2 ∨ v = 3 := by omega
    constructor
    · intro h
      rcases hu' with rfl | rfl | rfl | rfl <;> rcases hv' with rfl | rfl | rfl | rfl <;>
        first
        | exact Relation.EqvGen.refl _
        | exact e01
        | exact Relation.EqvGen.symm _ _ e01
        | exact e23
        | exact Relation.EqvGen.symm _ _ e23
        | exact absurd h (by decide)
    · intro h
      have := hcl u v h
      rcases hu' with rfl | rfl | rfl | rfl <;> rcases hv' with rfl | rfl | rfl | rfl <;>
        first
        | rfl
        | (exfalso; omega)

/-- C24 (counterexample): on the two disjoint pairs with the threshold `0`, for every sample
sort and every connected-components routine whose labels are the ids of representatives of
the components (the data model of the spec), the labeling of `NearestNeighborLinkage` has
two distinct labels, one per pair, but the graph compressed with `SUM` has at least three
vertices and its node weights are not `[2, 2]`: the pair `{2, 3}` carries a label that is at
least `2`. Such labelings exist, `[0, 0, 2, 2]` being one, for which the compressed graph has
three vertices and the node weights `[2, 0, 2]`. -/
theorem CompressGraph_two_pairs_three_vertices :
    twoPairs.n = 4 ∧
    IsRepresentativeLabeling 4 (filtered_edges twoPairs 0) [0, 0, 2, 2] ∧
    CompressGraph twoPairs [] [0, 0, 2, 2] .SUM = .ok (⟨[[], [], []]⟩, [2, 0, 2]) ∧
    ∀ (cc : Nat → List (Nat × Nat) → List Nat) (sort : List (Nat × Nat) → List (Nat × Nat)),
      IsSampleSort source_less sort →
      IsRepresentativeLabeling twoPairs.n (sort (filtered_edges twoPairs 0))
        (cc twoPairs.n (sort (filtered_edges twoPairs 0))) →
      ∃ L G' NW', NearestNeighborLinkage cc sort twoPairs 0 = .ok L ∧
        L.dedup.length = 2 ∧
        CompressGraph twoPairs [] L .SUM = .ok (G', NW') ∧
        3 ≤ G'.n ∧ 3 ≤ NW'.length ∧ NW' ≠ [2, 2] := by
  refine ⟨by decide, ?_, by decide!, ?_⟩
  · rw [filtered_edges_twoPairs]
    exact twoPairs_representative_labeling
  intro cc sort hsort hcc
  have hn : twoPairs.n = 4 := by decide
  have hperm : (sort (filtered_edges twoPairs 0)).Perm
      [(0, 1), (1, 0), (2, 3), (3, 2), (1, 0), (0, 1), (3, 2), (2, 3)] := by
    have := (hsort (filtered_edges twoPairs 0)).1
    rwa [filtered_edges_twoPairs] at this ⊢
  rw [hn] at hcc
  obtain ⟨a, b, ha, hb, hL⟩ := representative_labeling_twoPairs _ hperm _ hcc
  have hNN : NearestNeighborLinkage cc sort twoPairs 0 = .ok [a, a, b, b] := by
    unfold NearestNeighborLinkage
    rw [if_neg (by rw [filtered_edges_twoPairs]; decide), hn, hL]
  refine ⟨[a, a, b, b], ?_⟩
  rcases ha with rfl | rfl <;> rcases hb with rfl | rfl <;>
    exact ⟨_, _, hNN, by decide, rfl, by decide, by decide, by decide⟩


/-- Every rearrangement of the selected edges of the two disjoint pairs has the labeling
`[0, 0, 2, 2]` as a labeling by representatives. -/
theorem twoPairs_representative_labeling_perm (edges : List (Nat × Nat))
    (hperm : edges.Perm [(0, 1), (1, 0), (2, 3), (3, 2), (1, 0), (0, 1), (3, 2), (2, 3)]) :
    IsRepresentativeLabeling 4 edges [0, 0, 2, 2] := by
  obtain ⟨h1, h2, h3⟩ := twoPairs_representative_labeling
  have hrel : ∀ u v, Relation.EqvGen (fun a b => (a, b) ∈ edges) u v ↔
      Relation.EqvGen (fun a b => (a, b) ∈
        [(0, 1), (1, 0), (2, 3), (3, 2), (1, 0), (0, 1), (3, 2), (2, 3)]) u v := by
    intro u v
    have : (fun a b => (a, b) ∈ edges) = (fun a b => (a, b) ∈
        [(0, 1), (1, 0), (2, 3), (3, 2), (1, 0), (0, 1), (3, 2), (2, 3)]) := by
      funext a b
      exact propext hperm.mem_iff
    rw [this]
  exact ⟨h1, fun v hv => ⟨(h2 v hv).1, (hrel _ _).2 (h2 v hv).2⟩,
    fun u v hu hv => (h3 u v hu hv).trans (hrel u v).symm⟩

/-- C24 (amended): for every graph with fewer than `2 ^ 32` vertices, every sort and every
connected-components routine whose labels on the selected edges are the ids of
representatives of the components (the data model of the spec), `NearestNeighborLinkage`
returns a labeling `L` of the `n` vertices by vertex ids, and the compression with `SUM` and
without node weights along `L` succeeds; the compressed graph has one vertex per id up to
the largest label, every label is one of its vertices, the node weight of the vertex `c` is
the number of vertices labelled `c` (`0` when `c` is not a label), and the number of
compressed vertices is at least the number of distinct labels, with equality exactly when
every id below it is a label. -/
theorem CompressGraph_after_NearestNeighborLinkage
    (cc : Nat → List (Nat × Nat) → List Nat)
    (sort : List (Nat × Nat) → List (Nat × Nat)) (G : Graph) (weight_threshold : ℚ)
    (hcc : IsRepresentativeLabeling G.n (sort (filtered_edges G weight_threshold))
      (cc G.n (sort (filtered_edges G weight_threshold))))
    (hn : G.n < UINT_E_MOD) :
    ∃ L G' NW', NearestNeighborLinkage cc sort G weight_threshold = .ok L ∧
      L.length = G.n ∧ (∀ l ∈ L, l < G.n) ∧
      (NearestNeighborLinkage cc sort G weight_threshold >>=
        fun L => CompressGraph G [] L .SUM) = .ok (G', NW') ∧
      G'.n = num_compressed_vertices L ∧ NW'.length = G'.n ∧
      (∀ l ∈ L, l < G'.n) ∧
      (0 < G.n → ∃ m ∈ L, (∀ l ∈ L, l ≤ m) ∧ G'.n = m + 1) ∧
      (∀ c, c < G'.n → NW'[c]? =
        some ((List.range G.n).filter (fun i => decide (L[i]? = some c))).length) ∧
      (∀ c, c < G'.n → c ∉ L → NW'[c]? = some 0) ∧
      L.dedup.length ≤ G'.n ∧
      (L.dedup.length = G'.n ↔ ∀ c, c < G'.n → c ∈ L) := by
  have hex : ∃ L, NearestNeighborLinkage cc sort G weight_threshold = .ok L ∧
      L.length = G.n ∧ ∀ l ∈ L, l < G.n := by
    unfold NearestNeighborLinkage
    split_ifs with h
    · exact ⟨_, rfl, List.length_range _, fun l hl => List.mem_range.1 hl⟩
    · refine ⟨_, rfl, hcc.1, fun l hl => ?_⟩
      obtain ⟨v, hv, hvl⟩ := List.getElem_of_mem hl
      have := (hcc.2.1 v (by rw [← hcc.1]; exact hv)).1
      rw [List.getD_eq_getElem _ _ hv, hvl] at this
      exact this
  obtain ⟨L, hL, hlen, hlab⟩ := hex
  obtain ⟨G', NW', h⟩ := CompressGraph_labeling_by_ids cc sort G weight_threshold L hL hlen
    hlab hn
  exact ⟨L, G', NW', hL, hlen, hlab, h⟩

/-- C24 (witness): the two disjoint pairs with the threshold `0` and a routine that returns
the labeling by representatives `[0, 0, 2, 2]`. -/
theorem CompressGraph_after_NearestNeighborLinkage_witness :
    IsRepresentativeLabeling twoPairs.n (sortBySource (filtered_edges twoPairs 0))
      ((fun _ _ => [0, 0, 2, 2]) twoPairs.n (sortBySource (filtered_edges twoPairs 0))) ∧
    twoPairs.n < UINT_E_MOD ∧
    ∃ L G' NW', NearestNeighborLinkage (fun _ _ => [0, 0, 2, 2]) sortBySource twoPairs 0 =
        .ok L ∧
      L.length = twoPairs.n ∧ (∀ l ∈ L, l < twoPairs.n) ∧
      (NearestNeighborLinkage (fun _ _ => [0, 0, 2, 2]) sortBySource twoPairs 0 >>=
        fun L => CompressGraph twoPairs [] L .SUM) = .ok (G', NW') ∧
      G'.n = num_compressed_vertices L ∧ NW'.length = G'.n ∧
      (∀ l ∈ L, l < G'.n) ∧
      (0 < twoPairs.n → ∃ m ∈ L, (∀ l ∈ L, l ≤ m) ∧ G'.n = m + 1) ∧
      (∀ c, c < G'.n → NW'[c]? =
        some ((List.range twoPairs.n).filter (fun i => decide (L[i]? = some c))).length) ∧
      (∀ c, c < G'.n → c ∉ L → NW'[c]? = some 0) ∧
      L.dedup.length ≤ G'.n ∧
      (L.dedup.length = G'.n ↔ ∀ c, c < G'.n → c ∈ L) :=
  have h : IsRepresentativeLabeling twoPairs.n (sortBySource (filtered_edges twoPairs 0))
      ((fun _ _ => [0, 0, 2, 2]) twoPairs.n (sortBySource (filtered_edges twoPairs 0))) :=
    twoPairs_representative_labeling_perm _
      (by
        have := (sortBySource_isSampleSort (filtered_edges twoPairs 0)).1
        rwa [filtered_edges_twoPairs] at this ⊢)
  ⟨h, by decide,
    CompressGraph_after_NearestNeighborLinkage (fun _ _ => [0, 0, 2, 2]) sortBySource
      twoPairs 0 h (by decide)⟩

/-- C18 (failing run): on the complete graph on `1..4` with the pendant edge `0 – 2`, whose
core numbers are `[1, 3, 3, 3, 3]`, the first iteration of the loop of `KCore` finishes the
vertex `0` without a call of `link`; the second iteration issues the calls of `link` for the
bucket `3`, among them `link(1, 2)` and `link(2, 0)`, from a parallel `vertexMap`. When
`link(2, 0)` has read the root `2` before `link(1, 2)` unites `1` and `2`, and stores the
link of that root after it, the link is stored at the vertex `2`, which is no root any more:
the object ends with the roots `[0, 1, 1, 1, 1]` and the links `NONE` but for `links[2] = 0`.
The tree built from it is `[5, 6, 6, 6, 6, NONE, NONE]`, in which the vertices `0` and `2`
have no common ancestor, although they have one at the level of the core number `1` in the
tree of the post-hoc variant and in the tree of a run whose calls of `link` do not
overlap. -/
theorem efficient_link_race_loses_link :
    (KCore noConnectOps K4pendant2 () false).map Prod.fst = some [1, 3, 3, 3, 3] ∧
    (KCore_rounds (efficientOps (link_fuel K4pendant2)) K4pendant2 true 1
      ⟨(List.range K4pendant2.n).map (fun i => (K4pendant2.out_neighbors i).length),
        List.range K4pendant2.n, 0, 0,
        some (EfficientConnectWhilePeeling.mk_n K4pendant2.n)⟩).D = [1, 3, 3, 3, 3] ∧
    (KCore_rounds (efficientOps (link_fuel K4pendant2)) K4pendant2 true 1
      ⟨(List.range K4pendant2.n).map (fun i => (K4pendant2.out_neighbors i).length),
        List.range K4pendant2.n, 0, 0,
        some (EfficientConnectWhilePeeling.mk_n K4pendant2.n)⟩).b = [1, 2, 3, 4] ∧
    (KCore_rounds (efficientOps (link_fuel K4pendant2)) K4pendant2 true 1
      ⟨(List.range K4pendant2.n).map (fun i => (K4pendant2.out_neighbors i).length),
        List.range K4pendant2.n, 0, 0,
        some (EfficientConnectWhilePeeling.mk_n K4pendant2.n)⟩).connect_while_peeling =
      some (EfficientConnectWhilePeeling.mk_n 5) ∧
    next_bucket_id [1, 3, 3, 3, 3] [1, 2, 3, 4] = 3 ∧
    round_pairs K4pendant2 [1, 3, 3, 3, 3] (next_bucket_identifiers [1, 3, 3, 3, 3] [1, 2, 3, 4])
      3 = [(1, 2), (1, 3), (1, 4), (2, 0), (2, 1), (2, 3), (2, 4), (3, 1), (3, 2), (3, 4),
        (4, 1), (4, 2), (4, 3)] ∧
    raced_links (cores_func [1, 3, 3, 3, 3] 3 5) (link_fuel K4pendant2)
      (EfficientConnectWhilePeeling.mk_n 5) =
      some ⟨[0, 1, 1, 1, 1], [UINT_E_MAX, UINT_E_MAX, 0, UINT_E_MAX, UINT_E_MAX]⟩ ∧
    EfficientConnectWhilePeeling.construct_nd_connectivity_from_connect sortWith 5
      ⟨[0, 1, 1, 1, 1], [UINT_E_MAX, UINT_E_MAX, 0, UINT_E_MAX, UINT_E_MAX]⟩ =
      [5, 6, 6, 6, 6, UINT_E_MAX, UINT_E_MAX] ∧
    ¬ common_ancestor_at [5, 6, 6, 6, 6, UINT_E_MAX, UINT_E_MAX] [1, 3, 3, 3, 3] 5 1 0 2 ∧
    (∃ T, KCore_connect sortWith K4pendant2 false false = some T ∧
      common_ancestor_at T [1, 3, 3, 3, 3] 5 1 0 2) ∧
    (∃ T, KCore_connect sortWith K4pendant2 false true = some T ∧
      common_ancestor_at T [1, 3, 3, 3, 3] 5 1 0 2) := by
  refine ⟨by decide!, by decide!, by decide!, by decide!, by decide!, by decide!, by decide!,
    by decide!, by decide!, ?_, ?_⟩
  · exact ⟨[6, 5, 5, 5, 5, 6], by decide!, by decide!⟩
  · exact ⟨[5, 6, 6, 6, 6, UINT_E_MAX, 5], by decide!, by decide!⟩

/-! ### Binary floating-point arithmetic -/

/-- The power `pow2 k` is the power of `2` with the integer exponent `k`. -/
theorem pow2_eq_zpow (k : Int) : pow2 k = (2 : ℚ) ^ k := by
  unfold pow2
  split_ifs with h
  · obtain ⟨n, rfl⟩ := Int.eq_ofNat_of_zero_le h
    simp
  · push_neg at h
    obtain ⟨n, hn⟩ := Int.eq_ofNat_of_zero_le (show 0 ≤ -k by omega)
    have hk : k = -(n : Int) := by omega
    subst hk
    simp

/-- Powers of two are positive. -/
theorem pow2_pos (k : Int) : 0 < pow2 k := by
  rw [pow2_eq_zpow]
  exact zpow_pos (by norm_num) k

/-- The power of a sum of exponents. -/
theorem pow2_add (k l : Int) : pow2 (k + l) = pow2 k * pow2 l := by
  simp only [pow2_eq_zpow]
  exact zpow_add₀ (by norm_num) k l

/-- Powers of two increase with the exponent. -/
theorem pow2_lt_pow2 {k l : Int} : pow2 k < pow2 l ↔ k < l := by
  simp only [pow2_eq_zpow]
  exact zpow_lt_zpow_iff_right₀ (by norm_num)

/-- Powers of two increase weakly with the exponent. -/
theorem pow2_le_pow2 {k l : Int} : pow2 k ≤ pow2 l ↔ k ≤ l := by
  simp only [pow2_eq_zpow]
  exact zpow_le_zpow_iff_right₀ (by norm_num)

/-- The power of two with a natural exponent. -/
theorem pow2_natCast (n : Nat) : pow2 (n : Int) = (2 : ℚ) ^ n := by
  rw [pow2_eq_zpow]
  exact zpow_natCast 2 n

/-- The number of binary digits: `n < 2 ^ bit_length n`, and `2 ^ (bit_length n - 1) ≤ n`
unless `n = 0`. -/
theorem bit_length_spec (fuel n : Nat) (h : n < 2 ^ fuel) :
    n < 2 ^ bit_length fuel n ∧ (n ≠ 0 → 1 ≤ bit_length fuel n ∧
      2 ^ (bit_length fuel n - 1) ≤ n) := by
  induction fuel generalizing n with
  | zero =>
    have : n = 0 := by simpa using h
    subst this
    simp [bit_length]
  | succ fuel ih =>
    unfold bit_length
    split_ifs with h0
    · subst h0
      simp
    · have hhalf : n / 2 < 2 ^ fuel := by
        rw [Nat.div_lt_iff_lt_mul (by norm_num)]
        rw [pow_succ] at h
        exact h
      obtain ⟨h1, h2⟩ := ih (n / 2) hhalf
      refine ⟨?_, fun _ => ⟨by omega, ?_⟩⟩
      · rw [pow_succ]
        omega
      · simp only [Nat.add_sub_cancel]
        by_cases hz : n / 2 = 0
        · rw [hz]
          have : bit_length fuel 0 = 0 := by
            cases fuel <;> simp [bit_length]
          rw [this]
          simp
          omega
        · obtain ⟨h3, h4⟩ := h2 hz
          have : 2 ^ (bit_length fuel (n / 2)) = 2 ^ (bit_length fuel (n / 2) - 1) * 2 := by
            rw [← pow_succ]
            congr 1
            omega
          rw [this]
          omega

/-- The number of binary digits of `n`, with `n` halvings allowed. -/
theorem bit_length_self (n : Nat) (h0 : n ≠ 0) :
    1 ≤ bit_length n n ∧ 2 ^ (bit_length n n - 1) ≤ n ∧ n < 2 ^ bit_length n n := by
  have h := bit_length_spec n n (Nat.lt_two_pow n)
  exact ⟨(h.2 h0).1, (h.2 h0).2, h.1⟩

/-- The value of `floor_log2`: the power of two with this exponent is at most `|q|`, and the
next power of two is above `|q|`. -/
theorem floor_log2_spec (q : ℚ) (hq : q ≠ 0) :
    pow2 (floor_log2 q) ≤ |q| ∧ |q| < pow2 (floor_log2 q + 1) := by
  have ha0 : q.num.natAbs ≠ 0 := by
    rw [Ne, Int.natAbs_eq_zero]
    exact Rat.num_ne_zero.2 hq
  have hb0 : q.den ≠ 0 := q.den_nz
  obtain ⟨a1, a2, a3⟩ := bit_length_self _ ha0
  obtain ⟨b1, b2, b3⟩ := bit_length_self _ hb0
  have habs : |q| = (q.num.natAbs : ℚ) / (q.den : ℚ) := by
    conv_lhs => rw [← Rat.num_div_den q]
    rw [abs_div, Nat.cast_natAbs, Int.cast_abs]
    congr 1
    exact abs_of_nonneg (by positivity)
  unfold floor_log2
  generalize bit_length q.num.natAbs q.num.natAbs = sa at a1 a2 a3 ⊢
  generalize bit_length q.den q.den = sb at b1 b2 b3 ⊢
  have hbpos : (0 : ℚ) < (q.den : ℚ) := by exact_mod_cast Nat.pos_of_ne_zero hb0
  have A2 : ((2 : ℚ) ^ (sa - 1)) ≤ (q.num.natAbs : ℚ) := by exact_mod_cast a2
  have A3 : (q.num.natAbs : ℚ) < (2 : ℚ) ^ sa := by exact_mod_cast a3
  have B2 : ((2 : ℚ) ^ (sb - 1)) ≤ (q.den : ℚ) := by exact_mod_cast b2
  have B3 : (q.den : ℚ) < (2 : ℚ) ^ sb := by exact_mod_cast b3
  have hup : |q| < pow2 ((sa : Int) - (sb : Int) + 1) := by
    rw [habs, div_lt_iff₀ hbpos]
    have e : pow2 ((sa : Int) - (sb : Int) + 1) * (2 : ℚ) ^ (sb - 1) = (2 : ℚ) ^ sa := by
      rw [← pow2_natCast, ← pow2_natCast, ← pow2_add]
      congr 1
      omega
    calc (q.num.natAbs : ℚ) < (2 : ℚ) ^ sa := A3
      _ = pow2 ((sa : Int) - (sb : Int) + 1) * (2 : ℚ) ^ (sb - 1) := e.symm
      _ ≤ pow2 ((sa : Int) - (sb : Int) + 1) * (q.den : ℚ) :=
        mul_le_mul_of_nonneg_left B2 (le_of_lt (pow2_pos _))
  have hlow : pow2 ((sa : Int) - (sb : Int) - 1) ≤ |q| := by
    rw [habs, le_div_iff₀ hbpos]
    have e : pow2 ((sa : Int) - (sb : Int) - 1) * (2 : ℚ) ^ sb = (2 : ℚ) ^ (sa - 1) := by
      rw [← pow2_natCast, ← pow2_natCast, ← pow2_add]
      congr 1
      omega
    calc pow2 ((sa : Int) - (sb : Int) - 1) * (q.den : ℚ)
        ≤ pow2 ((sa : Int) - (sb : Int) - 1) * (2 : ℚ) ^ sb :=
          mul_le_mul_of_nonneg_left (le_of_lt B3) (le_of_lt (pow2_pos _))
      _ = (2 : ℚ) ^ (sa - 1) := e
      _ ≤ (q.num.natAbs : ℚ) := A2
  split_ifs with h
  · exact ⟨h, hup⟩
  · push_neg at h
    refine ⟨hlow, ?_⟩
    rw [sub_add_cancel]
    exact h

/-- The floor of a rational number as computed by `Rat.floor`. -/
theorem rat_floor_eq (x : ℚ) : Rat.floor x = ⌊x⌋ := rfl

/-- An integer is rounded to itself. -/
theorem round_half_even_intCast (z : Int) : round_half_even (z : ℚ) = z := by
  unfold round_half_even
  simp [rat_floor_eq]

/-- Rounding to the nearest integer does not pass an integer above. -/
theorem round_half_even_le (x : ℚ) (z : Int) (h : x ≤ z) : round_half_even x ≤ z := by
  unfold round_half_even
  simp only [rat_floor_eq]
  have hf : ⌊x⌋ ≤ z := Int.floor_le_iff.2 (lt_of_le_of_lt h (by exact_mod_cast Int.lt_succ z))
  rcases lt_or_eq_of_le hf with hlt | heq
  · split_ifs <;> omega
  · have hx : x = (z : ℚ) := le_antisymm h (by rw [← heq]; exact Int.floor_le x)
    have : x - (⌊x⌋ : ℚ) < 1 / 2 := by
      rw [heq, hx]; norm_num
    rw [if_pos this]
    exact hf

/-- Rounding to the nearest integer does not pass an integer below. -/
theorem le_round_half_even (x : ℚ) (z : Int) (h : (z : ℚ) ≤ x) : z ≤ round_half_even x := by
  unfold round_half_even
  simp only [rat_floor_eq]
  have hf : z ≤ ⌊x⌋ := Int.le_floor.2 h
  split_ifs <;> omega

/-- Zero is rounded to zero. -/
theorem binary_round_zero (p : Nat) (emin emax : Int) :
    binary_round p emin emax 0 = .finite 0 := by
  unfold binary_round
  have h0 : round_half_even (0 / pow2 (ulp_exp p emin 0)) = 0 := by
    rw [zero_div]
    exact_mod_cast round_half_even_intCast 0
  rw [h0]
  simp only [Int.cast_zero, zero_mul, abs_zero]
  rw [if_neg (not_le.2 (pow2_pos _))]

/-- A finite number of the format is rounded to itself. -/
theorem binary_round_exact (p : Nat) (emin emax : Int) (q : ℚ)
    (h : IsBinary p emin emax q) : binary_round p emin emax q = .finite q := by
  obtain ⟨m, e, hm, he, hq, hmax⟩ := h
  have hval : (round_half_even (q / pow2 (ulp_exp p emin q)) : ℚ) * pow2 (ulp_exp p emin q) =
      q := by
    by_cases hq0 : q = 0
    · rw [hq0, zero_div]
      have := round_half_even_intCast 0
      simp only [Int.cast_zero] at this
      rw [this]
      simp
    · have hu : ulp_exp p emin q ≤ e := by
        unfold ulp_exp
        apply max_le _ he
        have hfl := (floor_log2_spec q hq0).1
        have hlt : |q| < pow2 ((p : Int) + e) := by
          rw [hq, abs_mul, abs_of_pos (pow2_pos e), pow2_add, pow2_natCast]
          apply mul_lt_mul_of_pos_right _ (pow2_pos e)
          have : |(m : ℚ)| = ((|m| : Int) : ℚ) := by simp
          rw [this]
          exact_mod_cast hm
        have := pow2_lt_pow2.1 (lt_of_le_of_lt hfl hlt)
        omega
      generalize ulp_exp p emin q = u at hu ⊢
      obtain ⟨d, hd⟩ := Int.eq_ofNat_of_zero_le (show 0 ≤ e - u by omega)
      have hdiv : q / pow2 u = ((m * 2 ^ d : Int) : ℚ) := by
        rw [hq, mul_div_assoc]
        have : pow2 e / pow2 u = (2 : ℚ) ^ d := by
          rw [div_eq_iff (ne_of_gt (pow2_pos u)), ← pow2_natCast, ← pow2_add]
          congr 1
          omega
        rw [this]
        push_cast
        rfl
      rw [hdiv, round_half_even_intCast, ← hdiv]
      exact div_mul_cancel₀ q (ne_of_gt (pow2_pos u))
  unfold binary_round
  rw [hval, if_neg (not_le.2 hmax)]

/-- A natural number below `2 ^ 24` is a `float` and is converted to itself. -/
theorem round32_natCast (n : Nat) (h : n < 2 ^ 24) : round32 (n : ℚ) = .finite (n : ℚ) := by
  apply binary_round_exact
  refine ⟨(n : Int), 0, ?_, by norm_num, by simp [pow2], ?_⟩
  · rw [abs_of_nonneg (by positivity)]
    exact_mod_cast h
  · rw [abs_of_nonneg (by positivity)]
    have : pow2 (127 + 1) = (2 : ℚ) ^ 128 := by
      rw [show (127 : Int) + 1 = ((128 : Nat) : Int) by norm_num, pow2_natCast]
    rw [this]
    calc (n : ℚ) < (2 : ℚ) ^ 24 := by exact_mod_cast h
      _ ≤ (2 : ℚ) ^ 128 := by norm_num

/-- The rounding to `float` of a number between `0` and `1` lies between `0` and `1`. -/
theorem round32_unit_interval (q : ℚ) (h0 : 0 ≤ q) (h1 : q ≤ 1) :
    ∃ r, round32 q = .finite r ∧ 0 ≤ r ∧ r ≤ 1 := by
  by_cases hq0 : q = 0
  · subst hq0
    exact ⟨0, binary_round_zero 24 (-126) 127, le_refl _, by norm_num⟩
  have hu : ulp_exp 24 (-126) q ≤ 0 := by
    unfold ulp_exp
    apply max_le _ (by norm_num)
    have hfl := (floor_log2_spec q hq0).1
    rw [abs_of_nonneg h0] at hfl
    have h2 : pow2 (floor_log2 q) < pow2 1 := by
      apply lt_of_le_of_lt (le_trans hfl h1)
      rw [pow2_eq_zpow]
      norm_num
    have := pow2_lt_pow2.1 h2
    push_cast
    omega
  generalize hudef : ulp_exp 24 (-126) q = u at hu
  obtain ⟨d, hd⟩ := Int.eq_ofNat_of_zero_le (show 0 ≤ -u by omega)
  have hinv : 1 / pow2 u = ((2 ^ d : Int) : ℚ) := by
    rw [div_eq_iff (ne_of_gt (pow2_pos u))]
    push_cast
    rw [← pow2_natCast, ← pow2_add, ← hd]
    simp [pow2]
  have hle : q / pow2 u ≤ ((2 ^ d : Int) : ℚ) := by
    rw [← hinv]
    exact div_le_div_of_nonneg_right h1 (le_of_lt (pow2_pos u))
  have hge : ((0 : Int) : ℚ) ≤ q / pow2 u := by
    simp only [Int.cast_zero]
    exact div_nonneg h0 (le_of_lt (pow2_pos u))
  have hr1 := round_half_even_le _ _ hle
  have hr0 := le_round_half_even _ _ hge
  have hR0 : (0 : ℚ) ≤ (round_half_even (q / pow2 u) : ℚ) := by exact_mod_cast hr0
  have hR1 : (round_half_even (q / pow2 u) : ℚ) ≤ ((2 ^ d : Int) : ℚ) := by exact_mod_cast hr1
  have hv0 : 0 ≤ (round_half_even (q / pow2 u) : ℚ) * pow2 u :=
    mul_nonneg hR0 (le_of_lt (pow2_pos u))
  have hv1 : (round_half_even (q / pow2 u) : ℚ) * pow2 u ≤ 1 := by
    calc (round_half_even (q / pow2 u) : ℚ) * pow2 u
        ≤ ((2 ^ d : Int) : ℚ) * pow2 u := mul_le_mul_of_nonneg_right hR1 (le_of_lt (pow2_pos u))
      _ = 1 := by rw [← hinv]; exact div_mul_cancel₀ 1 (ne_of_gt (pow2_pos u))
  refine ⟨_, ?_, hv0, hv1⟩
  unfold round32 binary_round
  rw [hudef, if_neg]
  rw [not_le, abs_of_nonneg hv0]
  apply lt_of_le_of_lt hv1
  rw [pow2_eq_zpow]
  norm_num

/-- The edges stored at a vertex of the graph built by `F32.MakeGbbsGraph`. -/
theorem F32.MakeGbbsGraph_out_neighbors_f32 (n : Nat) (T : List (Nat × Nat × FloatVal)) (c : Nat) :
    (F32.MakeGbbsGraph n T).out_neighbors c =
      if c < n then (T.filter (fun e => decide (e.1 = c))).map (fun e => (e.2.1, e.2.2))
      else [] := by
  simp only [F32.MakeGbbsGraph, F32.Graph.out_neighbors, List.getD_eq_getElem?_getD,
    List.getElem?_map, List.getElem?_range]
  by_cases h : c < n
  · simp [h, List.getElem?_range h]
  · have : (List.range n)[c]? = none := by
      rw [List.getElem?_eq_none_iff]; simpa using h
    simp [h, this]

/-- The graph built by `F32.MakeGbbsGraph` stores `(c2, w)` at `c1` exactly when `(c1, c2, w)`
is in the edge array and `c1` is one of its vertices. -/
theorem F32.mem_MakeGbbsGraph_f32 (n : Nat) (T : List (Nat × Nat × FloatVal)) (c1 c2 : Nat) (w : FloatVal) :
    (c2, w) ∈ (F32.MakeGbbsGraph n T).out_neighbors c1 ↔ c1 < n ∧ (c1, c2, w) ∈ T := by
  rw [F32.MakeGbbsGraph_out_neighbors_f32]
  by_cases h : c1 < n
  · simp only [h, if_true, true_and, List.mem_map, List.mem_filter, decide_eq_true_eq,
      Prod.mk.injEq]
    constructor
    · rintro ⟨⟨a, b, x⟩, ⟨hmem, rfl⟩, rfl, rfl⟩
      exact hmem
    · intro hmem
      exact ⟨(c1, c2, w), ⟨hmem, rfl⟩, rfl, rfl⟩
  · simp [h]

/-- The number of vertices of the graph built by `F32.MakeGbbsGraph`. -/
theorem F32.MakeGbbsGraph_n_f32 (n : Nat) (T : List (Nat × Nat × FloatVal)) : (F32.MakeGbbsGraph n T).n = n := by
  simp [F32.MakeGbbsGraph, F32.Graph.n]

/-- The contributions to the pair `(c1, c2)`: one per original edge between the two
clusters when they are different clusters, none otherwise. -/
theorem F32.RetrieveInterClusterEdges_filter_f32 (G : ParClusterers.Graph) (cluster_ids : List Nat)
    (scale : Nat × Nat × FloatVal → FloatVal) (c1 c2 : Nat) :
    (F32.RetrieveInterClusterEdges G cluster_ids (fun a b => decide (a ≠ b)) scale).filter
        (fun e => decide (e.1 = c1) && decide (e.2.1 = c2)) =
      if c1 ≠ c2 ∧ c1 ≠ UINT_E_MAX ∧ c2 ≠ UINT_E_MAX then
        (G.edges_between cluster_ids c1 c2).map
          (fun e => (c1, c2, scale (e.1, e.2.1, .finite e.2.2)))
      else [] := by
  unfold F32.RetrieveInterClusterEdges Graph.edges_between
  induction G.edges with
  | nil => simp
  | cons e es ih =>
    rw [List.filterMap_cons]
    by_cases hcond : cluster_ids.getD e.1 UINT_E_MAX ≠ UINT_E_MAX ∧
        cluster_ids.getD e.2.1 UINT_E_MAX ≠ UINT_E_MAX ∧
        (decide (cluster_ids.getD e.1 UINT_E_MAX ≠ cluster_ids.getD e.2.1 UINT_E_MAX)) = true
    · rw [if_pos hcond]
      simp only [List.filter_cons, ih]
      obtain ⟨h1, h2, h3⟩ := hcond
      have h3 : cluster_ids.getD e.1 UINT_E_MAX ≠ cluster_ids.getD e.2.1 UINT_E_MAX := by
        simpa using h3
      by_cases hk : cluster_ids.getD e.1 UINT_E_MAX = c1 ∧ cluster_ids.getD e.2.1 UINT_E_MAX = c2
      · obtain ⟨hk1, hk2⟩ := hk
        have hc1 : c1 ≠ UINT_E_MAX := hk1 ▸ h1
        have hc2 : c2 ≠ UINT_E_MAX := hk2 ▸ h2
        have hne : c1 ≠ c2 := by rw [← hk1, ← hk2]; exact h3
        have e1 := (getD_eq_iff_getElem? cluster_ids e.1 c1 hc1).1 hk1
        have e2 := (getD_eq_iff_getElem? cluster_ids e.2.1 c2 hc2).1 hk2
        simp [hk1, hk2, hc1, hc2, hne, e1, e2]
      · have hk' : ¬ (cluster_ids[e.1]? = some c1 ∧ cluster_ids[e.2.1]? = some c2) ∨
            ¬ (c1 ≠ c2 ∧ c1 ≠ UINT_E_MAX ∧ c2 ≠ UINT_E_MAX) := by
          by_cases hc : c1 ≠ c2 ∧ c1 ≠ UINT_E_MAX ∧ c2 ≠ UINT_E_MAX
          · left
            rintro ⟨e1, e2⟩
            exact hk ⟨(getD_eq_iff_getElem? cluster_ids e.1 c1 hc.2.1).2 e1,
              (getD_eq_iff_getElem? cluster_ids e.2.1 c2 hc.2.2).2 e2⟩
          · right; exact hc
        have hdec : (decide (cluster_ids.getD e.1 UINT_E_MAX = c1) &&
            decide (cluster_ids.getD e.2.1 UINT_E_MAX = c2)) = false := by
          simpa using hk
        simp only [hdec, Bool.false_eq_true, if_false]
        rcases hk' with hk' | hk'
        · have hdec' : (decide (cluster_ids[e.1]? = some c1) &&
              decide (cluster_ids[e.2.1]? = some c2)) = false := by
            simpa using hk'
          simp only [hdec', Bool.false_eq_true, if_false]
        · simp only [hk', if_false]
    · rw [if_neg hcond]
      simp only [ih, List.filter_cons]
      by_cases hc : c1 ≠ c2 ∧ c1 ≠ UINT_E_MAX ∧ c2 ≠ UINT_E_MAX
      · have hdec' : (decide (cluster_ids[e.1]? = some c1) &&
            decide (cluster_ids[e.2.1]? = some c2)) = false := by
          rw [Bool.and_eq_false_iff]
          by_contra hcon
          push_neg at hcon
          simp only [ne_eq, Bool.not_eq_false, decide_eq_true_eq] at hcon
          obtain ⟨e1, e2⟩ := hcon
          have g1 := (getD_eq_iff_getElem? cluster_ids e.1 c1 hc.2.1).2 e1
          have g2 := (getD_eq_iff_getElem? cluster_ids e.2.1 c2 hc.2.2).2 e2
          apply hcond
          rw [g1, g2]
          exact ⟨hc.2.1, hc.2.2, by simpa using hc.1⟩
        simp only [hdec', Bool.false_eq_true, if_false]
      · simp only [hc, if_false]

/-- The weights contributed to the pair `(c1, c2)`: the scaled weights of the original edges
between the two clusters when they are different clusters, none otherwise. -/
theorem F32.contributions_to_Retrieve_f32 (G : ParClusterers.Graph) (cluster_ids : List Nat)
    (scale : Nat × Nat × FloatVal → FloatVal) (c1 c2 : Nat) :
    F32.contributions_to
        (F32.RetrieveInterClusterEdges G cluster_ids (fun a b => decide (a ≠ b)) scale) c1 c2 =
      if c1 ≠ c2 ∧ c1 ≠ UINT_E_MAX ∧ c2 ≠ UINT_E_MAX then
        (G.edges_between cluster_ids c1 c2).map
          (fun e => scale (e.1, e.2.1, .finite e.2.2))
      else [] := by
  unfold F32.contributions_to
  rw [F32.RetrieveInterClusterEdges_filter_f32]
  split_ifs
  · simp [List.map_map, Function.comp_def]
  · rfl

/-- The edge array holds `(c1, c2, w)` exactly when both are compressed vertices, some
contribution maps to the pair, and `w` aggregates the contributions to the pair. -/
theorem F32.mem_ComputeInterClusterEdgesSort_f32 (G : ParClusterers.Graph) (cluster_ids : List Nat) (n' : Nat)
    (f : FloatVal → FloatVal → FloatVal) (valid : Nat → Nat → Bool) (scale : Nat × Nat × FloatVal → FloatVal)
    (c1 c2 : Nat) (w : FloatVal) :
    (c1, c2, w) ∈ F32.ComputeInterClusterEdgesSort G cluster_ids n' f valid scale ↔
      c1 < n' ∧ c2 < n' ∧
      F32.contributions_to (F32.RetrieveInterClusterEdges G cluster_ids valid scale) c1 c2 ≠ [] ∧
      w = F32.aggregate_weights f
        (F32.contributions_to (F32.RetrieveInterClusterEdges G cluster_ids valid scale) c1 c2) := by
  simp only [F32.ComputeInterClusterEdgesSort, List.mem_flatMap, List.mem_range,
    List.mem_filterMap]
  constructor
  · rintro ⟨a, ha, b, hb, h⟩
    split_ifs at h with hemp
    simp only [Option.some.injEq, Prod.mk.injEq] at h
    obtain ⟨rfl, rfl, rfl⟩ := h
    refine ⟨ha, hb, ?_, rfl⟩
    intro h0
    rw [h0] at hemp
    exact hemp rfl
  · rintro ⟨h1, h2, hne, rfl⟩
    refine ⟨c1, h1, c2, h2, ?_⟩
    rw [if_neg]
    rw [List.isEmpty_iff]
    exact hne

/-- The weight that `F32.CompressGraph` gives to the compressed edge `(c1, c2)`: the aggregated
scaled contributions, divided by the scaling factor unless the aggregation is `SUM` or
`MAX`. -/
theorem F32.mem_compressed_out_neighbors_f32 (G : ParClusterers.Graph) (NW cluster_ids : List Nat)
    (agg : EdgeAggregation) (hagg : agg ≠ .PERCENTILE) :
    ∃ G', F32.CompressGraph G NW cluster_ids agg =
        .ok (G', compressed_node_weights G.n NW cluster_ids) ∧
      G'.n = num_compressed_vertices cluster_ids ∧
      ∀ c1 c2 w', (c2, w') ∈ G'.out_neighbors c1 ↔
        c1 < num_compressed_vertices cluster_ids ∧
        c2 < num_compressed_vertices cluster_ids ∧ c1 ≠ c2 ∧
        G.edges_between cluster_ids c1 c2 ≠ [] ∧
        w' = if agg = .SUM ∨ agg = .MAX then
            F32.aggregate_weights (F32.edge_aggregation_func agg)
              ((G.edges_between cluster_ids c1 c2).map
                (fun e => F32.scale_func agg NW (e.1, e.2.1, .finite e.2.2)))
          else
            FloatVal.div round32
              (F32.aggregate_weights (F32.edge_aggregation_func agg)
                ((G.edges_between cluster_ids c1 c2).map
                  (fun e => F32.scale_func agg NW (e.1, e.2.1, .finite e.2.2))))
              (F32.scaling_factor agg (compressed_node_weights G.n NW cluster_ids) c1 c2) := by
  have hcontrib : ∀ c1 c2, c1 < num_compressed_vertices cluster_ids →
      c2 < num_compressed_vertices cluster_ids →
      (F32.contributions_to (F32.RetrieveInterClusterEdges G cluster_ids
          (fun a b => decide (a ≠ b)) (F32.scale_func agg NW)) c1 c2 ≠ [] ↔
        c1 ≠ c2 ∧ G.edges_between cluster_ids c1 c2 ≠ []) ∧
      (c1 ≠ c2 → F32.contributions_to (F32.RetrieveInterClusterEdges G cluster_ids
          (fun a b => decide (a ≠ b)) (F32.scale_func agg NW)) c1 c2 =
        (G.edges_between cluster_ids c1 c2).map
          (fun e => F32.scale_func agg NW (e.1, e.2.1, .finite e.2.2))) := by
    intro c1 c2 h1 h2
    have n1 := ne_sentinel_of_lt_num_compressed cluster_ids c1 h1
    have n2 := ne_sentinel_of_lt_num_compressed cluster_ids c2 h2
    rw [F32.contributions_to_Retrieve_f32]
    by_cases hne : c1 = c2
    · simp [hne]
    · simp [hne, n1, n2]
  unfold F32.CompressGraph
  rw [if_neg hagg]
  by_cases hsm : agg = .SUM ∨ agg = .MAX
  · rw [if_pos hsm]
    refine ⟨_, rfl, F32.MakeGbbsGraph_n_f32 _ _, fun c1 c2 w' => ?_⟩
    rw [F32.mem_MakeGbbsGraph_f32, F32.mem_ComputeInterClusterEdgesSort_f32, if_pos hsm]
    constructor
    · rintro ⟨h1, _, h2, hne, hw⟩
      obtain ⟨hiff, heq⟩ := hcontrib c1 c2 h1 h2
      obtain ⟨hc, hb⟩ := hiff.1 hne
      exact ⟨h1, h2, hc, hb, by rw [hw, heq hc]⟩
    · rintro ⟨h1, h2, hc, hb, hw⟩
      obtain ⟨hiff, heq⟩ := hcontrib c1 c2 h1 h2
      exact ⟨h1, h1, h2, hiff.2 ⟨hc, hb⟩, by rw [hw, heq hc]⟩
  · rw [if_neg hsm]
    refine ⟨_, rfl, F32.MakeGbbsGraph_n_f32 _ _, fun c1 c2 w' => ?_⟩
    rw [F32.mem_MakeGbbsGraph_f32, if_neg hsm]
    simp only [List.mem_map, F32.scale_edge, Prod.mk.injEq]
    constructor
    · rintro ⟨h1, ⟨a, b, w⟩, hmem, rfl, rfl, rfl⟩
      rw [F32.mem_ComputeInterClusterEdgesSort_f32] at hmem
      obtain ⟨_, h2, hne, hw⟩ := hmem
      obtain ⟨hiff, heq⟩ := hcontrib a b h1 h2
      obtain ⟨hc, hb⟩ := hiff.1 hne
      exact ⟨h1, h2, hc, hb, by rw [hw, heq hc]⟩
    · rintro ⟨h1, h2, hc, hb, hw⟩
      obtain ⟨hiff, heq⟩ := hcontrib c1 c2 h1 h2
      refine ⟨h1, (c1, c2, _), (F32.mem_ComputeInterClusterEdgesSort_f32 _ _ _ _ _ _ _ _ _).2
        ⟨h1, h2, hiff.2 ⟨hc, hb⟩, rfl⟩, rfl, rfl, ?_⟩
      rw [hw, heq hc]

/-- The weight returned under the identity labeling is the weight of the edge when the
factor is exact and the product of the node weights does not wrap. -/
theorem F32.identity_weight_exact (agg : EdgeAggregation) (hagg : agg ≠ .PERCENTILE)
    (NW nw : List Nat) (u v : Nat) (w : ℚ) (hw : IsFloat32 w)
    (hu : nw.getD u 0 = node_weight_of NW u) (hv : nw.getD v 0 = node_weight_of NW v)
    (havg : agg = .DEFAULT_AVERAGE →
      node_weight_of NW u * node_weight_of NW v < UINT_E_MOD ∧
      ExactFactor (node_weight_of NW u * node_weight_of NW v) w)
    (hcut : agg = .CUT_SPARSITY →
      ExactFactor (min (node_weight_of NW u) (node_weight_of NW v)) w) :
    F32.identity_weight agg NW nw u v w = .finite w := by
  unfold F32.identity_weight
  cases agg with
  | MAX => simp [F32.scale_func]
  | SUM => simp [F32.scale_func]
  | PERCENTILE => exact absurd rfl hagg
  | DEFAULT_AVERAGE =>
    obtain ⟨hlt, h0, hF, hP⟩ := havg rfl
    rw [if_neg (by decide)]
    simp only [F32.scaling_factor, hu, hv, Nat.mod_eq_of_lt hlt]
    unfold ParClusterers.IsFloat32 at hF hP hw
    rw [hF]
    have hq : ((node_weight_of NW u * node_weight_of NW v : Nat) : ℚ) ≠ 0 := by
      exact_mod_cast h0
    by_cases hemp : NW.isEmpty
    · have h1 : node_weight_of NW u = 1 := by simp [node_weight_of, hemp]
      have h2 : node_weight_of NW v = 1 := by simp [node_weight_of, hemp]
      simp only [F32.scale_func, hemp, if_true, FloatVal.div, h1, h2]
      norm_num
      exact hw
    · have e1 : NW.getD u 0 = node_weight_of NW u := by simp [node_weight_of, hemp]
      have e2 : NW.getD v 0 = node_weight_of NW v := by simp [node_weight_of, hemp]
      simp only [F32.scale_func, hemp, Bool.false_eq_true, if_false, e1, e2,
        Nat.mod_eq_of_lt hlt, hF, FloatVal.mul, hP, FloatVal.div, if_neg hq]
      rw [mul_div_cancel_right₀ w hq]
      exact hw
  | CUT_SPARSITY =>
    obtain ⟨h0, hF, hP⟩ := hcut rfl
    rw [if_neg (by decide)]
    simp only [F32.scaling_factor, hu, hv]
    unfold ParClusterers.IsFloat32 at hF hP hw
    rw [hF]
    have hq : ((min (node_weight_of NW u) (node_weight_of NW v) : Nat) : ℚ) ≠ 0 := by
      exact_mod_cast h0
    by_cases hemp : NW.isEmpty
    · have h1 : node_weight_of NW u = 1 := by simp [node_weight_of, hemp]
      have h2 : node_weight_of NW v = 1 := by simp [node_weight_of, hemp]
      simp only [F32.scale_func, hemp, if_true, FloatVal.div, h1, h2]
      norm_num
      exact hw
    · have e1 : NW.getD u 0 = node_weight_of NW u := by simp [node_weight_of, hemp]
      have e2 : NW.getD v 0 = node_weight_of NW v := by simp [node_weight_of, hemp]
      simp only [F32.scale_func, hemp, Bool.false_eq_true, if_false, e1, e2,
        hF, FloatVal.mul, hP, FloatVal.div, if_neg hq]
      rw [mul_div_cancel_right₀ w hq]
      exact hw

/-- C7 (counterexample): two vertices of node weights `1` and `3` joined by an edge whose
weight is the `float` nearest to `0.9`, with the identity labeling in `DEFAULT_AVERAGE`
mode. No product of node weights wraps and no factor is `0`; the contribution is the `float`
product of the weight and `3`, and the returned weight is its `float` quotient by `3`,
`15099493 / 2 ^ 24 = 0.89999992`, not the weight `7549747 / 2 ^ 23 = 0.89999998` of the
edge. -/
theorem identity_labeling_default_average_rounds :
    edge09.IsFloat32 ∧ edge09.WellFormed ∧ edge09.Symmetric ∧ edge09.NoSelfLoops ∧
    edge09.NoDuplicateNeighbors ∧
    F32.CompressGraph edge09 [1, 3] (List.range edge09.n) .DEFAULT_AVERAGE =
      .ok (⟨[[(1, .finite (15099493 / 16777216))], [(0, .finite (15099493 / 16777216))]]⟩,
        [1, 3]) ∧
    (1, (7549747 / 8388608 : ℚ)) ∈ edge09.out_neighbors 0 ∧
    (1, FloatVal.finite (7549747 / 8388608)) ∉
      F32.Graph.out_neighbors
        ⟨[[(1, .finite (15099493 / 16777216))], [(0, .finite (15099493 / 16777216))]]⟩ 0 := by
  refine ⟨by decide!, by decide!, by decide!, by decide!, by decide!, by decide!, by decide!,
    by decide!⟩

/-- C7 (amended): for every graph `G` of at most `UINT_E_MAX` vertices without self-loops
and duplicate neighbours, whose neighbour ids are vertices and whose weights are finite
`float` values, for 32-bit node weights `NW` (none, or one per vertex) and each of the modes
`MAX`, `SUM`, `DEFAULT_AVERAGE` and `CUT_SPARSITY`: with the labeling `L[i] = i`,
`CompressGraph` returns a graph with the same number of vertices and the node weights `NW`
(all ones when `NW` is empty); its edges are the edges `(u, v)` of `G`, the edge `(u, v, w)`
with the `float` weight `identity_weight`: `w` itself in the modes `MAX` and `SUM`, and the
`float` quotient by the factor `F` of the `float` product of `w` and `F` in the other two
modes. So the weighted edges are exactly those of `G` in the modes `MAX` and `SUM`; in
`DEFAULT_AVERAGE` mode when for every edge the factor `NW[u] * NW[v]` is below `2 ^ 32`, not
`0`, a `float`, and its product with `w` is a `float`; and in `CUT_SPARSITY` mode when for
every edge the factor `min(NW[u], NW[v])` is not `0`, a `float`, and its product with `w` is
a `float`. -/
theorem CompressGraph_identity (G : Graph) (NW : List Nat) (agg : EdgeAggregation)
    (hagg : agg ≠ .PERCENTILE) (hn : G.n ≤ UINT_E_MAX)
    (hwf : G.WellFormed) (hloop : G.NoSelfLoops) (hnd : G.NoDuplicateNeighbors)
    (hfl : G.IsFloat32)
    (hNW : NW = [] ∨ NW.length = G.n) (hNWb : ∀ x ∈ NW, x < UINT_E_MOD) :
    ∃ G' NW', F32.CompressGraph G NW (List.range G.n) agg = .ok (G', NW') ∧
      G'.n = G.n ∧
      (NW = [] → NW' = List.replicate G.n 1) ∧ (NW ≠ [] → NW' = NW) ∧
      (∀ u v x, (v, x) ∈ G'.out_neighbors u ↔
        ∃ w, (v, w) ∈ G.out_neighbors u ∧ x = F32.identity_weight agg NW NW' u v w) ∧
      ((agg = .SUM ∨ agg = .MAX ∨
          (agg = .DEFAULT_AVERAGE ∧ ∀ e ∈ G.edges,
            node_weight_of NW e.1 * node_weight_of NW e.2.1 < UINT_E_MOD ∧
            ExactFactor (node_weight_of NW e.1 * node_weight_of NW e.2.1) e.2.2) ∨
          (agg = .CUT_SPARSITY ∧ ∀ e ∈ G.edges,
            ExactFactor (min (node_weight_of NW e.1) (node_weight_of NW e.2.1)) e.2.2)) →
        ∀ u v x, (v, x) ∈ G'.out_neighbors u ↔
          ∃ w, (v, w) ∈ G.out_neighbors u ∧ x = .finite w) := by
  obtain ⟨G', hG', hn', hmem⟩ := F32.mem_compressed_out_neighbors_f32 G NW (List.range G.n) agg
    hagg
  have hnum := num_compressed_vertices_range G.n hn
  have hnw := compressed_node_weights_range G.n NW hn hNWb
  have hmap := map_node_weight_of G.n NW
  have hedges : ∀ u v x, (v, x) ∈ G'.out_neighbors u ↔
      ∃ w, (v, w) ∈ G.out_neighbors u ∧
        x = F32.identity_weight agg NW (compressed_node_weights G.n NW (List.range G.n))
          u v w := by
    intro u v x
    rw [hmem u v x, hnum]
    constructor
    · rintro ⟨_, _, _, hb, hx⟩
      obtain ⟨a, b, w, hab, ha, hb'⟩ := (G.edges_between_ne_nil _ _ _).1 hb
      have halt : a < G.n := G.lt_n_of_mem_out_neighbors a _ hab
      have hblt : b < G.n := hwf.out_neighbors_lt a _ hab
      rw [List.getElem?_range halt] at ha
      rw [List.getElem?_range hblt] at hb'
      simp only [Option.some.injEq] at ha hb'
      subst ha hb'
      refine ⟨w, hab, ?_⟩
      rw [hx, G.edges_between_range hwf hnd a b w hab]
      unfold F32.identity_weight
      simp only [List.map_cons, List.map_nil, F32.aggregate_weights, List.foldl_nil]
    · rintro ⟨w, hin, hx⟩
      have hc1 : u < G.n := G.lt_n_of_mem_out_neighbors u _ hin
      have hc2 : v < G.n := hwf.out_neighbors_lt u _ hin
      refine ⟨hc1, hc2, fun h => hloop.out_neighbors_ne u _ hin h.symm, ?_, ?_⟩
      · rw [G.edges_between_range hwf hnd u v w hin]
        exact List.cons_ne_nil _ _
      · rw [hx, G.edges_between_range hwf hnd u v w hin]
        unfold F32.identity_weight
        simp only [List.map_cons, List.map_nil, F32.aggregate_weights, List.foldl_nil]
  refine ⟨G', _, hG', hn'.trans hnum, ?_, ?_, hedges, ?_⟩
  · intro h
    rw [hnw]; exact hmap.1 h
  · intro h
    rw [hnw]
    rcases hNW with h0 | hlen
    · exact absurd h0 h
    · exact hmap.2 h hlen
  · intro hex u v x
    rw [hedges u v x]
    have hkey : ∀ w, (v, w) ∈ G.out_neighbors u →
        F32.identity_weight agg NW (compressed_node_weights G.n NW (List.range G.n)) u v w =
          FloatVal.finite w := by
      intro w hin
      have hc1 : u < G.n := G.lt_n_of_mem_out_neighbors u _ hin
      have hc2 : v < G.n := hwf.out_neighbors_lt u _ hin
      have hE := (G.mem_edges u v w).2 hin
      have hg1 : (compressed_node_weights G.n NW (List.range G.n)).getD u 0 =
          node_weight_of NW u := by
        rw [hnw]
        simp [List.getElem?_range hc1]
      have hg2 : (compressed_node_weights G.n NW (List.range G.n)).getD v 0 =
          node_weight_of NW v := by
        rw [hnw]
        simp [List.getElem?_range hc2]
      have hw : ParClusterers.IsFloat32 w := hfl (u, v, w) hE
      apply F32.identity_weight_exact agg hagg NW _ u v w hw hg1 hg2
      · intro ha
        rcases hex with h | h | ⟨_, h⟩ | ⟨h, _⟩
        · rw [ha] at h; exact absurd h (by decide)
        · rw [ha] at h; exact absurd h (by decide)
        · exact h _ hE
        · rw [ha] at h; exact absurd h (by decide)
      · intro ha
        rcases hex with h | h | ⟨h, _⟩ | ⟨_, h⟩
        · rw [ha] at h; exact absurd h (by decide)
        · rw [ha] at h; exact absurd h (by decide)
        · rw [ha] at h; exact absurd h (by decide)
        · exact h _ hE
    constructor
    · rintro ⟨w, hin, hx⟩
      exact ⟨w, hin, by rw [hx, hkey w hin]⟩
    · rintro ⟨w, hin, hx⟩
      exact ⟨w, hin, by rw [hx, hkey w hin]⟩

/-- The weights of the triangle are finite `float` values. -/
theorem triangleGraph_isFloat32 : triangleGraph.IsFloat32 := by decide!

/-- C7 (witness): the triangle with the node weights `[2, 3, 4]` and the identity labeling
in `DEFAULT_AVERAGE` mode: every factor (`6`, `8` or `12`) is exact, and the triangle is
returned with its weights. -/
theorem CompressGraph_identity_witness :
    EdgeAggregation.DEFAULT_AVERAGE ≠ .PERCENTILE ∧
    triangleGraph.n ≤ UINT_E_MAX ∧ triangleGraph.WellFormed ∧ triangleGraph.NoSelfLoops ∧
    triangleGraph.NoDuplicateNeighbors ∧ triangleGraph.IsFloat32 ∧
    (∀ e ∈ triangleGraph.edges,
      node_weight_of [2, 3, 4] e.1 * node_weight_of [2, 3, 4] e.2.1 < UINT_E_MOD ∧
      ExactFactor (node_weight_of [2, 3, 4] e.1 * node_weight_of [2, 3, 4] e.2.1) e.2.2) ∧
    ∃ G' NW', F32.CompressGraph triangleGraph [2, 3, 4] (List.range triangleGraph.n)
        .DEFAULT_AVERAGE = .ok (G', NW') ∧
      G'.n = triangleGraph.n ∧
      ([2, 3, 4] = [] → NW' = List.replicate triangleGraph.n 1) ∧
      ([2, 3, 4] ≠ [] → NW' = [2, 3, 4]) ∧
      ∀ u v x, (v, x) ∈ G'.out_neighbors u ↔
        ∃ w, (v, w) ∈ triangleGraph.out_neighbors u ∧ x = .finite w := by
  have hex : ∀ e ∈ triangleGraph.edges,
      node_weight_of [2, 3, 4] e.1 * node_weight_of [2, 3, 4] e.2.1 < UINT_E_MOD ∧
      ExactFactor (node_weight_of [2, 3, 4] e.1 * node_weight_of [2, 3, 4] e.2.1) e.2.2 := by
    decide!
  obtain ⟨G', NW', h1, h2, h3, h4, _, h6⟩ := CompressGraph_identity triangleGraph [2, 3, 4]
    .DEFAULT_AVERAGE (by decide) (by decide) triangleGraph_wellFormed
    triangleGraph_noSelfLoops triangleGraph_noDuplicateNeighbors triangleGraph_isFloat32
    (Or.inr (by decide)) (by decide)
  exact ⟨by decide, by decide, triangleGraph_wellFormed, triangleGraph_noSelfLoops,
    triangleGraph_noDuplicateNeighbors, triangleGraph_isFloat32, hex, G', NW', h1, h2, h3, h4,
    h6 (Or.inr (Or.inr (Or.inl ⟨rfl, hex⟩)))⟩

/-- C28 (counterexample): for the node weights `4097` and `4097` the product `16785409` is
below `2 ^ 32`, so nothing wraps, but it is no `float`: both scaling factors are the `float`
`16785408`, not the exact product. -/
theorem default_average_factor_rounds :
    4097 * 4097 = 16785409 ∧ 4097 * 4097 < UINT_E_MOD ∧
    F32.scaling_factor .DEFAULT_AVERAGE [4097, 4097] 0 1 = .finite 16785408 ∧
    F32.scaling_factor .DEFAULT_AVERAGE [4097, 4097] 0 1 ≠
      .finite ((4097 * 4097 : Nat) : ℚ) ∧
    F32.scale_func .DEFAULT_AVERAGE [4097, 4097] (0, 1, .finite 1) = .finite 16785408 := by
  refine ⟨by decide, by decide, by decide!, by decide!, by decide!⟩

/-- C28 (amended): in `DEFAULT_AVERAGE` mode with node weights, the factor of a contribution
is the `float` nearest to the product `NW[u] * NW[v]` modulo `2 ^ 32` and the factor of the
rescaling is the `float` nearest to the product `NW'[c1] * NW'[c2]` modulo `2 ^ 32`; each is
the exact product when that product is below `2 ^ 24`. When the node weights of the `n`
vertices are all at least `1` and add up to less than `2 ^ 12`, both factors are exact and
at least `1`, the second for the node weights that `CompressGraph` computes and two cluster
ids that label a vertex. For the weights `65536` and `65536` both factors are `0`. -/
theorem default_average_scaling_factors (NW nw : List Nat) (u v c1 c2 : Nat) (x : FloatVal)
    (hNW : NW ≠ []) :
    F32.scale_func .DEFAULT_AVERAGE NW (u, v, x) =
      FloatVal.mul round32 x
        (round32 (((NW.getD u 0 * NW.getD v 0) % UINT_E_MOD : Nat) : ℚ)) ∧
    F32.scaling_factor .DEFAULT_AVERAGE nw c1 c2 =
      round32 (((nw.getD c1 0 * nw.getD c2 0) % UINT_E_MOD : Nat) : ℚ) ∧
    (NW.getD u 0 * NW.getD v 0 < 2 ^ 24 →
      F32.scale_func .DEFAULT_AVERAGE NW (u, v, x) =
        FloatVal.mul round32 x (.finite ((NW.getD u 0 * NW.getD v 0 : Nat) : ℚ))) ∧
    (nw.getD c1 0 * nw.getD c2 0 < 2 ^ 24 →
      F32.scaling_factor .DEFAULT_AVERAGE nw c1 c2 =
        .finite ((nw.getD c1 0 * nw.getD c2 0 : Nat) : ℚ)) ∧
    (∀ (n : Nat) (cluster_ids : List Nat), NW.length = n → (∀ y ∈ NW, 1 ≤ y) →
      NW.sum < 4096 → (∀ y ∈ cluster_ids, y ≤ UINT_E_MAX) →
      (u < n → v < n →
        F32.scale_func .DEFAULT_AVERAGE NW (u, v, x) =
          FloatVal.mul round32 x (.finite ((NW.getD u 0 * NW.getD v 0 : Nat) : ℚ)) ∧
        1 ≤ NW.getD u 0 * NW.getD v 0) ∧
      (c1 ≠ UINT_E_MAX → c2 ≠ UINT_E_MAX →
        (∃ i, i < n ∧ cluster_ids[i]? = some c1) → (∃ j, j < n ∧ cluster_ids[j]? = some c2) →
        F32.scaling_factor .DEFAULT_AVERAGE (compressed_node_weights n NW cluster_ids) c1 c2 =
          .finite ((cluster_weight n NW cluster_ids c1 *
            cluster_weight n NW cluster_ids c2 : Nat) : ℚ) ∧
        1 ≤ cluster_weight n NW cluster_ids c1 * cluster_weight n NW cluster_ids c2)) ∧
    F32.scale_func .DEFAULT_AVERAGE [65536, 65536] (0, 1, x) =
      FloatVal.mul round32 x (.finite 0) ∧
    F32.scaling_factor .DEFAULT_AVERAGE [65536, 65536] 0 1 = .finite 0 := by
  have hM : UINT_E_MAX = 4294967295 := rfl
  have hD : UINT_E_MOD = 4294967296 := rfl
  have hemp : NW.isEmpty = false := by
    cases NW with
    | nil => exact absurd rfl hNW
    | cons a l => rfl
  have h1 : F32.scale_func .DEFAULT_AVERAGE NW (u, v, x) =
      FloatVal.mul round32 x
        (round32 (((NW.getD u 0 * NW.getD v 0) % UINT_E_MOD : Nat) : ℚ)) := by
    simp only [F32.scale_func, hemp]
    rfl
  have h2 : ∀ nw2 : List Nat, F32.scaling_factor .DEFAULT_AVERAGE nw2 c1 c2 =
      round32 (((nw2.getD c1 0 * nw2.getD c2 0) % UINT_E_MOD : Nat) : ℚ) := fun _ => rfl
  have hexact : ∀ P : Nat, P < 2 ^ 24 →
      round32 (((P % UINT_E_MOD : Nat)) : ℚ) = .finite ((P : Nat) : ℚ) := by
    intro P hP
    rw [Nat.mod_eq_of_lt (by rw [hD]; exact lt_trans hP (by norm_num))]
    exact round32_natCast P hP
  have hmem : ∀ i, i < NW.length → 1 ≤ NW.getD i 0 → NW.getD i 0 ≤ NW.sum := by
    intro i hi _
    rw [List.getD_eq_getElem?_getD]
    exact getElem?_getD_le_sum NW i
  refine ⟨h1, h2 nw, fun hlt => ?_, fun hlt => ?_, ?_, ?_, ?_⟩
  · rw [h1, hexact _ hlt]
  · rw [h2, hexact _ hlt]
  · intro n cluster_ids hlen hpos hsum hbound
    refine ⟨fun hu hv => ?_, fun hc1 hc2 ⟨i, hi, hic⟩ ⟨j, hj, hjc⟩ => ?_⟩
    · have hu1 : 1 ≤ NW.getD u 0 := by
        rw [List.getD_eq_getElem?_getD, List.getElem?_eq_getElem (by omega)]
        exact hpos _ (List.getElem_mem _)
      have hv1 : 1 ≤ NW.getD v 0 := by
        rw [List.getD_eq_getElem?_getD, List.getElem?_eq_getElem (by omega)]
        exact hpos _ (List.getElem_mem _)
      have hu2 := hmem u (by omega) hu1
      have hv2 := hmem v (by omega) hv1
      have hprod : NW.getD u 0 * NW.getD v 0 < 2 ^ 24 := by
        calc NW.getD u 0 * NW.getD v 0 ≤ 4095 * 4095 :=
              Nat.mul_le_mul (by omega) (by omega)
          _ < 2 ^ 24 := by norm_num
      refine ⟨by rw [h1, hexact _ hprod], ?_⟩
      exact Nat.mul_le_mul hu1 hv1
    · have hget : ∀ c k, k < n → cluster_ids[k]? = some c → c ≠ UINT_E_MAX →
          (compressed_node_weights n NW cluster_ids).getD c 0 =
            cluster_weight n NW cluster_ids c ∧
          1 ≤ cluster_weight n NW cluster_ids c ∧ cluster_weight n NW cluster_ids c ≤ 4095 := by
        intro c k hk hkc hcne
        have hcm : c ∈ cluster_ids := List.mem_iff_getElem?.2 ⟨k, hkc⟩
        have hclt := lt_num_compressed_of_mem cluster_ids hbound c hcm hcne
        have hle := cluster_weight_le_sum n NW cluster_ids c hNW hlen
        have hge := node_weight_le_cluster_weight n NW cluster_ids c k hk hkc
        have hk1 : 1 ≤ node_weight_of NW k := by
          unfold node_weight_of
          rw [hemp]
          simp only [Bool.false_eq_true, if_false]
          rw [List.getD_eq_getElem?_getD, List.getElem?_eq_getElem (by omega)]
          exact hpos _ (List.getElem_mem _)
        refine ⟨?_, by omega, by omega⟩
        rw [List.getD_eq_getElem?_getD, compressed_node_weights,
          foldl_add_node_weight_getElem? NW cluster_ids n c hclt, Option.getD_some,
          Nat.mod_eq_of_lt (by omega)]
      obtain ⟨e1, p1, q1⟩ := hget c1 i hi hic hc1
      obtain ⟨e2, p2, q2⟩ := hget c2 j hj hjc hc2
      have hprod : cluster_weight n NW cluster_ids c1 * cluster_weight n NW cluster_ids c2 <
          2 ^ 24 := by
        calc _ ≤ 4095 * 4095 := Nat.mul_le_mul q1 q2
          _ < 2 ^ 24 := by norm_num
      refine ⟨?_, Nat.mul_le_mul p1 p2⟩
      rw [h2, e1, e2, hexact _ hprod]
  · have hgen : ∀ NW2 : List Nat, NW2.isEmpty = false →
        F32.scale_func .DEFAULT_AVERAGE NW2 (0, 1, x) =
          FloatVal.mul round32 x
            (round32 (((NW2.getD 0 0 * NW2.getD 1 0) % UINT_E_MOD : Nat) : ℚ)) := by
      intro NW2 h
      simp only [F32.scale_func, h]
      rfl
    have h0 : (([65536, 65536] : List Nat).getD 0 0 * ([65536, 65536] : List Nat).getD 1 0) %
        UINT_E_MOD = 0 := by decide
    rw [hgen [65536, 65536] rfl, h0]
    have h00 : round32 ((0 : Nat) : ℚ) = .finite ((0 : Nat) : ℚ) :=
      round32_natCast 0 (by norm_num)
    rw [h00, Nat.cast_zero]
  · have hgen : ∀ nw2 : List Nat, F32.scaling_factor .DEFAULT_AVERAGE nw2 0 1 =
        round32 (((nw2.getD 0 0 * nw2.getD 1 0) % UINT_E_MOD : Nat) : ℚ) := fun _ => rfl
    have h0 : (([65536, 65536] : List Nat).getD 0 0 * ([65536, 65536] : List Nat).getD 1 0) %
        UINT_E_MOD = 0 := by decide
    rw [hgen [65536, 65536], h0]
    have h00 : round32 ((0 : Nat) : ℚ) = .finite ((0 : Nat) : ℚ) :=
      round32_natCast 0 (by norm_num)
    rw [h00, Nat.cast_zero]

/-- C28 (witness): the node weights `[2, 3]` with both vertices in the cluster `0`. -/
theorem default_average_scaling_factors_witness :
    ([2, 3] : List Nat) ≠ [] ∧
    F32.scale_func .DEFAULT_AVERAGE [2, 3] (0, 1, .finite 5) = .finite 30 ∧
    F32.scale_func .DEFAULT_AVERAGE [2, 3] (0, 1, .finite 5) =
      FloatVal.mul round32 (.finite 5) (round32 (((2 * 3) % UINT_E_MOD : Nat) : ℚ)) ∧
    F32.scaling_factor .DEFAULT_AVERAGE (compressed_node_weights 2 [2, 3] [0, 0]) 0 0 =
      .finite ((cluster_weight 2 [2, 3] [0, 0] 0 * cluster_weight 2 [2, 3] [0, 0] 0 : Nat) :
        ℚ) := by
  have h := default_average_scaling_factors [2, 3] [] 0 1 0 0 (.finite 5) (by decide)
  refine ⟨by decide, by decide!, h.1, ?_⟩
  exact ((h.2.2.2.2.1 2 [0, 0] rfl (by decide) (by decide) (by decide)).2 (by decide)
    (by decide) ⟨0, by decide, rfl⟩ ⟨0, by decide, rfl⟩).1

/-- C3 (failing input): in `DEFAULT_AVERAGE` mode the products of node weights are taken in
32-bit unsigned arithmetic before the conversion to `float`. Two vertices of node weight
`65536` joined by an edge of weight `1`, each its own cluster: the contribution factor and
the rescaling factor are `65536 * 65536 = 2 ^ 32`, which wraps to `0`, so the contribution
is `0` and the returned weight is the quotient `0 / 0`, a NaN, where the claimed weight is
`(1 * 65536 * 65536) / (65536 * 65536) = 1`. And three vertices of node weights `65535`,
`1`, `65536` with the edge `0 – 2` of weight `1`, the first two in one cluster: the
contribution is `65535 * 65536`, the rescaling factor `65536 * 65536` wraps to `0`, and the
returned weight is an infinity, where the claimed weight is `65535 / 65536`. -/
theorem CompressGraph_default_average_overflow :
    F32.CompressGraph ⟨[[(1, 1)], [(0, 1)]]⟩ [65536, 65536] [0, 1] .DEFAULT_AVERAGE =
      .ok (⟨[[(1, .nan)], [(0, .nan)]]⟩, [65536, 65536]) ∧
    ((1 : ℚ) * 65536 * 65536) / (65536 * 65536) = 1 ∧
    F32.scale_func .DEFAULT_AVERAGE [65536, 65536] (0, 1, .finite 1) = .finite 0 ∧
    F32.scaling_factor .DEFAULT_AVERAGE [65536, 65536] 0 1 = .finite 0 ∧
    F32.CompressGraph ⟨[[(2, 1)], [], [(0, 1)]]⟩ [65535, 1, 65536] [0, 0, 1] .DEFAULT_AVERAGE =
      .ok (⟨[[(1, .infinite false)], [(0, .infinite false)]]⟩, [65536, 65536]) ∧
    ((1 : ℚ) * 65535 * 65536) / (65536 * 65536) = 65535 / 65536 ∧
    IsFloat32 (65535 / 65536) := by
  refine ⟨by decide!, by norm_num, by decide!, by decide!, by decide!, by norm_num, by decide!⟩

/-- A non-negative whole multiple of `2 ^ e` is `k * 2 ^ e` for a natural number `k`. -/
theorem isGridMultiple_iff (e : Int) (q : ℚ) :
    IsGridMultiple e q ↔ ∃ k : Nat, q = (k : ℚ) * pow2 e := by
  have hp := pow2_pos e
  constructor
  · rintro ⟨h0, hd⟩
    have hnum : ((q / pow2 e).num : ℚ) = q / pow2 e := Rat.den_eq_one_iff _ |>.1 hd
    have hnn : 0 ≤ (q / pow2 e).num := Rat.num_nonneg.2 (div_nonneg h0 hp.le)
    refine ⟨(q / pow2 e).num.toNat, ?_⟩
    have hc : (((q / pow2 e).num.toNat : Nat) : ℚ) = ((q / pow2 e).num : ℚ) := by
      have := Int.toNat_of_nonneg hnn
      exact_mod_cast this
    rw [hc, hnum, div_mul_cancel₀ _ hp.ne']
  · rintro ⟨k, rfl⟩
    refine ⟨mul_nonneg (by positivity) hp.le, ?_⟩
    rw [mul_div_cancel_right₀ _ hp.ne']
    exact Rat.den_natCast k

/-- Zero is a whole multiple of every power of two. -/
theorem isGridMultiple_zero (e : Int) : IsGridMultiple e 0 :=
  (isGridMultiple_iff e 0).2 ⟨0, by simp⟩

/-- The sum of two multiples of `2 ^ e` is one. -/
theorem IsGridMultiple.add {e : Int} {a b : ℚ} (ha : IsGridMultiple e a)
    (hb : IsGridMultiple e b) : IsGridMultiple e (a + b) := by
  obtain ⟨k, rfl⟩ := (isGridMultiple_iff e a).1 ha
  obtain ⟨l, rfl⟩ := (isGridMultiple_iff e b).1 hb
  exact (isGridMultiple_iff e _).2 ⟨k + l, by push_cast; ring⟩

/-- The difference of two multiples of `2 ^ e` is one when it is not negative. -/
theorem IsGridMultiple.sub {e : Int} {a b : ℚ} (ha : IsGridMultiple e a)
    (hb : IsGridMultiple e b) (hba : b ≤ a) : IsGridMultiple e (a - b) := by
  obtain ⟨k, rfl⟩ := (isGridMultiple_iff e a).1 ha
  obtain ⟨l, rfl⟩ := (isGridMultiple_iff e b).1 hb
  have hp := pow2_pos e
  have hlk : l ≤ k := by
    have := le_of_mul_le_mul_right hba hp
    exact_mod_cast this
  refine (isGridMultiple_iff e _).2 ⟨k - l, ?_⟩
  rw [Nat.cast_sub hlk]
  ring

/-- The sum of a list of multiples of `2 ^ e` is one. -/
theorem isGridMultiple_sum (e : Int) (qs : List ℚ) (h : ∀ q ∈ qs, IsGridMultiple e q) :
    IsGridMultiple e qs.sum := by
  induction qs with
  | nil => exact isGridMultiple_zero e
  | cons x xs ih =>
    rw [List.sum_cons]
    exact (h x (List.mem_cons_self _ _)).add (ih (fun q hq => h q (List.mem_cons_of_mem _ hq)))

/-- A multiple `k * 2 ^ e` with `k < 2 ^ 24` and `-149 ≤ e ≤ 104` is a value of the type
`float`: rounding leaves it as it is. -/
theorem round32_grid (e : Int) (he1 : -149 ≤ e) (he2 : e ≤ 104) (q : ℚ)
    (hq : IsGridMultiple e q) (hlt : q < 2 ^ 24 * pow2 e) : round32 q = .finite q := by
  obtain ⟨k, rfl⟩ := (isGridMultiple_iff e q).1 hq
  have hp := pow2_pos e
  have hk : (k : ℚ) < 2 ^ 24 := lt_of_mul_lt_mul_right hlt hp.le
  apply binary_round_exact
  refine ⟨(k : Int), e, ?_, by omega, by push_cast; ring, ?_⟩
  · rw [abs_of_nonneg (by positivity)]
    exact_mod_cast hk
  · rw [abs_of_nonneg (mul_nonneg (by positivity) hp.le)]
    have h1 : (k : ℚ) * pow2 e < 2 ^ 24 * pow2 e := hlt
    have h2 : (2 : ℚ) ^ 24 * pow2 e ≤ pow2 (127 + 1) := by
      have h3 : (2 : ℚ) ^ 24 = pow2 24 := by
        rw [pow2_eq_zpow]; norm_num
      rw [h3, ← pow2_add]
      exact pow2_le_pow2.2 (by omega)
    exact lt_of_lt_of_le h1 h2

/-- A multiple `k * 2 ^ e` with `k < 2 ^ 53` and `-1074 ≤ e ≤ 971` is a value of the type
`double`: rounding leaves it as it is. -/
theorem round64_grid (e : Int) (he1 : -1074 ≤ e) (he2 : e ≤ 971) (q : ℚ)
    (hq : IsGridMultiple e q) (hlt : q < 2 ^ 53 * pow2 e) : round64 q = .finite q := by
  obtain ⟨k, rfl⟩ := (isGridMultiple_iff e q).1 hq
  have hp := pow2_pos e
  have hk : (k : ℚ) < 2 ^ 53 := lt_of_mul_lt_mul_right hlt hp.le
  apply binary_round_exact
  refine ⟨(k : Int), e, ?_, by omega, by push_cast; ring, ?_⟩
  · rw [abs_of_nonneg (by positivity)]
    exact_mod_cast hk
  · rw [abs_of_nonneg (mul_nonneg (by positivity) hp.le)]
    have h1 : (k : ℚ) * pow2 e < 2 ^ 53 * pow2 e := hlt
    have h2 : (2 : ℚ) ^ 53 * pow2 e ≤ pow2 (1023 + 1) := by
      have h3 : (2 : ℚ) ^ 53 = pow2 53 := by
        rw [pow2_eq_zpow]; norm_num
      rw [h3, ← pow2_add]
      exact pow2_le_pow2.2 (by omega)
    exact lt_of_lt_of_le h1 h2

/-- The entries of a list of non-negative numbers are at most its sum. -/
theorem le_sum_of_mem_nonneg (qs : List ℚ) (h : ∀ q ∈ qs, 0 ≤ q) (q : ℚ) (hq : q ∈ qs) :
    q ≤ qs.sum := List.single_le_sum h q hq

/-- In `float` arithmetic, a reduction in any tree shape over values that are multiples of
`2 ^ e` and whose exact sum stays below `2 ^ 24 * 2 ^ e` computes the exact sum; `proj` reads
the `float` field that the combiner `f` adds. -/
theorem ReduceTree_eval_grid {α : Type} (proj : α → FloatVal) (f : α → α → α) (identity : α)
    (hproj : ∀ a b, proj (f a b) = FloatVal.add round32 (proj a) (proj b))
    (hid : proj identity = .finite 0)
    (e : Int) (he1 : -149 ≤ e) (he2 : e ≤ 104) (t : ReduceTree α) (qs : List ℚ)
    (hleaves : t.leaves.map proj = qs.map FloatVal.finite)
    (hgrid : ∀ q ∈ qs, IsGridMultiple e q) (hlt : qs.sum < 2 ^ 24 * pow2 e) :
    proj (t.eval f identity) = .finite qs.sum := by
  induction t generalizing qs with
  | identity =>
    simp only [ReduceTree.leaves, List.map_nil] at hleaves
    have : qs = [] := by simpa using hleaves.symm
    subst this
    simpa [ReduceTree.eval] using hid
  | leaf a =>
    simp only [ReduceTree.leaves, List.map_cons, List.map_nil] at hleaves
    have hlen := congrArg List.length hleaves
    simp only [List.length_cons, List.length_nil, List.length_map] at hlen
    obtain ⟨q, rfl⟩ := List.length_eq_one.1 hlen.symm
    simp only [List.map_cons, List.map_nil, List.cons.injEq, and_true] at hleaves
    simpa [ReduceTree.eval] using hleaves
  | node l r ihl ihr =>
    simp only [ReduceTree.leaves, List.map_append] at hleaves
    obtain ⟨ql, qr, hq, hl, hr⟩ := List.map_eq_append_iff.1 hleaves.symm
    subst hq
    have hnl : ∀ q ∈ ql, 0 ≤ q := fun q hq => (hgrid q (List.mem_append_left _ hq)).1
    have hnr : ∀ q ∈ qr, 0 ≤ q := fun q hq => (hgrid q (List.mem_append_right _ hq)).1
    rw [List.sum_append] at hlt ⊢
    have hsl : 0 ≤ ql.sum := List.sum_nonneg hnl
    have hsr : 0 ≤ qr.sum := List.sum_nonneg hnr
    have h1 := ihl ql hl.symm (fun q hq => hgrid q (List.mem_append_left _ hq)) (by linarith)
    have h2 := ihr qr hr.symm (fun q hq => hgrid q (List.mem_append_right _ hq)) (by linarith)
    simp only [ReduceTree.eval]
    rw [hproj, h1, h2]
    simp only [FloatVal.add]
    exact round32_grid e he1 he2 _
      ((isGridMultiple_sum e ql (fun q hq => hgrid q (List.mem_append_left _ hq))).add
        (isGridMultiple_sum e qr (fun q hq => hgrid q (List.mem_append_right _ hq)))) hlt

/-- The sum of one of the lists that are joined is at most the sum of the joined list, for
non-negative entries. -/
theorem sum_le_sum_flatMap {α : Type} (us : List α) (f : α → List ℚ)
    (h : ∀ u ∈ us, ∀ q ∈ f u, 0 ≤ q) (u : α) (hu : u ∈ us) :
    (f u).sum ≤ (us.flatMap f).sum := by
  induction us with
  | nil => exact absurd hu (List.not_mem_nil _)
  | cons x xs ih =>
    rw [List.flatMap_cons, List.sum_append]
    have hx : 0 ≤ (f x).sum := List.sum_nonneg (h x (List.mem_cons_self _ _))
    have hxs : 0 ≤ (xs.flatMap f).sum := by
      apply List.sum_nonneg
      intro q hq
      obtain ⟨y, hy, hqy⟩ := List.mem_flatMap.1 hq
      exact h y (List.mem_cons_of_mem _ hy) q hqy
    rcases List.mem_cons.1 hu with rfl | hu
    · linarith
    · have := ih (fun y hy => h y (List.mem_cons_of_mem _ hy)) hu
      linarith

/-- With non-negative weights the weighted degree of a vertex is at most the total volume. -/
theorem vertex_volume_le_total_volume (G : Graph) (hnonneg : ∀ e ∈ G.edges, 0 ≤ e.2.2)
    (i : Nat) (hi : i < G.n) :
    ((G.out_neighbors i).map (fun e => e.2)).sum ≤ total_volume G := by
  have h := sum_le_sum_flatMap (List.range G.n)
    (fun u => (G.out_neighbors u).map (fun e => e.2))
    (by
      intro u _ q hq
      obtain ⟨e, he, rfl⟩ := List.mem_map.1 hq
      exact hnonneg (u, e.1, e.2) ((G.mem_edges u e.1 e.2).2 he))
    i (List.mem_range.2 hi)
  have htot : total_volume G =
      ((List.range G.n).flatMap (fun u => (G.out_neighbors u).map (fun e => e.2))).sum := by
    unfold total_volume Graph.edges
    rw [List.map_flatMap]
    simp only [List.map_map]
    rfl
  rw [htot]
  exact h

/-- With weights on a grid of multiples of `2 ^ e` and a total volume below
`2 ^ 24 * 2 ^ e`, the `float` reduction over the stored neighbours of a vertex computes the
exact sum of the weights that a test selects. -/
theorem neighbor_reduce_exact (reduce : List FloatVal → FloatVal)
    (hreduce : IsNeighborReduce reduce) (G : Graph) (e : Int) (he1 : -149 ≤ e)
    (he2 : e ≤ 104) (hgrid : ∀ x ∈ G.edges, IsGridMultiple e x.2.2)
    (hvol : total_volume G < 2 ^ 24 * pow2 e) (i : Nat) (hi : i < G.n)
    (p : Nat × ℚ → Prop) [DecidablePred p] :
    reduce ((G.out_neighbors i).map
        (fun x => if p x then FloatVal.finite x.2 else FloatVal.finite 0)) =
      .finite ((G.out_neighbors i).map (fun x => if p x then x.2 else 0)).sum := by
  obtain ⟨t, hleaves, heval⟩ := hreduce ((G.out_neighbors i).map
    (fun x => if p x then FloatVal.finite x.2 else FloatVal.finite 0))
  rw [heval]
  have hmem : ∀ x ∈ G.out_neighbors i, IsGridMultiple e x.2 :=
    fun x hx => hgrid (i, x.1, x.2) ((G.mem_edges i x.1 x.2).2 hx)
  have hle : ((G.out_neighbors i).map (fun x => if p x then x.2 else 0)).sum ≤
      ((G.out_neighbors i).map (fun x => x.2)).sum := by
    apply List.sum_le_sum
    intro x hx
    by_cases h : p x
    · simp [h]
    · simp only [h, if_false]
      exact (hmem x hx).1
  have hdeg := vertex_volume_le_total_volume G (fun x hx => (hgrid x hx).1) i hi
  refine ReduceTree_eval_grid id (FloatVal.add round32) (.finite 0) (fun _ _ => rfl) rfl
    e he1 he2 t _ ?_ ?_ (by linarith)
  · rw [hleaves, List.map_id, List.map_map]
    apply List.map_congr_left
    intro x _
    by_cases h : p x <;> simp [h]
  · intro q hq
    obtain ⟨x, hx, rfl⟩ := List.mem_map.1 hq
    by_cases h : p x
    · simp only [h, if_true]
      exact hmem x hx
    · simp only [h, if_false]
      exact isGridMultiple_zero e

/-- With weights on a grid of multiples of `2 ^ e` and a total volume below
`2 ^ 24 * 2 ^ e`, the `float` statistics stored for a vertex hold the exact sums. -/
theorem per_vertex_cluster_stats_f32_exact (reduce : List FloatVal → FloatVal)
    (hreduce : IsNeighborReduce reduce) (G : Graph) (cluster_ids : List Nat) (e : Int)
    (he1 : -149 ≤ e) (he2 : e ≤ 104) (hgrid : ∀ x ∈ G.edges, IsGridMultiple e x.2.2)
    (hvol : total_volume G < 2 ^ 24 * pow2 e) (i : Nat) (hi : i < G.n) :
    F32.per_vertex_cluster_stats reduce G cluster_ids i =
      exactStats (per_vertex_cluster_stats G cluster_ids i) := by
  have hv := neighbor_reduce_exact reduce hreduce G e he1 he2 hgrid hvol i hi (fun _ => True)
  simp only [if_true] at hv
  have hintra := neighbor_reduce_exact reduce hreduce G e he1 he2 hgrid hvol i hi
    (fun x => cluster_ids.getD i UINT_E_MAX = cluster_ids.getD x.1 UINT_E_MAX ∧ x.1 ≤ i)
  have hinter := neighbor_reduce_exact reduce hreduce G e he1 he2 hgrid hvol i hi
    (fun x => cluster_ids.getD i UINT_E_MAX ≠ cluster_ids.getD x.1 UINT_E_MAX)
  unfold F32.per_vertex_cluster_stats per_vertex_cluster_stats exactStats
  by_cases h : cluster_ids.getD i UINT_E_MAX = UINT_E_MAX
  · rw [if_pos h, if_pos h, hv]
  · rw [if_neg h, if_neg h, hv, hintra, hinter]

/-- With weights on a grid of multiples of `2 ^ e` and a total volume below
`2 ^ 24 * 2 ^ e`, the vector of `float` statistics holds the exact per-vertex sums. -/
theorem cluster_stats_f32_exact (reduce : List FloatVal → FloatVal)
    (hreduce : IsNeighborReduce reduce) (G : Graph) (cluster_ids : List Nat) (e : Int)
    (he1 : -149 ≤ e) (he2 : e ≤ 104) (hgrid : ∀ x ∈ G.edges, IsGridMultiple e x.2.2)
    (hvol : total_volume G < 2 ^ 24 * pow2 e) :
    F32.cluster_stats reduce G cluster_ids = (cluster_stats G cluster_ids).map exactStats := by
  unfold F32.cluster_stats cluster_stats
  rw [List.map_map]
  apply List.map_congr_left
  intro i hi
  exact per_vertex_cluster_stats_f32_exact reduce hreduce G cluster_ids e he1 he2 hgrid hvol i
    (List.mem_range.1 hi)

/-- In a list sorted by a key, the run between two consecutive boundaries holds exactly the
entries with the key of its first entry. -/
theorem sorted_run_eq_filter_key {α : Type} (key : α → Nat) (d : α) (l : List α)
    (hsorted : l.Pairwise (fun a b => key a ≤ key b)) (s e : Nat)
    (hse : s < e) (hen : e ≤ l.length)
    (hs : s = 0 ∨ key (l.getD s d) ≠ key (l.getD (s - 1) d))
    (hmid : ∀ x, s < x → x < e → key (l.getD x d) = key (l.getD (x - 1) d))
    (hend : e < l.length → key (l.getD e d) ≠ key (l.getD (e - 1) d)) :
    (l.drop s).take (e - s) = l.filter (fun a => decide (key a = key (l.getD s d))) := by
  have hmono : ∀ i j, i ≤ j → j < l.length → key (l.getD i d) ≤ key (l.getD j d) := by
    intro i j hij hj
    have hi : i < l.length := by omega
    rw [List.getD_eq_getElem _ _ hi, List.getD_eq_getElem _ _ hj]
    rcases Nat.lt_or_ge i j with h | h
    · exact List.pairwise_iff_getElem.1 hsorted i j hi hj h
    · have : i = j := by omega
      subst this
      exact le_refl _
  have hkeys := run_keys (fun i => key (l.getD i d)) l.length s e hmono hse hen hs hmid hend
  have hsplit : l = l.take s ++ ((l.drop s).take (e - s) ++ l.drop e) := by
    have h1 : (l.drop s).take (e - s) ++ l.drop e = l.drop s := by
      have h2 : l.drop e = (l.drop s).drop (e - s) := by
        rw [List.drop_drop]
        congr 1
        omega
      rw [h2, List.take_append_drop]
    rw [h1, List.take_append_drop]
  have hleft : (l.take s).filter (fun a => decide (key a = key (l.getD s d))) = [] := by
    rw [List.filter_eq_nil_iff]
    intro a ha
    obtain ⟨i, hi, rfl⟩ := List.mem_take_iff_getElem.1 ha
    have hil : i < l.length := by omega
    have := (hkeys i hil).1
    simp only [List.getD_eq_getElem _ _ hil] at this
    simp only [decide_eq_true_eq]
    intro hk
    have := this hk
    omega
  have hright : (l.drop e).filter (fun a => decide (key a = key (l.getD s d))) = [] := by
    rw [List.filter_eq_nil_iff]
    intro a ha
    obtain ⟨i, hi, rfl⟩ := List.mem_drop_iff_getElem.1 ha
    have hil : e + i < l.length := by omega
    have := (hkeys (e + i) hil).1
    simp only [List.getD_eq_getElem _ _ hil] at this
    simp only [decide_eq_true_eq]
    intro hk
    have := this hk
    omega
  have hmidf : ((l.drop s).take (e - s)).filter
      (fun a => decide (key a = key (l.getD s d))) = (l.drop s).take (e - s) := by
    rw [List.filter_eq_self]
    intro a ha
    obtain ⟨i, hi, rfl⟩ := List.mem_take_iff_getElem.1 ha
    have hlen : (l.drop s).length = l.length - s := List.length_drop s l
    have hi' : i < e - s := by omega
    have hil : s + i < l.length := by omega
    have := (hkeys (s + i) hil).2 ⟨by omega, by omega⟩
    simp only [List.getD_eq_getElem _ _ hil] at this
    simp only [decide_eq_true_eq, List.getElem_drop]
    exact this
  have hfilter := congrArg
    (List.filter (fun a => decide (key a = key (l.getD s d)))) hsplit
  rw [hfilter, List.filter_append, List.filter_append, hleft, hright, hmidf]
  simp

/-- The statistics of one cluster depend on the three reduced sums only, not on the unused
cluster id of the reduced record. -/
theorem finished_cluster_stats_f32_congr (size : Nat) (a b : F32.PerVertexClusterStats)
    (gv : FloatVal) (hv : a.volume = b.volume)
    (hintra : a.intra_cluster_weight = b.intra_cluster_weight)
    (hinter : a.inter_cluster_weight = b.inter_cluster_weight) :
    F32.finished_cluster_stats size a gv = F32.finished_cluster_stats size b gv := by
  unfold F32.finished_cluster_stats
  rw [hv, hintra, hinter]

/-- A rearrangement of exact `float` records lists the same exact values in its order: the
values of a `float` field are the finite values of the numbers read from them, and these
numbers are a rearrangement of the exact ones. -/
theorem perm_map_exactStats (l : List F32.PerVertexClusterStats) (m : List PerVertexClusterStats)
    (hp : l.Perm (m.map exactStats)) (proj : F32.PerVertexClusterStats → FloatVal)
    (projQ : PerVertexClusterStats → ℚ)
    (hproj : ∀ a, proj (exactStats a) = .finite (projQ a)) :
    l.map proj = ((l.map proj).map FloatVal.toRat).map FloatVal.finite ∧
      ((l.map proj).map FloatVal.toRat).Perm (m.map projQ) := by
  constructor
  · rw [List.map_map, List.map_map]
    apply List.map_congr_left
    intro a ha
    obtain ⟨x, _, rfl⟩ := List.mem_map.1 (hp.mem_iff.1 ha)
    simp [hproj, FloatVal.toRat]
  · have h := (hp.map proj).map FloatVal.toRat
    refine h.trans ?_
    rw [List.map_map, List.map_map]
    have : ((FloatVal.toRat ∘ proj) ∘ exactStats) = projQ := by
      funext a
      simp [Function.comp, hproj, FloatVal.toRat]
    rw [this]

/-- With weights on a grid of multiples of `2 ^ e` and a total volume below
`2 ^ 24 * 2 ^ e`, the `float` reduction for the total graph volume computes `V_G` exactly,
in every reduction order. -/
theorem graph_volume_f32_exact
    (Reduce' : (F32.PerVertexClusterStats → F32.PerVertexClusterStats →
      F32.PerVertexClusterStats) → F32.PerVertexClusterStats →
      List F32.PerVertexClusterStats → F32.PerVertexClusterStats)
    (hReduce : IsReduce Reduce') (G : Graph) (cluster_ids : List Nat) (e : Int)
    (he1 : -149 ≤ e) (he2 : e ≤ 104) (hgrid : ∀ x ∈ G.edges, IsGridMultiple e x.2.2)
    (hvol : total_volume G < 2 ^ 24 * pow2 e) :
    (Reduce' F32.volume_combiner ⟨0, .finite 0, .finite 0, .finite 0⟩
      ((cluster_stats G cluster_ids).map exactStats)).volume = .finite (total_volume G) := by
  obtain ⟨t, hleaves, heval⟩ := hReduce F32.volume_combiner ⟨0, .finite 0, .finite 0, .finite 0⟩
    ((cluster_stats G cluster_ids).map exactStats)
  rw [heval]
  have hsum : ((cluster_stats G cluster_ids).map (fun a => a.volume)).sum = total_volume G := by
    have h := graph_volume_eq G cluster_ids
    rw [Reduce, foldl_volume_combiner] at h
    simpa using h
  rw [← hsum]
  refine ReduceTree_eval_grid (fun a => a.volume) F32.volume_combiner
    ⟨0, .finite 0, .finite 0, .finite 0⟩ (fun _ _ => rfl) rfl
    e he1 he2 t _ ?_ ?_ (by rw [hsum]; exact hvol)
  · rw [hleaves, List.map_map, List.map_map]
    rfl
  · intro q hq
    obtain ⟨a, ha, rfl⟩ := List.mem_map.1 hq
    obtain ⟨i, hi, rfl⟩ := List.mem_map.1 ha
    rw [per_vertex_volume]
    apply isGridMultiple_sum
    intro q hq
    obtain ⟨x, hx, rfl⟩ := List.mem_map.1 hq
    exact hgrid (i, x.1, x.2) ((G.mem_edges i x.1 x.2).2 hx)

/-- With non-negative weights the weight of the stored edges that pass a test is at most the
total volume. -/
theorem filter_sum_le_total_volume (G : Graph) (hnonneg : ∀ e ∈ G.edges, 0 ≤ e.2.2)
    (p : Nat × Nat × ℚ → Bool) :
    ((G.edges.filter p).map (fun e => e.2.2)).sum ≤ total_volume G := by
  have h := sum_filter_le_of_imp G.edges (fun e => e.2.2) p (fun _ => true) hnonneg
    (fun _ _ _ => rfl)
  rw [List.filter_true] at h
  exact h

/-- The weight of the stored edges that pass a test is a multiple of `2 ^ e` when every
weight is one. -/
theorem filter_sum_isGridMultiple (G : Graph) (e : Int)
    (hgrid : ∀ x ∈ G.edges, IsGridMultiple e x.2.2) (p : Nat × Nat × ℚ → Bool) :
    IsGridMultiple e ((G.edges.filter p).map (fun e => e.2.2)).sum := by
  apply isGridMultiple_sum
  intro q hq
  obtain ⟨x, hx, rfl⟩ := List.mem_map.1 hq
  exact hgrid x (List.mem_filter.1 hx).1

/-- The three sums stored for a vertex are multiples of `2 ^ e` when every weight is one. -/
theorem per_vertex_cluster_stats_isGridMultiple (G : Graph) (cluster_ids : List Nat) (e : Int)
    (hgrid : ∀ x ∈ G.edges, IsGridMultiple e x.2.2) (i : Nat) :
    IsGridMultiple e (per_vertex_cluster_stats G cluster_ids i).volume ∧
    IsGridMultiple e (per_vertex_cluster_stats G cluster_ids i).intra_cluster_weight ∧
    IsGridMultiple e (per_vertex_cluster_stats G cluster_ids i).inter_cluster_weight := by
  have hmem : ∀ x ∈ G.out_neighbors i, IsGridMultiple e x.2 :=
    fun x hx => hgrid (i, x.1, x.2) ((G.mem_edges i x.1 x.2).2 hx)
  have hsum : ∀ (p : Nat × ℚ → Prop) [DecidablePred p],
      IsGridMultiple e ((G.out_neighbors i).map (fun x => if p x then x.2 else 0)).sum := by
    intro p _
    apply isGridMultiple_sum
    intro q hq
    obtain ⟨x, hx, rfl⟩ := List.mem_map.1 hq
    by_cases h : p x
    · simp only [h, if_true]
      exact hmem x hx
    · simp only [h, if_false]
      exact isGridMultiple_zero e
  have hv : IsGridMultiple e ((G.out_neighbors i).map (fun x => x.2)).sum := by
    have := hsum (fun _ => True)
    simpa using this
  unfold per_vertex_cluster_stats
  split_ifs
  · exact ⟨hv, isGridMultiple_zero e, isGridMultiple_zero e⟩
  · exact ⟨hv, hsum _, hsum _⟩

/-- With weights on a grid of multiples of `2 ^ e` and a total volume below
`2 ^ 24 * 2 ^ e`, the `float` reduction over the entries with cluster id `c`, in any
rearrangement of the per-vertex statistics and in any reduction order, computes the exact
sums `volume(c)`, `intra(c)` and `inter(c)`. -/
theorem stats_reduce_f32_exact
    (Reduce' : (F32.PerVertexClusterStats → F32.PerVertexClusterStats →
      F32.PerVertexClusterStats) → F32.PerVertexClusterStats →
      List F32.PerVertexClusterStats → F32.PerVertexClusterStats)
    (hReduce : IsReduce Reduce') (G : Graph) (cluster_ids : List Nat) (e : Int)
    (he1 : -149 ≤ e) (he2 : e ≤ 104) (hgrid : ∀ x ∈ G.edges, IsGridMultiple e x.2.2)
    (hvol : total_volume G < 2 ^ 24 * pow2 e)
    (l : List F32.PerVertexClusterStats)
    (hperm : l.Perm ((cluster_stats G cluster_ids).map exactStats))
    (c : Nat) (hc : c ≠ UINT_E_MAX) :
    (l.filter (fun a => decide (a.cluster_id = c))).length = cluster_size G cluster_ids c ∧
    (Reduce' F32.stats_combiner ⟨0, .finite 0, .finite 0, .finite 0⟩
        (l.filter (fun a => decide (a.cluster_id = c)))).volume =
      .finite (cluster_volume G cluster_ids c) ∧
    (Reduce' F32.stats_combiner ⟨0, .finite 0, .finite 0, .finite 0⟩
        (l.filter (fun a => decide (a.cluster_id = c)))).intra_cluster_weight =
      .finite (intra_weight G cluster_ids c) ∧
    (Reduce' F32.stats_combiner ⟨0, .finite 0, .finite 0, .finite 0⟩
        (l.filter (fun a => decide (a.cluster_id = c)))).inter_cluster_weight =
      .finite (inter_weight G cluster_ids c) := by
  have hnonneg : ∀ x ∈ G.edges, 0 ≤ x.2.2 := fun x hx => (hgrid x hx).1
  have hp : (l.filter (fun a => decide (a.cluster_id = c))).Perm
      ((((List.range G.n).filter (fun i => decide (cluster_ids[i]? = some c))).map
        (per_vertex_cluster_stats G cluster_ids)).map exactStats) := by
    rw [← cluster_stats_filter G cluster_ids c hc]
    have h := hperm.filter (fun a => decide (a.cluster_id = c))
    rw [List.filter_map] at h
    exact h
  obtain ⟨t, hleaves, heval⟩ := hReduce F32.stats_combiner ⟨0, .finite 0, .finite 0, .finite 0⟩
    (l.filter (fun a => decide (a.cluster_id = c)))
  rw [heval]
  have hfield : ∀ (proj : F32.PerVertexClusterStats → FloatVal)
      (projQ : PerVertexClusterStats → ℚ) (total : ℚ),
      (∀ a, proj (exactStats a) = .finite (projQ a)) →
      (∀ a b, proj (F32.stats_combiner a b) = FloatVal.add round32 (proj a) (proj b)) →
      proj ⟨0, .finite 0, .finite 0, .finite 0⟩ = .finite 0 →
      (∀ i, IsGridMultiple e (projQ (per_vertex_cluster_stats G cluster_ids i))) →
      ((((List.range G.n).filter (fun i => decide (cluster_ids[i]? = some c))).map
        (fun i => projQ (per_vertex_cluster_stats G cluster_ids i))).sum = total) →
      total ≤ total_volume G →
      proj (t.eval F32.stats_combiner ⟨0, .finite 0, .finite 0, .finite 0⟩) =
        .finite total := by
    intro proj projQ total h1 h2 h3 h4 h5 h6
    obtain ⟨hq1, hq2⟩ := perm_map_exactStats _ _ hp proj projQ h1
    have hsum := hq2.sum_eq
    have hsum' : (List.map FloatVal.toRat
        (List.map proj (l.filter (fun a => decide (a.cluster_id = c))))).sum = total := by
      rw [hsum, List.map_map]
      exact h5
    rw [← hsum']
    refine ReduceTree_eval_grid proj F32.stats_combiner _ h2 h3 e he1 he2 t _ ?_ ?_ ?_
    · rw [hleaves]
      exact hq1
    · intro q hq
      obtain ⟨a, ha, rfl⟩ := List.mem_map.1 (hq2.mem_iff.1 hq)
      obtain ⟨i, _, rfl⟩ := List.mem_map.1 ha
      exact h4 i
    · rw [hsum']
      linarith
  refine ⟨?_, ?_, ?_, ?_⟩
  · rw [hp.length_eq, List.length_map, List.length_map]
    rfl
  · exact hfield (fun a => a.volume) (fun a => a.volume) _ (fun _ => rfl) (fun _ _ => rfl) rfl
      (fun i => (per_vertex_cluster_stats_isGridMultiple G cluster_ids e hgrid i).1)
      (sum_volume_members G cluster_ids c) (filter_sum_le_total_volume G hnonneg _)
  · exact hfield (fun a => a.intra_cluster_weight) (fun a => a.intra_cluster_weight) _
      (fun _ => rfl) (fun _ _ => rfl) rfl
      (fun i => (per_vertex_cluster_stats_isGridMultiple G cluster_ids e hgrid i).2.1)
      (sum_intra_members G cluster_ids c hc) (filter_sum_le_total_volume G hnonneg _)
  · exact hfield (fun a => a.inter_cluster_weight) (fun a => a.inter_cluster_weight) _
      (fun _ => rfl) (fun _ _ => rfl) rfl
      (fun i => (per_vertex_cluster_stats_isGridMultiple G cluster_ids e hgrid i).2.2)
      (sum_inter_members G cluster_ids c hc) (filter_sum_le_total_volume G hnonneg _)

/-- With weights on a grid of multiples of `2 ^ e` and a total volume below
`2 ^ 24 * 2 ^ e`, for every sample sort and every order of the reductions, the slot of a
cluster `c` that has a member holds the statistics computed in `float` arithmetic from the
exact sums `volume(c)`, `intra(c)`, `inter(c)` and `V_G`. -/
theorem ComputeFinishedClusterStats_f32_getElem?
    (sort : List F32.PerVertexClusterStats → List F32.PerVertexClusterStats)
    (hsort : IsSampleSort F32.cluster_id_less sort)
    (reduce : List FloatVal → FloatVal) (hreduce : IsNeighborReduce reduce)
    (Reduce' : (F32.PerVertexClusterStats → F32.PerVertexClusterStats →
      F32.PerVertexClusterStats) → F32.PerVertexClusterStats →
      List F32.PerVertexClusterStats → F32.PerVertexClusterStats)
    (hReduce : IsReduce Reduce') (G : Graph) (cluster_ids : List Nat) (e : Int)
    (he1 : -149 ≤ e) (he2 : e ≤ 104) (hgrid : ∀ x ∈ G.edges, IsGridMultiple e x.2.2)
    (hvol : total_volume G < 2 ^ 24 * pow2 e)
    (n' : Nat) (c : Nat) (hc : c ≠ UINT_E_MAX) (hcn : c < n')
    (hmem : ∃ i, i < G.n ∧ cluster_ids[i]? = some c) :
    (F32.ComputeFinishedClusterStats sort reduce Reduce' G cluster_ids n')[c]? =
      some (F32.finished_cluster_stats (cluster_size G cluster_ids c)
        ⟨0, .finite (cluster_volume G cluster_ids c), .finite (intra_weight G cluster_ids c),
          .finite (inter_weight G cluster_ids c)⟩ (.finite (total_volume G))) := by
  obtain ⟨i0, hi0, hi0c⟩ := hmem
  have hcs := cluster_stats_f32_exact reduce hreduce G cluster_ids e he1 he2 hgrid hvol
  have hgvol := graph_volume_f32_exact Reduce' hReduce G cluster_ids e he1 he2 hgrid hvol
  unfold F32.ComputeFinishedClusterStats
  rw [hcs, hgvol]
  have hperm := (hsort ((cluster_stats G cluster_ids).map exactStats)).1
  have hsorted : (sort ((cluster_stats G cluster_ids).map exactStats)).Pairwise
      (fun a b => a.cluster_id ≤ b.cluster_id) := by
    refine ((hsort ((cluster_stats G cluster_ids).map exactStats)).2).imp ?_
    intro a b h
    simp only [F32.cluster_id_less, decide_eq_false_iff_not, not_lt] at h
    exact h
  have hlen : (sort ((cluster_stats G cluster_ids).map exactStats)).length = G.n := by
    rw [hperm.length_eq]; simp [cluster_stats]
  generalize hl : sort ((cluster_stats G cluster_ids).map exactStats) = l at hperm hsorted hlen ⊢
  have hred := stats_reduce_f32_exact Reduce' hReduce G cluster_ids e he1 he2 hgrid hvol l
    hperm c hc
  generalize hmarks : GetBoundaryIndices G.n (fun i j =>
      decide ((l.getD i ⟨0, .finite 0, .finite 0, .finite 0⟩).cluster_id =
        (l.getD j ⟨0, .finite 0, .finite 0, .finite 0⟩).cluster_id)) = marks
  have hkey : ∀ x y, (fun i j =>
      decide ((l.getD i ⟨0, .finite 0, .finite 0, .finite 0⟩).cluster_id =
      (l.getD j ⟨0, .finite 0, .finite 0, .finite 0⟩).cluster_id)) x y = false →
      (l.getD x ⟨0, .finite 0, .finite 0, .finite 0⟩).cluster_id ≠
        (l.getD y ⟨0, .finite 0, .finite 0, .finite 0⟩).cluster_id := by
    intro x y h
    simpa using h
  have hkey' : ∀ x y, (fun i j =>
      decide ((l.getD i ⟨0, .finite 0, .finite 0, .finite 0⟩).cluster_id =
      (l.getD j ⟨0, .finite 0, .finite 0, .finite 0⟩).cluster_id)) x y = true →
      (l.getD x ⟨0, .finite 0, .finite 0, .finite 0⟩).cluster_id =
        (l.getD y ⟨0, .finite 0, .finite 0, .finite 0⟩).cluster_id := by
    intro x y h
    simpa using h
  refine foldl_set_getElem? (List.range (marks.length - 1))
    (fun r => (l.getD (marks.getD r 0) ⟨0, .finite 0, .finite 0, .finite 0⟩).cluster_id ≠
      UINT_E_MAX)
    (fun r => (l.getD (marks.getD r 0) ⟨0, .finite 0, .finite 0, .finite 0⟩).cluster_id)
    (fun r => F32.finished_cluster_stats (marks.getD (r + 1) 0 - marks.getD r 0)
      (Reduce' F32.stats_combiner ⟨0, .finite 0, .finite 0, .finite 0⟩
        ((l.drop (marks.getD r 0)).take (marks.getD (r + 1) 0 - marks.getD r 0)))
      (.finite (total_volume G)))
    c _ ?_ (List.replicate n' ⟨.finite 0, .finite 0⟩) (by simpa using hcn) ?_
  · intro r hr _ hs
    have hr' : r + 1 < marks.length := by
      have := List.mem_range.1 hr
      omega
    rw [← hmarks] at hr'
    obtain ⟨h1, h2, h3, h4, h5⟩ := GetBoundaryIndices_consecutive G.n _ r hr'
    rw [hmarks] at h1 h2 h3 h4 h5
    have hslice := sorted_run_eq_filter_key (fun a : F32.PerVertexClusterStats => a.cluster_id)
      ⟨0, .finite 0, .finite 0, .finite 0⟩ l hsorted (marks.getD r 0) (marks.getD (r + 1) 0) h1
      (by rw [hlen]; exact h2)
      (h3.imp id (fun h => hkey _ _ h))
      (fun x hx1 hx2 => hkey' _ _ (h4 x hx1 hx2).2)
      (fun h => hkey _ _ (h5 (by rw [← hlen]; exact h)))
    simp only at hs
    replace hslice : (l.drop (marks.getD r 0)).take (marks.getD (r + 1) 0 - marks.getD r 0) =
        l.filter (fun a => decide (a.cluster_id = c)) := by
      rw [hslice]
      apply List.filter_congr
      intro a _
      simp only [hs]
    have hsz : marks.getD (r + 1) 0 - marks.getD r 0 =
        (l.filter (fun a => decide (a.cluster_id = c))).length := by
      rw [← hslice, List.length_take, List.length_drop, hlen]
      omega
    simp only
    rw [hslice, hsz, hred.1]
    exact finished_cluster_stats_f32_congr _ _ _ _ hred.2.1 hred.2.2.1 hred.2.2.2
  · right
    have hexists : ∃ x, x < l.length ∧
        (l.getD x ⟨0, .finite 0, .finite 0, .finite 0⟩).cluster_id = c := by
      have hin : exactStats (per_vertex_cluster_stats G cluster_ids i0) ∈ l := by
        apply hperm.mem_iff.2
        exact List.mem_map.2 ⟨_, List.mem_map.2 ⟨i0, List.mem_range.2 hi0, rfl⟩, rfl⟩
      obtain ⟨x, hx, hxe⟩ := List.getElem_of_mem hin
      refine ⟨x, hx, ?_⟩
      rw [List.getD_eq_getElem _ _ hx, hxe]
      simp only [exactStats]
      rw [per_vertex_cluster_id]
      exact (getD_eq_iff_getElem? cluster_ids i0 c hc).2 hi0c
    classical
    have hspec := Nat.find_spec hexists
    have hmin := fun m => @Nat.find_min _ _ hexists m
    generalize Nat.find hexists = x at hspec hmin
    have hb : x = 0 ∨ (fun i j =>
        decide ((l.getD i ⟨0, .finite 0, .finite 0, .finite 0⟩).cluster_id =
        (l.getD j ⟨0, .finite 0, .finite 0, .finite 0⟩).cluster_id)) x (x - 1) = false := by
      by_cases hx0 : x = 0
      · exact Or.inl hx0
      · right
        have hprev := hmin (x - 1) (by omega)
        have hne : (l.getD (x - 1) ⟨0, .finite 0, .finite 0, .finite 0⟩).cluster_id ≠ c := by
          intro h
          exact hprev ⟨by omega, h⟩
        simp only [decide_eq_false_iff_not]
        rw [hspec.2]
        exact fun h => hne h.symm
    obtain ⟨r, hr, hrx⟩ := GetBoundaryIndices_exists G.n
      (fun i j => decide ((l.getD i ⟨0, .finite 0, .finite 0, .finite 0⟩).cluster_id =
        (l.getD j ⟨0, .finite 0, .finite 0, .finite 0⟩).cluster_id)) x
      (by rw [← hlen]; exact hspec.1) hb
    rw [hmarks] at hr hrx
    refine ⟨r, List.mem_range.2 (by omega), ?_, ?_⟩
    · simp only [hrx, hspec.2]
      exact hc
    · simp only [hrx, hspec.2]

/-- The left-to-right reduction is one of the tree shapes of a reduction. -/
theorem foldl_eq_ReduceTree_eval {α : Type} (f : α → α → α) (identity : α) (a : List α) :
    ∃ t : ReduceTree α, t.leaves = a ∧ a.foldl f identity = t.eval f identity := by
  have key : ∀ (a : List α) (t0 : ReduceTree α),
      ∃ t : ReduceTree α, t.leaves = t0.leaves ++ a ∧
        a.foldl f (t0.eval f identity) = t.eval f identity := by
    intro a
    induction a with
    | nil => intro t0; exact ⟨t0, by simp, rfl⟩
    | cons x xs ih =>
      intro t0
      obtain ⟨t, ht, he⟩ := ih (.node t0 (.leaf x))
      refine ⟨t, ?_, ?_⟩
      · rw [ht]
        simp [ReduceTree.leaves]
      · rw [List.foldl_cons]
        exact he
  obtain ⟨t, ht, he⟩ := key a .identity
  exact ⟨t, by simpa [ReduceTree.leaves] using ht, he⟩

/-- The left-to-right reduction meets the contract of `parallel::Reduce`. -/
theorem Reduce_isReduce (α : Type) : IsReduce (@Reduce α) :=
  fun f identity a => foldl_eq_ReduceTree_eval f identity a

/-- The `float` sum from left to right meets the contract of the reduction over the stored
neighbours. -/
theorem sum_left_isNeighborReduce : IsNeighborReduce F32.sum_left :=
  fun a => foldl_eq_ReduceTree_eval (FloatVal.add round32) (.finite 0) a

/-- The sort by cluster id is a sample sort for the comparator by cluster id. -/
theorem sortByClusterId_f32_isSampleSort :
    IsSampleSort F32.cluster_id_less F32.sortByClusterId := by
  intro l
  refine ⟨List.perm_insertionSort _ l, ?_⟩
  haveI : IsTotal F32.PerVertexClusterStats (fun a b => a.cluster_id ≤ b.cluster_id) :=
    ⟨fun a b => le_total a.cluster_id b.cluster_id⟩
  haveI : IsTrans F32.PerVertexClusterStats (fun a b => a.cluster_id ≤ b.cluster_id) :=
    ⟨fun a b c h1 h2 => le_trans h1 h2⟩
  have h := List.sorted_insertionSort
    (fun a b : F32.PerVertexClusterStats => a.cluster_id ≤ b.cluster_id) l
  refine List.Pairwise.imp ?_ h
  intro a b hab
  simp [F32.cluster_id_less, hab]

/-- The sort by cluster id of the reversed sequence is a sample sort as well: it leaves the
entries of one cluster in the opposite order. -/
theorem sortByClusterId_reverse_isSampleSort :
    IsSampleSort F32.cluster_id_less (fun l => F32.sortByClusterId l.reverse) := by
  intro l
  obtain ⟨h1, h2⟩ := sortByClusterId_f32_isSampleSort l.reverse
  exact ⟨h1.trans (List.reverse_perm l), h2⟩

/-- The `double` constant `1e-6` is `4722366482869645 / 2 ^ 72`. -/
theorem round64_micro :
    round64 (1 / 1000000) = .finite (4722366482869645 / 4722366482869645213696) := by
  decide!

/-- With sums on a grid of multiples of `2 ^ e` below `2 ^ 24 * 2 ^ e`, the `float`
denominator of the conductance is the exact `min(volume, V_G - volume)`. -/
theorem denominator_f32_exact (e : Int) (he1 : -149 ≤ e) (he2 : e ≤ 104) (vol V : ℚ)
    (hvol : IsGridMultiple e vol) (hV : IsGridMultiple e V) (hle : vol ≤ V)
    (hlt : V < 2 ^ 24 * pow2 e) :
    F32.denominator (.finite vol) (.finite V) = .finite (min vol (V - vol)) := by
  have hsub : FloatVal.sub round32 (.finite V) (.finite vol) = .finite (V - vol) := by
    simp only [FloatVal.sub, FloatVal.neg, FloatVal.add]
    rw [← sub_eq_add_neg]
    exact round32_grid e he1 he2 _ (hV.sub hvol hle) (by linarith [hvol.1])
  unfold F32.denominator
  rw [hsub]
  simp only [FloatVal.min, FloatVal.lt]
  by_cases h : V - vol < vol
  · simp only [h, decide_True, if_true]
    rw [min_eq_right h.le]
  · simp only [h, decide_False, Bool.false_eq_true, if_false]
    rw [min_eq_left (not_lt.1 h)]

/-- The conductance computed in `float` arithmetic from exact sums: `1` when the exact
denominator is below the `double` constant `1e-6`, and the `float` nearest to the exact
quotient otherwise. -/
theorem finished_cluster_stats_f32_conductance (e : Int) (he1 : -149 ≤ e) (he2 : e ≤ 104)
    (size : Nat) (vol intra inter V : ℚ)
    (hvol : IsGridMultiple e vol) (hV : IsGridMultiple e V) (hle : vol ≤ V)
    (hlt : V < 2 ^ 24 * pow2 e) :
    (F32.finished_cluster_stats size ⟨0, .finite vol, .finite intra, .finite inter⟩
        (.finite V)).conductance =
      if min vol (V - vol) < 4722366482869645 / 4722366482869645213696 then .finite 1
      else round32 (inter / min vol (V - vol)) := by
  unfold F32.finished_cluster_stats
  simp only
  rw [denominator_f32_exact e he1 he2 vol V hvol hV hle hlt, round64_micro]
  simp only [FloatVal.lt, decide_eq_true_eq]
  split_ifs with h
  · rfl
  · have hne : min vol (V - vol) ≠ 0 := by
      intro h0
      rw [h0] at h
      exact h (by norm_num)
    simp only [FloatVal.div, hne, if_false]

/-- The density computed in `float` arithmetic from an exact sum for a cluster of at most
`4096` vertices: the `float` nearest to the `double` nearest to the exact quotient. -/
theorem finished_cluster_stats_f32_density (size : Nat) (h2 : 2 ≤ size) (h4096 : size ≤ 4096)
    (a : F32.PerVertexClusterStats) (intra : ℚ) (ha : a.intra_cluster_weight = .finite intra)
    (V : FloatVal) :
    (F32.finished_cluster_stats size a V).density =
      FloatVal.to32 (round64 (intra / ((size : ℚ) * ((size - 1 : Nat) : ℚ) / 2))) := by
  have hs : size < 2 ^ 24 := by omega
  have hs1 : size - 1 < 2 ^ 24 := by omega
  have hprod : size * (size - 1) < 2 ^ 24 := by
    have : size * (size - 1) ≤ 4096 * 4095 :=
      Nat.mul_le_mul h4096 (by omega)
    omega
  have hmul : FloatVal.mul round32 (round32 (size : ℚ)) (round32 ((size - 1 : Nat) : ℚ)) =
      .finite ((size : ℚ) * ((size - 1 : Nat) : ℚ)) := by
    rw [round32_natCast size hs, round32_natCast (size - 1) hs1]
    simp only [FloatVal.mul]
    have := round32_natCast (size * (size - 1)) hprod
    rw [Nat.cast_mul] at this
    exact this
  have hhalf : round64 ((size : ℚ) * ((size - 1 : Nat) : ℚ) / 2) =
      .finite ((size : ℚ) * ((size - 1 : Nat) : ℚ) / 2) := by
    apply round64_grid (-1) (by norm_num) (by norm_num)
    · refine (isGridMultiple_iff _ _).2 ⟨size * (size - 1), ?_⟩
      rw [pow2_eq_zpow]
      push_cast
      norm_num
      ring
    · rw [pow2_eq_zpow]
      have h1 : ((size : ℚ) * ((size - 1 : Nat) : ℚ)) < 2 ^ 24 := by
        exact_mod_cast hprod
      norm_num
      linarith
  have hpos : (size : ℚ) * ((size - 1 : Nat) : ℚ) / 2 ≠ 0 := by
    have h1 : (0 : ℚ) < (size : ℚ) := by exact_mod_cast (by omega : 0 < size)
    have h2 : (0 : ℚ) < ((size - 1 : Nat) : ℚ) := by exact_mod_cast (by omega : 0 < size - 1)
    positivity
  unfold F32.finished_cluster_stats
  simp only
  rw [if_pos h2, hmul, ha]
  have hdiv : FloatVal.div round64
      (FloatVal.finite ((size : ℚ) * ((size - 1 : Nat) : ℚ))) (FloatVal.finite 2) =
      .finite ((size : ℚ) * ((size - 1 : Nat) : ℚ) / 2) := by
    simp only [FloatVal.div]
    rw [if_neg (by norm_num), hhalf]
  rw [hdiv]
  simp only [FloatVal.div]
  rw [if_neg hpos]

/-- C10: counterexample. In the source the statistics are `float` values, and the sums depend
on the order in which the sort leaves the vertices of one cluster. In the graph with the edge
`0 – 1` of weight `2 ^ 24` and the edges `0 – 2` and `0 – 3` of weight `1`, all in the cluster
`0`, the per-vertex intra-cluster weights are `0`, `2 ^ 24`, `1`, `1`. The sort that keeps
this order gives the sum `16777216` and the density `2796202.75`; the sort that reverses it
gives the sum `16777218` and the density `2796203`, which is the claimed `intra(c) / 6`. For
the triangle the returned density is `13981013 / 16777216`, the `float` nearest to the
claimed `2.5 / 3`. -/
theorem ComputeFinishedClusterStats_float_order :
    IsSampleSort F32.cluster_id_less F32.sortByClusterId ∧
    IsSampleSort F32.cluster_id_less (fun l => F32.sortByClusterId l.reverse) ∧
    IsNeighborReduce F32.sum_left ∧ IsReduce (@Reduce F32.PerVertexClusterStats) ∧
    orderGraph.Symmetric ∧ orderGraph.NoSelfLoops ∧ orderGraph.IsFloat32 ∧
    (F32.cluster_stats F32.sum_left orderGraph [0, 0, 0, 0]).map
        (fun a => a.intra_cluster_weight) =
      [.finite 0, .finite 16777216, .finite 1, .finite 1] ∧
    F32.ComputeFinishedClusterStats F32.sortByClusterId F32.sum_left Reduce orderGraph
        [0, 0, 0, 0] 1 = [⟨.finite (11184811 / 4), .finite 1⟩] ∧
    F32.ComputeFinishedClusterStats (fun l => F32.sortByClusterId l.reverse) F32.sum_left
        Reduce orderGraph [0, 0, 0, 0] 1 = [⟨.finite 2796203, .finite 1⟩] ∧
    cluster_density orderGraph [0, 0, 0, 0] 0 = 2796203 ∧
    F32.ComputeFinishedClusterStats F32.sortByClusterId F32.sum_left Reduce triangleGraph
        [0, 0, 0] 1 = [⟨.finite (13981013 / 16777216), .finite 1⟩] ∧
    cluster_density triangleGraph [0, 0, 0] 0 = 5 / 6 :=
  ⟨sortByClusterId_f32_isSampleSort, sortByClusterId_reverse_isSampleSort,
   sum_left_isNeighborReduce, Reduce_isReduce _, by decide!, by decide!, by decide!,
   by decide!, by decide!, by decide!, by decide!, by decide!, by decide!⟩

/-- C11: counterexample. In the graph with the edge `0 – 1` of weight `8388605.5` and the
edge `0 – 2` of weight `5`, with the vertices `0` and `1` in the cluster `0` and the vertex
`2` in the cluster `2`, the `float` sums are `volume(0) = 16777216` and `V_G = 16777220`, so
that the denominator is `4`, and the returned conductance of the cluster `0` is
`5 / 4 > 1`, for both orders in which a sort can leave the two vertices of the cluster. The
exact sums are `inter(0) = 5`, `volume(0) = 16777216` and `V_G = 16777221`, for which the
claimed quotient is `5 / 5 = 1`. -/
theorem ComputeFinishedClusterStats_conductance_above_one :
    conductanceGraph.Symmetric ∧ conductanceGraph.NoSelfLoops ∧ conductanceGraph.IsFloat32 ∧
    (∀ e ∈ conductanceGraph.edges, 0 ≤ e.2.2) ∧
    IsSampleSort F32.cluster_id_less F32.sortByClusterId ∧
    IsSampleSort F32.cluster_id_less (fun l => F32.sortByClusterId l.reverse) ∧
    IsNeighborReduce F32.sum_left ∧ IsReduce (@Reduce F32.PerVertexClusterStats) ∧
    F32.ComputeFinishedClusterStats F32.sortByClusterId F32.sum_left Reduce conductanceGraph
        [0, 0, 2] 3 =
      [⟨.finite (16777211 / 2), .finite (5 / 4)⟩, ⟨.finite 0, .finite 0⟩,
        ⟨.finite 0, .finite 1⟩] ∧
    F32.ComputeFinishedClusterStats (fun l => F32.sortByClusterId l.reverse) F32.sum_left
        Reduce conductanceGraph [0, 0, 2] 3 =
      [⟨.finite (16777211 / 2), .finite (5 / 4)⟩, ⟨.finite 0, .finite 0⟩,
        ⟨.finite 0, .finite 1⟩] ∧
    inter_weight conductanceGraph [0, 0, 2] 0 = 5 ∧
    cluster_volume conductanceGraph [0, 0, 2] 0 = 16777216 ∧
    total_volume conductanceGraph = 16777221 ∧
    (1 : ℚ) < 5 / 4 :=
  ⟨by decide!, by decide!, by decide!, by decide!, sortByClusterId_f32_isSampleSort,
   sortByClusterId_reverse_isSampleSort, sum_left_isNeighborReduce, Reduce_isReduce _,
   by decide!, by decide!, by decide!, by decide!, by decide!, by norm_num⟩

/-- The total volume is a multiple of `2 ^ e` when every weight is one. -/
theorem total_volume_isGridMultiple (G : Graph) (e : Int)
    (hgrid : ∀ x ∈ G.edges, IsGridMultiple e x.2.2) : IsGridMultiple e (total_volume G) := by
  apply isGridMultiple_sum
  intro q hq
  obtain ⟨x, hx, rfl⟩ := List.mem_map.1 hq
  exact hgrid x hx

/-- C10, amended: the statistics are `float` values. When every stored weight is a
non-negative whole multiple of one power of two `2 ^ e` with `-149 ≤ e ≤ 104` and the total
volume `V_G` is below `2 ^ 24 * 2 ^ e`, every `float` sum is exact, and for every sample
sort, every order of the reductions, every labeling, `n'` greater than every label other
than the sentinel and every cluster `c` with at least one member,
`ComputeFinishedClusterStats` returns the statistics computed in `float` arithmetic from the
exact sums `volume(c)`, `intra(c)`, `inter(c)` and `V_G`: the density is `0` when
`|c| < 2`, and for `2 ≤ |c| ≤ 4096` it is the `float` nearest to the `double` nearest to
`intra(c) / (|c| (|c| - 1) / 2)`; the conductance is `1` when
`min(volume(c), V_G - volume(c))` is below the `double` constant `1e-6`, and the `float`
nearest to `inter(c) / min(volume(c), V_G - volume(c))` otherwise. Under these conditions
the result is the same for every sample sort and every order of the reductions. In a
symmetric graph without self-loops `intra(c)` is every edge inside `c` once. -/
theorem ComputeFinishedClusterStats_exact_sums
    (sort : List F32.PerVertexClusterStats → List F32.PerVertexClusterStats)
    (hsort : IsSampleSort F32.cluster_id_less sort)
    (reduce : List FloatVal → FloatVal) (hreduce : IsNeighborReduce reduce)
    (Reduce' : (F32.PerVertexClusterStats → F32.PerVertexClusterStats →
      F32.PerVertexClusterStats) → F32.PerVertexClusterStats →
      List F32.PerVertexClusterStats → F32.PerVertexClusterStats)
    (hReduce : IsReduce Reduce') (G : Graph) (cluster_ids : List Nat) (e : Int)
    (he1 : -149 ≤ e) (he2 : e ≤ 104) (hgrid : ∀ x ∈ G.edges, IsGridMultiple e x.2.2)
    (hvol : total_volume G < 2 ^ 24 * pow2 e)
    (n' : Nat) (hn' : ∀ x ∈ cluster_ids, x ≠ UINT_E_MAX → x < n')
    (c : Nat) (hc : c ≠ UINT_E_MAX) (hmem : ∃ i, i < G.n ∧ cluster_ids[i]? = some c) :
    ∃ stats, (F32.ComputeFinishedClusterStats sort reduce Reduce' G cluster_ids n')[c]? =
        some stats ∧
      stats = F32.finished_cluster_stats (cluster_size G cluster_ids c)
        ⟨0, .finite (cluster_volume G cluster_ids c), .finite (intra_weight G cluster_ids c),
          .finite (inter_weight G cluster_ids c)⟩ (.finite (total_volume G)) ∧
      (cluster_size G cluster_ids c < 2 → stats.density = .finite 0) ∧
      (2 ≤ cluster_size G cluster_ids c → cluster_size G cluster_ids c ≤ 4096 →
        stats.density = FloatVal.to32 (round64 (intra_weight G cluster_ids c /
          ((cluster_size G cluster_ids c : ℚ) *
            ((cluster_size G cluster_ids c - 1 : Nat) : ℚ) / 2)))) ∧
      stats.conductance =
        (if min (cluster_volume G cluster_ids c)
            (total_volume G - cluster_volume G cluster_ids c) <
            4722366482869645 / 4722366482869645213696 then .finite 1
          else round32 (inter_weight G cluster_ids c /
            min (cluster_volume G cluster_ids c)
              (total_volume G - cluster_volume G cluster_ids c))) ∧
      (∀ sort' reduce' Reduce'', IsSampleSort F32.cluster_id_less sort' →
        IsNeighborReduce reduce' → IsReduce Reduce'' →
        (F32.ComputeFinishedClusterStats sort' reduce' Reduce'' G cluster_ids n')[c]? =
          some stats) ∧
      (G.Symmetric → G.NoSelfLoops →
        2 * intra_weight G cluster_ids c =
          ((G.edges.filter (fun e => decide (cluster_ids[e.1]? = some c) &&
            decide (cluster_ids[e.2.1]? = some c))).map (fun e => e.2.2)).sum) := by
  have hcn : c < n' := by
    obtain ⟨i, _, hi⟩ := hmem
    exact hn' c (List.getElem?_mem hi) hc
  have hnonneg : ∀ x ∈ G.edges, 0 ≤ x.2.2 := fun x hx => (hgrid x hx).1
  refine ⟨_, ComputeFinishedClusterStats_f32_getElem? sort hsort reduce hreduce Reduce' hReduce
    G cluster_ids e he1 he2 hgrid hvol n' c hc hcn hmem, rfl, ?_, ?_, ?_, ?_,
    two_mul_intra_weight G cluster_ids c⟩
  · intro h
    unfold F32.finished_cluster_stats
    simp only
    rw [if_neg (by omega)]
  · intro h2 h4096
    exact finished_cluster_stats_f32_density _ h2 h4096 _ _ rfl _
  · exact finished_cluster_stats_f32_conductance e he1 he2 _ _ _ _ _
      (filter_sum_isGridMultiple G e hgrid _) (total_volume_isGridMultiple G e hgrid)
      (filter_sum_le_total_volume G hnonneg _) hvol
  · intro sort' reduce' Reduce'' hsort' hreduce' hReduce'
    exact ComputeFinishedClusterStats_f32_getElem? sort' hsort' reduce' hreduce' Reduce''
      hReduce' G cluster_ids e he1 he2 hgrid hvol n' c hc hcn hmem

/-- Witness for C10: the triangle with weights `1`, `1` and `1 / 2`, multiples of `2 ^ -1`,
as the single cluster `0`: the returned density is `13981013 / 16777216`, the `float` nearest
to `5 / 6`, and the conductance is `1`. -/
theorem ComputeFinishedClusterStats_exact_sums_witness :
    IsSampleSort F32.cluster_id_less F32.sortByClusterId ∧
    IsNeighborReduce F32.sum_left ∧ IsReduce (@Reduce F32.PerVertexClusterStats) ∧
    (∀ x ∈ triangleGraph.edges, IsGridMultiple (-1) x.2.2) ∧
    total_volume triangleGraph < 2 ^ 24 * pow2 (-1) ∧
    (∀ x ∈ [0, 0, 0], x ≠ UINT_E_MAX → x < 1) ∧
    (∃ i, i < triangleGraph.n ∧ [0, 0, 0][i]? = some 0) ∧
    F32.finished_cluster_stats (cluster_size triangleGraph [0, 0, 0] 0)
        ⟨0, .finite (cluster_volume triangleGraph [0, 0, 0] 0),
          .finite (intra_weight triangleGraph [0, 0, 0] 0),
          .finite (inter_weight triangleGraph [0, 0, 0] 0)⟩
        (.finite (total_volume triangleGraph)) =
      ⟨.finite (13981013 / 16777216), .finite 1⟩ ∧
    ∃ stats, (F32.ComputeFinishedClusterStats F32.sortByClusterId F32.sum_left Reduce
        triangleGraph [0, 0, 0] 1)[0]? = some stats ∧
      stats = F32.finished_cluster_stats (cluster_size triangleGraph [0, 0, 0] 0)
        ⟨0, .finite (cluster_volume triangleGraph [0, 0, 0] 0),
          .finite (intra_weight triangleGraph [0, 0, 0] 0),
          .finite (inter_weight triangleGraph [0, 0, 0] 0)⟩
        (.finite (total_volume triangleGraph)) :=
  ⟨sortByClusterId_f32_isSampleSort, sum_left_isNeighborReduce, Reduce_isReduce _,
   by decide!, by decide!, by decide, ⟨0, by decide, by decide⟩, by decide!,
   (ComputeFinishedClusterStats_exact_sums F32.sortByClusterId
     sortByClusterId_f32_isSampleSort F32.sum_left sum_left_isNeighborReduce Reduce
     (Reduce_isReduce _) triangleGraph [0, 0, 0] (-1) (by decide) (by decide) (by decide!)
     (by decide!) 1 (by decide) 0 (by decide) ⟨0, by decide, by decide⟩).imp
     (fun _ h => ⟨h.1, h.2.1⟩)⟩

/-- C11, amended: the statistics are `float` values. For every sample sort, every order of
the reductions, every symmetric graph whose stored weights are non-negative whole multiples
of one power of two `2 ^ e` with `-149 ≤ e ≤ 104` and whose total volume `V_G` is below
`2 ^ 24 * 2 ^ e`, so that every `float` sum is exact, every labeling and every cluster `c`
with at least one member, the conductance returned by `ComputeFinishedClusterStats` is a
finite value in `[0, 1]`: `inter(c)` is at most `min(volume(c), V_G - volume(c))`, the value
is the `float` nearest to the quotient of the two when that denominator is at least the
`double` constant `1e-6`, and it is exactly `1` otherwise. -/
theorem ComputeFinishedClusterStats_conductance_unit_interval
    (sort : List F32.PerVertexClusterStats → List F32.PerVertexClusterStats)
    (hsort : IsSampleSort F32.cluster_id_less sort)
    (reduce : List FloatVal → FloatVal) (hreduce : IsNeighborReduce reduce)
    (Reduce' : (F32.PerVertexClusterStats → F32.PerVertexClusterStats →
      F32.PerVertexClusterStats) → F32.PerVertexClusterStats →
      List F32.PerVertexClusterStats → F32.PerVertexClusterStats)
    (hReduce : IsReduce Reduce') (G : Graph) (cluster_ids : List Nat) (e : Int)
    (he1 : -149 ≤ e) (he2 : e ≤ 104) (hgrid : ∀ x ∈ G.edges, IsGridMultiple e x.2.2)
    (hvol : total_volume G < 2 ^ 24 * pow2 e) (hsym : G.Symmetric)
    (n' : Nat) (hn' : ∀ x ∈ cluster_ids, x ≠ UINT_E_MAX → x < n')
    (c : Nat) (hc : c ≠ UINT_E_MAX) (hmem : ∃ i, i < G.n ∧ cluster_ids[i]? = some c) :
    ∃ s r, (F32.ComputeFinishedClusterStats sort reduce Reduce' G cluster_ids n')[c]? =
        some s ∧
      s.conductance = .finite r ∧ 0 ≤ r ∧ r ≤ 1 ∧
      inter_weight G cluster_ids c ≤
        min (cluster_volume G cluster_ids c) (total_volume G - cluster_volume G cluster_ids c) ∧
      (4722366482869645 / 4722366482869645213696 ≤
          min (cluster_volume G cluster_ids c)
            (total_volume G - cluster_volume G cluster_ids c) →
        s.conductance = round32 (inter_weight G cluster_ids c /
          min (cluster_volume G cluster_ids c)
            (total_volume G - cluster_volume G cluster_ids c))) ∧
      (min (cluster_volume G cluster_ids c)
          (total_volume G - cluster_volume G cluster_ids c) <
          4722366482869645 / 4722366482869645213696 → r = 1) := by
  have hcn : c < n' := by
    obtain ⟨i, _, hi⟩ := hmem
    exact hn' c (List.getElem?_mem hi) hc
  have hnonneg : ∀ x ∈ G.edges, 0 ≤ x.2.2 := fun x hx => (hgrid x hx).1
  have hle : inter_weight G cluster_ids c ≤
      min (cluster_volume G cluster_ids c)
        (total_volume G - cluster_volume G cluster_ids c) :=
    le_min (inter_weight_le_cluster_volume G cluster_ids c hnonneg)
      (inter_weight_le_complement G cluster_ids c hsym hnonneg)
  have h0 := inter_weight_nonneg G cluster_ids c hnonneg
  have hget := ComputeFinishedClusterStats_f32_getElem? sort hsort reduce hreduce Reduce'
    hReduce G cluster_ids e he1 he2 hgrid hvol n' c hc hcn hmem
  have hcond := finished_cluster_stats_f32_conductance e he1 he2
    (cluster_size G cluster_ids c) (cluster_volume G cluster_ids c)
    (intra_weight G cluster_ids c) (inter_weight G cluster_ids c) (total_volume G)
    (filter_sum_isGridMultiple G e hgrid _) (total_volume_isGridMultiple G e hgrid)
    (filter_sum_le_total_volume G hnonneg _) hvol
  by_cases h : min (cluster_volume G cluster_ids c)
      (total_volume G - cluster_volume G cluster_ids c) <
      4722366482869645 / 4722366482869645213696
  · rw [if_pos h] at hcond
    exact ⟨_, 1, hget, hcond, zero_le_one, le_refl 1, hle, fun h' => absurd h (not_lt.2 h'),
      fun _ => rfl⟩
  · rw [if_neg h] at hcond
    have hpos : (0 : ℚ) < min (cluster_volume G cluster_ids c)
        (total_volume G - cluster_volume G cluster_ids c) :=
      lt_of_lt_of_le (by norm_num) (not_lt.1 h)
    obtain ⟨r, hr, hr0, hr1⟩ := round32_unit_interval
      (inter_weight G cluster_ids c / min (cluster_volume G cluster_ids c)
        (total_volume G - cluster_volume G cluster_ids c))
      (div_nonneg h0 hpos.le) ((div_le_one hpos).2 hle)
    exact ⟨_, r, hget, hcond.trans hr, hr0, hr1, hle, fun _ => hcond, fun h' => absurd h' h⟩

/-- Witness for C11: the triangle, whose weights are multiples of `2 ^ -1`, with the vertices
`0` and `2` in the cluster `1` and the vertex `1` in the cluster `0`. -/
theorem ComputeFinishedClusterStats_conductance_unit_interval_witness :
    IsSampleSort F32.cluster_id_less F32.sortByClusterId ∧
    IsNeighborReduce F32.sum_left ∧ IsReduce (@Reduce F32.PerVertexClusterStats) ∧
    (∀ x ∈ triangleGraph.edges, IsGridMultiple (-1) x.2.2) ∧
    total_volume triangleGraph < 2 ^ 24 * pow2 (-1) ∧ triangleGraph.Symmetric ∧
    ∃ s r, (F32.ComputeFinishedClusterStats F32.sortByClusterId F32.sum_left Reduce
        triangleGraph [1, 0, 1] 2)[1]? = some s ∧
      s.conductance = .finite r ∧ 0 ≤ r ∧ r ≤ 1 :=
  ⟨sortByClusterId_f32_isSampleSort, sum_left_isNeighborReduce, Reduce_isReduce _,
   by decide!, by decide!, triangleGraph_symmetric,
   (ComputeFinishedClusterStats_conductance_unit_interval F32.sortByClusterId
     sortByClusterId_f32_isSampleSort F32.sum_left sum_left_isNeighborReduce Reduce
     (Reduce_isReduce _) triangleGraph [1, 0, 1] (-1) (by decide) (by decide) (by decide!)
     (by decide!) triangleGraph_symmetric 2 (by decide) 1 (by decide)
     ⟨0, by decide, by decide⟩).imp
     (fun _ h => h.imp (fun _ h' => ⟨h'.1, h'.2.1, h'.2.2.1, h'.2.2.2.1⟩))⟩

end ParClusterers
